import Mathlib

/-! # reap: port table, tree builder and application state machine

A shallow embedding of `internal/tui` (table.go, model.go, confirm.go,
filter.go, keys.go) and `internal/ports/types.go`.

Conventions of the embedding:

* Go `int` values are `Int`; no arithmetic in the embedded code can overflow
  (only comparisons, `+1`, `-1`, `-5` on screen sizes and list lengths).
* A Go map with `int` keys is an association list with unique keys
  (`mget`/`mset`).  A `range` loop over a map visits every entry once in an
  unspecified order: the order is supplied by a `RangeOrder`.
* A Go slice is a `List`; `append` is `++ [x]`.  A slice access whose index
  is not known to be in range returns an `Option`; `none` stands for the
  index-out-of-range panic, and the functions that may reach such an access
  (`clampScroll` and its callers, up to `Update`) return an `Option`.
* Code of other packages (`sort.Slice`, the bubbles text input,
  `strings.ToLower`, lipgloss rendering) is a parameter of the embedding
  (`Libs`), with the part of its contract that the proofs use.
-/

namespace Reap

/-! ## internal/ports/types.go -/

/-- The Go struct `ports.PortInfo`: a listening port and its process. -/
structure PortInfo where
  Port : Int
  PID : Int
  PPID : Int
  Process : String
  User : String
  Command : String
  Protocol : String
  Address : String
  Uptime : String
  Memory : String
  Container : String
  CWD : String
deriving DecidableEq, Inhabited

/-! ## Go maps with `int` keys -/

/-- The lookup `m[k]` of a Go map (`none` when the key is absent). -/
def mget {β : Type} : List (Int × β) → Int → Option β
  | [], _ => none
  | (k', v) :: m, k => if k' = k then some v else mget m k

/-- The assignment `m[k] = v` of a Go map. -/
def mset {β : Type} : List (Int × β) → Int → β → List (Int × β)
  | [], k, v => [(k, v)]
  | (k', v') :: m, k, v => if k' = k then (k, v) :: m else (k', v') :: mset m k v

/-- The iteration order of `range` over a Go map: any order that visits
every entry exactly once. -/
structure RangeOrder where
  ints : List (Int × Int) → List (Int × Int)
  lists : List (Int × List Int) → List (Int × List Int)
  ints_perm : ∀ m, (ints m).Perm m
  lists_perm : ∀ m, (lists m).Perm m

/-- The iteration order that visits the entries in insertion order. -/
def insertionOrder : RangeOrder where
  ints := fun m => m
  lists := fun m => m
  ints_perm := fun _ => List.Perm.refl _
  lists_perm := fun _ => List.Perm.refl _

/-- The iteration order that visits the entries in reverse insertion order. -/
def reverseOrder : RangeOrder where
  ints := fun m => m.reverse
  lists := fun m => m.reverse
  ints_perm := fun m => List.reverse_perm m
  lists_perm := fun m => List.reverse_perm m

/-! ## table.go: the tree builder -/

/-- The Go struct `rowMeta`: per-row display metadata for tree rendering. -/
structure rowMeta where
  treePrefix : String
  isChild : Bool
deriving DecidableEq, Inhabited

/-- The local struct `group` of `buildTree`: the index of the first entry of
a PID and the indices of its additional port entries. -/
structure group where
  head : Nat
  extraIdx : List Nat
deriving DecidableEq

/-- The three variables filled by step 1 of `buildTree`. -/
structure pidIndex where
  pidFirst : List (Int × Nat)
  pidGroups : List (Int × group)
  order : List Int

/-- One iteration of the step 1 loop `for i, p := range items`. -/
def groupStep (s : pidIndex) (i : Nat) (p : PortInfo) : pidIndex :=
  match mget s.pidFirst p.PID with
  | none =>
    { pidFirst := mset s.pidFirst p.PID i
      pidGroups := mset s.pidGroups p.PID { head := i, extraIdx := [] }
      order := s.order ++ [p.PID] }
  | some _ =>
    match mget s.pidGroups p.PID with
    | some g =>
      { s with pidGroups := mset s.pidGroups p.PID { g with extraIdx := g.extraIdx ++ [i] } }
    | none => s

/-- The step 1 loop from index `i` on. -/
def groupLoop : pidIndex → Nat → List PortInfo → pidIndex
  | s, _, [] => s
  | s, i, p :: ps => groupLoop (groupStep s i p) (i + 1) ps

/-- Step 1: group by PID. -/
def groupByPID (items : List PortInfo) : pidIndex :=
  groupLoop { pidFirst := [], pidGroups := [], order := [] } 0 items

/-- The record `items[pidGroups[pid].head]`. -/
def headOf (items : List PortInfo) (pidGroups : List (Int × group)) (pid : Int) :
    Option PortInfo :=
  match mget pidGroups pid with
  | some g => items[g.head]?
  | none => none

/-- Step 2: `childOf`, the map from a child PID to its parent PID. -/
def childOfMap (items : List PortInfo) (pidGroups : List (Int × group))
    (order : List Int) : List (Int × Int) :=
  order.foldl (fun childOf pid =>
    match headOf items pidGroups pid with
    | some p =>
      if p.PPID > 1 ∧ (mget pidGroups p.PPID).isSome then mset childOf pid p.PPID
      else childOf
    | none => childOf) []

/-- Step 3, first loop: `ppidPeers`, the PIDs sharing a PPID not in the list. -/
def ppidPeersMap (items : List PortInfo) (pidGroups : List (Int × group))
    (childOf : List (Int × Int)) (order : List Int) : List (Int × List Int) :=
  order.foldl (fun ppidPeers pid =>
    if (mget childOf pid).isSome then ppidPeers
    else
      match headOf items pidGroups pid with
      | some p =>
        if p.PPID > 1 then mset ppidPeers p.PPID ((mget ppidPeers p.PPID).getD [] ++ [pid])
        else ppidPeers
      | none => ppidPeers) []

/-- Step 3, second loop: `siblingOf`, the map from a sibling PID to the
first PID with the same PPID. -/
def siblingOfMap (ρ : RangeOrder) (ppidPeers : List (Int × List Int)) : List (Int × Int) :=
  (ρ.lists ppidPeers).foldl (fun siblingOf kv =>
    match kv.2 with
    | root :: rest =>
      if kv.2.length < 2 then siblingOf
      else rest.foldl (fun sib pid => mset sib pid root) siblingOf
    | [] => siblingOf) []

/-- One loop of step 4: `kids[v] = append(kids[v], k)` for every entry of `m`. -/
def addKids (entries : List (Int × Int)) (kids : List (Int × List Int)) :
    List (Int × List Int) :=
  entries.foldl (fun kids kv => mset kids kv.2 ((mget kids kv.2).getD [] ++ [kv.1])) kids

/-- Step 4: `kids`, the child and sibling PIDs of each root PID. -/
def kidsMap (ρ : RangeOrder) (childOf siblingOf : List (Int × Int)) : List (Int × List Int) :=
  addKids (ρ.ints siblingOf) (addKids (ρ.ints childOf) [])

/-- The closure `appendItem`: the row added for `items[idx]`. -/
def appendItem (items : List PortInfo) (idx : Nat) (pre : String) (isChild : Bool) :
    List (PortInfo × rowMeta) :=
  match items[idx]? with
  | some p => [(p, { treePrefix := pre, isChild := isChild })]
  | none => []

/-- The tree prefix of the extra port entry number `ei` of a group. -/
def extraPrefix (isChild : Bool) (ei nExtra nKids : Nat) : String :=
  if isChild then
    (if ei + 1 = nExtra ∧ nKids = 0 then "│  └─ " else "│  ├─ ")
  else
    (if ei + 1 = nExtra ∧ nKids = 0 then "└─ " else "├─ ")

/-- The loop over `g.extraIdx` of `appendGroup`, from entry number `ei` on. -/
def appendExtras (items : List PortInfo) (isChild : Bool) (nExtra nKids : Nat) :
    Nat → List Nat → List (PortInfo × rowMeta)
  | _, [] => []
  | ei, idx :: rest =>
    appendItem items idx (extraPrefix isChild ei nExtra nKids) true ++
      appendExtras items isChild nExtra nKids (ei + 1) rest

/-- The closure `appendGroup`: the rows added for the group of `pid`. -/
def appendGroup (items : List PortInfo) (pidGroups : List (Int × group))
    (kids : List (Int × List Int)) (pid : Int) (pre : String) (isChild : Bool) :
    List (PortInfo × rowMeta) :=
  match mget pidGroups pid with
  | some g =>
    appendItem items g.head pre isChild ++
      appendExtras items isChild g.extraIdx.length ((mget kids pid).getD []).length 0 g.extraIdx
  | none => []

/-- The loop over `allKids` of step 5, from entry number `ci` on. -/
def appendKids (items : List PortInfo) (pidGroups : List (Int × group))
    (kids : List (Int × List Int)) (nAll : Nat) : Nat → List Int → List (PortInfo × rowMeta)
  | _, [] => []
  | ci, kidPID :: rest =>
    appendGroup items pidGroups kids kidPID (if ci + 1 = nAll then "└─ " else "├─ ") true ++
      appendKids items pidGroups kids nAll (ci + 1) rest

/-- The body of the step 5 loop for one PID of `order`. -/
def rootRows (items : List PortInfo) (pidGroups : List (Int × group))
    (childOf siblingOf : List (Int × Int)) (kids : List (Int × List Int)) (pid : Int) :
    List (PortInfo × rowMeta) :=
  if (mget childOf pid).isSome then []
  else if (mget siblingOf pid).isSome then []
  else
    appendGroup items pidGroups kids pid "" false ++
      appendKids items pidGroups kids ((mget kids pid).getD []).length 0
        ((mget kids pid).getD [])

/-- The rows built by `buildTree`: each displayed record with its metadata. -/
def buildRows (ρ : RangeOrder) (items : List PortInfo) : List (PortInfo × rowMeta) :=
  let s := groupByPID items
  let childOf := childOfMap items s.pidGroups s.order
  let siblingOf := siblingOfMap ρ (ppidPeersMap items s.pidGroups childOf s.order)
  let kids := kidsMap ρ childOf siblingOf
  s.order.flatMap (rootRows items s.pidGroups childOf siblingOf kids)

/-- The function `buildTree`: the reordered records and the parallel row
metadata. -/
def buildTree (ρ : RangeOrder) (items : List PortInfo) : List PortInfo × List rowMeta :=
  ((buildRows ρ items).map Prod.fst, (buildRows ρ items).map Prod.snd)

/-- A record with the given port, PID and PPID and empty text fields. -/
def mkPort (port pid ppid : Int) : PortInfo :=
  { Port := port, PID := pid, PPID := ppid, Process := "", User := "", Command := "",
    Protocol := "", Address := "", Uptime := "", Memory := "", Container := "", CWD := "" }



/-! ## Specification-side notions for the tree builder -/

/-- The indices, counted from `i`, of the records of a list with a given PID. -/
def idxsOf (pid : Int) : Nat → List PortInfo → List Nat
  | _, [] => []
  | i, p :: ps => if p.PID = pid then i :: idxsOf pid (i + 1) ps else idxsOf pid (i + 1) ps

/-- The group made of a list of indices: the first is the head. -/
def groupOf : List Nat → Option group
  | [] => none
  | h :: t => some { head := h, extraIdx := t }

/-- The state of the step 1 loop of `buildTree` after the records `pre`. -/
structure GroupInv (s : pidIndex) (pre : List PortInfo) : Prop where
  groups : ∀ pid, mget s.pidGroups pid = groupOf (idxsOf pid 0 pre)
  first : ∀ pid, (mget s.pidFirst pid).isSome = (mget s.pidGroups pid).isSome
  nodup : s.order.Nodup
  mem : ∀ pid, pid ∈ s.order ↔ pid ∈ pre.map PortInfo.PID

/-- The calls `appendGroup(kidPID, prefix, true)` made by the loop over
`allKids`, from entry number `ci` on. -/
def kidCalls (nAll : Nat) : Nat → List Int → List (Int × String × Bool)
  | _, [] => []
  | ci, kidPID :: rest =>
    (kidPID, (if ci + 1 = nAll then "└─ " else "├─ "), true) :: kidCalls nAll (ci + 1) rest

/-- The calls of `appendGroup` made by the step 5 loop for one PID of
`order`: the PID, the prefix and the child flag of each call. -/
def rootCalls (childOf siblingOf : List (Int × Int)) (kids : List (Int × List Int))
    (pid : Int) : List (Int × String × Bool) :=
  if (mget childOf pid).isSome then []
  else if (mget siblingOf pid).isSome then []
  else
    (pid, "", false) ::
      kidCalls ((mget kids pid).getD []).length 0 ((mget kids pid).getD [])

/-- The map `childOf` that `buildTree` computes for a list. -/
def childOfFor (items : List PortInfo) : List (Int × Int) :=
  childOfMap items (groupByPID items).pidGroups (groupByPID items).order

/-- The map `siblingOf` that `buildTree` computes for a list. -/
def siblingOfFor (ρ : RangeOrder) (items : List PortInfo) : List (Int × Int) :=
  siblingOfMap ρ
    (ppidPeersMap items (groupByPID items).pidGroups (childOfFor items) (groupByPID items).order)

/-- The map `kids` that `buildTree` computes for a list. -/
def kidsFor (ρ : RangeOrder) (items : List PortInfo) : List (Int × List Int) :=
  kidsMap ρ (childOfFor items) (siblingOfFor ρ items)

/-- The calls of `appendGroup` that `buildTree` makes for a list, in order. -/
def callsFor (ρ : RangeOrder) (items : List PortInfo) : List (Int × String × Bool) :=
  (groupByPID items).order.flatMap
    (rootCalls (childOfFor items) (siblingOfFor ρ items) (kidsFor ρ items))

/-- A three-level process chain: PID 10 (parent unknown), its child PID 20 and
its grandchild PID 30, each listening on one port. -/
def chainList : List PortInfo :=
  [mkPort 8000 10 1, mkPort 8001 20 10, mkPort 8002 30 20]

/-- The property that the first row of every PID in a tree output is not
marked as a child. -/
def headsNotChild (recs : List PortInfo) (metas : List rowMeta) : Prop :=
  ∀ (i : Nat) (p : PortInfo) (m : rowMeta), recs[i]? = some p → metas[i]? = some m →
    (∀ (j : Nat) (q : PortInfo), j < i → recs[j]? = some q → q.PID ≠ p.PID) →
    m.isChild = false

/-! ## The function `sort.Slice` of the Go library

`sort.Slice(x, less)` runs `pdqsort_func`, which sorts a range of at most 12
elements with `insertionSort_func` and longer ranges with pattern-defeating
quicksort.  The insertion sort is embedded; the sort of longer slices is a
parameter of the embedding, constrained by the contract of the `sort` package. -/

/-- The inner loop of `insertionSort_func`: the element `x` moves left past
its left neighbour `y` while `less(x, y)`.  The sorted range to the left of `x`
is given with its last element first. -/
def insertBack {α : Type} (less : α → α → Bool) (x : α) : List α → List α
  | [] => [x]
  | y :: rest => if less x y then y :: insertBack less x rest else x :: y :: rest

/-- The function `insertionSort_func` of the Go package `sort`. -/
def insertionSort {α : Type} (less : α → α → Bool) (l : List α) : List α :=
  (l.foldl (fun sortedRev x => insertBack less x sortedRev) []).reverse

/-- The requirement of `sort.Interface` on `Less`: a transitive ordering
(`Less` is transitive and so is its negation). -/
def TransitiveOrdering {α : Type} (less : α → α → Bool) : Prop :=
  (∀ a b c, less a b = true → less b c = true → less a c = true) ∧
    (∀ a b c, less a b = false → less b c = false → less a c = false)

/-- A list is sorted for `less`: no element is followed by one that must sort
strictly before it. -/
def SortedBy {α : Type} (less : α → α → Bool) (l : List α) : Prop :=
  l.Pairwise (fun a b => less b a = false ∨ less a b = true)

/-- The sort that `sort.Slice` applies to slices of more than 12 elements,
with its contract: the result is a permutation of the slice, and it is sorted
whenever the comparison is a transitive ordering.  Both `a < b` and its negation
`!(a < b)`, which `sortItems` uses for the descending direction, are transitive
orderings in the sense of `sort.Interface`. -/
structure SortLib where
  pdqsort : (PortInfo → PortInfo → Bool) → List PortInfo → List PortInfo
  perm : ∀ less l, (pdqsort less l).Perm l
  sorted : ∀ less l, TransitiveOrdering less → SortedBy less (pdqsort less l)

/-- The sort library whose sort of long slices is insertion sort as well. -/
def insertionLib : SortLib where
  pdqsort := insertionSort
  perm := by
    intro less l
    have ins : ∀ (x : PortInfo) (acc : List PortInfo),
        (insertBack less x acc).Perm (x :: acc) := by
      intro x acc
      induction acc with
      | nil => exact List.Perm.refl _
      | cons y rest ih =>
        unfold insertBack
        split
        · exact ((List.Perm.cons y ih).trans (List.Perm.swap x y rest))
        · exact List.Perm.refl _
    have fold : ∀ (l acc : List PortInfo),
        (l.foldl (fun sortedRev x => insertBack less x sortedRev) acc).Perm (l ++ acc) := by
      intro l
      induction l with
      | nil => intro acc; exact List.Perm.refl _
      | cons x rest ih =>
        intro acc
        refine (ih (insertBack less x acc)).trans ?_
        refine (List.Perm.append_left rest (ins x acc)).trans ?_
        simp
    unfold insertionSort
    refine (List.reverse_perm _).trans ?_
    simpa using fold l []
  sorted := by
    intro less l h
    have mem : ∀ (x b : PortInfo) (acc : List PortInfo),
        b ∈ insertBack less x acc → b = x ∨ b ∈ acc := by
      intro x b acc
      induction acc with
      | nil => intro hb; simpa [insertBack] using hb
      | cons y rest ih =>
        intro hb
        unfold insertBack at hb
        split at hb
        · rcases List.mem_cons.1 hb with e | e
          · exact Or.inr (e ▸ List.mem_cons_self _ _)
          · rcases ih e with e' | e'
            · exact Or.inl e'
            · exact Or.inr (List.mem_cons_of_mem _ e')
        · exact List.mem_cons.1 hb
    have ins : ∀ (x : PortInfo) (acc : List PortInfo),
        acc.Pairwise (fun a b => less a b = false ∨ less b a = true) →
        (insertBack less x acc).Pairwise (fun a b => less a b = false ∨ less b a = true) := by
      intro x acc
      induction acc with
      | nil => intro _; simp [insertBack]
      | cons y rest ih =>
        intro hl
        obtain ⟨hy, hrest⟩ := List.pairwise_cons.1 hl
        unfold insertBack
        cases hxy : less x y with
        | true =>
          simp only [if_true]
          refine List.pairwise_cons.2 ⟨?_, ih hrest⟩
          intro b hb
          rcases mem x b rest hb with e | e
          · subst e
            exact Or.inr hxy
          · exact hy b e
        | false =>
          simp only [Bool.false_eq_true, if_false]
          refine List.pairwise_cons.2 ⟨?_, hl⟩
          intro b hb
          rcases List.mem_cons.1 hb with e | e
          · subst e
            exact Or.inl hxy
          · left
            rcases hy b e with h1 | h1
            · exact h.2 x y b hxy h1
            · cases hxb : less x b with
              | false => rfl
              | true =>
                have := h.1 x b y hxb h1
                rw [hxy] at this
                cases this
    have fold : ∀ (l acc : List PortInfo),
        acc.Pairwise (fun a b => less a b = false ∨ less b a = true) →
        (l.foldl (fun sortedRev x => insertBack less x sortedRev) acc).Pairwise
          (fun a b => less a b = false ∨ less b a = true) := by
      intro l
      induction l with
      | nil => intro acc hacc; exact hacc
      | cons x rest ih => intro acc hacc; exact ih _ (ins x acc hacc)
    unfold SortedBy insertionSort
    rw [List.pairwise_reverse]
    exact fold l [] List.Pairwise.nil

/-- The function `sort.Slice` on a slice of port records. -/
def sortSlice (lib : SortLib) (less : PortInfo → PortInfo → Bool) (l : List PortInfo) :
    List PortInfo :=
  if l.length ≤ 12 then insertionSort less l else lib.pdqsort less l

/-! ## table.go: the port table -/

/-- The constant `sortByPort` of the Go type `sortColumn` (an `int`). -/
def sortByPort : Int := 0
/-- The constant `sortByPID`. -/
def sortByPID : Int := 1
/-- The constant `sortByProcess`. -/
def sortByProcess : Int := 2
/-- The constant `sortByUser`. -/
def sortByUser : Int := 3
/-- The constant `sortByMemory`. -/
def sortByMemory : Int := 4
/-- The constant `sortByUptime`. -/
def sortByUptime : Int := 5
/-- The constant `sortColumnCount`. -/
def sortColumnCount : Int := 6

/-- The Go struct `sortState`. -/
structure sortState where
  column : Int
  asc : Bool
deriving DecidableEq

/-- The Go struct `portTable`, without the fields used for rendering only
(`columns` and `cfg`). -/
structure portTable where
  sort : sortState
  displayed : List PortInfo
  meta : List rowMeta
  treeMode : Bool
  expanded : Int
  cursor : Int
  offset : Int
  height : Int
  width : Int
deriving DecidableEq

/-- The function `newPortTable`. -/
def newPortTable : portTable :=
  { sort := { column := sortByPort, asc := true }
    displayed := []
    meta := []
    treeMode := true
    expanded := -1
    cursor := 0
    offset := 0
    height := 0
    width := 0 }

/-- The comparison function that `sortItems` passes to `sort.Slice`. -/
def sortLess (st : sortState) (a b : PortInfo) : Bool :=
  let less : Bool :=
    if st.column = sortByPort then decide (a.Port < b.Port)
    else if st.column = sortByPID then decide (a.PID < b.PID)
    else if st.column = sortByProcess then decide (a.Process < b.Process)
    else if st.column = sortByUser then decide (a.User < b.User)
    else decide (a.Port < b.Port)
  if !st.asc then !less else less

/-- The method `portTable.sortItems`: the slice after the in-place sort. -/
def sortItems (lib : SortLib) (st : sortState) (items : List PortInfo) : List PortInfo :=
  sortSlice lib (sortLess st) items

/-- The function `expandedLineCount`. -/
def expandedLineCount (p : PortInfo) : Int :=
  2 + (if p.CWD ≠ "" then 1 else 0) + (if p.Container ≠ "" then 1 else 0) +
    (if p.PPID > 1 then 1 else 0)

/-- The slice access `xs[r]` with a Go `int` index: `none` stands for the
index-out-of-range panic. -/
def index {α : Type} (xs : List α) (r : Int) : Option α :=
  if r < 0 then none else xs[r.toNat]?

/-- The method `portTable.rowLines`. -/
def rowLines (pt : portTable) (r : Int) : Option Int :=
  if r = pt.expanded then (index pt.displayed r).map (fun p => 1 + expandedLineCount p)
  else some 1

/-- The first loop of `clampScroll`:
`for r := offset; r <= cursor && r < len(displayed); r++ { lines += rowLines(r) }`. -/
def countLines (pt : portTable) : Nat → Int → Int → Option Int
  | 0, _, lines => some lines
  | fuel + 1, r, lines =>
    if r ≤ pt.cursor ∧ r < pt.displayed.length then
      (rowLines pt r).bind (fun n => countLines pt fuel (r + 1) (lines + n))
    else some lines

/-- The second loop of `clampScroll`:
`for lines > height && offset < cursor { lines -= rowLines(offset); offset++ }`.
The result is the final offset. -/
def dropLines (pt : portTable) : Nat → Int → Int → Option Int
  | 0, offset, _ => some offset
  | fuel + 1, offset, lines =>
    if lines > pt.height ∧ offset < pt.cursor then
      (rowLines pt offset).bind (fun n => dropLines pt fuel (offset + 1) (lines - n))
    else some offset

/-- The method `portTable.clampScroll`.  Both loops stop at the latest when
the running index passes the cursor, which bounds their number of
iterations. -/
def clampScroll (pt : portTable) : Option portTable :=
  let offset₁ := if pt.cursor < pt.offset then pt.cursor else pt.offset
  (countLines pt (pt.cursor - offset₁ + 1).toNat offset₁ 0).bind (fun lines =>
    (dropLines pt (pt.cursor - offset₁).toNat offset₁ lines).map (fun offset₂ =>
      { pt with offset := if offset₂ < 0 then 0 else offset₂ }))

/-- The method `portTable.setRows`. -/
def setRows (lib : SortLib) (ρ : RangeOrder) (pt : portTable) (items : List PortInfo) :
    Option portTable :=
  let sorted := sortItems lib pt.sort items
  let out : List PortInfo × List rowMeta :=
    if pt.treeMode then buildTree ρ sorted
    else (sorted, List.replicate sorted.length { treePrefix := "", isChild := false })
  let n : Int := out.1.length
  let cursor := if pt.cursor ≥ n then max 0 (n - 1) else pt.cursor
  let expanded := if pt.expanded ≥ n then -1 else pt.expanded
  clampScroll
    { pt with displayed := out.1, meta := out.2, cursor := cursor, expanded := expanded }

/-- The method `portTable.toggleExpand`. -/
def toggleExpand (pt : portTable) : Option portTable :=
  clampScroll { pt with expanded := if pt.expanded = pt.cursor then -1 else pt.cursor }

/-- The method `portTable.toggleTree`. -/
def toggleTree (pt : portTable) : portTable :=
  { pt with treeMode := !pt.treeMode }

/-- The method `portTable.moveUp`. -/
def moveUp (pt : portTable) : Option portTable :=
  if pt.cursor > 0 then clampScroll { pt with cursor := pt.cursor - 1 } else some pt

/-- The method `portTable.moveDown`. -/
def moveDown (pt : portTable) : Option portTable :=
  if pt.cursor < (pt.displayed.length : Int) - 1 then
    clampScroll { pt with cursor := pt.cursor + 1 }
  else some pt

/-- The method `portTable.nextSort`. -/
def nextSort (pt : portTable) : portTable :=
  { pt with sort := { column := Int.tmod (pt.sort.column + 1) sortColumnCount, asc := true } }

/-- The method `portTable.reverseSort`. -/
def reverseSort (pt : portTable) : portTable :=
  { pt with sort := { pt.sort with asc := !pt.sort.asc } }

/-- The method `portTable.setHeight`. -/
def setHeight (pt : portTable) (h : Int) : portTable := { pt with height := h }

/-- The method `portTable.setWidth`. -/
def setWidth (pt : portTable) (w : Int) : portTable := { pt with width := w }

/-- The method `portTable.selectedIndex`. -/
def selectedIndex (pt : portTable) : Int := pt.cursor

/-! ## model.go: messages and commands -/

/-- A signal that `killCmd` sends with `syscall.Kill`. -/
inductive Signal where
  | SIGTERM
  | SIGKILL
deriving DecidableEq

/-- One asynchronous request started by a `tea.Cmd`. -/
inductive Request where
  /-- The request of `scanCmd`: one call of `scanner.Scan()`. -/
  | scan
  /-- The request of `killCmd`: one call of `syscall.Kill(pid, sig)`. -/
  | kill (pid : Int) (sig : Signal)
  /-- The request of `tickCmd`: a timer of `intervalSec` seconds. -/
  | tick (intervalSec : Int)
  /-- The command `tea.Quit`. -/
  | quit
  /-- A command returned by the text input component. -/
  | input (tag : Nat)
deriving DecidableEq

/-- A `tea.Cmd`: the requests it starts (`nil` starts none, `tea.Batch`
starts those of all its arguments). -/
abbrev Cmd := List Request

/-- The messages that `Update` receives.  A key message is given by the text
`msg.String()` that `key.Matches` compares with the bindings; an error is given
by its text, `none` being the `nil` error. -/
inductive Msg where
  | windowSize (width height : Int)
  | portsUpdated (ports : List PortInfo)
  | scanError (err : Option String)
  | tick
  | killResult (pid : Int) (err : Option String)
  | key (k : String)
  | other (tag : Nat)
deriving DecidableEq

/-- The function `scanCmd`. -/
def scanCmd : Cmd := [Request.scan]

/-- The function `killCmd`. -/
def killCmd (pid : Int) (force : Bool) : Cmd :=
  [Request.kill pid (if force then Signal.SIGKILL else Signal.SIGTERM)]

/-- The function `tickCmd`. -/
def tickCmd (intervalSec : Int) : Cmd := [Request.tick intervalSec]

/-! ## The libraries outside the repository -/

/-- The state of a `textinput.Model` of the bubbles library: its value and
the rest of its state (focus, cursor position, blinking). -/
structure TextInput where
  value : String
  internal : Nat
deriving DecidableEq

/-- The methods of `textinput.Model` that the repository calls.  The
commands they return are given by opaque tags. -/
structure InputLib where
  update : TextInput → Msg → TextInput × List Nat
  focus : TextInput → TextInput × List Nat
  blur : TextInput → TextInput
  setValue : TextInput → String → TextInput
  focus_value : ∀ t, (focus t).1.value = t.value
  blur_value : ∀ t, (blur t).value = t.value
  setValue_empty : ∀ t, (setValue t "").value = ""

/-- The libraries on which the table and the model rely: `sort.Slice`, the
text input, `strings.ToLower` and the rendering of a text in a named lipgloss
style. -/
structure Libs where
  sort : SortLib
  input : InputLib
  toLower : String → String
  render : String → String → String

/-- A text input that ignores every message and returns no command. -/
def idleInput : InputLib where
  update := fun t _ => (t, [])
  focus := fun t => (t, [])
  blur := fun t => t
  setValue := fun t v => { t with value := v }
  focus_value := fun _ => rfl
  blur_value := fun _ => rfl
  setValue_empty := fun _ => rfl

/-- A concrete choice of the libraries: insertion sort, the idle text input,
the ASCII lower-casing and a rendering that leaves the text unchanged. -/
def plainLibs : Libs :=
  { sort := insertionLib
    input := idleInput
    toLower := fun s => String.mk (s.data.map Char.toLower)
    render := fun _ text => text }

/-! ## keys.go -/

/-- The function `key.Matches` for one binding, given by its keys. -/
def keyMatches (k : String) (binding : List String) : Bool := binding.contains k

/-- The binding `keys.Up`. -/
def keysUp : List String := ["up"]
/-- The binding `keys.Down`. -/
def keysDown : List String := ["down", "j"]
/-- The binding `keys.Enter`. -/
def keysEnter : List String := ["enter"]
/-- The binding `keys.Kill`. -/
def keysKill : List String := ["k"]
/-- The binding `keys.ForceK`. -/
def keysForceK : List String := ["K"]
/-- The binding `keys.KillParent`. -/
def keysKillParent : List String := ["p"]
/-- The binding `keys.Filter`. -/
def keysFilter : List String := ["/"]
/-- The binding `keys.Sort`. -/
def keysSort : List String := ["s"]
/-- The binding `keys.SortRev`. -/
def keysSortRev : List String := ["S"]
/-- The binding `keys.System`. -/
def keysSystem : List String := ["a"]
/-- The binding `keys.Tree`. -/
def keysTree : List String := ["t"]
/-- The binding `keys.Refresh`. -/
def keysRefresh : List String := ["r"]
/-- The binding `keys.Help`. -/
def keysHelp : List String := ["?"]
/-- The binding `keys.Quit`. -/
def keysQuit : List String := ["q", "ctrl+c"]
/-- The binding `keys.Escape`. -/
def keysEscape : List String := ["esc"]

/-! ## confirm.go -/

/-- The Go struct `confirmDialog`. -/
structure confirmDialog where
  visible : Bool
  target : PortInfo
  force : Bool
  killParent : Bool
deriving DecidableEq

/-- The method `confirmDialog.show`. -/
def confirmDialog.show (_d : confirmDialog) (target : PortInfo) (force killParent : Bool) :
    confirmDialog :=
  { visible := true, target := target, force := force, killParent := killParent }

/-- The method `confirmDialog.hide`. -/
def confirmDialog.hide (d : confirmDialog) : confirmDialog :=
  { d with visible := false }

/-! ## filter.go -/

/-- The Go struct `filterInput`. -/
structure filterInput where
  input : TextInput
  active : Bool
deriving DecidableEq

/-- The function `newFilterInput`. -/
def newFilterInput : filterInput :=
  { input := { value := "", internal := 0 }, active := false }

/-- The method `filterInput.activate`. -/
def filterInput.activate (L : Libs) (f : filterInput) : filterInput :=
  { input := (L.input.focus f.input).1, active := true }

/-- The method `filterInput.deactivate`. -/
def filterInput.deactivate (L : Libs) (f : filterInput) : filterInput :=
  { input := L.input.blur f.input, active := false }

/-- The method `filterInput.clear`. -/
def filterInput.clear (L : Libs) (f : filterInput) : filterInput :=
  filterInput.deactivate L { f with input := L.input.setValue f.input "" }

/-- The method `filterInput.value`. -/
def filterInput.value (f : filterInput) : String := f.input.value

/-- The function `strings.Contains`. -/
def stringsContains (s substr : String) : Bool :=
  s.data.tails.any (fun t => substr.data.isPrefixOf t)

/-- The function `strconv.Itoa`. -/
def itoa (n : Int) : String := toString n

/-- The method `filterInput.matches`. -/
def filterInput.matches (L : Libs) (f : filterInput) (p : PortInfo) : Bool :=
  let q := L.toLower f.input.value
  if q = "" then true
  else
    stringsContains (L.toLower p.Process) q ||
      stringsContains (itoa p.Port) q ||
      stringsContains (itoa p.PID) q ||
      stringsContains (L.toLower p.User) q ||
      stringsContains (L.toLower p.Container) q ||
      stringsContains (L.toLower p.CWD) q

/-! ## model.go: the application state machine -/

/-- The fields of `config.Config` that the model reads. -/
structure Config where
  RefreshInterval : Int
  ShowSystem : Bool
deriving DecidableEq

/-- The Go struct `Model`, without the scanner handle. -/
structure Model where
  cfg : Config
  allPorts : List PortInfo
  filtered : List PortInfo
  table : portTable
  filter : filterInput
  confirm : confirmDialog
  width : Int
  height : Int
  scanning : Bool
  err : Option String
  status : String
  showHelp : Bool
deriving DecidableEq

/-- The zero value of `ports.PortInfo`. -/
def zeroPort : PortInfo := mkPort 0 0 0

/-- The function `New`. -/
def New (cfg : Config) : Model :=
  { cfg := cfg
    allPorts := []
    filtered := []
    table := newPortTable
    filter := newFilterInput
    confirm := { visible := false, target := zeroPort, force := false, killParent := false }
    width := 0
    height := 0
    scanning := false
    err := none
    status := ""
    showHelp := false }

/-- The method `Model.Init`. -/
def Init (m : Model) : Cmd := scanCmd ++ tickCmd m.cfg.RefreshInterval

/-- The function `isSystemProcess`. -/
def isSystemProcess (p : PortInfo) : Bool :=
  ["launchd", "mDNSResponder", "bluetoothd", "rapportd", "sharingd", "ControlCenter",
    "SystemUIServer"].any (fun s => p.Process = s) || decide (p.PID ≤ 1)

/-- The loop of `applyFilter`: the value of `m.filtered` after it. -/
def filterPorts (L : Libs) (m : Model) : List PortInfo :=
  m.allPorts.filter (fun p =>
    !(!m.cfg.ShowSystem && isSystemProcess p) && filterInput.matches L m.filter p)

/-- The method `Model.applyFilter`. -/
def applyFilter (L : Libs) (ρ : RangeOrder) (m : Model) : Option Model :=
  (setRows L.sort ρ m.table (filterPorts L m)).map (fun t =>
    { m with filtered := filterPorts L m, table := t })

/-- The method `Model.selectedPort`. -/
def selectedPort (m : Model) : Option PortInfo :=
  if selectedIndex m.table < 0 ∨ selectedIndex m.table ≥ (m.table.displayed.length : Int) then
    none
  else index m.table.displayed (selectedIndex m.table)

/-- The commands returned by the text input, as a `tea.Cmd`. -/
def inputCmd (tags : List Nat) : Cmd := tags.map Request.input

/-- The part of `Update` that passes a message to the filter input, also
used by `handleKey`:
`m.filter.input, cmd = m.filter.input.Update(msg); m.applyFilter(); return m, cmd`. -/
def passToFilter (L : Libs) (ρ : RangeOrder) (m : Model) (msg : Msg) : Option (Model × Cmd) :=
  (applyFilter L ρ
    { m with filter := { m.filter with input := (L.input.update m.filter.input msg).1 } }).map
    (fun m' => (m', inputCmd (L.input.update m.filter.input msg).2))

/-- The first part of `handleKey`: the keys while the confirm dialog is
visible. -/
def confirmKey (m : Model) (k : String) : Option (Model × Cmd) :=
  if keyMatches k ["y", "Y"] then
    let target := m.confirm.target
    let force := m.confirm.force
    let pid := if m.confirm.killParent then target.PPID else target.PID
    some ({ m with confirm := m.confirm.hide }, killCmd pid force)
  else if keyMatches k ["n", "N", "esc"] then
    some ({ m with confirm := m.confirm.hide }, [])
  else some (m, [])

/-- The second part of `handleKey`: the keys while the filter input is
active. -/
def filterKey (L : Libs) (ρ : RangeOrder) (m : Model) (k : String) : Option (Model × Cmd) :=
  if keyMatches k keysEscape then
    (applyFilter L ρ { m with filter := m.filter.clear L }).map (fun m' => (m', []))
  else if keyMatches k ["enter"] then
    some ({ m with filter := m.filter.deactivate L }, [])
  else passToFilter L ρ m (Msg.key k)

/-- The third part of `handleKey`: the main keys.  In the `keys.Filter` case
the returned model is read after the second call of `Focus()`, as the Go
compiler orders the operands of `return`. -/
def mainKey (L : Libs) (ρ : RangeOrder) (m : Model) (k : String) : Option (Model × Cmd) :=
  if keyMatches k keysQuit then some (m, [Request.quit])
  else if keyMatches k keysFilter then
    let f := m.filter.activate L
    some ({ m with filter := { f with input := (L.input.focus f.input).1 } },
      inputCmd (L.input.focus f.input).2)
  else if keyMatches k keysKill then
    match selectedPort m with
    | some target => some ({ m with confirm := m.confirm.show target false false }, [])
    | none => some (m, [])
  else if keyMatches k keysForceK then
    match selectedPort m with
    | some target => some ({ m with confirm := m.confirm.show target true false }, [])
    | none => some (m, [])
  else if keyMatches k keysKillParent then
    match selectedPort m with
    | some target =>
      if target.PPID > 1 then
        some ({ m with confirm := m.confirm.show target false true }, [])
      else some (m, [])
    | none => some (m, [])
  else if keyMatches k keysEnter then
    (toggleExpand m.table).map (fun t => ({ m with table := t }, []))
  else if keyMatches k keysEscape then
    some ({ m with table := { m.table with expanded := -1 } }, [])
  else if keyMatches k keysSort then
    (setRows L.sort ρ (nextSort m.table) m.filtered).map (fun t => ({ m with table := t }, []))
  else if keyMatches k keysSortRev then
    (setRows L.sort ρ (reverseSort m.table) m.filtered).map
      (fun t => ({ m with table := t }, []))
  else if keyMatches k keysSystem then
    (applyFilter L ρ { m with cfg := { m.cfg with ShowSystem := !m.cfg.ShowSystem } }).map
      (fun m' => (m', []))
  else if keyMatches k keysTree then
    (setRows L.sort ρ (toggleTree m.table) m.filtered).map
      (fun t => ({ m with table := t }, []))
  else if keyMatches k keysRefresh then
    some ({ m with scanning := true }, scanCmd)
  else if keyMatches k keysHelp then
    some ({ m with showHelp := !m.showHelp }, [])
  else if keyMatches k keysUp then
    (moveUp m.table).map (fun t => ({ m with table := t }, []))
  else if keyMatches k keysDown then
    (moveDown m.table).map (fun t => ({ m with table := t }, []))
  else some (m, [])

/-- The method `Model.handleKey`, for the key whose `String()` is `k`: the
confirm dialog has the highest priority, then the filter input, then the main
keys. -/
def handleKey (L : Libs) (ρ : RangeOrder) (m : Model) (k : String) : Option (Model × Cmd) :=
  if m.confirm.visible then confirmKey m k
  else if m.filter.active then filterKey L ρ m k
  else mainKey L ρ m k

/-- The method `Model.Update`: the new model and the command, or `none` when
the Go code panics on a slice index. -/
def Update (L : Libs) (ρ : RangeOrder) (m : Model) : Msg → Option (Model × Cmd)
  | Msg.windowSize width height =>
    some ({ m with
            width := width
            height := height
            table := setHeight (setWidth m.table width) (height - 5) }, [])
  | Msg.portsUpdated ports =>
    (applyFilter L ρ { m with scanning := false, allPorts := ports }).map (fun m' =>
      ({ m' with status := toString m'.filtered.length ++ " ports" }, []))
  | Msg.scanError err => some ({ m with scanning := false, err := err }, [])
  | Msg.tick =>
    if !m.scanning then
      some ({ m with scanning := true }, scanCmd ++ tickCmd m.cfg.RefreshInterval)
    else some (m, tickCmd m.cfg.RefreshInterval)
  | Msg.killResult pid err =>
    let status :=
      match err with
      | some e => L.render "errorStyle" ("kill failed: " ++ e)
      | none => L.render "successStyle" ("killed PID " ++ itoa pid)
    some ({ m with status := status, scanning := true }, scanCmd)
  | Msg.key k => handleKey L ρ m k
  | Msg.other tag => if m.filter.active then passToFilter L ρ m (Msg.other tag) else some (m, [])

/-! ## The runs of the state machine -/

/-- The model states reachable from `New` by messages.  Every call of
`Update` may range over its maps in another order. -/
inductive Reachable (L : Libs) : Model → Prop
  | init (cfg : Config) : Reachable L (New cfg)
  | step {m m' : Model} {cmd : Cmd} (ρ : RangeOrder) (msg : Msg) :
      Reachable L m → Update L ρ m msg = some (m', cmd) → Reachable L m'

/-- The record at the cursor of the dialog shown in the test `TestKillParent`:
a worker whose parent has PID 50. -/
def workerPort : PortInfo := mkPort 9001 101 50

/-- The default configuration `config.Default()`. -/
def defaultConfig : Config := { RefreshInterval := 2, ShowSystem := false }

/-- The model after a first scan result that holds `workerPort` only. -/
def workerModel : Model :=
  { New defaultConfig with
    allPorts := [workerPort]
    filtered := [workerPort]
    table :=
      { newPortTable with
        displayed := [workerPort]
        meta := [{ treePrefix := "", isChild := false }] }
    status := "1 ports" }

/-- The model `workerModel` with the kill-parent dialog shown for the worker. -/
def parentDialogModel : Model :=
  { workerModel with
    confirm := { visible := true, target := workerPort, force := false, killParent := true } }

/-- The state of example 4 of the specification: the dialog is shown with
`force = false`, `killParent = true` for a target whose parent has PID 100. -/
def exampleDialogModel : Model :=
  { New defaultConfig with
    confirm :=
      { visible := true, target := mkPort 3000 4242 100, force := false, killParent := true } }

/-- The messages that report the end of a scan. -/
def reportsScan : Msg → Bool
  | Msg.portsUpdated _ => true
  | Msg.scanError _ => true
  | _ => false

/-- The messages on which `Update` starts a scan without reading the
`scanning` flag: a terminate result, and the refresh key among the main keys. -/
def forcesScan (m : Model) : Msg → Bool
  | Msg.killResult _ _ => true
  | Msg.key k => !m.confirm.visible && !m.filter.active && keyMatches k keysRefresh
  | _ => false

/-- The model together with the number of scans started and not yet reported
back. -/
structure Sys where
  model : Model
  inFlight : Nat
deriving DecidableEq

/-- One message processed by `Update`: a scan result reports one scan back,
and every scan request of the returned command starts one. -/
def sysStep (L : Libs) (ρ : RangeOrder) (s : Sys) (msg : Msg) : Option Sys :=
  (Update L ρ s.model msg).map (fun r =>
    { model := r.1
      inFlight := (if reportsScan msg then s.inFlight - 1 else s.inFlight) +
        r.2.count Request.scan })

/-- A sequence of messages processed by `Update`, each with the iteration
order of the maps during that call. -/
def run (L : Libs) : Sys → List (RangeOrder × Msg) → Option Sys
  | s, [] => some s
  | s, (ρ, msg) :: rest => (sysStep L ρ s msg).bind (fun s' => run L s' rest)

/-- The sequences in which every message that forces a scan is processed
while no scan is outstanding. -/
def calm (L : Libs) : Sys → List (RangeOrder × Msg) → Prop
  | _, [] => True
  | s, (ρ, msg) :: rest =>
    (forcesScan s.model msg = true → s.inFlight = 0) ∧
      ∀ s', sysStep L ρ s msg = some s' → calm L s' rest

/-! ## Table states of the tests -/

/-- The table of `TestPortTableCursorClampOnSetRows` and
`TestPortTableExpandedClampOnSetRows` before the second `setRows`: three rows,
tree mode off, height 20, cursor and expanded index on the last row. -/
def threeRowTable : portTable :=
  { newPortTable with
    treeMode := false
    height := 20
    displayed := [mkPort 3000 0 0, mkPort 5432 0 0, mkPort 8000 0 0]
    meta := List.replicate 3 { treePrefix := "", isChild := false }
    cursor := 2
    expanded := 2 }

/-- The table `threeRowTable` after `setRows` with the single port 3000. -/
def oneRowTable : portTable :=
  { newPortTable with
    treeMode := false
    height := 20
    displayed := [mkPort 3000 0 0]
    meta := [{ treePrefix := "", isChild := false }]
    cursor := 0
    expanded := -1 }

/-- No two records of a list tie on the active sort column: of any two, the
comparison of `sortItems` puts exactly one before the other. -/
def noTies (st : sortState) (x : List PortInfo) : Prop :=
  x.Pairwise (fun a b => sortLess st a b ≠ sortLess st b a)

/-- The table sorted by PID in descending order, in tree mode: the state of
`newPortTable` after the key `s` and the key `S`. -/
def pidDescTable : portTable :=
  { newPortTable with sort := { column := sortByPID, asc := false } }

/-- The table of `TestPortTableSetRows`: tree mode off, sorted by port in
ascending order. -/
def flatTable : portTable :=
  { newPortTable with treeMode := false }

/-! ## Specification-side notions for the filter -/

/-- The six texts in which `filterInput.matches` looks for the query: the
lower-cased process name, the decimal port, the decimal PID, the lower-cased
user, container name and working directory. -/
def searchFields (L : Libs) (p : PortInfo) : List String :=
  [L.toLower p.Process, itoa p.Port, itoa p.PID, L.toLower p.User, L.toLower p.Container,
    L.toLower p.CWD]

/-- The text `sub` is a substring of `s`: a run of consecutive characters of `s`. -/
def isSubstring (sub s : String) : Prop := sub.data <:+: s.data

/-- The names that `isSystemProcess` treats as system processes. -/
def systemNames : List String :=
  ["launchd", "mDNSResponder", "bluetoothd", "rapportd", "sharingd", "ControlCenter",
    "SystemUIServer"]

/-- A record whose process is not in the list of system names and whose PID
is negative. -/
def negativePidPort : PortInfo :=
  { mkPort 3000 (-1) 0 with Process := "node" }

/-- The filter of `TestFilterMatchesMultipleFields`: the query is "test". -/
def testFilter : filterInput :=
  { input := { value := "test", internal := 0 }, active := false }

/-! ## Specification-side notions for the grouping rules -/

/-- The first record of a list with a given PID: the head of its group. -/
def firstOf (items : List PortInfo) (pid : Int) : Option PortInfo :=
  (items.filter (fun q => decide (q.PID = pid))).head?

/-- The PIDs of a list in order of first appearance. -/
def firstPIDs : List Int → List Int
  | [] => []
  | a :: l => a :: (firstPIDs l).filter (fun b => decide (b ≠ a))

/-- The key under which step 3 of `buildTree` lists a PID in `ppidPeers`:
the PPID of its head record when the PID is not a child and that PPID is > 1. -/
def peerKey (items : List PortInfo) (pidGroups : List (Int × group))
    (childOf : List (Int × Int)) (pid : Int) : Option Int :=
  if (mget childOf pid).isSome then none
  else
    match headOf items pidGroups pid with
    | some p => if p.PPID > 1 then some p.PPID else none
    | none => none

/-- The assignments `siblingOf[pid] = root` made for the lists of `ppidPeers`,
in the order in which the lists are visited. -/
def sibEntries (ppidPeers : List (Int × List Int)) : List (Int × Int) :=
  ppidPeers.flatMap (fun kv =>
    match kv.2 with
    | root :: rest => rest.map (fun pid => (pid, root))
    | [] => [])

/-- The records of a list that carry a given PPID. -/
def withPPID (items : List PortInfo) (k : Int) : List PortInfo :=
  items.filter (fun q => decide (q.PPID = k))

/-- A record heads its shared-parent group: its PPID is ≤ 1, or it is the
first record of the list with its PPID. -/
def isGroupRoot (items : List PortInfo) (p : PortInfo) : Bool :=
  decide (p.PPID ≤ 1) || decide ((withPPID items p.PPID).head? = some p)

/-- The list of `TestBuildTreeSharedPPID`: two proxies sharing the PPID 50,
which is not a PID of the list, and a standalone process. -/
def sharedList : List PortInfo :=
  [mkPort 3000 101 50, mkPort 3001 102 50, mkPort 8080 200 1]

/-- The PIDs that step 3 of `buildTree` lists under the key `k` of
`ppidPeers`, in the order of first appearance. -/
def peersFor (items : List PortInfo) (k : Int) : List Int :=
  (groupByPID items).order.filter (fun pid =>
    decide (peerKey items (groupByPID items).pidGroups (childOfFor items) pid = some k))

/-! ## Table states built by the program -/

/-- The range invariant of the cursor and the offset of a table: neither is
negative and the cursor is a row index, or 0 on the empty table. -/
def TableInv (pt : portTable) : Prop :=
  0 ≤ pt.cursor ∧ 0 ≤ pt.offset ∧ (pt.cursor < (pt.displayed.length : Int) ∨ pt.cursor = 0)

/-- The table states reachable from `newPortTable` through the methods of the
table.  Every call of `setRows` may range over its maps in another order. -/
inductive TableReach (lib : SortLib) : portTable → Prop
  | init : TableReach lib newPortTable
  | rows {pt pt' : portTable} (ρ : RangeOrder) (items : List PortInfo) :
      TableReach lib pt → setRows lib ρ pt items = some pt' → TableReach lib pt'
  | up {pt pt' : portTable} : TableReach lib pt → moveUp pt = some pt' → TableReach lib pt'
  | down {pt pt' : portTable} : TableReach lib pt → moveDown pt = some pt' → TableReach lib pt'
  | expand {pt pt' : portTable} :
      TableReach lib pt → toggleExpand pt = some pt' → TableReach lib pt'
  | tree {pt : portTable} : TableReach lib pt → TableReach lib (toggleTree pt)
  | next {pt : portTable} : TableReach lib pt → TableReach lib (nextSort pt)
  | rev {pt : portTable} : TableReach lib pt → TableReach lib (reverseSort pt)
  | height {pt : portTable} (h : Int) : TableReach lib pt → TableReach lib (setHeight pt h)
  | width {pt : portTable} (w : Int) : TableReach lib pt → TableReach lib (setWidth pt w)

/-! ## Model states of the tests -/

/-- The initial model after the key `/`: the filter input is active. -/
def filterOpenModel : Model :=
  { New defaultConfig with filter := { newFilterInput with active := true } }

/-- The model of `TestModelFilterEnterDeactivates` before the key `enter`:
the filter input is active and holds the query "node". -/
def filteringModel : Model :=
  { workerModel with filter := { input := { value := "node", internal := 0 }, active := true } }

/-- The list of `TestTreeParentChild`: a master and its two workers. -/
def workersList : List PortInfo :=
  [mkPort 9000 50 1, mkPort 9001 101 50, mkPort 9002 102 50]

/-! ## Specification-side notions for scrolling -/

/-- The number of lines that row `r` of the table takes: 1 + the number of
detail lines for the expanded row, 1 for every other row. -/
def lineCount (pt : portTable) (r : Int) : Int :=
  if r = pt.expanded then
    match index pt.displayed r with
    | some p => 1 + expandedLineCount p
    | none => 1
  else 1

/-- The total line count of the `n` rows from row `r` on. -/
def spanLines (pt : portTable) : Int → Nat → Int
  | _, 0 => 0
  | r, n + 1 => lineCount pt r + spanLines pt (r + 1) n

/-- The cursor row is visible: the offset is between 0 and the cursor, and
it is the cursor itself or the rows from the offset to the cursor fit in the
height of the table. -/
def CursorVisible (pt : portTable) : Prop :=
  0 ≤ pt.offset ∧ pt.offset ≤ pt.cursor ∧
    (pt.offset = pt.cursor ∨
      spanLines pt pt.offset (pt.cursor - pt.offset + 1).toNat ≤ pt.height)

/-- Ten rows in a table of height 5 with the cursor on the last row and the
offset still on the first. -/
def tenRowTable : portTable :=
  { newPortTable with
    treeMode := false
    height := 5
    displayed := (List.range 10).map (fun i => mkPort (3000 + (i : Int)) 0 0)
    meta := List.replicate 10 { treePrefix := "", isChild := false }
    cursor := 9 }

/-! ## table.go: rendering -/

/-- The functions of the lipgloss library that the table calls, and the port
colours of the configuration. -/
structure ViewLib where
  /-- The call `style.Width(w).Render(text)` for a style given by its name
  and its further options (`MaxWidth(w)`, `Inline(true)`). -/
  styled : String → Int → String → String
  /-- The function `lipgloss.JoinHorizontal(lipgloss.Top, parts...)`. -/
  joinHorizontal : List String → String
  /-- The function `lipgloss.Width`. -/
  textWidth : String → Int
  /-- The map `cfg.PortColors` of the user, by port key. -/
  portColors : List (String × String)

/-- A concrete rendering environment: styles leave the text unchanged, parts
are joined by concatenation, the width of a text is its number of characters
and the user has configured no colour. -/
def plainView : ViewLib :=
  { styled := fun _ _ text => text
    joinHorizontal := fun parts => String.join parts
    textWidth := fun s => (s.length : Int)
    portColors := [] }

/-- The constant `prefixWidth`. -/
def prefixWidth : Int := 2

/-- The columns that `newPortTable` sets: titles and widths. -/
def tableColumns : List (String × Int) :=
  [("PORT", 8), ("PID", 8), ("PROCESS", 20), ("USER", 12), ("MEMORY", 10), ("UPTIME", 10)]

/-- The map `defaultPortColors` of colors.go. -/
def defaultPortColors : List (Int × String) :=
  [(3000, "green"), (3001, "green"), (4200, "green"), (5173, "green"), (8080, "green"),
    (4000, "yellow"), (5000, "yellow"), (8000, "yellow"), (8081, "yellow"), (9000, "yellow"),
    (5001, "cyan"), (5174, "cyan"), (5175, "cyan"),
    (5432, "magenta"), (6379, "red"), (3306, "blue"), (27017, "blue"),
    (80, "white"), (443, "white")]

/-- The method `Config.PortColor`. -/
def PortColor (V : ViewLib) (port : Int) : String :=
  match V.portColors.lookup (itoa port) with
  | some color => color
  | none =>
    match mget defaultPortColors port with
    | some color => color
    | none => "dim"

/-- The function `portStyle`, as the name of the style it returns: the
foreground colour is that of the colour name, or of "dim" for an unknown
name. -/
def portStyle (colorName : String) : String :=
  if ["green", "yellow", "cyan", "magenta", "red", "blue", "white", "dim"].contains colorName
  then "portStyle(" ++ colorName ++ ")" else "portStyle(dim)"

/-- The loop of `truncate`:
`for len(runes) > 0 && lipgloss.Width(string(runes)) > w-1 { runes = runes[:len(runes)-1] }`. -/
def truncateLoop (V : ViewLib) (w : Int) : Nat → List Char → List Char
  | 0, runes => runes
  | fuel + 1, runes =>
    if runes.length > 0 ∧ V.textWidth (String.mk runes) > w - 1 then
      truncateLoop V w fuel runes.dropLast
    else runes

/-- The function `truncate`. -/
def truncate (V : ViewLib) (s : String) (w : Int) : String :=
  if V.textWidth s ≤ w then s
  else if w ≤ 1 then
    (if s.data.length > 0 then String.mk (s.data.take 1) else "")
  else String.mk (truncateLoop V w s.data.length s.data) ++ "…"

/-- The method `portTable.renderRow`: `none` stands for the index-out-of-range
panic of `pt.displayed[r]` or `pt.meta[r]`. -/
def renderRow (L : Libs) (V : ViewLib) (pt : portTable) (r : Int) : Option String :=
  (index pt.displayed r).bind (fun p =>
    (index pt.meta r).map (fun m =>
      let pStyle := portStyle (PortColor V p.Port)
      let pre := if r = pt.expanded then "▼ " else if r = pt.cursor then "▸ " else "  "
      let procName := if m.treePrefix ≠ "" then m.treePrefix ++ p.Process else p.Process
      let cStyle := if m.isChild then "childCellStyle" else "cellStyle"
      let cells :=
        [V.styled "NewStyle" prefixWidth pre,
          V.styled (pStyle ++ ".MaxWidth.Inline") 8 (itoa p.Port),
          V.styled (cStyle ++ ".MaxWidth.Inline") 8 (itoa p.PID),
          V.styled (cStyle ++ ".MaxWidth.Inline") 20 (truncate V procName 20),
          V.styled (cStyle ++ ".MaxWidth.Inline") 12 (truncate V p.User 12),
          V.styled (cStyle ++ ".MaxWidth.Inline") 10 p.Memory,
          V.styled (cStyle ++ ".MaxWidth.Inline") 10 p.Uptime]
      let row := V.joinHorizontal cells
      if r = pt.cursor ∨ r = pt.expanded then L.render "selectedRowStyle" row else row))

/-- The closure `add` of `renderExpanded`: the lines after the call. -/
def expandedAdd (L : Libs) (V : ViewLib) (lines : List String) (label value : String) :
    List String :=
  if value = "" ∨ value = "-" then lines
  else
    lines ++ ["      " ++ V.styled "expandLabelStyle" 12 label ++
      L.render "expandValueStyle" value]

/-- The slice `lines` of `renderExpanded` before it is joined: the detail
lines drawn for a record. -/
def expandedLines (L : Libs) (V : ViewLib) (p : PortInfo) : List String :=
  let l₁ := expandedAdd L V [] "Address" (p.Address ++ ":" ++ itoa p.Port)
  let l₂ := expandedAdd L V l₁ "Command" p.Command
  let l₃ := expandedAdd L V l₂ "Directory" p.CWD
  let l₄ := if p.Container ≠ "" then expandedAdd L V l₃ "Container" p.Container else l₃
  if p.PPID > 1 then
    l₄ ++ ["      " ++ V.styled "expandLabelStyle" 12 "Parent PID" ++
      L.render "parentStyle" (itoa p.PPID) ++ L.render "expandLabelStyle" "  [p kill parent]"]
  else l₄

/-- The method `portTable.renderExpanded`. -/
def renderExpanded (L : Libs) (V : ViewLib) (p : PortInfo) : String :=
  "\n" ++ "\n".intercalate (expandedLines L V p)

/-- The header cells of `view` for the columns from number `i` on. -/
def headerCells (V : ViewLib) (st : sortState) : Nat → List (String × Int) → List String
  | _, [] => []
  | i, col :: rest =>
    V.styled "tableHeaderStyle.MaxWidth" col.2
        (if (i : Int) = st.column then col.1 ++ " " ++ (if !st.asc then "▼" else "▲")
          else col.1) ::
      headerCells V st (i + 1) rest

/-- The header line of `view`. -/
def viewHeader (V : ViewLib) (pt : portTable) : String :=
  V.joinHorizontal (V.styled "NewStyle" prefixWidth "" :: headerCells V pt.sort 0 tableColumns)

/-- The function `strings.Repeat`: `none` stands for its panic on a negative
count. -/
def stringsRepeat (s : String) (count : Int) : Option String :=
  if count < 0 then none else some (String.join (List.replicate count.toNat s))

/-- The row loop of `view`, from row `r` on with `linesUsed` lines used: the
text it writes and the final value of `linesUsed`.  `none` stands for an
index-out-of-range panic. -/
def viewRows (L : Libs) (V : ViewLib) (pt : portTable) : Nat → Int → Int → Option (String × Int)
  | 0, _, linesUsed => some ("", linesUsed)
  | fuel + 1, r, linesUsed =>
    if r < (pt.displayed.length : Int) ∧ linesUsed < pt.height then
      (rowLines pt r).bind (fun needed =>
        if linesUsed + needed > pt.height then some ("", linesUsed)
        else
          (renderRow L V pt r).bind (fun row =>
            (if r = pt.expanded then (index pt.displayed r).map (fun p => renderExpanded L V p)
              else some "").bind (fun detail =>
              (viewRows L V pt fuel (r + 1) (linesUsed + needed)).map (fun rest =>
                (row ++ detail ++ (if linesUsed + needed < pt.height then "\n" else "") ++ rest.1,
                  rest.2)))))
    else some ("", linesUsed)

/-- The part of `view` after the header and the separator: the rows, then one
line break for every line of the height that is left. -/
def viewBody (L : Libs) (V : ViewLib) (pt : portTable) : Option String :=
  (viewRows L V pt ((pt.displayed.length : Int) - pt.offset).toNat pt.offset 0).map (fun res =>
    res.1 ++ String.mk (List.replicate (pt.height - res.2).toNat '\n'))

/-- The method `portTable.view`. -/
def view (L : Libs) (V : ViewLib) (pt : portTable) : Option String :=
  (stringsRepeat "─" pt.width).bind (fun sep =>
    (viewBody L V pt).map (fun body => viewHeader V pt ++ "\n" ++ sep ++ "\n" ++ body))

/-- The number of line breaks of a text. -/
def lineBreaks (s : String) : Nat := s.data.count '\n'

/-- A table of height 2 that displays two rows. -/
def twoRowTable : portTable :=
  { newPortTable with
    treeMode := false
    height := 2
    displayed := [mkPort 3000 100 1, mkPort 4000 200 1]
    meta := List.replicate 2 { treePrefix := "", isChild := false } }

/-- A table of height 2 that displays one row. -/
def shortTable : portTable :=
  { newPortTable with
    treeMode := false
    height := 2
    displayed := [mkPort 3000 100 1]
    meta := List.replicate 1 { treePrefix := "", isChild := false } }

/-! ## The Go library functions on strings used by the package `ports`

A Go string is given by its sequence of characters; an offset into it by the
number of characters before it, which is the offset that the code computes for
the one-byte separators that it searches. -/

/-- The function `unicode.IsSpace`. -/
def isSpace (c : Char) : Bool :=
  decide (c.toNat = 32 ∨ (9 ≤ c.toNat ∧ c.toNat ≤ 13) ∨ c.toNat = 0x85 ∨ c.toNat = 0xA0 ∨
    c.toNat = 0x1680 ∨ (0x2000 ≤ c.toNat ∧ c.toNat ≤ 0x200A) ∨ c.toNat = 0x2028 ∨
    c.toNat = 0x2029 ∨ c.toNat = 0x202F ∨ c.toNat = 0x205F ∨ c.toNat = 0x3000)

/-- The function `strings.TrimSpace`. -/
def trimSpace (s : List Char) : List Char :=
  ((s.dropWhile isSpace).reverse.dropWhile isSpace).reverse

/-- The function `strings.Index` for a one-character separator: `none`
stands for the result −1. -/
def indexChar (c : Char) : List Char → Option Nat
  | [] => none
  | x :: xs => if x = c then some 0 else (indexChar c xs).map (fun i => i + 1)

/-- The function `strings.LastIndex` for a one-character separator. -/
def lastIndexChar (c : Char) : List Char → Option Nat
  | [] => none
  | x :: xs =>
    match lastIndexChar c xs with
    | some i => some (i + 1)
    | none => if x = c then some 0 else none

/-- The function `strings.Split` for a one-character separator. -/
def splitChar (c : Char) : List Char → List (List Char)
  | [] => [[]]
  | x :: xs =>
    if x = c then [] :: splitChar c xs
    else
      match splitChar c xs with
      | [] => [[x]]
      | h :: t => (x :: h) :: t

/-- The function `strings.Fields`: the maximal runs of characters that are
not white space, with `cur` the run read so far. -/
def fieldsFrom : List Char → List Char → List (List Char)
  | cur, [] => if cur = [] then [] else [cur]
  | cur, x :: xs =>
    if isSpace x then (if cur = [] then fieldsFrom [] xs else cur :: fieldsFrom [] xs)
    else fieldsFrom (cur ++ [x]) xs

/-- The function `strings.Fields`. -/
def stringsFields (s : List Char) : List (List Char) := fieldsFrom [] s

/-- A decimal digit of `strconv.Atoi`. -/
def isDigitChar (c : Char) : Bool := decide (48 ≤ c.toNat ∧ c.toNat ≤ 57)

/-- The value of a sequence of decimal digits. -/
def decimalValue (ds : List Char) : Nat :=
  ds.foldl (fun a c => 10 * a + (c.toNat - 48)) 0

/-- The function `strconv.Atoi` for the 64-bit `int`: the value and whether
the error is `nil`.  A text that is not an optional sign followed by decimal
digits gives 0 and an error; a value out of range gives the nearest `int` and
an error. -/
def atoi (s : List Char) : Int × Bool :=
  let neg : Bool := decide (s.head? = some '-')
  let ds := if s.head? = some '+' ∨ s.head? = some '-' then s.tail else s
  if ds = [] ∨ ds.all isDigitChar = false then (0, false)
  else
    let v : Int := if neg then -(decimalValue ds : Int) else (decimalValue ds : Int)
    if v > 9223372036854775807 then (9223372036854775807, false)
    else if v < -9223372036854775808 then (-9223372036854775808, false)
    else (v, true)

/-! ## process.go: `formatElapsed` -/

/-- The function `formatElapsed`. -/
def formatElapsed (etime : String) : String :=
  let e := trimSpace etime.data
  let dr : Int × List Char :=
    match indexChar '-' e with
    | some idx => ((atoi (e.take idx)).1, e.drop (idx + 1))
    | none => (0, e)
  let hms : Int × Int × Int :=
    match splitChar ':' dr.2 with
    | [a, b, c] => ((atoi a).1, (atoi b).1, (atoi c).1)
    | [a, b] => (0, (atoi a).1, (atoi b).1)
    | [a] => (0, 0, (atoi a).1)
    | _ => (0, 0, 0)
  if dr.1 > 0 then itoa dr.1 ++ "d " ++ itoa hms.1 ++ "h"
  else if hms.1 > 0 then itoa hms.1 ++ "h " ++ itoa hms.2.1 ++ "m"
  else if hms.2.1 > 0 then itoa hms.2.1 ++ "m " ++ itoa hms.2.2 ++ "s"
  else itoa hms.2.2 ++ "s"

/-! ## Specification-side notions for `formatElapsed` -/

/-- A decimal field: a non-empty sequence of decimal digits whose value fits
in an `int`. -/
def IsField (ds : List Char) : Prop :=
  ds ≠ [] ∧ (∀ c ∈ ds, isDigitChar c = true) ∧ decimalValue ds < 9223372036854775808

/-- The text for a duration of `d` days, `h` hours, `m` minutes and `s`
seconds: the two largest units from the first one that is not zero. -/
def elapsedText (d h m s : Nat) : String :=
  if d > 0 then toString d ++ "d " ++ toString h ++ "h"
  else if h > 0 then toString h ++ "h " ++ toString m ++ "m"
  else if m > 0 then toString m ++ "m " ++ toString s ++ "s"
  else toString s ++ "s"


/-! ## scanner_darwin.go: `parseLsofOutput` -/

/-- The function `parseNameField` on the characters of the NAME column. -/
def parseNameField (name0 : List Char) : List Char × List Char :=
  let name :=
    match indexChar '(' name0 with
    | some idx => name0.take idx
    | none => name0
  let byColon : List Char × List Char :=
    match lastIndexChar ':' name with
    | some lastColon => (name.take lastColon, name.drop (lastColon + 1))
    | none => (name, [])
  if name.head? = some '[' then
    match lastIndexChar ']' name with
    | some closeBracket =>
      (name.take (closeBracket + 1),
        if closeBracket + 2 < name.length then name.drop (closeBracket + 2) else [])
    | none => byColon
  else byColon

/-- The lookup `seen[key]` of the map of `parseLsofOutput`, whose keys are
the pairs `dedupKey{port, pid}`. -/
def kget : List ((Int × Int) × Nat) → Int × Int → Option Nat
  | [], _ => none
  | (k', v) :: m, k => if k' = k then some v else kget m k

/-- The assignment `seen[key] = v`. -/
def kset : List ((Int × Int) × Nat) → Int × Int → Nat → List ((Int × Int) × Nat)
  | [], k, v => [(k, v)]
  | (k', v') :: m, k, v => if k' = k then (k, v) :: m else (k', v') :: kset m k v

/-- The first part of the loop body of `parseLsofOutput`: the fields read
from one line, gathered in the record that the iteration would append, or
`none` when the iteration ends with `continue` before the lookup in `seen`.
The indices 0, 1, 2, 7 and 8 are in range after the check of the length. -/
def parseLine (L : Libs) (line : List Char) : Option PortInfo :=
  let fields := stringsFields line
  if fields.length < 9 then none
  else
    let process := fields.getD 0 []
    let pid := atoi (fields.getD 1 [])
    if pid.2 = false then none
    else
      let user := fields.getD 2 []
      let protocol := L.toLower (String.mk (fields.getD 7 []))
      let name := fields.getD 8 []
      let ap := parseNameField name
      let port := atoi ap.2
      if port.2 = false then none
      else
        some { Port := port.1, PID := pid.1, PPID := 0, Process := String.mk process,
               User := String.mk user, Command := "", Protocol := protocol,
               Address := String.mk ap.1, Uptime := "", Memory := "", Container := "",
               CWD := "" }

/-- The variables `seen` and `result` of `parseLsofOutput`. -/
structure lsofState where
  seen : List ((Int × Int) × Nat)
  result : List PortInfo

/-- One iteration of the loop of `parseLsofOutput`; `none` stands for an
index out of range at `result[idx]`. -/
def lsofStep (L : Libs) (st : lsofState) (line : List Char) : Option lsofState :=
  match parseLine L line with
  | none => some st
  | some c =>
    let key : Int × Int := (c.Port, c.PID)
    let isIPv4 : Bool := !stringsContains c.Address ":"
    match kget st.seen key with
    | some idx =>
      if isIPv4 then
        match st.result[idx]? with
        | none => none
        | some r =>
          if stringsContains r.Address ":" then
            some { st with result := st.result.set idx { r with Address := c.Address } }
          else some st
      else some st
    | none =>
      some { seen := kset st.seen key st.result.length, result := st.result ++ [c] }

/-- The loop of `parseLsofOutput` over the lines after the header. -/
def lsofLoop (L : Libs) : lsofState → List (List Char) → Option lsofState
  | st, [] => some st
  | st, line :: rest =>
    match lsofStep L st line with
    | none => none
    | some st' => lsofLoop L st' rest

/-- The function `parseLsofOutput`; `none` stands for a panic. -/
def parseLsofOutput (L : Libs) (output : String) : Option (List PortInfo) :=
  let lines := splitChar '\n' (trimSpace output.data)
  if lines.length < 2 then some []
  else (lsofLoop L { seen := [], result := [] } (lines.drop 1)).map lsofState.result

/-! ### Specification-side notions for `parseLsofOutput` -/

/-- The pair (port, PID) of a record. -/
def lsofKey (p : PortInfo) : Int × Int := (p.Port, p.PID)

/-- An address without `:`, which `parseLsofOutput` takes for IPv4. -/
def isIPv4 (p : PortInfo) : Bool := !stringsContains p.Address ":"

/-- The records read from the parseable lines of an lsof output: the lines
after the header with at least nine fields and a number for the PID and for
the port. -/
def lsofCandidates (L : Libs) (output : String) : List PortInfo :=
  ((splitChar '\n' (trimSpace output.data)).drop 1).filterMap (parseLine L)

/-- The distinct pairs of a list in the order of their first appearance. -/
def firstKeys : List (Int × Int) → List (Int × Int)
  | [] => []
  | a :: l => a :: (firstKeys l).filter (fun b => decide (b ≠ a))

/-- The text of the test `TestParseLsofOutput`. -/
def mockLsofOutput : String :=
  "COMMAND     PID   USER   FD   TYPE             DEVICE SIZE/OFF NODE NAME\n" ++
  "node      1234   user   23u  IPv4 0x1234567890      0t0  TCP *:3000 (LISTEN)\n" ++
  "node      1234   user   24u  IPv6 0x1234567891      0t0  TCP [::1]:3000 (LISTEN)\n" ++
  "postgres  5678   user   10u  IPv4 0x1234567892      0t0  TCP 127.0.0.1:5432 (LISTEN)\n" ++
  "python3   9012   root   5u   IPv4 0x1234567893      0t0  TCP *:8000 (LISTEN)\n" ++
  "ruby      3456   user   8u   IPv6 0x1234567894      0t0  TCP [::]:3001 (LISTEN)\n"


/-- The invariant of the loop of `parseLsofOutput` once the records `cs` of
the parseable lines read so far are processed: the result holds one record
for each pair of `cs` in the order of first appearance, `seen` maps exactly
the pairs of `cs` to their index in the result, and a record of the result
has an IPv4 address when a record of `cs` with its pair has one. -/
def LsofInv (st : lsofState) (cs : List PortInfo) : Prop :=
  st.result.map lsofKey = firstKeys (cs.map lsofKey) ∧
    (∀ k idx, kget st.seen k = some idx → (st.result.map lsofKey)[idx]? = some k) ∧
    (∀ k, kget st.seen k = none → k ∉ cs.map lsofKey) ∧
    (∀ r ∈ st.result, (∃ c ∈ cs, lsofKey c = lsofKey r ∧ isIPv4 c = true) → isIPv4 r = true)


/-- A field of a line of text: a non-empty run of characters that are not
white space. -/
def IsWord (w : List Char) : Prop := w ≠ [] ∧ ∀ c ∈ w, isSpace c = false

/-- A gap between two fields of a line: a non-empty run of white space. -/
def IsGap (g : List Char) : Prop := g ≠ [] ∧ ∀ c ∈ g, isSpace c = true

/-- The text of a sequence of fields, each written after its gap. -/
def joinFields : List (List Char × List Char) → List Char
  | [] => []
  | gw :: rest => gw.1 ++ gw.2 ++ joinFields rest

/-- The record that a line of lsof stands for: its COMMAND, PID, USER and NODE
columns and the address and the port of its NAME column. -/
def lsofRecord (L : Libs) (process pid user node addr port : List Char) : PortInfo :=
  { Port := (decimalValue port : Int), PID := (decimalValue pid : Int), PPID := 0,
    Process := String.mk process, User := String.mk user, Command := "",
    Protocol := L.toLower (String.mk node), Address := String.mk addr, Uptime := "",
    Memory := "", Container := "", CWD := "" }


/-- The text of a sequence of lines, each written after a line break. -/
def joinLines (rows : List (List Char)) : List Char :=
  rows.flatMap (fun row => '\n' :: row)


/-- The header line of the text of `TestParseLsofOutput`. -/
def mockHeader : List Char :=
  "COMMAND     PID   USER   FD   TYPE             DEVICE SIZE/OFF NODE NAME".data

/-- The lines after the header of the text of `TestParseLsofOutput`. -/
def mockRows : List (List Char) :=
  ["node      1234   user   23u  IPv4 0x1234567890      0t0  TCP *:3000 (LISTEN)".data,
   "node      1234   user   24u  IPv6 0x1234567891      0t0  TCP [::1]:3000 (LISTEN)".data,
   "postgres  5678   user   10u  IPv4 0x1234567892      0t0  TCP 127.0.0.1:5432 (LISTEN)".data,
   "python3   9012   root   5u   IPv4 0x1234567893      0t0  TCP *:8000 (LISTEN)".data,
   "ruby      3456   user   8u   IPv6 0x1234567894      0t0  TCP [::]:3001 (LISTEN)".data]

/-- The fields after the first and the gaps of the second line after the
header of the text of `TestParseLsofOutput`, up to the NAME column. -/
def mockRowFields : List (List Char × List Char) :=
  [("      ".data, "1234".data), ("   ".data, "user".data), ("   ".data, "24u".data),
   ("  ".data, "IPv6".data), (" ".data, "0x1234567891".data), ("      ".data, "0t0".data),
   ("  ".data, "TCP".data), (" ".data, "[::1]".data ++ ':' :: "3000".data)]

/-! # Theorems -/

/-! ## Facts about Go maps -/

theorem mget_mset {β : Type} (m : List (Int × β)) (k : Int) (v : β) (k' : Int) :
    mget (mset m k v) k' = if k = k' then some v else mget m k' := by
  induction m with
  | nil => simp [mset, mget]
  | cons kv m ih =>
    obtain ⟨a, b⟩ := kv
    by_cases h : a = k
    · subst h
      by_cases h' : a = k' <;> simp [mset, mget, h']
    · by_cases h' : a = k'
      · subst h'
        have : ¬ k = a := fun e => h e.symm
        simp [mset, mget, h, this]
      · simp [mset, mget, h, h', ih]

theorem mget_isSome_iff {β : Type} (m : List (Int × β)) (k : Int) :
    (mget m k).isSome = true ↔ k ∈ m.map Prod.fst := by
  induction m with
  | nil => simp [mget]
  | cons kv m ih =>
    obtain ⟨a, b⟩ := kv
    by_cases h : a = k
    · simp [mget, h]
    · have h' : ¬ k = a := fun e => h e.symm
      simp [mget, h, h', ih]

theorem mget_mem {β : Type} (m : List (Int × β)) (k : Int) (v : β)
    (h : mget m k = some v) : (k, v) ∈ m := by
  induction m with
  | nil => simp [mget] at h
  | cons kv m ih =>
    obtain ⟨a, b⟩ := kv
    by_cases e : a = k
    · simp [mget, e] at h
      simp [e, h]
    · simp [mget, e] at h
      exact List.mem_cons_of_mem _ (ih h)

theorem mget_of_mem {β : Type} (m : List (Int × β)) (hnd : (m.map Prod.fst).Nodup)
    (k : Int) (v : β) (h : (k, v) ∈ m) : mget m k = some v := by
  induction m with
  | nil => simp at h
  | cons kv m ih =>
    obtain ⟨a, b⟩ := kv
    simp only [List.map_cons, List.nodup_cons] at hnd
    rcases List.mem_cons.1 h with e | e
    · cases e
      simp [mget]
    · have hk : k ∈ m.map Prod.fst := List.mem_map.2 ⟨(k, v), e, rfl⟩
      have : ¬ a = k := fun e' => hnd.1 (e' ▸ hk)
      simp [mget, this, ih hnd.2 e]

theorem keys_mset {β : Type} (m : List (Int × β)) (k : Int) (v : β) :
    (mset m k v).map Prod.fst =
      if k ∈ m.map Prod.fst then m.map Prod.fst else m.map Prod.fst ++ [k] := by
  induction m with
  | nil => simp [mset]
  | cons kv m ih =>
    obtain ⟨a, b⟩ := kv
    by_cases h : a = k
    · simp [mset, h]
    · have h' : ¬ k = a := fun e => h e.symm
      by_cases hm : k ∈ m.map Prod.fst
      · simp only [mset, h, if_false, List.map_cons, ih, hm, if_true, List.mem_cons, or_true]
      · simp only [mset, h, if_false, List.map_cons, ih, hm, List.mem_cons, h', or_self,
          List.cons_append]

theorem nodup_keys_mset {β : Type} (m : List (Int × β)) (k : Int) (v : β)
    (h : (m.map Prod.fst).Nodup) : ((mset m k v).map Prod.fst).Nodup := by
  rw [keys_mset]
  split
  · exact h
  · rename_i hk
    exact List.Nodup.append h (List.nodup_singleton k) (by simpa using hk)

theorem mem_keys_mset {β : Type} (m : List (Int × β)) (k : Int) (v : β) (k' : Int) :
    k' ∈ (mset m k v).map Prod.fst ↔ k' = k ∨ k' ∈ m.map Prod.fst := by
  rw [keys_mset]
  split
  · rename_i hk
    constructor
    · exact Or.inr
    · rintro (e | e)
      · exact e ▸ hk
      · exact e
  · simp [or_comm]

/-! ## Step 1 of `buildTree`: grouping by PID -/

theorem idxsOf_append (pid : Int) (i : Nat) (l₁ l₂ : List PortInfo) :
    idxsOf pid i (l₁ ++ l₂) = idxsOf pid i l₁ ++ idxsOf pid (i + l₁.length) l₂ := by
  induction l₁ generalizing i with
  | nil => simp [idxsOf]
  | cons p ps ih =>
    have e : i + 1 + ps.length = i + (ps.length + 1) := by omega
    by_cases h : p.PID = pid <;> simp [idxsOf, h, ih, e]

theorem idxsOf_eq_nil_iff (pid : Int) (i : Nat) (l : List PortInfo) :
    idxsOf pid i l = [] ↔ pid ∉ l.map PortInfo.PID := by
  induction l generalizing i with
  | nil => simp [idxsOf]
  | cons p ps ih =>
    by_cases h : p.PID = pid
    · simp [idxsOf, h]
    · have h' : ¬ pid = p.PID := fun e => h e.symm
      simp only [idxsOf, h, if_false, ih, List.map_cons, List.mem_cons, h', false_or]

theorem groupOf_eq_none_iff (l : List Nat) : groupOf l = none ↔ l = [] := by
  cases l <;> simp [groupOf]

theorem groupOf_append_singleton (l : List Nat) (i : Nat) (g : group)
    (h : groupOf l = some g) :
    groupOf (l ++ [i]) = some { g with extraIdx := g.extraIdx ++ [i] } := by
  cases l with
  | nil => simp [groupOf] at h
  | cons a t =>
    simp only [groupOf, Option.some.injEq] at h
    subst h
    simp [groupOf]

theorem GroupInv.init : GroupInv { pidFirst := [], pidGroups := [], order := [] } [] where
  groups := fun _ => rfl
  first := fun _ => rfl
  nodup := List.nodup_nil
  mem := fun _ => by simp

theorem GroupInv.step {s : pidIndex} {pre : List PortInfo} (h : GroupInv s pre)
    (p : PortInfo) : GroupInv (groupStep s pre.length p) (pre ++ [p]) := by
  have hidx : ∀ pid, idxsOf pid 0 (pre ++ [p]) =
      idxsOf pid 0 pre ++ (if p.PID = pid then [pre.length] else []) := by
    intro pid
    rw [idxsOf_append]
    by_cases e : p.PID = pid <;> simp [idxsOf, e]
  cases hf : mget s.pidFirst p.PID with
  | none =>
    have hg : mget s.pidGroups p.PID = none := by
      have := h.first p.PID
      rw [hf] at this
      cases hx : mget s.pidGroups p.PID with
      | none => rfl
      | some g => rw [hx] at this; simp at this
    have hnil : idxsOf p.PID 0 pre = [] := by
      have := h.groups p.PID
      rw [hg] at this
      exact (groupOf_eq_none_iff _).1 this.symm
    have hnot : p.PID ∉ s.order := by
      rw [h.mem]
      exact (idxsOf_eq_nil_iff _ _ _).1 hnil
    have hs : groupStep s pre.length p =
        { pidFirst := mset s.pidFirst p.PID pre.length
          pidGroups := mset s.pidGroups p.PID { head := pre.length, extraIdx := [] }
          order := s.order ++ [p.PID] } := by
      simp [groupStep, hf]
    rw [hs]
    refine ⟨?_, ?_, ?_, ?_⟩
    · intro pid
      rw [mget_mset, hidx]
      by_cases e : p.PID = pid
      · subst e
        simp [hnil, groupOf]
      · simp [e, h.groups pid]
    · intro pid
      simp only [mget_mset]
      by_cases e : p.PID = pid
      · simp [e]
      · simp [e, h.first pid]
    · exact List.Nodup.append h.nodup (List.nodup_singleton _) (by simpa using hnot)
    · intro pid
      simp [h.mem pid, eq_comm]
  | some i₀ =>
    have hsome : (mget s.pidGroups p.PID).isSome = true := by
      rw [← h.first p.PID, hf]
      rfl
    obtain ⟨g, hg⟩ := Option.isSome_iff_exists.1 hsome
    have hs : groupStep s pre.length p =
        { s with
          pidGroups :=
            mset s.pidGroups p.PID { g with extraIdx := g.extraIdx ++ [pre.length] } } := by
      simp [groupStep, hf, hg]
    have hin : p.PID ∈ s.order := by
      rw [h.mem]
      by_contra hc
      have := (idxsOf_eq_nil_iff p.PID 0 pre).2 hc
      have h2 := h.groups p.PID
      rw [hg, this] at h2
      simp [groupOf] at h2
    rw [hs]
    refine ⟨?_, ?_, h.nodup, ?_⟩
    · intro pid
      rw [mget_mset, hidx]
      by_cases e : p.PID = pid
      · subst e
        have h2 := h.groups p.PID
        rw [hg] at h2
        simp [groupOf_append_singleton _ _ _ h2.symm]
      · simp [e, h.groups pid]
    · intro pid
      simp only [mget_mset]
      by_cases e : p.PID = pid
      · subst e
        simp [hf]
      · simp [e, h.first pid]
    · intro pid
      simp only [List.map_append, List.map_cons, List.map_nil, List.mem_append,
        List.mem_singleton, ← h.mem pid]
      constructor
      · exact Or.inl
      · rintro (e | e)
        · exact e
        · exact e ▸ hin

theorem GroupInv.loop (rest : List PortInfo) :
    ∀ (s : pidIndex) (pre : List PortInfo), GroupInv s pre →
      GroupInv (groupLoop s pre.length rest) (pre ++ rest) := by
  induction rest with
  | nil => intro s pre h; simpa [groupLoop] using h
  | cons p ps ih =>
    intro s pre h
    have := ih _ _ (h.step p)
    simpa [groupLoop] using this

theorem groupByPID_inv (items : List PortInfo) : GroupInv (groupByPID items) items := by
  have := GroupInv.loop items _ [] GroupInv.init
  simpa [groupByPID] using this

/-! ## The rows of one group -/

theorem idxsOf_get (pid : Int) (l : List PortInfo) :
    ∀ pre : List PortInfo, (idxsOf pid pre.length l).map (fun j => (pre ++ l)[j]?) =
      (l.filter (fun p => decide (p.PID = pid))).map some := by
  induction l with
  | nil => intro pre; simp [idxsOf]
  | cons p ps ih =>
    intro pre
    have h := ih (pre ++ [p])
    simp only [List.length_append, List.length_singleton, List.append_assoc,
      List.singleton_append] at h
    by_cases e : p.PID = pid
    · have hget : (pre ++ p :: ps)[pre.length]? = some p := by
        rw [List.getElem?_append_right (Nat.le_refl _)]
        simp
      simp only [idxsOf, e, if_true, List.map_cons, h, hget, decide_True, List.filter_cons_of_pos]
    · simp [idxsOf, e, h]

theorem group_records (items : List PortInfo) (pid : Int) (g : group)
    (h : mget (groupByPID items).pidGroups pid = some g) :
    (g.head :: g.extraIdx).map (fun j => items[j]?) =
      (items.filter (fun p => decide (p.PID = pid))).map some := by
  have h1 := (groupByPID_inv items).groups pid
  rw [h] at h1
  have h2 : idxsOf pid 0 items = g.head :: g.extraIdx := by
    cases hx : idxsOf pid 0 items with
    | nil => rw [hx] at h1; simp [groupOf] at h1
    | cons a t =>
      rw [hx] at h1
      simp only [groupOf, Option.some.injEq] at h1
      subst h1
      rfl
  have h3 := idxsOf_get pid items []
  simp only [List.length_nil, List.nil_append] at h3
  rw [h2] at h3
  exact h3

theorem group_isSome_iff (items : List PortInfo) (pid : Int) :
    (mget (groupByPID items).pidGroups pid).isSome = true ↔ pid ∈ items.map PortInfo.PID := by
  rw [(groupByPID_inv items).groups pid]
  cases hx : idxsOf pid 0 items with
  | nil =>
    have := (idxsOf_eq_nil_iff pid 0 items).1 hx
    simp only [groupOf, Option.isSome_none, Bool.false_eq_true, false_iff]
    exact this
  | cons a t =>
    have : ¬ idxsOf pid 0 items = [] := by rw [hx]; simp
    rw [idxsOf_eq_nil_iff] at this
    simp only [groupOf, Option.isSome_some, true_iff]
    exact not_not.1 this

theorem appendItem_of_get (items : List PortInfo) (idx : Nat) (pre : String) (c : Bool)
    (p : PortInfo) (h : items[idx]? = some p) :
    appendItem items idx pre c = [(p, { treePrefix := pre, isChild := c })] := by
  simp [appendItem, h]

theorem appendExtras_spec (items : List PortInfo) (c : Bool) (n k : Nat) :
    ∀ (idxs : List Nat) (recs : List PortInfo) (ei : Nat),
      idxs.map (fun j => items[j]?) = recs.map some →
      (appendExtras items c n k ei idxs).map Prod.fst = recs ∧
        ∀ r ∈ appendExtras items c n k ei idxs, r.2.isChild = true := by
  intro idxs
  induction idxs with
  | nil =>
    intro recs ei h
    cases recs with
    | nil => simp [appendExtras]
    | cons a t => simp at h
  | cons i rest ih =>
    intro recs ei h
    cases recs with
    | nil => simp at h
    | cons a t =>
      simp only [List.map_cons, List.cons.injEq] at h
      obtain ⟨h1, h2⟩ := ih t (ei + 1) h.2
      rw [appendExtras, appendItem_of_get _ _ _ _ _ h.1]
      refine ⟨by simp [h1], ?_⟩
      intro r hr
      rcases List.mem_append.1 hr with hr | hr
      · simp only [List.mem_singleton] at hr
        subst hr
        rfl
      · exact h2 r hr

/-- The rows `appendGroup` adds for a PID of the list: the records of that PID in
input order, the first with the given prefix and child flag, the others marked
as children. -/
theorem appendGroup_spec (items : List PortInfo) (kids : List (Int × List Int)) (pid : Int)
    (pre : String) (c : Bool) (hp : pid ∈ items.map PortInfo.PID) :
    ∃ (p : PortInfo) (tl : List (PortInfo × rowMeta)),
      appendGroup items (groupByPID items).pidGroups kids pid pre c =
        (p, { treePrefix := pre, isChild := c }) :: tl ∧
      p :: tl.map Prod.fst = items.filter (fun q => decide (q.PID = pid)) ∧
      ∀ r ∈ tl, r.2.isChild = true := by
  obtain ⟨g, hg⟩ := Option.isSome_iff_exists.1 ((group_isSome_iff items pid).2 hp)
  have hrec := group_records items pid g hg
  cases hf : items.filter (fun q => decide (q.PID = pid)) with
  | nil => rw [hf] at hrec; simp at hrec
  | cons p recs =>
    rw [hf] at hrec
    simp only [List.map_cons, List.cons.injEq] at hrec
    obtain ⟨h1, h2⟩ := appendExtras_spec items c g.extraIdx.length
      ((mget kids pid).getD []).length g.extraIdx recs 0 hrec.2
    refine ⟨p, _, ?_, ?_, h2⟩
    · simp only [appendGroup, hg]
      rw [appendItem_of_get _ _ _ _ _ hrec.1]
      rfl
    · rw [h1]

theorem appendGroup_absent (items : List PortInfo) (kids : List (Int × List Int)) (pid : Int)
    (pre : String) (c : Bool) (hp : pid ∉ items.map PortInfo.PID) :
    appendGroup items (groupByPID items).pidGroups kids pid pre c = [] := by
  have : mget (groupByPID items).pidGroups pid = none := by
    cases hx : mget (groupByPID items).pidGroups pid with
    | none => rfl
    | some g =>
      exact absurd ((group_isSome_iff items pid).1 (by rw [hx]; rfl)) hp
  simp [appendGroup, this]

theorem appendGroup_pid (items : List PortInfo) (kids : List (Int × List Int)) (pid : Int)
    (pre : String) (c : Bool) :
    ∀ r ∈ appendGroup items (groupByPID items).pidGroups kids pid pre c, r.1.PID = pid := by
  intro r hr
  by_cases hp : pid ∈ items.map PortInfo.PID
  · obtain ⟨p, tl, h1, h2, _⟩ := appendGroup_spec items kids pid pre c hp
    rw [h1] at hr
    have hmem : r.1 ∈ p :: tl.map Prod.fst := by
      rcases List.mem_cons.1 hr with e | e
      · subst e; exact List.mem_cons_self _ _
      · exact List.mem_cons_of_mem _ (List.mem_map_of_mem _ e)
    rw [h2] at hmem
    simpa using (List.mem_filter.1 hmem).2
  · rw [appendGroup_absent items kids pid pre c hp] at hr
    simp at hr

/-! ## Step 5 of `buildTree` as a sequence of `appendGroup` calls -/

theorem kidCalls_fst (n : Nat) (l : List Int) :
    ∀ ci, (kidCalls n ci l).map Prod.fst = l := by
  induction l with
  | nil => intro ci; rfl
  | cons k rest ih => intro ci; simp [kidCalls, ih]

theorem kidCalls_child (n : Nat) (l : List Int) :
    ∀ ci, ∀ c ∈ kidCalls n ci l, c.2.2 = true := by
  induction l with
  | nil => intro ci c hc; simp [kidCalls] at hc
  | cons k rest ih =>
    intro ci c hc
    rcases List.mem_cons.1 hc with e | e
    · subst e; rfl
    · exact ih _ c e

theorem appendKids_eq (items : List PortInfo) (pidGroups : List (Int × group))
    (kids : List (Int × List Int)) (n : Nat) (l : List Int) :
    ∀ ci, appendKids items pidGroups kids n ci l =
      (kidCalls n ci l).flatMap
        (fun c => appendGroup items pidGroups kids c.1 c.2.1 c.2.2) := by
  induction l with
  | nil => intro ci; rfl
  | cons k rest ih => intro ci; simp [appendKids, kidCalls, ih]

theorem rootRows_eq (items : List PortInfo) (pidGroups : List (Int × group))
    (childOf siblingOf : List (Int × Int)) (kids : List (Int × List Int)) (pid : Int) :
    rootRows items pidGroups childOf siblingOf kids pid =
      (rootCalls childOf siblingOf kids pid).flatMap
        (fun c => appendGroup items pidGroups kids c.1 c.2.1 c.2.2) := by
  unfold rootRows rootCalls
  split
  · rfl
  · split
    · rfl
    · simp [appendKids_eq]

theorem flatMap_rootRows_eq (items : List PortInfo) (pidGroups : List (Int × group))
    (childOf siblingOf : List (Int × Int)) (kids : List (Int × List Int))
    (order : List Int) :
    order.flatMap (rootRows items pidGroups childOf siblingOf kids) =
      (order.flatMap (rootCalls childOf siblingOf kids)).flatMap
        (fun c => appendGroup items pidGroups kids c.1 c.2.1 c.2.2) := by
  rw [List.flatMap_assoc]
  congr 1
  funext pid
  exact rootRows_eq items pidGroups childOf siblingOf kids pid

/-! ## Steps 2 to 4: the maps `childOf`, `siblingOf` and `kids` -/

theorem foldl_inv {α β : Type} (P : β → Prop) (f : β → α → β) (l : List α) :
    ∀ b, P b → (∀ b a, a ∈ l → P b → P (f b a)) → P (l.foldl f b) := by
  induction l with
  | nil => intro b hb _; exact hb
  | cons a t ih =>
    intro b hb hf
    exact ih (f b a) (hf b a (List.mem_cons_self _ _) hb)
      (fun b' a' ha' hb' => hf b' a' (List.mem_cons_of_mem _ ha') hb')

theorem childOfMap_nodup (items : List PortInfo) (pidGroups : List (Int × group))
    (order : List Int) : ((childOfMap items pidGroups order).map Prod.fst).Nodup := by
  unfold childOfMap
  apply foldl_inv (fun m : List (Int × Int) => (m.map Prod.fst).Nodup)
  · exact List.nodup_nil
  · intro b a _ hb
    dsimp only
    split
    · split
      · exact nodup_keys_mset _ _ _ hb
      · exact hb
    · exact hb

theorem mem_mset {β : Type} (m : List (Int × β)) (k : Int) (v : β) (x : Int × β)
    (h : x ∈ mset m k v) : x = (k, v) ∨ x ∈ m := by
  induction m with
  | nil => simpa [mset] using h
  | cons kv m ih =>
    obtain ⟨a, b⟩ := kv
    by_cases e : a = k
    · simp only [mset, e, if_true, List.mem_cons] at h
      rcases h with h | h
      · exact Or.inl h
      · exact Or.inr (List.mem_cons_of_mem _ h)
    · simp only [mset, e, if_false, List.mem_cons] at h
      rcases h with h | h
      · exact Or.inr (h ▸ List.mem_cons_self _ _)
      · rcases ih h with h' | h'
        · exact Or.inl h'
        · exact Or.inr (List.mem_cons_of_mem _ h')

theorem ppidPeersMap_notChild (items : List PortInfo) (pidGroups : List (Int × group))
    (childOf : List (Int × Int)) (order : List Int) :
    ∀ kv ∈ ppidPeersMap items pidGroups childOf order, ∀ pid ∈ kv.2,
      mget childOf pid = none := by
  unfold ppidPeersMap
  apply foldl_inv (fun m : List (Int × List Int) =>
    ∀ kv ∈ m, ∀ pid ∈ kv.2, mget childOf pid = none)
  · intro kv hkv; simp at hkv
  · intro b a _ hb
    dsimp only
    split
    · exact hb
    · rename_i hnc
      split
      · rename_i p _
        split
        · intro kv hkv pid hpid
          rcases mem_mset _ _ _ _ hkv with e | e
          · subst e
            rcases List.mem_append.1 hpid with h1 | h1
            · cases hx : mget b p.PPID with
              | none => rw [hx] at h1; simp at h1
              | some old =>
                rw [hx] at h1
                exact hb _ (mget_mem _ _ _ hx) pid h1
            · simp only [List.mem_singleton] at h1
              subst h1
              cases hx : mget childOf pid with
              | none => rfl
              | some v => rw [hx] at hnc; simp at hnc
          · exact hb kv e pid hpid
        · exact hb
      · exact hb

theorem siblingOfMap_inv (ρ : RangeOrder) (childOf : List (Int × Int))
    (ppidPeers : List (Int × List Int))
    (h : ∀ kv ∈ ppidPeers, ∀ pid ∈ kv.2, mget childOf pid = none) :
    ((siblingOfMap ρ ppidPeers).map Prod.fst).Nodup ∧
      ∀ k ∈ (siblingOfMap ρ ppidPeers).map Prod.fst, mget childOf k = none := by
  unfold siblingOfMap
  apply foldl_inv (fun m : List (Int × Int) =>
    (m.map Prod.fst).Nodup ∧ ∀ k ∈ m.map Prod.fst, mget childOf k = none)
  · exact ⟨List.nodup_nil, by simp⟩
  · intro b kv hkv hb
    have hkv' : kv ∈ ppidPeers := (ρ.lists_perm ppidPeers).mem_iff.1 hkv
    split
    · rename_i root rest hrest
      split
      · exact hb
      · apply foldl_inv (fun m : List (Int × Int) =>
          (m.map Prod.fst).Nodup ∧ ∀ k ∈ m.map Prod.fst, mget childOf k = none)
        · exact hb
        · intro b' pid hpid hb'
          refine ⟨nodup_keys_mset _ _ _ hb'.1, ?_⟩
          intro k hk
          rcases (mem_keys_mset _ _ _ _).1 hk with e | e
          · subst e
            apply h kv hkv'
            rw [hrest]
            exact List.mem_cons_of_mem _ hpid
          · exact hb'.2 k e
    · exact hb

theorem addKids_get (es : List (Int × Int)) :
    ∀ (kids : List (Int × List Int)) (r : Int),
      (mget (addKids es kids) r).getD [] =
        (mget kids r).getD [] ++ (es.filter (fun kv => decide (kv.2 = r))).map Prod.fst := by
  induction es with
  | nil => intro kids r; simp [addKids]
  | cons kv es ih =>
    intro kids r
    have hstep : addKids (kv :: es) kids =
        addKids es (mset kids kv.2 ((mget kids kv.2).getD [] ++ [kv.1])) := rfl
    rw [hstep, ih, mget_mset]
    by_cases e : kv.2 = r
    · subst e
      simp
    · simp [e]

theorem kidsMap_get (ρ : RangeOrder) (childOf siblingOf : List (Int × Int)) (r : Int) :
    (mget (kidsMap ρ childOf siblingOf) r).getD [] =
      ((ρ.ints childOf).filter (fun kv => decide (kv.2 = r))).map Prod.fst ++
        ((ρ.ints siblingOf).filter (fun kv => decide (kv.2 = r))).map Prod.fst := by
  unfold kidsMap
  rw [addKids_get, addKids_get]
  simp [mget]

theorem mem_filter_keys (ρ : RangeOrder) (m : List (Int × Int))
    (hnd : (m.map Prod.fst).Nodup) (r k : Int) :
    k ∈ ((ρ.ints m).filter (fun kv => decide (kv.2 = r))).map Prod.fst ↔
      mget m k = some r := by
  constructor
  · intro h
    obtain ⟨kv, hkv, rfl⟩ := List.mem_map.1 h
    obtain ⟨h1, h2⟩ := List.mem_filter.1 hkv
    have h3 : kv ∈ m := (ρ.ints_perm m).mem_iff.1 h1
    have h4 : kv.2 = r := by simpa using h2
    apply mget_of_mem m hnd
    rw [← h4]
    exact h3
  · intro h
    have h1 : (k, r) ∈ ρ.ints m := (ρ.ints_perm m).mem_iff.2 (mget_mem _ _ _ h)
    exact List.mem_map.2 ⟨(k, r), List.mem_filter.2 ⟨h1, by simp⟩, rfl⟩

theorem nodup_filter_keys (ρ : RangeOrder) (m : List (Int × Int))
    (hnd : (m.map Prod.fst).Nodup) (r : Int) :
    (((ρ.ints m).filter (fun kv => decide (kv.2 = r))).map Prod.fst).Nodup := by
  have h1 : ((ρ.ints m).map Prod.fst).Nodup :=
    ((ρ.ints_perm m).map Prod.fst).nodup_iff.2 hnd
  exact List.Nodup.sublist (List.Sublist.map _ (List.filter_sublist _)) h1

/-- The facts about `childOf` and `siblingOf` on which step 5 relies. -/
theorem kids_mem (ρ : RangeOrder) (C S : List (Int × Int))
    (hC : (C.map Prod.fst).Nodup) (hS : (S.map Prod.fst).Nodup) (r k : Int) :
    k ∈ (mget (kidsMap ρ C S) r).getD [] ↔ mget C k = some r ∨ mget S k = some r := by
  rw [kidsMap_get, List.mem_append, mem_filter_keys ρ C hC, mem_filter_keys ρ S hS]

theorem kids_nodup (ρ : RangeOrder) (C S : List (Int × Int))
    (hC : (C.map Prod.fst).Nodup) (hS : (S.map Prod.fst).Nodup)
    (hCS : ∀ k ∈ S.map Prod.fst, mget C k = none) (r : Int) :
    ((mget (kidsMap ρ C S) r).getD []).Nodup := by
  rw [kidsMap_get]
  apply List.Nodup.append (nodup_filter_keys ρ C hC r) (nodup_filter_keys ρ S hS r)
  intro k h1 h2
  rw [mem_filter_keys ρ C hC] at h1
  rw [mem_filter_keys ρ S hS] at h2
  have h3 : k ∈ S.map Prod.fst := (mget_isSome_iff S k).1 (by rw [h2]; rfl)
  rw [hCS k h3] at h1
  cases h1

/-! ## The groups emitted by step 5 are pairwise distinct -/

theorem childOfFor_nodup (items : List PortInfo) :
    ((childOfFor items).map Prod.fst).Nodup :=
  childOfMap_nodup _ _ _

theorem siblingOfFor_nodup (ρ : RangeOrder) (items : List PortInfo) :
    ((siblingOfFor ρ items).map Prod.fst).Nodup :=
  (siblingOfMap_inv ρ (childOfFor items) _ (ppidPeersMap_notChild _ _ _ _)).1

theorem siblingOfFor_notChild (ρ : RangeOrder) (items : List PortInfo) :
    ∀ k ∈ (siblingOfFor ρ items).map Prod.fst, mget (childOfFor items) k = none :=
  (siblingOfMap_inv ρ (childOfFor items) _ (ppidPeersMap_notChild _ _ _ _)).2

theorem kidsFor_mem (ρ : RangeOrder) (items : List PortInfo) (r k : Int) :
    k ∈ (mget (kidsFor ρ items) r).getD [] ↔
      mget (childOfFor items) k = some r ∨ mget (siblingOfFor ρ items) k = some r :=
  kids_mem ρ _ _ (childOfFor_nodup items) (siblingOfFor_nodup ρ items) r k

theorem kidsFor_nodup (ρ : RangeOrder) (items : List PortInfo) (r : Int) :
    ((mget (kidsFor ρ items) r).getD []).Nodup :=
  kids_nodup ρ _ _ (childOfFor_nodup items) (siblingOfFor_nodup ρ items)
    (siblingOfFor_notChild ρ items) r

theorem rootCalls_fst (C S : List (Int × Int)) (K : List (Int × List Int)) (r : Int) :
    (rootCalls C S K r).map Prod.fst =
      if (mget C r).isSome = true ∨ (mget S r).isSome = true then []
      else r :: (mget K r).getD [] := by
  unfold rootCalls
  by_cases h1 : (mget C r).isSome = true
  · simp [h1]
  · by_cases h2 : (mget S r).isSome = true
    · simp [h1, h2]
    · simp [h1, h2, kidCalls_fst]

theorem mem_rootCalls_fst (ρ : RangeOrder) (items : List PortInfo) (r x : Int)
    (h : x ∈ (rootCalls (childOfFor items) (siblingOfFor ρ items) (kidsFor ρ items) r).map
      Prod.fst) :
    (mget (childOfFor items) r).isSome = false ∧ (mget (siblingOfFor ρ items) r).isSome = false ∧
      (x = r ∨ mget (childOfFor items) x = some r ∨ mget (siblingOfFor ρ items) x = some r) := by
  rw [rootCalls_fst] at h
  split at h
  · simp at h
  · rename_i hroot
    have hroot' := not_or.1 hroot
    refine ⟨by simpa using hroot'.1, by simpa using hroot'.2, ?_⟩
    rcases List.mem_cons.1 h with e | e
    · exact Or.inl e
    · exact Or.inr ((kidsFor_mem ρ items r x).1 e)

theorem callsFor_nodup (ρ : RangeOrder) (items : List PortInfo) :
    ((callsFor ρ items).map Prod.fst).Nodup := by
  unfold callsFor
  rw [List.map_flatMap, List.nodup_flatMap]
  constructor
  · intro r _
    rw [rootCalls_fst]
    split
    · exact List.nodup_nil
    · rename_i hroot
      have hroot' := not_or.1 hroot
      refine List.nodup_cons.2 ⟨?_, kidsFor_nodup ρ items r⟩
      intro hmem
      rcases (kidsFor_mem ρ items r r).1 hmem with e | e
      · exact hroot'.1 (by rw [e]; rfl)
      · exact hroot'.2 (by rw [e]; rfl)
  · refine List.Pairwise.imp ?_ (groupByPID_inv items).nodup
    intro a b hab x hxa hxb
    obtain ⟨ha1, ha2, ha3⟩ := mem_rootCalls_fst ρ items a x hxa
    obtain ⟨hb1, hb2, hb3⟩ := mem_rootCalls_fst ρ items b x hxb
    have hSC := siblingOfFor_notChild ρ items x
    rcases ha3 with e | e | e
    · subst e
      rcases hb3 with e' | e' | e'
      · exact hab e'
      · rw [e'] at ha1; cases ha1
      · rw [e'] at ha2; cases ha2
    · rcases hb3 with e' | e' | e'
      · subst e'
        rw [e] at hb1; cases hb1
      · rw [e] at e'
        exact hab (Option.some.inj e')
      · have := hSC ((mget_isSome_iff _ _).1 (by rw [e']; rfl))
        rw [this] at e; cases e
    · rcases hb3 with e' | e' | e'
      · subst e'
        rw [e] at hb2; cases hb2
      · have := hSC ((mget_isSome_iff _ _).1 (by rw [e]; rfl))
        rw [this] at e'; cases e'
      · rw [e] at e'
        exact hab (Option.some.inj e')

/-- The child flag of a call of `appendGroup`: set exactly for the PIDs that
are keys of `childOf` or `siblingOf`. -/
theorem callsFor_flag (ρ : RangeOrder) (items : List PortInfo) :
    ∀ c ∈ callsFor ρ items, (c.2.2 = true ↔
      ((mget (childOfFor items) c.1).isSome = true ∨
        (mget (siblingOfFor ρ items) c.1).isSome = true)) := by
  intro c hc
  obtain ⟨r, _, hcr⟩ := List.mem_flatMap.1 hc
  obtain ⟨h1, h2, h3⟩ := mem_rootCalls_fst ρ items r c.1 (List.mem_map_of_mem _ hcr)
  unfold rootCalls at hcr
  simp only [h1, h2, Bool.false_eq_true, if_false, List.mem_cons] at hcr
  rcases hcr with e | e
  · subst e
    simp [h1, h2]
  · have hk := kidCalls_child _ _ _ c e
    have hmem : c.1 ∈ (mget (kidsFor ρ items) r).getD [] := by
      have := List.mem_map_of_mem Prod.fst e
      rwa [kidCalls_fst] at this
    rcases (kidsFor_mem ρ items r c.1).1 hmem with e' | e'
    · simp [hk, e']
    · simp [hk, e']

theorem buildRows_eq_calls (ρ : RangeOrder) (items : List PortInfo) :
    buildRows ρ items = (callsFor ρ items).flatMap
      (fun c => appendGroup items (groupByPID items).pidGroups (kidsFor ρ items)
        c.1 c.2.1 c.2.2) :=
  flatMap_rootRows_eq items _ _ _ _ _

/-! ## Same-PID records are contiguous -/

theorem flatMap_block {α β : Type} (key : α → Int) (f : α → List β) (pidOf : β → Int)
    (pid : Int) (calls : List α) (hnd : (calls.map key).Nodup)
    (hf : ∀ c ∈ calls, ∀ r ∈ f c, pidOf r = key c) :
    (∀ r ∈ calls.flatMap f, pidOf r ≠ pid) ∨
      ∃ c pre post, c ∈ calls ∧ key c = pid ∧ calls.flatMap f = pre ++ f c ++ post ∧
        (∀ r ∈ pre, pidOf r ≠ pid) ∧ (∀ r ∈ post, pidOf r ≠ pid) := by
  by_cases h : pid ∈ calls.map key
  · right
    obtain ⟨c, hc, hkey⟩ := List.mem_map.1 h
    obtain ⟨l₁, l₂, hl⟩ := List.append_of_mem hc
    subst hl
    rw [List.map_append, List.map_cons, List.nodup_append] at hnd
    obtain ⟨_, hnd2, hdis⟩ := hnd
    have hdis1 : ∀ a ∈ l₁, key a ≠ key c := by
      intro a ha e
      exact hdis (List.mem_map_of_mem key ha) (e ▸ List.mem_cons_self _ _)
    have hdis2 : ∀ a ∈ l₂, key a ≠ key c := by
      intro a ha e
      exact (List.nodup_cons.1 hnd2).1 (e ▸ List.mem_map_of_mem key ha)
    refine ⟨c, l₁.flatMap f, l₂.flatMap f, hc, hkey, by simp, ?_, ?_⟩
    · intro r hr
      obtain ⟨a, ha, hra⟩ := List.mem_flatMap.1 hr
      rw [hf a (List.mem_append_left _ ha) r hra, ← hkey]
      exact hdis1 a ha
    · intro r hr
      obtain ⟨a, ha, hra⟩ := List.mem_flatMap.1 hr
      rw [hf a (List.mem_append_right _ (List.mem_cons_of_mem _ ha)) r hra, ← hkey]
      exact hdis2 a ha
  · left
    intro r hr e
    obtain ⟨a, ha, hra⟩ := List.mem_flatMap.1 hr
    apply h
    rw [← e, hf a ha r hra]
    exact List.mem_map_of_mem key ha

/-- The rows of one PID in the output of `buildRows`: either there is none, or
they form one block made of all the records of that PID in input order, whose
first row carries the child flag of its `appendGroup` call and whose other rows
are marked as children. -/
theorem buildRows_block (ρ : RangeOrder) (items : List PortInfo) (pid : Int) :
    (∀ r ∈ buildRows ρ items, r.1.PID ≠ pid) ∨
      ∃ (pre post tl : List (PortInfo × rowMeta)) (hd : PortInfo × rowMeta),
        buildRows ρ items = pre ++ hd :: tl ++ post ∧
        (∀ r ∈ pre, r.1.PID ≠ pid) ∧ (∀ r ∈ post, r.1.PID ≠ pid) ∧
        (hd :: tl).map Prod.fst = items.filter (fun q => decide (q.PID = pid)) ∧
        (∀ r ∈ tl, r.2.isChild = true) ∧
        (hd.2.isChild = true ↔
          ((mget (childOfFor items) pid).isSome = true ∨
            (mget (siblingOfFor ρ items) pid).isSome = true)) := by
  rw [buildRows_eq_calls]
  rcases flatMap_block (fun c : Int × String × Bool => c.1)
      (fun c => appendGroup items (groupByPID items).pidGroups (kidsFor ρ items)
        c.1 c.2.1 c.2.2)
      (fun r : PortInfo × rowMeta => r.1.PID) pid (callsFor ρ items)
      (callsFor_nodup ρ items)
      (fun c _ r hr => appendGroup_pid items _ c.1 c.2.1 c.2.2 r hr) with h | h
  · exact Or.inl h
  · obtain ⟨c, pre, post, hc, hkey, heq, hpre, hpost⟩ := h
    by_cases hp : pid ∈ items.map PortInfo.PID
    · right
      obtain ⟨p, tl, h1, h2, h3⟩ :=
        appendGroup_spec items (kidsFor ρ items) pid c.2.1 c.2.2 hp
      refine ⟨pre, post, tl, (p, { treePrefix := c.2.1, isChild := c.2.2 }), ?_, hpre, hpost,
        ?_, h3, ?_⟩
      · rw [heq, hkey, h1]
      · simpa using h2
      · have := callsFor_flag ρ items c hc
        rw [hkey] at this
        exact this
    · left
      intro r hr
      rw [heq, hkey, appendGroup_absent items _ pid _ _ hp] at hr
      simp only [List.append_nil, List.mem_append] at hr
      rcases hr with hr | hr
      · exact hpre r hr
      · exact hpost r hr

/-! ## Records dropped by `buildTree` -/

theorem chainList_no_grandchild (ρ : RangeOrder) :
    ∀ r ∈ buildRows ρ chainList, r.1.PID ≠ 30 := by
  intro r hr e
  rw [buildRows_eq_calls] at hr
  obtain ⟨c, hc, hrc⟩ := List.mem_flatMap.1 hr
  have hpid := appendGroup_pid _ _ _ _ _ r hrc
  have hc30 : c.1 = 30 := by rw [← hpid]; exact e
  obtain ⟨root, _, hcr⟩ := List.mem_flatMap.1 hc
  obtain ⟨h1, _, h3⟩ := mem_rootCalls_fst ρ chainList root c.1 (List.mem_map_of_mem _ hcr)
  have hC30 : mget (childOfFor chainList) 30 = some 20 := by decide
  have hC20 : mget (childOfFor chainList) 20 = some 10 := by decide
  rw [hc30] at h3
  rcases h3 with e1 | e1 | e1
  · rw [← e1, hC30] at h1
    cases h1
  · rw [hC30] at e1
    have : root = 20 := (Option.some.inj e1).symm
    rw [this, hC20] at h1
    cases h1
  · have := siblingOfFor_notChild ρ chainList 30
      ((mget_isSome_iff _ _).1 (by rw [e1]; rfl))
    rw [hC30] at this
    cases this

/-- C1 (failing input): for the chain 10 → 20 → 30, whatever the iteration
order of the maps, the record of the grandchild (PID 30) is absent from the
output of `buildTree`, which is therefore not a permutation of the input. -/
theorem buildTree_drops_grandchild (ρ : RangeOrder) :
    mkPort 8002 30 20 ∈ chainList ∧
      mkPort 8002 30 20 ∉ (buildTree ρ chainList).1 ∧
      ¬ (buildTree ρ chainList).1.Perm chainList := by
  have hnot : mkPort 8002 30 20 ∉ (buildTree ρ chainList).1 := by
    intro h
    obtain ⟨r, hr, hrp⟩ := List.mem_map.1 h
    exact chainList_no_grandchild ρ r hr (by rw [hrp]; rfl)
  refine ⟨by decide, hnot, ?_⟩
  intro hperm
  exact hnot (hperm.mem_iff.2 (by decide))

/-- C2 (failing input): in the chain 10 → 20 → 30 the records A (PID 30) and
B (PID 20) have different PIDs, A is the only record of its PID and
A.PPID = B.PID > 1, yet no row of the output of `buildTree` carries the PID of A:
A is neither listed nor marked as a child. -/
theorem buildTree_child_of_child_missing (ρ : RangeOrder) :
    mkPort 8002 30 20 ∈ chainList ∧ mkPort 8001 20 10 ∈ chainList ∧
      (mkPort 8002 30 20).PPID = (mkPort 8001 20 10).PID ∧ (mkPort 8001 20 10).PID > 1 ∧
      chainList.filter (fun q => decide (q.PID = 30)) = [mkPort 8002 30 20] ∧
      ∀ p ∈ (buildTree ρ chainList).1, p.PID ≠ 30 := by
  refine ⟨by decide, by decide, by decide, by decide, by decide, ?_⟩
  intro p hp
  obtain ⟨r, hr, hrp⟩ := List.mem_map.1 hp
  rw [← hrp]
  exact chainList_no_grandchild ρ r hr

/-! ## Claim C3 -/

/-- C3 (counterexample): for a parent (PID 50) followed by its child
(PID 101), the only row of PID 101, which is the head of its group, is marked
as a child. -/
theorem buildTree_head_marked_child :
    ¬ headsNotChild (buildTree insertionOrder [mkPort 9000 50 1, mkPort 9001 101 50]).1
        (buildTree insertionOrder [mkPort 9000 50 1, mkPort 9001 101 50]).2 := by
  intro h
  have h1 := h 1 (mkPort 9001 101 50) { treePrefix := "└─ ", isChild := true }
    (by decide) (by decide)
    (by
      intro j q hj hq
      have hj0 : j = 0 := by omega
      subst hj0
      have : q = mkPort 9000 50 1 := by
        have h0 : (buildTree insertionOrder [mkPort 9000 50 1, mkPort 9001 101 50]).1[0]? =
            some (mkPort 9000 50 1) := by decide
        rw [h0] at hq
        exact (Option.some.inj hq).symm
      subst this
      decide)
  cases h1

/-- C3 (amended): for every input list and every PID, the records of that PID
in the output of `buildTree` are either absent or occupy one run of consecutive
positions holding all the records of that PID in their input order (so the
first is the first input occurrence, the group head); every row of the run
after the first is marked as a child, and the head is marked as a child exactly
when its PID is a key of `childOf` or `siblingOf`, that is when its group is
listed under another group. -/
theorem buildTree_samePID_contiguous (ρ : RangeOrder) (items : List PortInfo) (pid : Int) :
    (∀ p ∈ (buildTree ρ items).1, p.PID ≠ pid) ∨
      ∃ (pre post : List PortInfo) (mpre mpost mtl : List rowMeta) (mhd : rowMeta),
        (buildTree ρ items).1 =
          pre ++ items.filter (fun q => decide (q.PID = pid)) ++ post ∧
        (buildTree ρ items).2 = mpre ++ mhd :: mtl ++ mpost ∧
        mpre.length = pre.length ∧
        (mhd :: mtl).length = (items.filter (fun q => decide (q.PID = pid))).length ∧
        (∀ p ∈ pre, p.PID ≠ pid) ∧ (∀ p ∈ post, p.PID ≠ pid) ∧
        (∀ m ∈ mtl, m.isChild = true) ∧
        (mhd.isChild = true ↔
          ((mget (childOfFor items) pid).isSome = true ∨
            (mget (siblingOfFor ρ items) pid).isSome = true)) := by
  rcases buildRows_block ρ items pid with h | h
  · left
    intro p hp
    obtain ⟨r, hr, hrp⟩ := List.mem_map.1 hp
    rw [← hrp]
    exact h r hr
  · right
    obtain ⟨pre, post, tl, hd, heq, hpre, hpost, hrec, htl, hflag⟩ := h
    refine ⟨pre.map Prod.fst, post.map Prod.fst, pre.map Prod.snd, post.map Prod.snd,
      tl.map Prod.snd, hd.2, ?_, ?_, by simp, ?_, ?_, ?_, ?_, hflag⟩
    · simp only [buildTree, heq, ← hrec]
      simp
    · simp only [buildTree, heq]
      simp
    · rw [← hrec]
      simp
    · intro p hp
      obtain ⟨r, hr, hrp⟩ := List.mem_map.1 hp
      rw [← hrp]
      exact hpre r hr
    · intro p hp
      obtain ⟨r, hr, hrp⟩ := List.mem_map.1 hp
      rw [← hrp]
      exact hpost r hr
    · intro m hm
      obtain ⟨r, hr, hrm⟩ := List.mem_map.1 hm
      rw [← hrm]
      exact htl r hr

/-! ## The state machine: what one `Update` does to the confirm dialog -/

theorem applyFilter_confirm (L : Libs) (ρ : RangeOrder) (m m' : Model)
    (h : applyFilter L ρ m = some m') :
    m'.confirm = m.confirm ∧ m'.scanning = m.scanning ∧ m'.err = m.err := by
  unfold applyFilter at h
  obtain ⟨t, _, ht⟩ := Option.map_eq_some'.1 h
  subst ht
  exact ⟨rfl, rfl, rfl⟩

theorem passToFilter_confirm (L : Libs) (ρ : RangeOrder) (m m' : Model) (msg : Msg)
    (cmd : Cmd) (h : passToFilter L ρ m msg = some (m', cmd)) :
    m'.confirm = m.confirm ∧ m'.scanning = m.scanning ∧ m'.err = m.err ∧
      ∀ r ∈ cmd, ∃ tag, r = Request.input tag := by
  unfold passToFilter at h
  obtain ⟨m1, hm1, he⟩ := Option.map_eq_some'.1 h
  obtain ⟨h1, h2, h3⟩ := applyFilter_confirm L ρ _ _ hm1
  simp only [Prod.mk.injEq] at he
  obtain ⟨e1, e2⟩ := he
  subst e1
  refine ⟨h1, h2, h3, ?_⟩
  intro r hr
  rw [← e2] at hr
  unfold inputCmd at hr
  obtain ⟨tag, _, ht⟩ := List.mem_map.1 hr
  exact ⟨tag, ht.symm⟩

theorem mainKey_cases (L : Libs) (ρ : RangeOrder) (m m' : Model) (k : String) (cmd : Cmd)
    (h : mainKey L ρ m k = some (m', cmd)) :
      (keyMatches k keysRefresh = true ∧ m'.confirm = m.confirm ∧ m'.scanning = true ∧
        cmd = scanCmd) ∨
      (m'.scanning = m.scanning ∧ cmd = [] ∧
        ∃ t f kp, m'.confirm = { visible := true, target := t, force := f, killParent := kp } ∧
          (kp = true → t.PPID > 1)) ∨
      (m'.confirm = m.confirm ∧ m'.scanning = m.scanning ∧
        ∀ r ∈ cmd, r = Request.quit ∨ ∃ tag, r = Request.input tag) := by
  unfold mainKey at h
  by_cases c1 : keyMatches k keysQuit = true
  · rw [if_pos c1] at h
    simp only [Option.some.injEq, Prod.mk.injEq] at h
    obtain ⟨rfl, rfl⟩ := h
    exact Or.inr (Or.inr ⟨rfl, rfl, by simp⟩)
  rw [if_neg c1] at h
  by_cases c2 : keyMatches k keysFilter = true
  · rw [if_pos c2] at h
    simp only [Option.some.injEq, Prod.mk.injEq] at h
    obtain ⟨rfl, rfl⟩ := h
    refine Or.inr (Or.inr ⟨rfl, rfl, ?_⟩)
    intro r hr
    obtain ⟨tag, _, ht⟩ := List.mem_map.1 hr
    exact Or.inr ⟨tag, ht.symm⟩
  rw [if_neg c2] at h
  by_cases c3 : keyMatches k keysKill = true
  · rw [if_pos c3] at h
    cases hs : selectedPort m with
    | none =>
      rw [hs] at h
      simp only [Option.some.injEq, Prod.mk.injEq] at h
      obtain ⟨rfl, rfl⟩ := h
      exact Or.inr (Or.inr ⟨rfl, rfl, by simp⟩)
    | some t =>
      rw [hs] at h
      simp only [Option.some.injEq, Prod.mk.injEq] at h
      obtain ⟨rfl, rfl⟩ := h
      exact Or.inr (Or.inl ⟨rfl, rfl, t, false, false, rfl, by simp⟩)
  rw [if_neg c3] at h
  by_cases c4 : keyMatches k keysForceK = true
  · rw [if_pos c4] at h
    cases hs : selectedPort m with
    | none =>
      rw [hs] at h
      simp only [Option.some.injEq, Prod.mk.injEq] at h
      obtain ⟨rfl, rfl⟩ := h
      exact Or.inr (Or.inr ⟨rfl, rfl, by simp⟩)
    | some t =>
      rw [hs] at h
      simp only [Option.some.injEq, Prod.mk.injEq] at h
      obtain ⟨rfl, rfl⟩ := h
      exact Or.inr (Or.inl ⟨rfl, rfl, t, true, false, rfl, by simp⟩)
  rw [if_neg c4] at h
  by_cases c5 : keyMatches k keysKillParent = true
  · rw [if_pos c5] at h
    cases hs : selectedPort m with
    | none =>
      rw [hs] at h
      simp only [Option.some.injEq, Prod.mk.injEq] at h
      obtain ⟨rfl, rfl⟩ := h
      exact Or.inr (Or.inr ⟨rfl, rfl, by simp⟩)
    | some t =>
      rw [hs] at h
      by_cases hp : t.PPID > 1
      · simp only [hp, if_true, Option.some.injEq, Prod.mk.injEq] at h
        obtain ⟨rfl, rfl⟩ := h
        exact Or.inr (Or.inl ⟨rfl, rfl, t, false, true, rfl, fun _ => hp⟩)
      · simp only [hp, if_false, Option.some.injEq, Prod.mk.injEq] at h
        obtain ⟨rfl, rfl⟩ := h
        exact Or.inr (Or.inr ⟨rfl, rfl, by simp⟩)
  rw [if_neg c5] at h
  by_cases c6 : keyMatches k keysEnter = true
  · rw [if_pos c6] at h
    obtain ⟨t, _, ht⟩ := Option.map_eq_some'.1 h
    simp only [Prod.mk.injEq] at ht
    obtain ⟨rfl, rfl⟩ := ht
    exact Or.inr (Or.inr ⟨rfl, rfl, by simp⟩)
  rw [if_neg c6] at h
  by_cases c7 : keyMatches k keysEscape = true
  · rw [if_pos c7] at h
    simp only [Option.some.injEq, Prod.mk.injEq] at h
    obtain ⟨rfl, rfl⟩ := h
    exact Or.inr (Or.inr ⟨rfl, rfl, by simp⟩)
  rw [if_neg c7] at h
  by_cases c8 : keyMatches k keysSort = true
  · rw [if_pos c8] at h
    obtain ⟨t, _, ht⟩ := Option.map_eq_some'.1 h
    simp only [Prod.mk.injEq] at ht
    obtain ⟨rfl, rfl⟩ := ht
    exact Or.inr (Or.inr ⟨rfl, rfl, by simp⟩)
  rw [if_neg c8] at h
  by_cases c9 : keyMatches k keysSortRev = true
  · rw [if_pos c9] at h
    obtain ⟨t, _, ht⟩ := Option.map_eq_some'.1 h
    simp only [Prod.mk.injEq] at ht
    obtain ⟨rfl, rfl⟩ := ht
    exact Or.inr (Or.inr ⟨rfl, rfl, by simp⟩)
  rw [if_neg c9] at h
  by_cases c10 : keyMatches k keysSystem = true
  · rw [if_pos c10] at h
    obtain ⟨m1, hm1, he⟩ := Option.map_eq_some'.1 h
    obtain ⟨h1, h2, _⟩ := applyFilter_confirm L ρ _ _ hm1
    simp only [Prod.mk.injEq] at he
    obtain ⟨rfl, rfl⟩ := he
    exact Or.inr (Or.inr ⟨h1, h2, by simp⟩)
  rw [if_neg c10] at h
  by_cases c11 : keyMatches k keysTree = true
  · rw [if_pos c11] at h
    obtain ⟨t, _, ht⟩ := Option.map_eq_some'.1 h
    simp only [Prod.mk.injEq] at ht
    obtain ⟨rfl, rfl⟩ := ht
    exact Or.inr (Or.inr ⟨rfl, rfl, by simp⟩)
  rw [if_neg c11] at h
  by_cases c12 : keyMatches k keysRefresh = true
  · rw [if_pos c12] at h
    simp only [Option.some.injEq, Prod.mk.injEq] at h
    obtain ⟨rfl, rfl⟩ := h
    exact Or.inl ⟨c12, rfl, rfl, rfl⟩
  rw [if_neg c12] at h
  by_cases c13 : keyMatches k keysHelp = true
  · rw [if_pos c13] at h
    simp only [Option.some.injEq, Prod.mk.injEq] at h
    obtain ⟨rfl, rfl⟩ := h
    exact Or.inr (Or.inr ⟨rfl, rfl, by simp⟩)
  rw [if_neg c13] at h
  by_cases c14 : keyMatches k keysUp = true
  · rw [if_pos c14] at h
    obtain ⟨t, _, ht⟩ := Option.map_eq_some'.1 h
    simp only [Prod.mk.injEq] at ht
    obtain ⟨rfl, rfl⟩ := ht
    exact Or.inr (Or.inr ⟨rfl, rfl, by simp⟩)
  rw [if_neg c14] at h
  by_cases c15 : keyMatches k keysDown = true
  · rw [if_pos c15] at h
    obtain ⟨t, _, ht⟩ := Option.map_eq_some'.1 h
    simp only [Prod.mk.injEq] at ht
    obtain ⟨rfl, rfl⟩ := ht
    exact Or.inr (Or.inr ⟨rfl, rfl, by simp⟩)
  rw [if_neg c15] at h
  simp only [Option.some.injEq, Prod.mk.injEq] at h
  obtain ⟨rfl, rfl⟩ := h
  exact Or.inr (Or.inr ⟨rfl, rfl, by simp⟩)

theorem confirmKey_cases (m m' : Model) (k : String) (cmd : Cmd)
    (h : confirmKey m k = some (m', cmd)) :
    (keyMatches k ["y", "Y"] = true ∧ m'.confirm = m.confirm.hide ∧
        m'.scanning = m.scanning ∧
        cmd = killCmd (if m.confirm.killParent then m.confirm.target.PPID
          else m.confirm.target.PID) m.confirm.force) ∨
      ((m'.confirm = m.confirm ∨ m'.confirm = m.confirm.hide) ∧ m'.scanning = m.scanning ∧
        cmd = []) := by
  unfold confirmKey at h
  by_cases c1 : keyMatches k ["y", "Y"] = true
  · rw [if_pos c1] at h
    simp only [Option.some.injEq, Prod.mk.injEq] at h
    obtain ⟨rfl, rfl⟩ := h
    exact Or.inl ⟨c1, rfl, rfl, rfl⟩
  rw [if_neg c1] at h
  by_cases c2 : keyMatches k ["n", "N", "esc"] = true
  · rw [if_pos c2] at h
    simp only [Option.some.injEq, Prod.mk.injEq] at h
    obtain ⟨rfl, rfl⟩ := h
    exact Or.inr ⟨Or.inr rfl, rfl, rfl⟩
  rw [if_neg c2] at h
  simp only [Option.some.injEq, Prod.mk.injEq] at h
  obtain ⟨rfl, rfl⟩ := h
  exact Or.inr ⟨Or.inl rfl, rfl, rfl⟩

theorem filterKey_cases (L : Libs) (ρ : RangeOrder) (m m' : Model) (k : String) (cmd : Cmd)
    (h : filterKey L ρ m k = some (m', cmd)) :
    m'.confirm = m.confirm ∧ m'.scanning = m.scanning ∧
      ∀ r ∈ cmd, ∃ tag, r = Request.input tag := by
  unfold filterKey at h
  by_cases c1 : keyMatches k keysEscape = true
  · rw [if_pos c1] at h
    obtain ⟨m1, hm1, he⟩ := Option.map_eq_some'.1 h
    obtain ⟨h1, h2, _⟩ := applyFilter_confirm L ρ _ _ hm1
    simp only [Prod.mk.injEq] at he
    obtain ⟨rfl, rfl⟩ := he
    exact ⟨h1, h2, by simp⟩
  rw [if_neg c1] at h
  by_cases c2 : keyMatches k ["enter"] = true
  · rw [if_pos c2] at h
    simp only [Option.some.injEq, Prod.mk.injEq] at h
    obtain ⟨rfl, rfl⟩ := h
    exact ⟨rfl, rfl, by simp⟩
  rw [if_neg c2] at h
  obtain ⟨h1, h2, _, h4⟩ := passToFilter_confirm L ρ m m' _ cmd h
  exact ⟨h1, h2, h4⟩

theorem handleKey_cases (L : Libs) (ρ : RangeOrder) (m m' : Model) (k : String) (cmd : Cmd)
    (h : handleKey L ρ m k = some (m', cmd)) :
    (m.confirm.visible = true ∧ m'.confirm = m.confirm.hide ∧ m'.scanning = m.scanning ∧
        cmd = killCmd (if m.confirm.killParent then m.confirm.target.PPID
          else m.confirm.target.PID) m.confirm.force) ∨
      (forcesScan m (Msg.key k) = true ∧ m'.confirm = m.confirm ∧ m'.scanning = true ∧
        cmd = scanCmd) ∨
      (m.confirm.visible = false ∧ m'.scanning = m.scanning ∧ cmd = [] ∧
        ∃ t f kp, m'.confirm = { visible := true, target := t, force := f, killParent := kp } ∧
          (kp = true → t.PPID > 1)) ∨
      ((m'.confirm = m.confirm ∨ m'.confirm = m.confirm.hide) ∧ m'.scanning = m.scanning ∧
        ∀ r ∈ cmd, r = Request.quit ∨ ∃ tag, r = Request.input tag) := by
  unfold handleKey at h
  by_cases hv : m.confirm.visible = true
  · rw [if_pos hv] at h
    rcases confirmKey_cases m m' k cmd h with ⟨_, h1, h2, h3⟩ | ⟨h1, h2, h3⟩
    · exact Or.inl ⟨hv, h1, h2, h3⟩
    · exact Or.inr (Or.inr (Or.inr ⟨h1, h2, by simp [h3]⟩))
  rw [if_neg hv] at h
  have hv' : m.confirm.visible = false := by simpa using hv
  by_cases hf : m.filter.active = true
  · rw [if_pos hf] at h
    obtain ⟨h1, h2, h3⟩ := filterKey_cases L ρ m m' k cmd h
    exact Or.inr (Or.inr (Or.inr ⟨Or.inl h1, h2, fun r hr => Or.inr (h3 r hr)⟩))
  rw [if_neg hf] at h
  have hf' : m.filter.active = false := by simpa using hf
  rcases mainKey_cases L ρ m m' k cmd h with ⟨h0, h1, h2, h3⟩ | ⟨h1, h2, h3⟩ | ⟨h1, h2, h3⟩
  · exact Or.inr (Or.inl ⟨by simp [forcesScan, hv', hf', h0], h1, h2, h3⟩)
  · exact Or.inr (Or.inr (Or.inl ⟨hv', h1, h2, h3⟩))
  · exact Or.inr (Or.inr (Or.inr ⟨Or.inl h1, h2, h3⟩))

/-- What one call of `Update` does to the confirm dialog, to the `scanning`
flag and which requests it issues.  The four cases are: the dialog is
confirmed (one terminate request), a scan is started, the dialog is opened,
and everything else (no scan and no terminate request). -/
theorem Update_cases (L : Libs) (ρ : RangeOrder) (m m' : Model) (msg : Msg) (cmd : Cmd)
    (h : Update L ρ m msg = some (m', cmd)) :
    (reportsScan msg = false ∧ m.confirm.visible = true ∧ m'.confirm = m.confirm.hide ∧
        m'.scanning = m.scanning ∧
        cmd = killCmd (if m.confirm.killParent then m.confirm.target.PPID
          else m.confirm.target.PID) m.confirm.force) ∨
      (reportsScan msg = false ∧
        (forcesScan m msg = true ∨ (msg = Msg.tick ∧ m.scanning = false)) ∧
        m'.confirm = m.confirm ∧ m'.scanning = true ∧ cmd.count Request.scan = 1 ∧
        ∀ pid sig, Request.kill pid sig ∉ cmd) ∨
      (reportsScan msg = false ∧ m.confirm.visible = false ∧ m'.scanning = m.scanning ∧
        cmd = [] ∧ ∃ t f kp, m'.confirm = { visible := true, target := t, force := f, killParent := kp } ∧
          (kp = true → t.PPID > 1)) ∨
      ((m'.confirm = m.confirm ∨ m'.confirm = m.confirm.hide) ∧
        (m'.scanning = m.scanning ∨ (reportsScan msg = true ∧ m'.scanning = false)) ∧
        ∀ r ∈ cmd, r = Request.quit ∨ (∃ tag, r = Request.input tag) ∨
          ∃ n, r = Request.tick n) := by
  cases msg with
  | windowSize w hgt =>
    simp only [Update, Option.some.injEq, Prod.mk.injEq] at h
    obtain ⟨rfl, rfl⟩ := h
    exact Or.inr (Or.inr (Or.inr ⟨Or.inl rfl, Or.inl rfl, by simp⟩))
  | portsUpdated ports =>
    simp only [Update] at h
    obtain ⟨m1, hm1, he⟩ := Option.map_eq_some'.1 h
    obtain ⟨h1, h2, _⟩ := applyFilter_confirm L ρ _ _ hm1
    simp only [Prod.mk.injEq] at he
    obtain ⟨rfl, rfl⟩ := he
    exact Or.inr (Or.inr (Or.inr ⟨Or.inl h1, Or.inr ⟨rfl, h2⟩, by simp⟩))
  | scanError err =>
    simp only [Update, Option.some.injEq, Prod.mk.injEq] at h
    obtain ⟨rfl, rfl⟩ := h
    exact Or.inr (Or.inr (Or.inr ⟨Or.inl rfl, Or.inr ⟨rfl, rfl⟩, by simp⟩))
  | tick =>
    simp only [Update] at h
    by_cases hs : m.scanning = true
    · simp only [hs, Bool.not_true, Bool.false_eq_true, if_false, Option.some.injEq,
        Prod.mk.injEq] at h
      obtain ⟨rfl, rfl⟩ := h
      refine Or.inr (Or.inr (Or.inr ⟨Or.inl rfl, Or.inl rfl, ?_⟩))
      intro r hr
      exact Or.inr (Or.inr ⟨_, by simpa [tickCmd] using hr⟩)
    · have hs' : m.scanning = false := by simpa using hs
      simp only [hs', Bool.not_false, if_true, Option.some.injEq, Prod.mk.injEq] at h
      obtain ⟨rfl, rfl⟩ := h
      refine Or.inr (Or.inl ⟨rfl, Or.inr ⟨rfl, hs'⟩, rfl, rfl, by simp [scanCmd, tickCmd], ?_⟩)
      intro pid sig hmem
      simp [scanCmd, tickCmd] at hmem
  | killResult pid err =>
    simp only [Update, Option.some.injEq, Prod.mk.injEq] at h
    obtain ⟨rfl, rfl⟩ := h
    refine Or.inr (Or.inl ⟨rfl, Or.inl rfl, rfl, rfl, by simp [scanCmd], ?_⟩)
    intro pid sig hmem
    simp [scanCmd] at hmem
  | key k =>
    simp only [Update] at h
    rcases handleKey_cases L ρ m m' k cmd h with h1 | ⟨h0, h1, h2, h3⟩ | h1 | ⟨h1, h2, h3⟩
    · exact Or.inl ⟨rfl, h1⟩
    · refine Or.inr (Or.inl ⟨rfl, Or.inl h0, h1, h2, by simp [h3, scanCmd], ?_⟩)
      intro pid sig hmem
      simp [h3, scanCmd] at hmem
    · exact Or.inr (Or.inr (Or.inl ⟨rfl, h1⟩))
    · refine Or.inr (Or.inr (Or.inr ⟨h1, Or.inl h2, ?_⟩))
      intro r hr
      rcases h3 r hr with e | e
      · exact Or.inl e
      · exact Or.inr (Or.inl e)
  | other tag =>
    simp only [Update] at h
    by_cases hf : m.filter.active = true
    · rw [if_pos hf] at h
      obtain ⟨h1, h2, _, h4⟩ := passToFilter_confirm L ρ m m' _ cmd h
      exact Or.inr (Or.inr (Or.inr ⟨Or.inl h1, Or.inl h2,
        fun r hr => Or.inr (Or.inl (h4 r hr))⟩))
    · rw [if_neg hf] at h
      simp only [Option.some.injEq, Prod.mk.injEq] at h
      obtain ⟨rfl, rfl⟩ := h
      exact Or.inr (Or.inr (Or.inr ⟨Or.inl rfl, Or.inl rfl, by simp⟩))

/-! ## Claim C4: kill-parent is never offered for PPID ≤ 1 -/

theorem killParent_inv (L : Libs) (m : Model) (h : Reachable L m) :
    m.confirm.killParent = true → m.confirm.target.PPID > 1 := by
  induction h with
  | init cfg => intro hk; simp [New] at hk
  | step ρ msg _ hup ih =>
    rcases Update_cases L ρ _ _ msg _ hup with ⟨_, _, h1, _⟩ | ⟨_, _, h1, _⟩ |
      ⟨_, _, _, _, t, f, kp, h1, h2⟩ | ⟨h1 | h1, _⟩
    · rw [h1]; exact ih
    · rw [h1]; exact ih
    · rw [h1]; exact h2
    · rw [h1]; exact ih
    · rw [h1]; exact ih

theorem selectedPort_eq_index (m : Model) :
    selectedPort m = index m.table.displayed m.table.cursor := by
  unfold selectedPort selectedIndex index
  by_cases h1 : m.table.cursor < 0
  · simp [h1]
  · by_cases h2 : m.table.cursor ≥ (m.table.displayed.length : Int)
    · have h3 : m.table.displayed.length ≤ m.table.cursor.toNat := by omega
      simp [h1, h2, List.getElem?_eq_none h3]
    · simp [h1, h2]

/-- C4: in every model state reachable from `New`, a visible confirm dialog
with `killParent` set has a target whose PPID is > 1; every terminate request
that `Update` issues from such a state while `killParent` is set has a pid > 1;
in Normal mode the kill-parent key on a selected record with PPID ≤ 1 leaves
the model unchanged (the dialog stays hidden) and issues no command; and in any
mode with the dialog hidden, the key `p` on such a record leaves the dialog
hidden and issues no terminate request. -/
theorem killParent_never_for_init (L : Libs) (m : Model) (h : Reachable L m) :
    (m.confirm.visible = true → m.confirm.killParent = true → m.confirm.target.PPID > 1) ∧
      (∀ (ρ : RangeOrder) (msg : Msg) (m' : Model) (cmd : Cmd) (pid : Int) (sig : Signal),
        Update L ρ m msg = some (m', cmd) → Request.kill pid sig ∈ cmd →
        m.confirm.killParent = true → pid > 1) ∧
      (∀ (ρ : RangeOrder) (target : PortInfo),
        m.confirm.visible = false → m.filter.active = false →
        selectedPort m = some target → target.PPID ≤ 1 →
        Update L ρ m (Msg.key "p") = some (m, [])) ∧
      (∀ (ρ : RangeOrder) (target : PortInfo) (m' : Model) (cmd : Cmd),
        m.confirm.visible = false → selectedPort m = some target → target.PPID ≤ 1 →
        Update L ρ m (Msg.key "p") = some (m', cmd) →
        m'.confirm.visible = false ∧ ∀ pid sig, Request.kill pid sig ∉ cmd) := by
  have hnormal : ∀ (ρ : RangeOrder) (target : PortInfo),
      m.confirm.visible = false → m.filter.active = false →
      selectedPort m = some target → target.PPID ≤ 1 →
      Update L ρ m (Msg.key "p") = some (m, []) := by
    intro ρ target hv hf hsel hp
    have hp' : ¬ target.PPID > 1 := by omega
    simp only [Update, handleKey, hv, hf, Bool.false_eq_true, if_false]
    unfold mainKey
    rw [if_neg (by decide), if_neg (by decide), if_neg (by decide), if_neg (by decide),
      if_pos (by decide), hsel]
    simp only [hp', if_false]
  refine ⟨fun _ => killParent_inv L m h, ?_, hnormal, ?_⟩
  · intro ρ msg m' cmd pid sig hup hmem hk
    rcases Update_cases L ρ _ _ msg _ hup with ⟨_, _, _, _, h3⟩ | ⟨_, _, _, _, _, h4⟩ |
      ⟨_, _, _, h3, _⟩ | ⟨_, _, h3⟩
    · rw [h3, hk] at hmem
      simp only [killCmd, if_true, List.mem_singleton, Request.kill.injEq] at hmem
      rw [hmem.1]
      exact killParent_inv L m h hk
    · exact absurd hmem (h4 pid sig)
    · rw [h3] at hmem
      simp at hmem
    · rcases h3 _ hmem with e | ⟨_, e⟩ | ⟨_, e⟩ <;> cases e
  · intro ρ target m' cmd hv hsel hp hup
    by_cases hf : m.filter.active = true
    · simp only [Update, handleKey, hv, hf, Bool.false_eq_true, if_false, if_true] at hup
      obtain ⟨h1, _, h3⟩ := filterKey_cases L ρ m m' "p" cmd hup
      refine ⟨by rw [h1]; exact hv, ?_⟩
      intro pid sig hmem
      obtain ⟨_, e⟩ := h3 _ hmem
      cases e
    · have hf' : m.filter.active = false := by simpa using hf
      rw [hnormal ρ target hv hf' hsel hp] at hup
      simp only [Option.some.injEq, Prod.mk.injEq] at hup
      obtain ⟨rfl, rfl⟩ := hup
      exact ⟨hv, by simp⟩

/-- C4 (witness): the state with the kill-parent dialog shown for the worker
is reachable, and there the parent PID is > 1. -/
theorem killParent_never_for_init_witness :
    Reachable plainLibs parentDialogModel ∧ parentDialogModel.confirm.target.PPID > 1 :=
  have hr : Reachable plainLibs parentDialogModel :=
    Reachable.step insertionOrder (Msg.key "p")
      (Reachable.step insertionOrder (Msg.portsUpdated [workerPort])
        (Reachable.init defaultConfig)
        (by decide : Update plainLibs insertionOrder (New defaultConfig)
          (Msg.portsUpdated [workerPort]) = some (workerModel, [])))
      (by decide : Update plainLibs insertionOrder workerModel (Msg.key "p") =
        some (parentDialogModel, []))
  ⟨hr, (killParent_never_for_init plainLibs parentDialogModel hr).1 rfl rfl⟩

/-! ## Claim C5: confirming the dialog -/

/-- C5: when the confirm dialog is visible and `y` or `Y` is pressed, `Update`
hides the dialog, changes nothing else and issues exactly one request: a
terminate request for the PPID of the target if `killParent` is set and for its
PID otherwise, with SIGKILL if `force` is set and SIGTERM otherwise. -/
theorem confirm_yes_kills (L : Libs) (ρ : RangeOrder) (m : Model) (k : String)
    (hv : m.confirm.visible = true) (hk : k = "y" ∨ k = "Y") :
    Update L ρ m (Msg.key k) =
      some ({ m with confirm := { m.confirm with visible := false } },
        [Request.kill
          (if m.confirm.killParent then m.confirm.target.PPID else m.confirm.target.PID)
          (if m.confirm.force then Signal.SIGKILL else Signal.SIGTERM)]) := by
  have hm : keyMatches k ["y", "Y"] = true := by
    rcases hk with rfl | rfl <;> decide
  simp only [Update, handleKey, hv, if_true, confirmKey, hm, killCmd, confirmDialog.hide]

/-- C5 (witness): example 4 of the specification: `force = false`,
`killParent = true` and PPID 100 give one graceful request for PID 100. -/
theorem confirm_yes_kills_witness :
    exampleDialogModel.confirm.visible = true ∧
      Update plainLibs insertionOrder exampleDialogModel (Msg.key "y") =
        some ({ exampleDialogModel with
                confirm := { exampleDialogModel.confirm with visible := false } },
          [Request.kill 100 Signal.SIGTERM]) :=
  ⟨rfl, confirm_yes_kills plainLibs insertionOrder exampleDialogModel "y" rfl (Or.inl rfl)⟩

/-! ## Claim C6: opening the confirm dialog -/

theorem index_nil {α : Type} (r : Int) : index ([] : List α) r = none := by
  unfold index
  split <;> simp

/-- C6: in Normal mode (dialog hidden, filter inactive), when the cursor is on
the displayed record `p`, the keys `k`, `K` and (if `p.PPID > 1`) `p` make the
dialog visible with target `p`, `force` set exactly for `K` and `killParent`
set exactly for `p`, changing nothing else and issuing no command; when there
is no row at the cursor, in particular when the table is empty, the three keys
leave the model unchanged. -/
theorem kill_keys_open_dialog (L : Libs) (ρ : RangeOrder) (m : Model)
    (hv : m.confirm.visible = false) (hf : m.filter.active = false) :
    (∀ p, index m.table.displayed m.table.cursor = some p →
      Update L ρ m (Msg.key "k") =
        some ({ m with confirm :=
          { visible := true, target := p, force := false, killParent := false } }, []) ∧
      Update L ρ m (Msg.key "K") =
        some ({ m with confirm :=
          { visible := true, target := p, force := true, killParent := false } }, []) ∧
      (p.PPID > 1 → Update L ρ m (Msg.key "p") =
        some ({ m with confirm :=
          { visible := true, target := p, force := false, killParent := true } }, []))) ∧
    (index m.table.displayed m.table.cursor = none →
      Update L ρ m (Msg.key "k") = some (m, []) ∧
      Update L ρ m (Msg.key "K") = some (m, []) ∧
      Update L ρ m (Msg.key "p") = some (m, [])) ∧
    (m.table.displayed = [] → index m.table.displayed m.table.cursor = none) := by
  have hk : ∀ o : Option PortInfo, selectedPort m = o →
      Update L ρ m (Msg.key "k") =
        match o with
        | some t => some ({ m with confirm := m.confirm.show t false false }, [])
        | none => some (m, []) := by
    intro o ho
    simp only [Update, handleKey, hv, hf, Bool.false_eq_true, if_false]
    unfold mainKey
    rw [if_neg (by decide), if_neg (by decide), if_pos (by decide), ho]
  have hK : ∀ o : Option PortInfo, selectedPort m = o →
      Update L ρ m (Msg.key "K") =
        match o with
        | some t => some ({ m with confirm := m.confirm.show t true false }, [])
        | none => some (m, []) := by
    intro o ho
    simp only [Update, handleKey, hv, hf, Bool.false_eq_true, if_false]
    unfold mainKey
    rw [if_neg (by decide), if_neg (by decide), if_neg (by decide), if_pos (by decide), ho]
  have hp : ∀ o : Option PortInfo, selectedPort m = o →
      Update L ρ m (Msg.key "p") =
        match o with
        | some t =>
          if t.PPID > 1 then some ({ m with confirm := m.confirm.show t false true }, [])
          else some (m, [])
        | none => some (m, []) := by
    intro o ho
    simp only [Update, handleKey, hv, hf, Bool.false_eq_true, if_false]
    unfold mainKey
    rw [if_neg (by decide), if_neg (by decide), if_neg (by decide), if_neg (by decide),
      if_pos (by decide), ho]
  refine ⟨?_, ?_, ?_⟩
  · intro p hidx
    have hsel : selectedPort m = some p := by rw [selectedPort_eq_index, hidx]
    refine ⟨?_, ?_, ?_⟩
    · rw [hk _ hsel]; rfl
    · rw [hK _ hsel]; rfl
    · intro hpp
      rw [hp _ hsel]
      simp only [hpp, if_true]
      rfl
  · intro hidx
    have hsel : selectedPort m = none := by rw [selectedPort_eq_index, hidx]
    exact ⟨by rw [hk _ hsel], by rw [hK _ hsel], by rw [hp _ hsel]⟩
  · intro he
    rw [he]
    exact index_nil _

/-- C6 (witness): in the model that displays the worker alone, with the
dialog hidden and the filter inactive, `k` opens the dialog for the worker. -/
theorem kill_keys_open_dialog_witness :
    workerModel.confirm.visible = false ∧ workerModel.filter.active = false ∧
      Update plainLibs insertionOrder workerModel (Msg.key "k") =
        some ({ workerModel with confirm :=
          { visible := true, target := workerPort, force := false, killParent := false } },
          []) :=
  ⟨rfl, rfl,
    ((kill_keys_open_dialog plainLibs insertionOrder workerModel rfl rfl).1 workerPort
      (by decide)).1⟩

/-! ## Claim C7: scans in flight -/

/-- C7 (counterexample): from the initial model with no outstanding scan,
pressing the refresh key twice leaves two scans in flight. -/
theorem two_scans_in_flight :
    (run plainLibs { model := New defaultConfig, inFlight := 0 }
      [(insertionOrder, Msg.key "r"), (insertionOrder, Msg.key "r")]).map
        (fun s => s.inFlight) = some 2 := by
  decide

theorem sysStep_inv (L : Libs) (ρ : RangeOrder) (s s' : Sys) (msg : Msg)
    (hcalm : forcesScan s.model msg = true → s.inFlight = 0)
    (hstep : sysStep L ρ s msg = some s')
    (hinv : s.inFlight ≤ 1 ∧ (s.inFlight = 1 → s.model.scanning = true)) :
    s'.inFlight ≤ 1 ∧ (s'.inFlight = 1 → s'.model.scanning = true) := by
  unfold sysStep at hstep
  obtain ⟨r, hr, hs'⟩ := Option.map_eq_some'.1 hstep
  obtain ⟨m', cmd⟩ := r
  subst hs'
  obtain ⟨hle, hsc⟩ := hinv
  simp only
  rcases Update_cases L ρ _ _ msg _ hr with ⟨hrep, _, _, h2, h3⟩ | ⟨hrep, h0, _, h2, h3, _⟩ |
    ⟨hrep, _, h2, h3, _⟩ | ⟨_, h2, h3⟩
  · have hc : cmd.count Request.scan = 0 := by
      rw [h3]
      simp [killCmd]
    rw [hrep, hc, h2]
    simpa using ⟨hle, hsc⟩
  · have h0' : s.inFlight = 0 := by
      rcases h0 with h0 | ⟨_, h0⟩
      · exact hcalm h0
      · by_contra hne
        have h1 : s.inFlight = 1 := by omega
        rw [hsc h1] at h0
        cases h0
    rw [hrep, h3, h0', h2]
    simp
  · rw [hrep, h3, h2]
    simpa using ⟨hle, hsc⟩
  · have hc : cmd.count Request.scan = 0 := by
      rw [List.count_eq_zero]
      intro hmem
      rcases h3 _ hmem with e | ⟨_, e⟩ | ⟨_, e⟩ <;> cases e
    rw [hc]
    rcases h2 with h2 | ⟨hrep, h2⟩
    · rw [h2]
      by_cases hrep : reportsScan msg = true
      · simp only [hrep, if_true, Nat.add_zero]
        exact ⟨by omega, fun h1 => by omega⟩
      · simp only [hrep, if_false, Nat.add_zero]
        exact ⟨hle, hsc⟩
    · simp only [hrep, if_true, Nat.add_zero]
      exact ⟨by omega, fun h1 => by omega⟩

theorem run_inv (L : Libs) (trace : List (RangeOrder × Msg)) :
    ∀ (s s' : Sys), calm L s trace → run L s trace = some s' →
      (s.inFlight ≤ 1 ∧ (s.inFlight = 1 → s.model.scanning = true)) →
      (s'.inFlight ≤ 1 ∧ (s'.inFlight = 1 → s'.model.scanning = true)) := by
  induction trace with
  | nil =>
    intro s s' _ hrun hinv
    simp only [run, Option.some.injEq] at hrun
    subst hrun
    exact hinv
  | cons x rest ih =>
    intro s s' hcalm hrun hinv
    obtain ⟨ρ, msg⟩ := x
    simp only [run] at hrun
    obtain ⟨s₁, hs₁, hrest⟩ := Option.bind_eq_some.1 hrun
    exact ih s₁ s' (hcalm.2 s₁ hs₁) hrest (sysStep_inv L ρ s s₁ msg hcalm.1 hs₁ hinv)

/-- C7 (amended): starting from any model with no outstanding scan, along
every sequence of messages in which each terminate result and each refresh key
of Normal mode is processed while no scan is outstanding, the number of scans
started and not yet reported back never exceeds one: a timer tick starts a scan
only while the `scanning` flag is clear, and the flag is set whenever a scan is
outstanding. -/
theorem at_most_one_scan_when_calm (L : Libs) (m : Model) (trace : List (RangeOrder × Msg))
    (s : Sys) (hcalm : calm L { model := m, inFlight := 0 } trace)
    (hrun : run L { model := m, inFlight := 0 } trace = some s) :
    s.inFlight ≤ 1 ∧ (s.inFlight = 1 → s.model.scanning = true) :=
  run_inv L trace _ s hcalm hrun ⟨Nat.zero_le _, fun h => by cases h⟩

/-- C7 (witness): two timer ticks in a row from the initial model start one
scan only. -/
theorem at_most_one_scan_when_calm_witness :
    calm plainLibs { model := New defaultConfig, inFlight := 0 }
        [(insertionOrder, Msg.tick), (insertionOrder, Msg.tick)] ∧
      run plainLibs { model := New defaultConfig, inFlight := 0 }
        [(insertionOrder, Msg.tick), (insertionOrder, Msg.tick)] =
          some { model := { New defaultConfig with scanning := true }, inFlight := 1 } ∧
      (1 : Nat) ≤ 1 :=
  have hcalm : calm plainLibs { model := New defaultConfig, inFlight := 0 }
      [(insertionOrder, Msg.tick), (insertionOrder, Msg.tick)] :=
    ⟨fun h => (by cases h), fun _ _ => ⟨fun h => (by cases h), fun _ _ => trivial⟩⟩
  have hrun : run plainLibs { model := New defaultConfig, inFlight := 0 }
      [(insertionOrder, Msg.tick), (insertionOrder, Msg.tick)] =
        some { model := { New defaultConfig with scanning := true }, inFlight := 1 } := by
    decide
  ⟨hcalm, hrun,
    (at_most_one_scan_when_calm plainLibs (New defaultConfig) _ _ hcalm hrun).1⟩

/-! ## Claims C8 and C9: scan failures -/

/-- C8 (failing input): whatever the model, a scan failure with error `e`
followed by a scan success leaves `err` equal to `e`, not cleared; from the
initial model the failure "scan failed" followed by a successful scan of one
port ends with `err` still set. -/
theorem scan_success_keeps_error (L : Libs) (ρ ρ' : RangeOrder) (m : Model) (e : String)
    (ps : List PortInfo) :
    ((Update L ρ m (Msg.scanError (some e))).bind
        (fun r => Update L ρ' r.1 (Msg.portsUpdated ps))).map (fun r => r.1.err) =
      ((Update L ρ m (Msg.scanError (some e))).bind
        (fun r => Update L ρ' r.1 (Msg.portsUpdated ps))).map (fun _ => some e) ∧
    ((Update plainLibs insertionOrder (New defaultConfig) (Msg.scanError (some "scan failed"))).bind
        (fun r => Update plainLibs insertionOrder r.1 (Msg.portsUpdated [workerPort]))).map
          (fun r => (r.1.err, r.1.table.displayed)) =
      some (some "scan failed", [workerPort]) := by
  refine ⟨?_, by decide⟩
  simp only [Update, Option.some_bind]
  cases hx : applyFilter L ρ'
      { m with scanning := false, err := some e, allPorts := ps } with
  | none => simp [hx]
  | some m1 =>
    have h3 := (applyFilter_confirm L ρ' _ _ hx).2.2
    simp only [hx, Option.map_some', Option.some.injEq]
    exact h3

/-- C9: processing a scan failure message sets `scanning` to false and records
the error; it issues no command and changes no other field of the model, so
`allPorts`, `filtered` and the displayed rows, the cursor and the expanded index
of the table are unchanged. -/
theorem scan_error_keeps_records (L : Libs) (ρ : RangeOrder) (m : Model)
    (err : Option String) :
    ∃ m', Update L ρ m (Msg.scanError err) = some (m', []) ∧
      m' = { m with scanning := false, err := err } ∧
      m'.scanning = false ∧ m'.err = err ∧
      m'.allPorts = m.allPorts ∧ m'.filtered = m.filtered ∧
      m'.table.displayed = m.table.displayed ∧ m'.table.cursor = m.table.cursor ∧
      m'.table.expanded = m.table.expanded :=
  ⟨{ m with scanning := false, err := err }, rfl, rfl, rfl, rfl, rfl, rfl, rfl, rfl, rfl⟩

/-! ## Claim C10: `sortItems` -/

theorem sortSlice_perm (lib : SortLib) (less : PortInfo → PortInfo → Bool)
    (l : List PortInfo) : (sortSlice lib less l).Perm l := by
  unfold sortSlice
  split
  · exact insertionLib.perm less l
  · exact lib.perm less l

theorem sortSlice_sorted (lib : SortLib) (less : PortInfo → PortInfo → Bool)
    (h : TransitiveOrdering less) (l : List PortInfo) : SortedBy less (sortSlice lib less l) := by
  unfold sortSlice
  split
  · exact insertionLib.sorted less l h
  · exact lib.sorted less l h

/-- A comparison that decides `f a < f b` for a key `f` in a linear order is a
transitive ordering, and a list sorted for it has non-decreasing keys. -/
theorem sorted_of_lt {κ : Type} [LinearOrder κ] (f : PortInfo → κ)
    (less : PortInfo → PortInfo → Bool) (h : ∀ a b, less a b = true ↔ f a < f b) :
    TransitiveOrdering less ∧
      ∀ l, SortedBy less l → l.Pairwise (fun a b => f a ≤ f b) := by
  have hf : ∀ a b, less a b = false ↔ f b ≤ f a := by
    intro a b
    rw [← not_lt, ← h a b]
    simp
  refine ⟨⟨?_, ?_⟩, ?_⟩
  · intro a b c hab hbc
    exact (h a c).2 (lt_trans ((h a b).1 hab) ((h b c).1 hbc))
  · intro a b c hab hbc
    exact (hf a c).2 (le_trans ((hf b c).1 hbc) ((hf a b).1 hab))
  · intro l hl
    refine List.Pairwise.imp ?_ hl
    intro a b hab
    rcases hab with e | e
    · exact (hf b a).1 e
    · exact le_of_lt ((h a b).1 e)

/-- A comparison that decides `¬ f a < f b` (the negated comparison of the
descending direction) is a transitive ordering, and a list sorted for it has
non-increasing keys. -/
theorem sorted_of_not_lt {κ : Type} [LinearOrder κ] (f : PortInfo → κ)
    (less : PortInfo → PortInfo → Bool) (h : ∀ a b, less a b = true ↔ ¬ f a < f b) :
    TransitiveOrdering less ∧
      ∀ l, SortedBy less l → l.Pairwise (fun a b => f b ≤ f a) := by
  have ht : ∀ a b, less a b = true ↔ f b ≤ f a := by
    intro a b
    rw [h a b, not_lt]
  have hf : ∀ a b, less a b = false ↔ f a < f b := by
    intro a b
    rw [← not_le, ← ht a b]
    simp
  refine ⟨⟨?_, ?_⟩, ?_⟩
  · intro a b c hab hbc
    exact (ht a c).2 (le_trans ((ht b c).1 hbc) ((ht a b).1 hab))
  · intro a b c hab hbc
    exact (hf a c).2 (lt_trans ((hf a b).1 hab) ((hf b c).1 hbc))
  · intro l hl
    refine List.Pairwise.imp ?_ hl
    intro a b hab
    rcases hab with e | e
    · exact le_of_lt ((hf b a).1 e)
    · exact (ht a b).1 e

theorem sortItems_asc {κ : Type} [LinearOrder κ] (f : PortInfo → κ) (lib : SortLib)
    (st : sortState) (items : List PortInfo)
    (h : ∀ a b, sortLess st a b = true ↔ f a < f b) :
    (sortItems lib st items).Pairwise (fun a b => f a ≤ f b) :=
  (sorted_of_lt f (sortLess st) h).2 _
    (sortSlice_sorted lib _ (sorted_of_lt f (sortLess st) h).1 items)

theorem sortItems_desc {κ : Type} [LinearOrder κ] (f : PortInfo → κ) (lib : SortLib)
    (st : sortState) (items : List PortInfo)
    (h : ∀ a b, sortLess st a b = true ↔ ¬ f a < f b) :
    (sortItems lib st items).Pairwise (fun a b => f b ≤ f a) :=
  (sorted_of_not_lt f (sortLess st) h).2 _
    (sortSlice_sorted lib _ (sorted_of_not_lt f (sortLess st) h).1 items)

/-- C10: for every list and every sort state, `sortItems` returns a
permutation of the list; for the columns port, PID, process and user the result
is ordered by that column (integers for port and PID, lexicographic order of
strings for process and user): non-decreasing when ascending and non-increasing
when descending.  The ports 3000, 5432, 8000 sorted by port descending give
8000, 5432, 3000. -/
theorem sortItems_ordered (lib : SortLib) (items : List PortInfo) :
    (∀ st, (sortItems lib st items).Perm items) ∧
    (sortItems lib { column := sortByPort, asc := true } items).Pairwise
      (fun a b => a.Port ≤ b.Port) ∧
    (sortItems lib { column := sortByPort, asc := false } items).Pairwise
      (fun a b => b.Port ≤ a.Port) ∧
    (sortItems lib { column := sortByPID, asc := true } items).Pairwise
      (fun a b => a.PID ≤ b.PID) ∧
    (sortItems lib { column := sortByPID, asc := false } items).Pairwise
      (fun a b => b.PID ≤ a.PID) ∧
    (sortItems lib { column := sortByProcess, asc := true } items).Pairwise
      (fun a b => a.Process ≤ b.Process) ∧
    (sortItems lib { column := sortByProcess, asc := false } items).Pairwise
      (fun a b => b.Process ≤ a.Process) ∧
    (sortItems lib { column := sortByUser, asc := true } items).Pairwise
      (fun a b => a.User ≤ b.User) ∧
    (sortItems lib { column := sortByUser, asc := false } items).Pairwise
      (fun a b => b.User ≤ a.User) ∧
    (sortItems lib { column := sortByPort, asc := false }
      [mkPort 3000 1 0, mkPort 5432 2 0, mkPort 8000 3 0]).map PortInfo.Port =
        [8000, 5432, 3000] := by
  refine ⟨fun st => sortSlice_perm lib _ items, ?_, ?_, ?_, ?_, ?_, ?_, ?_, ?_, ?_⟩
  · exact sortItems_asc PortInfo.Port lib _ items (by intro a b; simp [sortLess, sortByPort])
  · exact sortItems_desc PortInfo.Port lib _ items (by intro a b; simp [sortLess, sortByPort])
  · exact sortItems_asc PortInfo.PID lib _ items
      (by intro a b; simp [sortLess, sortByPort, sortByPID])
  · exact sortItems_desc PortInfo.PID lib _ items
      (by intro a b; simp [sortLess, sortByPort, sortByPID])
  · exact sortItems_asc PortInfo.Process lib _ items
      (by intro a b; simp [sortLess, sortByPort, sortByPID, sortByProcess])
  · exact sortItems_desc PortInfo.Process lib _ items
      (by intro a b; simp [sortLess, sortByPort, sortByPID, sortByProcess])
  · exact sortItems_asc PortInfo.User lib _ items
      (by intro a b; simp [sortLess, sortByPort, sortByPID, sortByProcess, sortByUser])
  · exact sortItems_desc PortInfo.User lib _ items
      (by intro a b; simp [sortLess, sortByPort, sortByPID, sortByProcess, sortByUser])
  · have hlen : ([mkPort 3000 1 0, mkPort 5432 2 0, mkPort 8000 3 0] : List PortInfo).length ≤ 12 := by
      decide
    simp only [sortItems, sortSlice, hlen, if_true]
    decide

/-! ## The port table: `clampScroll` and `setRows` -/

theorem index_of_lt {α : Type} (xs : List α) (r : Int) (h0 : 0 ≤ r) (h1 : r < xs.length) :
    ∃ x, index xs r = some x := by
  have h2 : r.toNat < xs.length := by omega
  refine ⟨xs[r.toNat], ?_⟩
  unfold index
  rw [if_neg (by omega)]
  exact List.getElem?_eq_getElem h2

theorem rowLines_of_lt (pt : portTable) (r : Int) (h0 : 0 ≤ r) (h1 : r < pt.displayed.length) :
    ∃ n, rowLines pt r = some n := by
  unfold rowLines
  split
  · obtain ⟨x, hx⟩ := index_of_lt pt.displayed r h0 h1
    exact ⟨_, by rw [hx]; rfl⟩
  · exact ⟨1, rfl⟩

theorem countLines_total (pt : portTable) :
    ∀ (fuel : Nat) (r lines : Int), 0 ≤ r → ∃ n, countLines pt fuel r lines = some n := by
  intro fuel
  induction fuel with
  | zero => intro r lines _; exact ⟨lines, rfl⟩
  | succ fuel ih =>
    intro r lines h0
    unfold countLines
    split
    · rename_i hc
      obtain ⟨n, hn⟩ := rowLines_of_lt pt r h0 hc.2
      obtain ⟨k, hk⟩ := ih (r + 1) (lines + n) (by omega)
      exact ⟨k, by rw [hn]; exact hk⟩
    · exact ⟨lines, rfl⟩

theorem dropLines_total (pt : portTable) (hc : pt.cursor ≤ pt.displayed.length) :
    ∀ (fuel : Nat) (offset lines : Int), 0 ≤ offset →
      ∃ o, dropLines pt fuel offset lines = some o := by
  intro fuel
  induction fuel with
  | zero => intro offset lines _; exact ⟨offset, rfl⟩
  | succ fuel ih =>
    intro offset lines h0
    unfold dropLines
    split
    · rename_i hcond
      obtain ⟨n, hn⟩ := rowLines_of_lt pt offset h0 (by omega)
      obtain ⟨k, hk⟩ := ih (offset + 1) (lines - n) (by omega)
      exact ⟨k, by rw [hn]; exact hk⟩
    · exact ⟨offset, rfl⟩

/-- The method `clampScroll` does not panic on a table whose cursor and
offset are not negative and whose cursor is at most the number of rows. -/
theorem clampScroll_total (pt : portTable) (h0 : 0 ≤ pt.cursor) (h1 : 0 ≤ pt.offset)
    (hc : pt.cursor ≤ pt.displayed.length) : ∃ pt', clampScroll pt = some pt' := by
  unfold clampScroll
  have hoff : 0 ≤ (if pt.cursor < pt.offset then pt.cursor else pt.offset) := by
    split <;> assumption
  obtain ⟨n, hn⟩ := countLines_total pt
    (pt.cursor - (if pt.cursor < pt.offset then pt.cursor else pt.offset) + 1).toNat _ 0 hoff
  obtain ⟨o, ho⟩ := dropLines_total pt hc
    (pt.cursor - (if pt.cursor < pt.offset then pt.cursor else pt.offset)).toNat _ n hoff
  refine ⟨{ pt with offset := if o < 0 then 0 else o }, ?_⟩
  simp only [hn, ho, Option.some_bind, Option.map_some']

/-- The method `clampScroll` changes the offset only. -/
theorem clampScroll_frame (pt pt' : portTable) (h : clampScroll pt = some pt') :
    pt' = { pt with offset := pt'.offset } := by
  unfold clampScroll at h
  obtain ⟨n, _, h2⟩ := Option.bind_eq_some.1 h
  obtain ⟨o, _, h3⟩ := Option.map_eq_some'.1 h2
  subst h3
  rfl

/-- The rows and metadata that `setRows` stores for a list. -/
theorem setRows_frame (lib : SortLib) (ρ : RangeOrder) (pt pt' : portTable)
    (items : List PortInfo) (h : setRows lib ρ pt items = some pt') :
    pt'.displayed = (if pt.treeMode then buildTree ρ (sortItems lib pt.sort items)
        else (sortItems lib pt.sort items,
          List.replicate (sortItems lib pt.sort items).length
            { treePrefix := "", isChild := false })).1 ∧
      pt'.meta = (if pt.treeMode then buildTree ρ (sortItems lib pt.sort items)
        else (sortItems lib pt.sort items,
          List.replicate (sortItems lib pt.sort items).length
            { treePrefix := "", isChild := false })).2 ∧
      pt'.sort = pt.sort ∧ pt'.treeMode = pt.treeMode ∧
      pt'.height = pt.height ∧ pt'.width = pt.width ∧
      pt'.cursor = (if pt.cursor ≥ (pt'.displayed.length : Int)
        then max 0 ((pt'.displayed.length : Int) - 1) else pt.cursor) ∧
      pt'.expanded = (if pt.expanded ≥ (pt'.displayed.length : Int) then -1
        else pt.expanded) := by
  unfold setRows at h
  have hf := clampScroll_frame _ _ h
  rw [hf]
  exact ⟨rfl, rfl, rfl, rfl, rfl, rfl, rfl, rfl⟩

/-! ## Claims C12 and C13: cursor and expanded index -/

theorem clampCursor_bounds (c : Int) (n : Nat) (h0 : 0 ≤ c) :
    0 ≤ (if c ≥ (n : Int) then max 0 ((n : Int) - 1) else c) ∧
      (if c ≥ (n : Int) then max 0 ((n : Int) - 1) else c) ≤ (n : Int) := by
  by_cases h : c ≥ (n : Int)
  · rw [if_pos h]
    exact ⟨le_max_left _ _, max_le (by omega) (by omega)⟩
  · rw [if_neg h]
    exact ⟨h0, by omega⟩

/-- The method `setRows` does not panic on a table whose cursor and offset
are not negative. -/
theorem setRows_total (lib : SortLib) (ρ : RangeOrder) (pt : portTable)
    (items : List PortInfo) (h0 : 0 ≤ pt.cursor) (h1 : 0 ≤ pt.offset) :
    ∃ pt', setRows lib ρ pt items = some pt' := by
  unfold setRows
  apply clampScroll_total
  · exact (clampCursor_bounds pt.cursor _ h0).1
  · exact h1
  · exact (clampCursor_bounds pt.cursor _ h0).2

/-- C12 (failing input): `toggleExpand` on the empty table `newPortTable` sets
the expanded index to the cursor, 0, which is neither −1 nor the index of a
displayed row. -/
theorem toggleExpand_on_empty_table :
    toggleExpand newPortTable = some { newPortTable with expanded := 0 } ∧
      newPortTable.displayed = [] ∧
      ¬ (({ newPortTable with expanded := 0 } : portTable).expanded = -1 ∨
        (0 ≤ ({ newPortTable with expanded := 0 } : portTable).expanded ∧
          ({ newPortTable with expanded := 0 } : portTable).expanded <
            (({ newPortTable with expanded := 0 } : portTable).displayed.length : Int))) := by
  decide

/-- C13: on a table whose cursor and offset are not negative `setRows` returns
a table, and whenever it returns one, with `n` the number of rows now
displayed, the cursor is unchanged if it was < n and max(0, n − 1) otherwise,
and the expanded index is unchanged if it was < n and −1 otherwise. -/
theorem setRows_clamps (lib : SortLib) (ρ : RangeOrder) (pt : portTable)
    (items : List PortInfo) :
    (0 ≤ pt.cursor → 0 ≤ pt.offset → ∃ pt', setRows lib ρ pt items = some pt') ∧
    ∀ pt', setRows lib ρ pt items = some pt' →
      pt'.cursor = (if pt.cursor < (pt'.displayed.length : Int) then pt.cursor
        else max 0 ((pt'.displayed.length : Int) - 1)) ∧
      pt'.expanded = (if pt.expanded < (pt'.displayed.length : Int) then pt.expanded
        else -1) := by
  refine ⟨setRows_total lib ρ pt items, ?_⟩
  intro pt' h
  obtain ⟨_, _, _, _, _, _, hc, he⟩ := setRows_frame lib ρ pt pt' items h
  constructor
  · rw [hc]
    by_cases hlt : pt.cursor < (pt'.displayed.length : Int)
    · rw [if_neg (by omega), if_pos hlt]
    · rw [if_pos (by omega), if_neg hlt]
  · rw [he]
    by_cases hlt : pt.expanded < (pt'.displayed.length : Int)
    · rw [if_neg (by omega), if_pos hlt]
    · rw [if_pos (by omega), if_neg hlt]

/-- C13 (witness): the tests `TestPortTableCursorClampOnSetRows` and
`TestPortTableExpandedClampOnSetRows`: with cursor and expanded index 2,
`setRows` with one record moves the cursor to 0 and resets the expanded index
to −1. -/
theorem setRows_clamps_witness :
    setRows insertionLib insertionOrder threeRowTable [mkPort 3000 0 0] = some oneRowTable ∧
      oneRowTable.cursor = (if threeRowTable.cursor < (oneRowTable.displayed.length : Int)
        then threeRowTable.cursor else max 0 ((oneRowTable.displayed.length : Int) - 1)) ∧
      oneRowTable.expanded = (if threeRowTable.expanded < (oneRowTable.displayed.length : Int)
        then threeRowTable.expanded else -1) :=
  have h : setRows insertionLib insertionOrder threeRowTable [mkPort 3000 0 0] =
      some oneRowTable := by decide
  ⟨h, (setRows_clamps insertionLib insertionOrder threeRowTable [mkPort 3000 0 0]).2
    oneRowTable h⟩

/-! ## Claim C11: re-applying `setRows` -/

/-- The comparison of `sortItems` compares one of four keys: the port (also
for the columns memory and uptime), the PID, the process name or the user. -/
theorem sortLess_key (st : sortState) :
    (∀ a b, sortLess st a b = true ↔
        if st.asc = true then a.Port < b.Port else ¬ a.Port < b.Port) ∨
      (∀ a b, sortLess st a b = true ↔
        if st.asc = true then a.PID < b.PID else ¬ a.PID < b.PID) ∨
      (∀ a b, sortLess st a b = true ↔
        if st.asc = true then a.Process < b.Process else ¬ a.Process < b.Process) ∨
      (∀ a b, sortLess st a b = true ↔
        if st.asc = true then a.User < b.User else ¬ a.User < b.User) := by
  obtain ⟨col, asc⟩ := st
  by_cases c0 : col = sortByPort
  · left
    intro a b
    subst c0
    cases asc <;> simp [sortLess]
  by_cases c1 : col = sortByPID
  · right; left
    intro a b
    subst c1
    cases asc <;> simp [sortLess, sortByPort, sortByPID]
  by_cases c2 : col = sortByProcess
  · right; right; left
    intro a b
    subst c2
    cases asc <;> simp [sortLess, sortByPort, sortByPID, sortByProcess]
  by_cases c3 : col = sortByUser
  · right; right; right
    intro a b
    subst c3
    cases asc <;> simp [sortLess, sortByPort, sortByPID, sortByProcess, sortByUser]
  · left
    intro a b
    cases asc <;> simp [sortLess, c0, c1, c2, c3]

theorem key_transitive {κ : Type} [LinearOrder κ] (f : PortInfo → κ) (asc : Bool)
    (less : PortInfo → PortInfo → Bool)
    (h : ∀ a b, less a b = true ↔ if asc = true then f a < f b else ¬ f a < f b) :
    TransitiveOrdering less := by
  cases asc
  · exact (sorted_of_not_lt f less (by intro a b; rw [h a b]; simp)).1
  · exact (sorted_of_lt f less (by intro a b; rw [h a b]; simp)).1

/-- The comparison of `sortItems` is a transitive ordering for every sort
state. -/
theorem sortLess_transitive (st : sortState) : TransitiveOrdering (sortLess st) := by
  rcases sortLess_key st with h | h | h | h
  · exact key_transitive PortInfo.Port st.asc _ h
  · exact key_transitive PortInfo.PID st.asc _ h
  · exact key_transitive PortInfo.Process st.asc _ h
  · exact key_transitive PortInfo.User st.asc _ h

theorem key_asymm {κ : Type} [LinearOrder κ] (f : PortInfo → κ)
    (less : PortInfo → PortInfo → Bool)
    (h : ∀ a b, less a b = true ↔ f a < f b) (a b : PortInfo)
    (hab : less a b = true) : less b a = false := by
  cases hba : less b a with
  | false => rfl
  | true => exact absurd ((h b a).1 hba) (lt_asymm ((h a b).1 hab))

/-- In the ascending direction the comparison of `sortItems` never holds in
both directions. -/
theorem sortLess_asymm (st : sortState) (hasc : st.asc = true) (a b : PortInfo)
    (h : sortLess st a b = true) : sortLess st b a = false := by
  rcases sortLess_key st with hk | hk | hk | hk
  · exact key_asymm PortInfo.Port _ (by intro a b; rw [hk a b, if_pos hasc]) a b h
  · exact key_asymm PortInfo.PID _ (by intro a b; rw [hk a b, if_pos hasc]) a b h
  · exact key_asymm PortInfo.Process _ (by intro a b; rw [hk a b, if_pos hasc]) a b h
  · exact key_asymm PortInfo.User _ (by intro a b; rw [hk a b, if_pos hasc]) a b h

/-- Two sorted permutations of a list without ties are equal. -/
theorem sorted_perm_unique (less : PortInfo → PortInfo → Bool) (l₁ l₂ : List PortInfo)
    (hp : l₁.Perm l₂) (h₁ : SortedBy less l₁) (h₂ : SortedBy less l₂)
    (hnt : l₁.Pairwise (fun a b => less a b ≠ less b a)) : l₁ = l₂ := by
  have hnt₂ : l₂.Pairwise (fun a b => less a b ≠ less b a) :=
    hp.pairwise hnt (fun h => fun e => h e.symm)
  have strict : ∀ l : List PortInfo, SortedBy less l →
      l.Pairwise (fun a b => less a b ≠ less b a) →
      l.Pairwise (fun a b => less a b = true ∧ less b a = false) := by
    intro l hs hn
    have hboth := List.Pairwise.and hs hn
    refine List.Pairwise.imp ?_ hboth
    intro a b hab
    obtain ⟨hR, hne⟩ := hab
    cases hab' : less a b <;> cases hba : less b a <;> simp_all
  haveI : IsAntisymm PortInfo (fun a b => less a b = true ∧ less b a = false) :=
    ⟨fun a b h1 h2 => by rw [h2.2] at h1; cases h1.1⟩
  exact List.eq_of_perm_of_sorted hp (strict l₁ h₁ hnt) (strict l₂ h₂ hnt₂)

/-- The insertion sort leaves unchanged a list in which no element is
`less` than an earlier one. -/
theorem insertionSort_fixed (less : PortInfo → PortInfo → Bool) (l : List PortInfo)
    (h : l.Pairwise (fun a b => less b a = false)) : insertionSort less l = l := by
  have fold : ∀ (l acc : List PortInfo),
      (acc.reverse ++ l).Pairwise (fun a b => less b a = false) →
      l.foldl (fun sortedRev x => insertBack less x sortedRev) acc = l.reverse ++ acc := by
    intro l
    induction l with
    | nil => intro acc _; rfl
    | cons x rest ih =>
      intro acc hp
      have hins : insertBack less x acc = x :: acc := by
        cases acc with
        | nil => rfl
        | cons y t =>
          have hxy : less x y = false := by
            have := List.pairwise_append.1 hp
            exact this.2.2 y (by simp) x (by simp)
          simp [insertBack, hxy]
      rw [List.foldl_cons, hins, ih (x :: acc) (by simpa using hp)]
      simp
  unfold insertionSort
  rw [fold l [] (by simpa using h)]
  simp

theorem sortItems_idempotent (lib : SortLib) (st : sortState) (x : List PortInfo)
    (h : noTies st x ∨ (st.asc = true ∧ x.length ≤ 12)) :
    sortItems lib st (sortItems lib st x) = sortItems lib st x := by
  have hperm := sortSlice_perm lib (sortLess st) x
  have hsorted := sortSlice_sorted lib (sortLess st) (sortLess_transitive st) x
  rcases h with h | ⟨hasc, hlen⟩
  · have hnt : (sortItems lib st x).Pairwise
        (fun a b => sortLess st a b ≠ sortLess st b a) :=
      hperm.symm.pairwise h (fun hab => fun e => hab e.symm)
    exact (sorted_perm_unique (sortLess st) _ _
      (sortSlice_perm lib (sortLess st) (sortItems lib st x)).symm hsorted
      (sortSlice_sorted lib (sortLess st) (sortLess_transitive st) _) hnt).symm
  · have hlen' : (sortItems lib st x).length ≤ 12 := by
      have := hperm.length_eq
      unfold sortItems
      omega
    have hfix : (sortItems lib st x).Pairwise (fun a b => sortLess st b a = false) := by
      refine List.Pairwise.imp ?_ hsorted
      intro a b hab
      rcases hab with e | e
      · exact e
      · exact sortLess_asymm st hasc a b e
    show sortSlice lib (sortLess st) (sortItems lib st x) = sortItems lib st x
    unfold sortSlice
    rw [if_pos hlen']
    exact insertionSort_fixed _ _ hfix

/-- The insertion sort reverses a list on which `less` holds between any two
elements, as the negated comparison of the descending direction does on
records that tie: every element moves to the front. -/
theorem insertionSort_all_less (less : PortInfo → PortInfo → Bool) (l : List PortInfo)
    (h : ∀ a ∈ l, ∀ b ∈ l, less a b = true) : insertionSort less l = l.reverse := by
  have ins : ∀ (x : PortInfo) (acc : List PortInfo), (∀ y ∈ acc, less x y = true) →
      insertBack less x acc = acc ++ [x] := by
    intro x acc
    induction acc with
    | nil => intro _; rfl
    | cons y rest ih =>
      intro hy
      unfold insertBack
      rw [if_pos (hy y (List.mem_cons_self _ _)),
        ih (fun z hz => hy z (List.mem_cons_of_mem _ hz))]
      rfl
  have fold : ∀ (l acc : List PortInfo), (∀ a ∈ l, ∀ b ∈ acc ++ l, less a b = true) →
      l.foldl (fun sortedRev x => insertBack less x sortedRev) acc = acc ++ l := by
    intro l
    induction l with
    | nil => intro acc _; simp
    | cons x rest ih =>
      intro acc hl
      rw [List.foldl_cons,
        ins x acc (fun y hy => hl x (List.mem_cons_self _ _) y (List.mem_append_left _ hy)),
        ih (acc ++ [x]) (fun a ha b hb => hl a (List.mem_cons_of_mem _ ha) b (by simpa using hb))]
      simp
  unfold insertionSort
  rw [fold l [] (by simpa using h)]
  rfl

/-- In the descending direction `sortItems` reverses a list of at most 12
records that all tie on the sort column. -/
theorem sortItems_desc_ties (lib : SortLib) (st : sortState) (x : List PortInfo)
    (hdesc : st.asc = false) (hlen : x.length ≤ 12)
    (htie : ∀ a ∈ x, ∀ b ∈ x, sortLess { st with asc := true } a b = false) :
    sortItems lib st x = x.reverse := by
  unfold sortItems sortSlice
  rw [if_pos hlen]
  apply insertionSort_all_less
  intro a ha b hb
  have h := htie a ha b hb
  unfold sortLess at h ⊢
  simp only [Bool.not_true, Bool.false_eq_true, if_false] at h
  simp only [hdesc, Bool.not_false, if_true, h]

/-- With tree mode off and the descending direction, `setRows` displays a
list of at most 12 records that all tie on the sort column in reversed order,
and `setRows` on the displayed list displays the list in its first order
again: the displayed order changes with every call unless the list reads the
same in both directions. -/
theorem setRows_desc_ties (lib : SortLib) (ρ ρ' : RangeOrder) (pt pt₁ pt₂ : portTable)
    (x : List PortInfo) (htree : pt.treeMode = false) (hdesc : pt.sort.asc = false)
    (hlen : x.length ≤ 12)
    (htie : ∀ a ∈ x, ∀ b ∈ x, sortLess { pt.sort with asc := true } a b = false)
    (h₁ : setRows lib ρ pt x = some pt₁) (h₂ : setRows lib ρ' pt₁ pt₁.displayed = some pt₂) :
    pt₁.displayed = x.reverse ∧ pt₂.displayed = x := by
  obtain ⟨hd₁, _, hs₁, ht₁, _⟩ := setRows_frame lib ρ pt pt₁ x h₁
  obtain ⟨hd₂, _⟩ := setRows_frame lib ρ' pt₁ pt₂ pt₁.displayed h₂
  rw [ht₁, htree] at hd₂
  rw [htree] at hd₁
  simp only [Bool.false_eq_true, if_false] at hd₁ hd₂
  rw [sortItems_desc_ties lib pt.sort x hdesc hlen htie] at hd₁
  refine ⟨hd₁, ?_⟩
  rw [hd₂, hs₁, hd₁, sortItems_desc_ties lib pt.sort x.reverse hdesc (by simpa using hlen)
    (fun a ha b hb => htie a (List.mem_reverse.mp ha) b (List.mem_reverse.mp hb))]
  exact List.reverse_reverse x

/-- C11 (failing input): two ports of the same PID 100, sorted by PID in
descending order: `setRows` displays them as 5432, 3000 and `setRows` on that
displayed list displays 3000, 5432. -/
theorem setRows_twice_reverses_ties :
    (setRows insertionLib insertionOrder pidDescTable
        [mkPort 3000 100 1, mkPort 5432 100 1]).bind (fun pt₁ =>
      (setRows insertionLib insertionOrder pt₁ pt₁.displayed).map (fun pt₂ =>
        (pt₁.displayed.map PortInfo.Port, pt₂.displayed.map PortInfo.Port))) =
      some ([5432, 3000], [3000, 5432]) := by
  decide

theorem clampScroll_offset_nonneg (pt pt' : portTable) (h : clampScroll pt = some pt') :
    0 ≤ pt'.offset := by
  unfold clampScroll at h
  obtain ⟨n, _, h2⟩ := Option.bind_eq_some.1 h
  obtain ⟨o, _, h3⟩ := Option.map_eq_some'.1 h2
  subst h3
  show 0 ≤ (if o < 0 then 0 else o)
  split <;> omega

theorem setRows_nonneg (lib : SortLib) (ρ : RangeOrder) (pt pt' : portTable)
    (items : List PortInfo) (h : setRows lib ρ pt items = some pt') (h0 : 0 ≤ pt.cursor) :
    0 ≤ pt'.cursor ∧ 0 ≤ pt'.offset := by
  refine ⟨?_, clampScroll_offset_nonneg _ _ h⟩
  have hc := (setRows_frame lib ρ pt pt' items h).2.2.2.2.2.2.1
  rw [hc]
  exact (clampCursor_bounds pt.cursor _ h0).1

/-- Re-applying `setRows` where the sort leaves no freedom: with tree mode
off, for every sort column and direction, when no two records of the list tie
on the sort column, or when the direction is ascending and the list has at
most 12 records, `setRows` on the list displayed by `setRows` leaves the
displayed order unchanged; both calls return when the cursor and the offset of
the table are not negative. -/
theorem setRows_idempotent (lib : SortLib) (ρ ρ' : RangeOrder) (pt : portTable)
    (x : List PortInfo) (htree : pt.treeMode = false)
    (hties : noTies pt.sort x ∨ (pt.sort.asc = true ∧ x.length ≤ 12)) :
    (∀ pt₁ pt₂, setRows lib ρ pt x = some pt₁ →
      setRows lib ρ' pt₁ pt₁.displayed = some pt₂ → pt₂.displayed = pt₁.displayed) ∧
    (0 ≤ pt.cursor → 0 ≤ pt.offset →
      ∃ pt₁ pt₂, setRows lib ρ pt x = some pt₁ ∧
        setRows lib ρ' pt₁ pt₁.displayed = some pt₂) := by
  constructor
  · intro pt₁ pt₂ h₁ h₂
    obtain ⟨hd₁, _, hs₁, ht₁, _⟩ := setRows_frame lib ρ pt pt₁ x h₁
    obtain ⟨hd₂, _⟩ := setRows_frame lib ρ' pt₁ pt₂ pt₁.displayed h₂
    rw [ht₁, htree] at hd₂
    rw [htree] at hd₁
    simp only [Bool.false_eq_true, if_false] at hd₁ hd₂
    rw [hd₂, hs₁, hd₁]
    exact sortItems_idempotent lib pt.sort x hties
  · intro h0 h1
    obtain ⟨pt₁, h₁⟩ := setRows_total lib ρ pt x h0 h1
    obtain ⟨hc, ho⟩ := setRows_nonneg lib ρ pt pt₁ x h₁ h0
    obtain ⟨pt₂, h₂⟩ := setRows_total lib ρ' pt₁ pt₁.displayed hc ho
    exact ⟨pt₁, pt₂, h₁, h₂⟩

/-- The table of `TestPortTableSetRows` (tree mode off, port ascending) with
two records on the same port: the second `setRows` keeps the displayed list. -/
theorem setRows_idempotent_witness :
    flatTable.treeMode = false ∧ flatTable.sort.asc = true ∧
      setRows insertionLib insertionOrder flatTable [mkPort 3000 2 0, mkPort 3000 1 0] =
        some { flatTable with
          displayed := [mkPort 3000 2 0, mkPort 3000 1 0]
          meta := List.replicate 2 { treePrefix := "", isChild := false } } ∧
      ({ flatTable with
          displayed := [mkPort 3000 2 0, mkPort 3000 1 0]
          meta := List.replicate 2 { treePrefix := "", isChild := false } } :
        portTable).displayed = [mkPort 3000 2 0, mkPort 3000 1 0] :=
  have h₁ : setRows insertionLib insertionOrder flatTable
      [mkPort 3000 2 0, mkPort 3000 1 0] =
        some { flatTable with
          displayed := [mkPort 3000 2 0, mkPort 3000 1 0]
          meta := List.replicate 2 { treePrefix := "", isChild := false } } := by decide
  have h₂ : setRows insertionLib insertionOrder
      { flatTable with
        displayed := [mkPort 3000 2 0, mkPort 3000 1 0]
        meta := List.replicate 2 { treePrefix := "", isChild := false } }
      [mkPort 3000 2 0, mkPort 3000 1 0] =
        some { flatTable with
          displayed := [mkPort 3000 2 0, mkPort 3000 1 0]
          meta := List.replicate 2 { treePrefix := "", isChild := false } } := by decide
  ⟨rfl, rfl, h₁,
    (setRows_idempotent insertionLib insertionOrder insertionOrder flatTable
      [mkPort 3000 2 0, mkPort 3000 1 0] rfl (Or.inr ⟨rfl, by decide⟩)).1 _ _ h₁ h₂⟩

/-! ## Claim C19: `filterInput.matches` -/

/-- The function `stringsContains` decides the substring relation. -/
theorem stringsContains_iff (s sub : String) :
    stringsContains s sub = true ↔ isSubstring sub s := by
  unfold stringsContains isSubstring
  rw [List.any_eq_true, List.infix_iff_prefix_suffix]
  constructor
  · rintro ⟨t, ht, hp⟩
    exact ⟨t, List.isPrefixOf_iff_prefix.1 hp, (List.mem_tails t s.data).1 ht⟩
  · rintro ⟨t, hp, ht⟩
    exact ⟨t, (List.mem_tails t s.data).2 ht, List.isPrefixOf_iff_prefix.2 hp⟩

theorem isSubstring_empty (s : String) : isSubstring "" s := by
  unfold isSubstring
  exact List.nil_infix

theorem matches_eq (L : Libs) (f : filterInput) (p : PortInfo) :
    f.matches L p = true ↔
      (L.toLower f.input.value = "" ∨
        ∃ s ∈ searchFields L p, isSubstring (L.toLower f.input.value) s) := by
  unfold filterInput.matches searchFields
  by_cases hq : L.toLower f.input.value = ""
  · simp [hq]
  · simp only [hq, if_false, false_or, Bool.or_eq_true, stringsContains_iff, List.mem_cons,
      List.mem_singleton, exists_eq_or_imp, exists_eq_left, List.not_mem_nil, false_and,
      exists_false, or_false, or_assoc]

/-- C19: when `strings.ToLower` maps the empty text to itself,
`filterInput.matches` is true exactly when the query is empty or the
lower-cased query is a substring of one of the six search fields; so an empty
query matches every record, and a query that is a substring of none of the six
fields excludes the record. -/
theorem matches_iff (L : Libs) (f : filterInput) (p : PortInfo)
    (hlow : L.toLower "" = "") :
    (f.matches L p = true ↔
      (f.input.value = "" ∨
        ∃ s ∈ searchFields L p, isSubstring (L.toLower f.input.value) s)) ∧
    (f.input.value = "" → f.matches L p = true) ∧
    ((∀ s ∈ searchFields L p, ¬ isSubstring (L.toLower f.input.value) s) →
      f.matches L p = false) := by
  have hfield : L.toLower p.Process ∈ searchFields L p := by simp [searchFields]
  refine ⟨?_, ?_, ?_⟩
  · rw [matches_eq]
    constructor
    · rintro (h | h)
      · exact Or.inr ⟨_, hfield, by rw [h]; exact isSubstring_empty _⟩
      · exact Or.inr h
    · rintro (h | h)
      · exact Or.inl (by rw [h, hlow])
      · exact Or.inr h
  · intro h
    exact (matches_eq L f p).2 (Or.inl (by rw [h, hlow]))
  · intro h
    cases hm : f.matches L p with
    | false => rfl
    | true =>
      rcases (matches_eq L f p).1 hm with e | ⟨s, hs, hsub⟩
      · exact absurd (by rw [e]; exact isSubstring_empty _) (h _ hfield)
      · exact absurd hsub (h s hs)

/-- C19 (witness): with the ASCII lower-casing the empty query matches, the
query "test" matches the process "test-server", and it does not match a record
whose six fields do not contain it. -/
theorem matches_iff_witness :
    plainLibs.toLower "" = "" ∧
      newFilterInput.matches plainLibs (mkPort 3000 100 0) = true ∧
      testFilter.matches plainLibs { mkPort 3000 100 0 with Process := "test-server" } = true ∧
      testFilter.matches plainLibs { mkPort 3000 100 0 with Process := "node" } = false :=
  ⟨rfl, (matches_iff plainLibs newFilterInput (mkPort 3000 100 0) rfl).2.1 rfl,
    by decide, by decide⟩

/-! ## Claim C20: `applyFilter` -/

/-- The function `isSystemProcess` is true exactly for the records whose
process name is one of the system names or whose PID is at most 1. -/
theorem isSystemProcess_iff (p : PortInfo) :
    isSystemProcess p = true ↔ (p.Process ∈ systemNames ∨ p.PID ≤ 1) := by
  unfold isSystemProcess systemNames
  simp only [Bool.or_eq_true, List.any_eq_true, decide_eq_true_eq]
  constructor
  · rintro (⟨s, hs, e⟩ | h)
    · exact Or.inl (e ▸ hs)
    · exact Or.inr h
  · rintro (h | h)
    · exact Or.inl ⟨p.Process, h, rfl⟩
    · exact Or.inr h

/-- C20 (counterexample): a record named "node" with PID −1 has a name outside
the system names and a PID that is neither 0 nor 1, and it matches the empty
query, yet `applyFilter` (with ShowSystem off) leaves it out of the filtered
list. -/
theorem applyFilter_drops_negative_pid :
    negativePidPort.Process ∉ systemNames ∧ negativePidPort.PID ≠ 0 ∧
      negativePidPort.PID ≠ 1 ∧
      newFilterInput.matches plainLibs negativePidPort = true ∧
      (applyFilter plainLibs insertionOrder
        { New defaultConfig with allPorts := [negativePidPort] }).map
          (fun m => m.filtered) = some [] := by
  decide

/-- C20 (amended): after `applyFilter` the filtered list is exactly the
sublist of `allPorts`, in original order, of the records that match the filter
query and, unless ShowSystem is enabled, are not system processes, where a
record is a system process exactly when its process name is one of the seven
system names or its PID is at most 1 (for a PID that is not negative: 0 or 1);
`allPorts` is unchanged, and `applyFilter` returns when the cursor and the
offset of the table are not negative. -/
theorem applyFilter_filtered (L : Libs) (ρ : RangeOrder) (m : Model) :
    (∀ m', applyFilter L ρ m = some m' →
      m'.filtered = m.allPorts.filter (fun p =>
        decide (m.filter.matches L p = true ∧
          (m.cfg.ShowSystem = true ∨ ¬ (p.Process ∈ systemNames ∨ p.PID ≤ 1)))) ∧
      m'.filtered.Sublist m.allPorts ∧ m'.allPorts = m.allPorts) ∧
    (∀ p : PortInfo, 0 ≤ p.PID →
      (isSystemProcess p = true ↔ (p.Process ∈ systemNames ∨ p.PID = 0 ∨ p.PID = 1))) ∧
    (0 ≤ m.table.cursor → 0 ≤ m.table.offset → ∃ m', applyFilter L ρ m = some m') := by
  refine ⟨?_, ?_, ?_⟩
  · intro m' h
    unfold applyFilter at h
    obtain ⟨t, _, ht⟩ := Option.map_eq_some'.1 h
    subst ht
    have hf : filterPorts L m = m.allPorts.filter (fun p =>
        decide (m.filter.matches L p = true ∧
          (m.cfg.ShowSystem = true ∨ ¬ (p.Process ∈ systemNames ∨ p.PID ≤ 1)))) := by
      unfold filterPorts
      apply List.filter_congr
      intro p _
      have hsys := isSystemProcess_iff p
      cases hm : m.filter.matches L p <;> cases hs : m.cfg.ShowSystem <;>
        cases hp : isSystemProcess p <;> simp_all
    refine ⟨hf, ?_, rfl⟩
    show (filterPorts L m).Sublist m.allPorts
    exact List.filter_sublist _
  · intro p h0
    rw [isSystemProcess_iff]
    constructor
    · rintro (h | h)
      · exact Or.inl h
      · exact Or.inr (by omega)
    · rintro (h | h)
      · exact Or.inl h
      · exact Or.inr (by omega)
  · intro h0 h1
    obtain ⟨t, ht⟩ := setRows_total L.sort ρ m.table (filterPorts L m) h0 h1
    exact ⟨_, by unfold applyFilter; rw [ht]; rfl⟩

/-- C20 (witness): the test `TestModelApplyFilterWithSystem`: of the ports of
`node` (PID 100) and `launchd` (PID 1), `applyFilter` without ShowSystem keeps
the first only. -/
theorem applyFilter_filtered_witness :
    (applyFilter plainLibs insertionOrder
        { New defaultConfig with
          allPorts := [{ mkPort 3000 100 0 with Process := "node" },
            { mkPort 5000 1 0 with Process := "launchd" }] }).map (fun m => m.filtered) =
      some [{ mkPort 3000 100 0 with Process := "node" }] ∧
    ∃ m', applyFilter plainLibs insertionOrder
        { New defaultConfig with
          allPorts := [{ mkPort 3000 100 0 with Process := "node" },
            { mkPort 5000 1 0 with Process := "launchd" }] } = some m' :=
  ⟨by decide,
    (applyFilter_filtered plainLibs insertionOrder
      { New defaultConfig with
        allPorts := [{ mkPort 3000 100 0 with Process := "node" },
          { mkPort 5000 1 0 with Process := "launchd" }] }).2.2 (by decide) (by decide)⟩

/-! ## Heads of groups and the order of first appearance -/

theorem headOf_eq_firstOf (items : List PortInfo) (pid : Int) :
    headOf items (groupByPID items).pidGroups pid = firstOf items pid := by
  unfold headOf firstOf
  cases hg : mget (groupByPID items).pidGroups pid with
  | none =>
    have hnot : pid ∉ items.map PortInfo.PID := by
      intro hmem
      have := (group_isSome_iff items pid).2 hmem
      rw [hg] at this
      cases this
    have : items.filter (fun q => decide (q.PID = pid)) = [] := by
      rw [List.filter_eq_nil_iff]
      intro q hq hqp
      exact hnot (List.mem_map.2 ⟨q, hq, by simpa using hqp⟩)
    rw [this]
    rfl
  | some g =>
    have h := group_records items pid g hg
    cases hf : items.filter (fun q => decide (q.PID = pid)) with
    | nil => rw [hf] at h; simp at h
    | cons p rest =>
      rw [hf] at h
      simp only [List.map_cons, List.cons.injEq] at h
      simpa using h.1

theorem firstOf_some (items : List PortInfo) (pid : Int) (p : PortInfo)
    (h : firstOf items pid = some p) : p ∈ items ∧ p.PID = pid := by
  unfold firstOf at h
  have hm := List.mem_of_mem_head? h
  have := List.mem_filter.1 hm
  exact ⟨this.1, by simpa using this.2⟩

theorem firstOf_isSome (items : List PortInfo) (pid : Int)
    (h : pid ∈ items.map PortInfo.PID) : ∃ p, firstOf items pid = some p := by
  obtain ⟨q, hq, hqp⟩ := List.mem_map.1 h
  unfold firstOf
  cases hf : items.filter (fun q => decide (q.PID = pid)) with
  | nil =>
    have := List.filter_eq_nil_iff.1 hf q hq
    simp [hqp] at this
  | cons p rest => exact ⟨p, rfl⟩

theorem mem_firstPIDs (l : List Int) (a : Int) : a ∈ firstPIDs l ↔ a ∈ l := by
  induction l with
  | nil => simp [firstPIDs]
  | cons b l ih =>
    simp only [firstPIDs, List.mem_cons, List.mem_filter, ih, decide_eq_true_eq]
    by_cases e : a = b <;> simp [e]

theorem firstPIDs_append_singleton (l : List Int) (a : Int) :
    firstPIDs (l ++ [a]) = if a ∈ firstPIDs l then firstPIDs l else firstPIDs l ++ [a] := by
  induction l with
  | nil => simp [firstPIDs]
  | cons b l ih =>
    have hcons : firstPIDs (b :: l ++ [a]) =
        b :: (firstPIDs (l ++ [a])).filter (fun c => decide (c ≠ b)) := rfl
    have hcons' : firstPIDs (b :: l) = b :: (firstPIDs l).filter (fun c => decide (c ≠ b)) :=
      rfl
    rw [hcons, hcons', ih]
    by_cases hmem : a ∈ firstPIDs l
    · have : a ∈ b :: (firstPIDs l).filter (fun c => decide (c ≠ b)) := by
        by_cases e : a = b
        · exact e ▸ List.mem_cons_self _ _
        · exact List.mem_cons_of_mem _ (List.mem_filter.2 ⟨hmem, by simpa using e⟩)
      rw [if_pos hmem, if_pos this]
    · rw [if_neg hmem]
      by_cases e : a = b
      · have : a ∈ b :: (firstPIDs l).filter (fun c => decide (c ≠ b)) :=
          e ▸ List.mem_cons_self _ _
        rw [if_pos this, List.filter_append]
        simp [e]
      · have : a ∉ b :: (firstPIDs l).filter (fun c => decide (c ≠ b)) := by
          intro hm
          rcases List.mem_cons.1 hm with h | h
          · exact e h
          · exact hmem (List.mem_filter.1 h).1
        rw [if_neg this, List.filter_append]
        simp [e]

theorem firstPIDs_nodup (l : List Int) : (firstPIDs l).Nodup := by
  induction l with
  | nil => exact List.nodup_nil
  | cons b l ih =>
    simp only [firstPIDs]
    refine List.nodup_cons.2 ⟨?_, ih.filter _⟩
    simp [List.mem_filter]

theorem firstPIDs_of_nodup (l : List Int) (h : l.Nodup) : firstPIDs l = l := by
  induction l with
  | nil => rfl
  | cons b l ih =>
    obtain ⟨hb, hl⟩ := List.nodup_cons.1 h
    simp only [firstPIDs, ih hl]
    congr 1
    rw [List.filter_eq_self]
    intro a ha
    simp only [ne_eq, decide_eq_true_eq]
    intro e
    exact hb (e ▸ ha)

theorem groupStep_order (s : pidIndex) (pre : List PortInfo) (h : GroupInv s pre)
    (p : PortInfo) :
    (groupStep s pre.length p).order =
      if p.PID ∈ s.order then s.order else s.order ++ [p.PID] := by
  have hfirst : (mget s.pidFirst p.PID).isSome = true ↔ p.PID ∈ s.order := by
    rw [h.first, h.groups, h.mem]
    cases hx : idxsOf p.PID 0 pre with
    | nil =>
      have := (idxsOf_eq_nil_iff p.PID 0 pre).1 hx
      simp [groupOf, this]
    | cons a t =>
      have : ¬ idxsOf p.PID 0 pre = [] := by rw [hx]; simp
      rw [idxsOf_eq_nil_iff] at this
      simp only [groupOf, Option.isSome_some, true_iff]
      exact not_not.1 this
  cases hf : mget s.pidFirst p.PID with
  | none =>
    have hnot : p.PID ∉ s.order := by
      intro hm
      have := hfirst.2 hm
      rw [hf] at this
      cases this
    simp [groupStep, hf, hnot]
  | some i₀ =>
    have hin : p.PID ∈ s.order := hfirst.1 (by rw [hf]; rfl)
    have hsome : (mget s.pidGroups p.PID).isSome = true := by
      rw [← h.first p.PID, hf]
      rfl
    obtain ⟨g, hg⟩ := Option.isSome_iff_exists.1 hsome
    simp [groupStep, hf, hg, hin]

theorem groupLoop_order (rest : List PortInfo) :
    ∀ (s : pidIndex) (pre : List PortInfo), GroupInv s pre →
      s.order = firstPIDs (pre.map PortInfo.PID) →
      (groupLoop s pre.length rest).order = firstPIDs ((pre ++ rest).map PortInfo.PID) := by
  induction rest with
  | nil => intro s pre _ ho; simpa [groupLoop] using ho
  | cons p ps ih =>
    intro s pre h ho
    have hstep := ih _ _ (h.step p) (by
      rw [groupStep_order s pre h p, List.map_append, List.map_cons, List.map_nil,
        firstPIDs_append_singleton, ← ho])
    simpa [groupLoop] using hstep

/-- The variable `order` of `buildTree` holds the PIDs in order of first
appearance. -/
theorem groupByPID_order (items : List PortInfo) :
    (groupByPID items).order = firstPIDs (items.map PortInfo.PID) := by
  have := groupLoop_order items _ [] GroupInv.init rfl
  simpa [groupByPID] using this

/-! ## What the entries of `childOf`, `ppidPeers` and `siblingOf` stand for -/

/-- An entry of `childOf` maps a PID whose head record has a PPID > 1 that is
the PID of a record of the list to that PPID. -/
theorem childOf_sound (items : List PortInfo) (k v : Int)
    (h : mget (childOfFor items) k = some v) :
    ∃ q, firstOf items k = some q ∧ q.PPID = v ∧ v > 1 ∧ v ∈ items.map PortInfo.PID := by
  revert k v
  unfold childOfFor childOfMap
  apply foldl_inv (fun m : List (Int × Int) => ∀ k v, mget m k = some v →
    ∃ q, firstOf items k = some q ∧ q.PPID = v ∧ v > 1 ∧ v ∈ items.map PortInfo.PID)
  · intro k v h; simp [mget] at h
  · intro m pid _ hm
    dsimp only
    cases hh : headOf items (groupByPID items).pidGroups pid with
    | none => exact hm
    | some p =>
      dsimp only
      split
      · rename_i hc
        intro k v hkv
        rw [mget_mset] at hkv
        by_cases e : pid = k
        · subst e
          simp only [if_true, Option.some.injEq] at hkv
          subst hkv
          exact ⟨p, by rw [← headOf_eq_firstOf, hh], rfl, hc.1,
            (group_isSome_iff items p.PPID).1 hc.2⟩
        · simp only [e, if_false] at hkv
          exact hm k v hkv
      · exact hm

/-- Every PID listed in `ppidPeers` under a key is not a child and has a head
record whose PPID is that key, which is > 1. -/
theorem ppidPeers_sound (items : List PortInfo) :
    ∀ kv ∈ ppidPeersMap items (groupByPID items).pidGroups (childOfFor items)
        (groupByPID items).order,
      ∀ pid ∈ kv.2, mget (childOfFor items) pid = none ∧
        ∃ q, firstOf items pid = some q ∧ q.PPID = kv.1 ∧ kv.1 > 1 := by
  unfold ppidPeersMap
  apply foldl_inv (fun m : List (Int × List Int) =>
    ∀ kv ∈ m, ∀ pid ∈ kv.2, mget (childOfFor items) pid = none ∧
      ∃ q, firstOf items pid = some q ∧ q.PPID = kv.1 ∧ kv.1 > 1)
  · intro kv hkv; simp at hkv
  · intro b a _ hb
    dsimp only
    split
    · exact hb
    · rename_i hnc
      cases hh : headOf items (groupByPID items).pidGroups a with
      | none => exact hb
      | some p =>
        dsimp only
        split
        · rename_i hpp
          intro kv hkv pid hpid
          rcases mem_mset _ _ _ _ hkv with e | e
          · subst e
            rcases List.mem_append.1 hpid with h1 | h1
            · cases hx : mget b p.PPID with
              | none => rw [hx] at h1; simp at h1
              | some old =>
                rw [hx] at h1
                exact hb _ (mget_mem _ _ _ hx) pid h1
            · simp only [List.mem_singleton] at h1
              subst h1
              refine ⟨?_, p, by rw [← headOf_eq_firstOf, hh], rfl, hpp⟩
              cases hx : mget (childOfFor items) pid with
              | none => rfl
              | some v => rw [hx] at hnc; simp at hnc
          · exact hb kv e pid hpid
        · exact hb

/-- Every key of `siblingOf` is a PID listed in `ppidPeers`. -/
theorem siblingOfMap_keys (ρ : RangeOrder) (P : Int → Prop)
    (ppidPeers : List (Int × List Int)) (h : ∀ kv ∈ ppidPeers, ∀ pid ∈ kv.2, P pid) :
    ∀ k ∈ (siblingOfMap ρ ppidPeers).map Prod.fst, P k := by
  unfold siblingOfMap
  apply foldl_inv (fun m : List (Int × Int) => ∀ k ∈ m.map Prod.fst, P k)
  · simp
  · intro b kv hkv hb
    have hkv' : kv ∈ ppidPeers := (ρ.lists_perm ppidPeers).mem_iff.1 hkv
    split
    · rename_i root rest hrest
      split
      · exact hb
      · apply foldl_inv (fun m : List (Int × Int) => ∀ k ∈ m.map Prod.fst, P k)
        · exact hb
        · intro b' pid hpid hb' k hk
          rcases (mem_keys_mset _ _ _ _).1 hk with e | e
          · subst e
            apply h kv hkv'
            rw [hrest]
            exact List.mem_cons_of_mem _ hpid
          · exact hb' k e
    · exact hb

/-- A key of `siblingOf` has a head record with PPID > 1. -/
theorem siblingOf_sound (ρ : RangeOrder) (items : List PortInfo) (k : Int)
    (h : (mget (siblingOfFor ρ items) k).isSome = true) :
    ∃ q, firstOf items k = some q ∧ q.PPID > 1 := by
  have hk := (mget_isSome_iff _ _).1 h
  have := siblingOfMap_keys ρ (fun pid => ∃ q, firstOf items pid = some q ∧ q.PPID > 1) _
    (fun kv hkv pid hpid => by
      obtain ⟨_, q, h1, h2, h3⟩ := ppidPeers_sound items kv hkv pid hpid
      exact ⟨q, h1, by rw [h2]; exact h3⟩) k hk
  exact this

/-- The head record of a PID with PPID ≤ 1 makes that PID a root: it is a key
neither of `childOf` nor of `siblingOf`. -/
theorem orphan_is_root (ρ : RangeOrder) (items : List PortInfo) (p : PortInfo)
    (hfirst : firstOf items p.PID = some p) (hpp : p.PPID ≤ 1) :
    (mget (childOfFor items) p.PID).isSome = false ∧
      (mget (siblingOfFor ρ items) p.PID).isSome = false := by
  constructor
  · cases hc : mget (childOfFor items) p.PID with
    | none => rfl
    | some v =>
      obtain ⟨q, h1, h2, h3, _⟩ := childOf_sound items _ _ hc
      rw [hfirst] at h1
      cases h1
      omega
  · cases hs : (mget (siblingOfFor ρ items) p.PID).isSome with
    | false => rfl
    | true =>
      obtain ⟨q, h1, h2⟩ := siblingOf_sound ρ items _ hs
      rw [hfirst] at h1
      cases h1
      omega

/-- The rows of a root PID: its group with the empty prefix, not marked as a
child, is part of the output. -/
theorem root_rows_mem (ρ : RangeOrder) (items : List PortInfo) (pid : Int)
    (hin : pid ∈ items.map PortInfo.PID)
    (hc : (mget (childOfFor items) pid).isSome = false)
    (hs : (mget (siblingOfFor ρ items) pid).isSome = false) :
    ∀ r ∈ appendGroup items (groupByPID items).pidGroups (kidsFor ρ items) pid "" false,
      r ∈ buildRows ρ items := by
  intro r hr
  rw [buildRows_eq_calls]
  refine List.mem_flatMap.2 ⟨(pid, "", false), ?_, hr⟩
  unfold callsFor
  refine List.mem_flatMap.2 ⟨pid, ((groupByPID_inv items).mem pid).2 hin, ?_⟩
  unfold rootCalls
  simp [hc, hs]

theorem buildTree_getElem (ρ : RangeOrder) (items : List PortInfo) (r : PortInfo × rowMeta)
    (h : r ∈ buildRows ρ items) :
    ∃ i : Nat, (buildTree ρ items).1[i]? = some r.1 ∧
      (buildTree ρ items).2[i]? = some r.2 := by
  obtain ⟨i, hi⟩ := List.mem_iff_getElem?.1 h
  exact ⟨i, by simp [buildTree, hi], by simp [buildTree, hi]⟩

/-! ## Claim C18: records with no known parent -/

/-- C18: for every input list and every iteration order of the maps, a record
that is the first occurrence of its PID and has PPID ≤ 1 appears in the output
of `buildTree` as a root row: at some position the record list holds the record
and the metadata list holds the empty prefix with `isChild` false. -/
theorem orphan_heads_are_roots (ρ : RangeOrder) (items : List PortInfo) (p : PortInfo)
    (hfirst : firstOf items p.PID = some p) (hpp : p.PPID ≤ 1) :
    ∃ i : Nat, (buildTree ρ items).1[i]? = some p ∧
      (buildTree ρ items).2[i]? = some ({ treePrefix := "", isChild := false } : rowMeta) := by
  obtain ⟨hc, hs⟩ := orphan_is_root ρ items p hfirst hpp
  have hin : p.PID ∈ items.map PortInfo.PID :=
    List.mem_map.2 ⟨p, (firstOf_some items _ _ hfirst).1, rfl⟩
  obtain ⟨p', tl, h1, h2, _⟩ := appendGroup_spec items (kidsFor ρ items) p.PID "" false hin
  have hp' : p' = p := by
    unfold firstOf at hfirst
    rw [← h2] at hfirst
    simpa using hfirst
  have hmem := root_rows_mem ρ items p.PID hin hc hs
    (p', ({ treePrefix := "", isChild := false } : rowMeta))
    (by rw [h1]; exact List.mem_cons_self _ _)
  rw [hp'] at hmem
  exact buildTree_getElem ρ items _ hmem

/-- C18 (witness): in the list of `TestBuildTreeParentChildPID` the master
(PID 50, PPID 1) is a root row. -/
theorem orphan_heads_are_roots_witness :
    firstOf [mkPort 9000 50 1, mkPort 9001 101 50] (mkPort 9000 50 1).PID =
        some (mkPort 9000 50 1) ∧
      (mkPort 9000 50 1).PPID ≤ 1 ∧
      ∃ i : Nat, (buildTree insertionOrder [mkPort 9000 50 1, mkPort 9001 101 50]).1[i]? =
          some (mkPort 9000 50 1) ∧
        (buildTree insertionOrder [mkPort 9000 50 1, mkPort 9001 101 50]).2[i]? =
          some ({ treePrefix := "", isChild := false } : rowMeta) :=
  ⟨by decide, by decide,
    orphan_heads_are_roots insertionOrder [mkPort 9000 50 1, mkPort 9001 101 50]
      (mkPort 9000 50 1) (by decide) (by decide)⟩

/-! ## Claim C17: single-record lists -/

theorem range_ints_nil (ρ : RangeOrder) : ρ.ints [] = [] :=
  List.Perm.eq_nil (ρ.ints_perm [])

theorem range_lists_nil (ρ : RangeOrder) : ρ.lists [] = [] :=
  List.Perm.eq_nil (ρ.lists_perm [])

theorem range_lists_singleton (ρ : RangeOrder) (x : Int × List Int) : ρ.lists [x] = [x] :=
  List.perm_singleton.1 (ρ.lists_perm [x])

theorem groupByPID_single (p : PortInfo) :
    groupByPID [p] = { pidFirst := [(p.PID, 0)],
                       pidGroups := [(p.PID, { head := 0, extraIdx := [] })],
                       order := [p.PID] } := rfl

theorem buildRows_single (ρ : RangeOrder) (p : PortInfo) :
    buildRows ρ [p] =
      if p.PPID > 1 ∧ p.PPID = p.PID then []
      else [(p, ({ treePrefix := "", isChild := false } : rowMeta))] := by
  unfold buildRows
  rw [groupByPID_single]
  dsimp only
  have hh : headOf [p] [(p.PID, ({ head := 0, extraIdx := [] } : group))] p.PID = some p := by
    simp [headOf, mget]
  by_cases c : p.PPID > 1 ∧ p.PPID = p.PID
  · have hC : childOfMap [p] [(p.PID, ({ head := 0, extraIdx := [] } : group))] [p.PID] =
        [(p.PID, p.PPID)] := by
      simp only [childOfMap, List.foldl_cons, List.foldl_nil, hh]
      rw [if_pos ⟨c.1, by simp [mget, c.2]⟩]
      rfl
    rw [hC, if_pos c]
    simp [rootRows, mget]
  · have hC : childOfMap [p] [(p.PID, ({ head := 0, extraIdx := [] } : group))] [p.PID] =
        [] := by
      simp only [childOfMap, List.foldl_cons, List.foldl_nil, hh]
      rw [if_neg]
      intro h
      apply c
      refine ⟨h.1, ?_⟩
      have h2 := h.2
      simp only [mget] at h2
      by_cases e : p.PID = p.PPID
      · exact e.symm
      · rw [if_neg e] at h2
        cases h2
    have hS : siblingOfMap ρ (ppidPeersMap [p]
        [(p.PID, ({ head := 0, extraIdx := [] } : group))] [] [p.PID]) = [] := by
      simp only [ppidPeersMap, List.foldl_cons, List.foldl_nil, hh, mget]
      by_cases h1 : p.PPID > 1
      · simp [h1, mset, siblingOfMap, range_lists_singleton]
      · simp [h1, siblingOfMap, range_lists_nil]
    rw [hC, hS, if_neg c]
    simp [rootRows, mget, kidsMap, addKids, range_ints_nil, appendGroup, appendItem,
      appendExtras, appendKids]

/-- C17 (failing input): the output of `buildTree` for a one-record list,
whatever the iteration order of the maps. A record whose PPID is its own PID
and > 1 is entered in `childOf` as its own child and the output is empty; every
other single record is returned as one root row with the empty prefix. -/
theorem buildTree_single (ρ : RangeOrder) (p : PortInfo) :
    buildTree ρ [mkPort 3000 5 5] = ([], []) ∧
      buildTree ρ [p] =
        if p.PPID > 1 ∧ p.PPID = p.PID then ([], [])
        else ([p], [({ treePrefix := "", isChild := false } : rowMeta)]) := by
  have h : ∀ q : PortInfo, buildTree ρ [q] =
      if q.PPID > 1 ∧ q.PPID = q.PID then ([], [])
      else ([q], [({ treePrefix := "", isChild := false } : rowMeta)]) := by
    intro q
    unfold buildTree
    rw [buildRows_single]
    split <;> rfl
  exact ⟨by rw [h]; rfl, h p⟩

/-! ## Claim C14: the order of the children of a parent -/

/-- C14 (failing input): for the master (PID 50, PPID 1) followed by its two
workers (PIDs 101 and 102, PPID 50), when the loop over `childOf` visits the
entry of 102 before the entry of 101 the output lists the rows in the order
50, 102, 101: the workers are not in their input order. When the loop visits
the entries in insertion order the output is in the input order. -/
theorem buildTree_children_follow_map_order :
    (buildTree reverseOrder
        [mkPort 9000 50 1, mkPort 9001 101 50, mkPort 9002 102 50]).1 =
      [mkPort 9000 50 1, mkPort 9002 102 50, mkPort 9001 101 50] ∧
    (buildTree reverseOrder
        [mkPort 9000 50 1, mkPort 9001 101 50, mkPort 9002 102 50]).2 =
      [{ treePrefix := "", isChild := false }, { treePrefix := "├─ ", isChild := true },
        { treePrefix := "└─ ", isChild := true }] ∧
    (buildTree insertionOrder
        [mkPort 9000 50 1, mkPort 9001 101 50, mkPort 9002 102 50]).1 =
      [mkPort 9000 50 1, mkPort 9001 101 50, mkPort 9002 102 50] := by
  decide

/-! ## Root rows in input order -/

theorem firstOf_cons (p : PortInfo) (items : List PortInfo) (pid : Int) :
    firstOf (p :: items) pid = if p.PID = pid then some p else firstOf items pid := by
  unfold firstOf
  by_cases h : p.PID = pid <;> simp [List.filter_cons, h]

theorem firstOf_none (items : List PortInfo) (pid : Int)
    (h : pid ∉ items.map PortInfo.PID) : firstOf items pid = none := by
  induction items with
  | nil => rfl
  | cons p items ih =>
    rw [firstOf_cons]
    have hne : ¬ p.PID = pid := fun e => h (by simp [e])
    rw [if_neg hne]
    exact ih (fun hm => h (by simp only [List.map_cons]; exact List.mem_cons_of_mem _ hm))

theorem flatMap_ite {α β : Type} (P : α → Bool) (f : α → List β) (l : List α) :
    l.flatMap (fun a => if P a = true then f a else []) = (l.filter P).flatMap f := by
  induction l with
  | nil => rfl
  | cons a l ih =>
    by_cases h : P a = true <;> simp [List.flatMap_cons, List.filter_cons, h, ih]

theorem flatMap_congr_mem {α β : Type} (f g : α → List β) (l : List α)
    (h : ∀ a ∈ l, f a = g a) : l.flatMap f = l.flatMap g := by
  induction l with
  | nil => rfl
  | cons a l ih =>
    simp only [List.flatMap_cons]
    rw [h a (List.mem_cons_self _ _), ih (fun b hb => h b (List.mem_cons_of_mem _ hb))]

/-- The head records of any selection of the PIDs, listed in the order of first
appearance, form a sublist of the input. -/
theorem heads_sublist (items : List PortInfo) : ∀ P : Int → Bool,
    (((firstPIDs (items.map PortInfo.PID)).filter P).flatMap
      (fun pid => (firstOf items pid).toList)).Sublist items := by
  induction items with
  | nil => intro P; simp [firstPIDs]
  | cons p items ih =>
    intro P
    have hcons : firstPIDs ((p :: items).map PortInfo.PID) =
        p.PID :: (firstPIDs (items.map PortInfo.PID)).filter (fun b => decide (b ≠ p.PID)) :=
      rfl
    have hrest : (((firstPIDs (items.map PortInfo.PID)).filter
          (fun b => decide (b ≠ p.PID))).filter P).flatMap
          (fun pid => (firstOf (p :: items) pid).toList) =
        ((firstPIDs (items.map PortInfo.PID)).filter
          (fun b => P b && decide (b ≠ p.PID))).flatMap
          (fun pid => (firstOf items pid).toList) := by
      rw [List.filter_filter]
      apply flatMap_congr_mem
      intro a ha
      have hne : ¬ p.PID = a := by
        have := (List.mem_filter.1 ha).2
        simp only [Bool.and_eq_true, decide_eq_true_eq] at this
        exact fun e => this.2 e.symm
      rw [firstOf_cons, if_neg hne]
    rw [hcons, List.filter_cons]
    by_cases hP : P p.PID = true
    · rw [if_pos hP, List.flatMap_cons, hrest, firstOf_cons, if_pos rfl]
      exact (ih _).cons₂ p
    · rw [if_neg hP, hrest]
      exact (ih _).cons p

theorem firstOf_of_nodup (items : List PortInfo) (h : (items.map PortInfo.PID).Nodup)
    (p : PortInfo) (hp : p ∈ items) : firstOf items p.PID = some p := by
  induction items with
  | nil => cases hp
  | cons q items ih =>
    rw [firstOf_cons]
    simp only [List.map_cons, List.nodup_cons] at h
    rcases List.mem_cons.1 hp with e | e
    · subst e; rw [if_pos rfl]
    · have hne : ¬ q.PID = p.PID := fun e' => h.1 (by rw [e']; exact List.mem_map_of_mem _ e)
      rw [if_neg hne]
      exact ih h.2 e

theorem filter_pid_of_nodup (items : List PortInfo) (h : (items.map PortInfo.PID).Nodup)
    (p : PortInfo) (hp : p ∈ items) :
    items.filter (fun q => decide (q.PID = p.PID)) = [p] := by
  induction items with
  | nil => cases hp
  | cons q items ih =>
    simp only [List.map_cons, List.nodup_cons] at h
    rcases List.mem_cons.1 hp with e | e
    · subst e
      rw [List.filter_cons, if_pos (by simp)]
      congr 1
      apply List.filter_eq_nil_iff.2
      intro a ha
      simp only [decide_eq_true_eq]
      exact fun e' => h.1 (by rw [← e']; exact List.mem_map_of_mem _ ha)
    · have hne : ¬ q.PID = p.PID := fun e' => h.1 (by rw [e']; exact List.mem_map_of_mem _ e)
      rw [List.filter_cons, if_neg (by simp [hne])]
      exact ih h.2 e

/-- With pairwise distinct PIDs, `appendGroup` adds exactly one row. -/
theorem appendGroup_single (items : List PortInfo) (h : (items.map PortInfo.PID).Nodup)
    (kids : List (Int × List Int)) (p : PortInfo) (hp : p ∈ items) (pre : String) (c : Bool) :
    appendGroup items (groupByPID items).pidGroups kids p.PID pre c =
      [(p, { treePrefix := pre, isChild := c })] := by
  obtain ⟨p', tl, h1, h2, _⟩ := appendGroup_spec items kids p.PID pre c
    (List.mem_map_of_mem _ hp)
  rw [filter_pid_of_nodup items h p hp] at h2
  have hp' : p' = p := (List.cons.inj h2).1
  have htl : tl = [] := List.map_eq_nil_iff.1 (List.cons.inj h2).2
  rw [h1, hp', htl]

/-- The rows of one call of `appendGroup` that are not marked as children:
the head record when the call is not for a child, nothing otherwise. -/
theorem appendGroup_roots (items : List PortInfo) (kids : List (Int × List Int)) (pid : Int)
    (pre : String) (c : Bool) :
    ((appendGroup items (groupByPID items).pidGroups kids pid pre c).filter
        (fun r => !r.2.isChild)).map Prod.fst =
      if c = true then [] else (firstOf items pid).toList := by
  by_cases hp : pid ∈ items.map PortInfo.PID
  · obtain ⟨p, tl, h1, h2, h3⟩ := appendGroup_spec items kids pid pre c hp
    have hf : firstOf items pid = some p := by unfold firstOf; rw [← h2]; rfl
    have htl : tl.filter (fun r => !r.2.isChild) = [] :=
      List.filter_eq_nil_iff.2 (fun r hr => by simp [h3 r hr])
    rw [h1, hf, List.filter_cons, htl]
    cases c <;> simp
  · rw [appendGroup_absent items kids pid pre c hp, firstOf_none items pid hp]
    cases c <;> rfl

theorem filter_map_flatMap {α β γ : Type} (l : List α) (f : α → List β) (q : β → Bool)
    (g : β → γ) :
    ((l.flatMap f).filter q).map g = l.flatMap (fun a => ((f a).filter q).map g) := by
  induction l with
  | nil => rfl
  | cons a l ih => simp [List.flatMap_cons, List.filter_append, List.map_append, ih]

theorem flatMap_map_eq {α β γ : Type} (l : List α) (g : α → β) (f : β → List γ) :
    (l.map g).flatMap f = l.flatMap (fun a => f (g a)) := by
  induction l with
  | nil => rfl
  | cons a l ih => simp [List.flatMap_cons, ih]

/-- The root rows of the output of `buildTree`: the head records of the PIDs
that are keys neither of `childOf` nor of `siblingOf`, in the order of first
appearance. -/
theorem buildRows_roots (ρ : RangeOrder) (items : List PortInfo) :
    ((buildRows ρ items).filter (fun r => !r.2.isChild)).map Prod.fst =
      ((firstPIDs (items.map PortInfo.PID)).filter
          (fun pid => !(mget (childOfFor items) pid).isSome &&
            !(mget (siblingOfFor ρ items) pid).isSome)).flatMap
        (fun pid => (firstOf items pid).toList) := by
  rw [buildRows_eq_calls, filter_map_flatMap, ← flatMap_ite]
  unfold callsFor
  rw [groupByPID_order, List.flatMap_assoc]
  apply flatMap_congr_mem
  intro pid _
  simp only [appendGroup_roots]
  unfold rootCalls
  cases hc : (mget (childOfFor items) pid).isSome
  · cases hs : (mget (siblingOfFor ρ items) pid).isSome
    · simp only [Bool.false_eq_true, if_false, List.flatMap_cons, Bool.not_false,
        Bool.and_self, if_true]
      have hk : (kidCalls ((mget (kidsFor ρ items) pid).getD []).length 0
          ((mget (kidsFor ρ items) pid).getD [])).flatMap
          (fun c => if c.2.2 = true then [] else (firstOf items c.1).toList) = [] := by
        apply List.flatMap_eq_nil_iff.2
        intro c hc'
        rw [if_pos (kidCalls_child _ _ _ c hc')]
      rw [hk, List.append_nil]
    · simp
  · simp

/-- With pairwise distinct PIDs, the output of `buildTree` record by record:
nothing for a record whose PID is a key of `childOf` or `siblingOf`, and
otherwise the record as a root row followed by the rows of its kids. -/
theorem buildRows_of_nodup (ρ : RangeOrder) (items : List PortInfo)
    (h : (items.map PortInfo.PID).Nodup) :
    buildRows ρ items = items.flatMap (fun p =>
      if (mget (childOfFor items) p.PID).isSome = true ∨
          (mget (siblingOfFor ρ items) p.PID).isSome = true then []
      else (p, ({ treePrefix := "", isChild := false } : rowMeta)) ::
        (kidCalls ((mget (kidsFor ρ items) p.PID).getD []).length 0
          ((mget (kidsFor ρ items) p.PID).getD [])).flatMap
          (fun c => appendGroup items (groupByPID items).pidGroups (kidsFor ρ items)
            c.1 c.2.1 c.2.2)) := by
  rw [buildRows_eq_calls]
  unfold callsFor
  rw [groupByPID_order, firstPIDs_of_nodup _ h, List.flatMap_assoc, flatMap_map_eq]
  apply flatMap_congr_mem
  intro p hp
  unfold rootCalls
  cases hc : (mget (childOfFor items) p.PID).isSome
  · cases hs : (mget (siblingOfFor ρ items) p.PID).isSome
    · simp only [Bool.false_eq_true, if_false, or_self, List.flatMap_cons]
      rw [appendGroup_single items h _ p hp]
      rfl
    · simp
  · simp

theorem no_child_of_orphans (items : List PortInfo) (h : ∀ p ∈ items, p.PPID ≤ 1) (k : Int) :
    mget (childOfFor items) k = none := by
  cases hc : mget (childOfFor items) k with
  | none => rfl
  | some v =>
    obtain ⟨q, h1, h2, h3, _⟩ := childOf_sound items k v hc
    have := h q (firstOf_some items k q h1).1
    omega

theorem no_sibling_of_orphans (ρ : RangeOrder) (items : List PortInfo)
    (h : ∀ p ∈ items, p.PPID ≤ 1) (k : Int) :
    mget (siblingOfFor ρ items) k = none := by
  cases hs : mget (siblingOfFor ρ items) k with
  | none => rfl
  | some v =>
    obtain ⟨q, h1, h2⟩ := siblingOf_sound ρ items k (by rw [hs]; rfl)
    have := h q (firstOf_some items k q h1).1
    omega

theorem zip_fst_snd {α β : Type} (l : List (α × β)) :
    (l.map Prod.fst).zip (l.map Prod.snd) = l := by
  induction l with
  | nil => rfl
  | cons a l ih => simp only [List.map_cons, List.zip_cons_cons, ih]

theorem flatMap_singleton_map {α β : Type} (l : List α) (f : α → β) :
    l.flatMap (fun a => [f a]) = l.map f := by
  induction l with
  | nil => rfl
  | cons a l ih => simp only [List.flatMap_cons, List.map_cons, ih, List.singleton_append]

theorem unzip_pair_const {α β : Type} (l : List α) (c : β) :
    ((l.map (fun a => (a, c))).map Prod.fst, (l.map (fun a => (a, c))).map Prod.snd) =
      (l, l.map (fun _ => c)) := by
  induction l with
  | nil => rfl
  | cons a l ih =>
    simp only [List.map_cons, Prod.mk.injEq, List.cons.injEq, true_and] at ih ⊢
    exact ih

/-! ## Claim C16: root order -/

/-- C16: for every input list and every iteration order of the maps, the
records of the rows of the output of `buildTree` that are not marked as
children form a sublist of the input, so they keep their relative input order;
and a list of records with pairwise distinct PIDs and every PPID ≤ 1 is
returned unchanged, every row with the empty prefix and `isChild` false. -/
theorem roots_keep_input_order (ρ : RangeOrder) (items : List PortInfo) :
    ((((buildTree ρ items).1.zip (buildTree ρ items).2).filter
        (fun r => !r.2.isChild)).map Prod.fst).Sublist items ∧
      ((items.map PortInfo.PID).Nodup → (∀ p ∈ items, p.PPID ≤ 1) →
        buildTree ρ items =
          (items, items.map (fun _ => ({ treePrefix := "", isChild := false } : rowMeta)))) := by
  constructor
  · have hz : (buildTree ρ items).1.zip (buildTree ρ items).2 = buildRows ρ items := by
      unfold buildTree
      exact zip_fst_snd _
    rw [hz, buildRows_roots]
    exact heads_sublist items _
  · intro hnd hpp
    have hrows : buildRows ρ items =
        items.map (fun p => (p, ({ treePrefix := "", isChild := false } : rowMeta))) := by
      rw [buildRows_of_nodup ρ items hnd]
      have hk : ∀ r, (mget (kidsFor ρ items) r).getD [] = [] := by
        intro r
        apply List.eq_nil_iff_forall_not_mem.2
        intro k hk
        rcases (kidsFor_mem ρ items r k).1 hk with e | e
        · rw [no_child_of_orphans items hpp k] at e; cases e
        · rw [no_sibling_of_orphans ρ items hpp k] at e; cases e
      simp only [no_child_of_orphans items hpp, no_sibling_of_orphans ρ items hpp, hk]
      simp only [Option.isSome_none, Bool.false_eq_true, or_self, if_false, kidCalls,
        List.flatMap_nil]
      exact flatMap_singleton_map items _
    unfold buildTree
    rw [hrows]
    exact unzip_pair_const items _

/-- C16 (witness): the list of `TestBuildTreePreservesOrder` (PIDs 100, 200,
300, PPID 1) is returned unchanged. -/
theorem roots_keep_input_order_witness :
    ([mkPort 3000 100 1, mkPort 4000 200 1, mkPort 5000 300 1].map PortInfo.PID).Nodup ∧
      (∀ p ∈ [mkPort 3000 100 1, mkPort 4000 200 1, mkPort 5000 300 1], p.PPID ≤ 1) ∧
      buildTree insertionOrder [mkPort 3000 100 1, mkPort 4000 200 1, mkPort 5000 300 1] =
        ([mkPort 3000 100 1, mkPort 4000 200 1, mkPort 5000 300 1],
          [mkPort 3000 100 1, mkPort 4000 200 1, mkPort 5000 300 1].map
            (fun _ => ({ treePrefix := "", isChild := false } : rowMeta))) :=
  ⟨by decide, by decide,
    (roots_keep_input_order insertionOrder
      [mkPort 3000 100 1, mkPort 4000 200 1, mkPort 5000 300 1]).2 (by decide) (by decide)⟩

/-! ## The lists of `ppidPeers` and the entries of `siblingOf` -/

theorem ppidPeersMap_eq (items : List PortInfo) (pidGroups : List (Int × group))
    (childOf : List (Int × Int)) (order : List Int) :
    ppidPeersMap items pidGroups childOf order =
      order.foldl (fun pp pid =>
        match peerKey items pidGroups childOf pid with
        | some k => mset pp k ((mget pp k).getD [] ++ [pid])
        | none => pp) [] := by
  unfold ppidPeersMap
  congr 1
  funext pp pid
  unfold peerKey
  split
  · rfl
  · cases headOf items pidGroups pid with
    | none => rfl
    | some p =>
      dsimp only
      split <;> rfl

theorem peers_foldl_get (key : Int → Option Int) (k : Int) (l : List Int) :
    ∀ init : List (Int × List Int),
      (mget (l.foldl (fun pp pid =>
        match key pid with
        | some k => mset pp k ((mget pp k).getD [] ++ [pid])
        | none => pp) init) k).getD [] =
      (mget init k).getD [] ++ l.filter (fun pid => decide (key pid = some k)) := by
  induction l with
  | nil => intro init; simp
  | cons a l ih =>
    intro init
    rw [List.foldl_cons, ih]
    cases hk : key a with
    | none => simp [List.filter_cons, hk]
    | some k' =>
      dsimp only
      rw [mget_mset, List.filter_cons]
      by_cases e : k' = k
      · subst e
        simp [hk]
      · have e' : ¬ some k' = some k := fun h => e (Option.some.inj h)
        simp [hk, e, e']

theorem peers_foldl_keys (key : Int → Option Int) (l : List Int) :
    ((l.foldl (fun pp pid =>
        match key pid with
        | some k => mset pp k ((mget pp k).getD [] ++ [pid])
        | none => pp) ([] : List (Int × List Int))).map Prod.fst).Nodup := by
  apply foldl_inv (fun m : List (Int × List Int) => (m.map Prod.fst).Nodup)
  · exact List.nodup_nil
  · intro b a _ hb
    cases key a with
    | none => exact hb
    | some k => exact nodup_keys_mset _ _ _ hb

/-- The list stored in `ppidPeers` under a key: the PIDs of `order` with that
peer key, in order. -/
theorem ppidPeers_get (items : List PortInfo) (pidGroups : List (Int × group))
    (childOf : List (Int × Int)) (order : List Int) (k : Int) :
    (mget (ppidPeersMap items pidGroups childOf order) k).getD [] =
      order.filter (fun pid => decide (peerKey items pidGroups childOf pid = some k)) := by
  rw [ppidPeersMap_eq, peers_foldl_get]
  rfl

theorem ppidPeers_keys_nodup (items : List PortInfo) (pidGroups : List (Int × group))
    (childOf : List (Int × Int)) (order : List Int) :
    ((ppidPeersMap items pidGroups childOf order).map Prod.fst).Nodup := by
  rw [ppidPeersMap_eq]
  exact peers_foldl_keys _ _

theorem ppidPeers_entry (items : List PortInfo) (pidGroups : List (Int × group))
    (childOf : List (Int × Int)) (order : List Int) (kv : Int × List Int)
    (h : kv ∈ ppidPeersMap items pidGroups childOf order) :
    kv.2 = order.filter (fun pid => decide (peerKey items pidGroups childOf pid = some kv.1)) := by
  rw [← ppidPeers_get]
  rw [mget_of_mem _ (ppidPeers_keys_nodup items pidGroups childOf order) kv.1 kv.2 h]
  rfl

theorem siblingOfMap_eq (ρ : RangeOrder) (ppidPeers : List (Int × List Int)) :
    siblingOfMap ρ ppidPeers =
      (sibEntries (ρ.lists ppidPeers)).foldl (fun s e => mset s e.1 e.2) [] := by
  unfold siblingOfMap
  generalize ([] : List (Int × Int)) = init
  generalize ρ.lists ppidPeers = L
  induction L generalizing init with
  | nil => rfl
  | cons kv L ih =>
    rw [List.foldl_cons, ih]
    unfold sibEntries
    rw [List.flatMap_cons, List.foldl_append]
    congr 1
    cases hkv : kv.2 with
    | nil => rfl
    | cons root rest =>
      dsimp only
      rw [List.foldl_map]
      cases rest with
      | nil => simp
      | cons r rest' =>
        rw [if_neg (by simp)]

theorem mget_foldl_notin (E : List (Int × Int)) (x : Int) (hx : x ∉ E.map Prod.fst) :
    ∀ init : List (Int × Int),
      mget (E.foldl (fun s e => mset s e.1 e.2) init) x = mget init x := by
  induction E with
  | nil => intro init; rfl
  | cons e E ih =>
    intro init
    simp only [List.map_cons, List.mem_cons, not_or] at hx
    rw [List.foldl_cons, ih hx.2, mget_mset, if_neg (fun h => hx.1 h.symm)]

theorem mget_foldl_of_mem (E : List (Int × Int)) (hnd : (E.map Prod.fst).Nodup)
    (x r : Int) (h : (x, r) ∈ E) :
    ∀ init : List (Int × Int),
      mget (E.foldl (fun s e => mset s e.1 e.2) init) x = some r := by
  induction E with
  | nil => cases h
  | cons e E ih =>
    intro init
    simp only [List.map_cons, List.nodup_cons] at hnd
    rw [List.foldl_cons]
    rcases List.mem_cons.1 h with e' | e'
    · subst e'
      rw [mget_foldl_notin E x hnd.1, mget_mset, if_pos rfl]
    · exact ih hnd.2 e' _

theorem mem_of_mget_foldl (E : List (Int × Int)) (x r : Int) :
    ∀ init : List (Int × Int),
      mget (E.foldl (fun s e => mset s e.1 e.2) init) x = some r →
        (x, r) ∈ E ∨ mget init x = some r := by
  induction E with
  | nil => intro init h; exact Or.inr h
  | cons e E ih =>
    intro init h
    rw [List.foldl_cons] at h
    rcases ih _ h with h1 | h1
    · exact Or.inl (List.mem_cons_of_mem _ h1)
    · rw [mget_mset] at h1
      by_cases c : e.1 = x
      · rw [if_pos c] at h1
        left
        have : e = (x, r) := by
          cases e
          simp only at c h1
          rw [c, Option.some.inj h1]
        rw [this]
        exact List.mem_cons_self _ _
      · rw [if_neg c] at h1
        exact Or.inr h1

theorem mem_sibEntries (pp : List (Int × List Int)) (x root : Int) :
    (x, root) ∈ sibEntries pp ↔ ∃ kv ∈ pp, ∃ rest, kv.2 = root :: rest ∧ x ∈ rest := by
  unfold sibEntries
  rw [List.mem_flatMap]
  constructor
  · rintro ⟨kv, hkv, h⟩
    refine ⟨kv, hkv, ?_⟩
    cases hl : kv.2 with
    | nil => rw [hl] at h; cases h
    | cons r rest =>
      rw [hl] at h
      obtain ⟨pid, hpid, e⟩ := List.mem_map.1 h
      cases e
      exact ⟨rest, rfl, hpid⟩
  · rintro ⟨kv, hkv, rest, hl, hx⟩
    refine ⟨kv, hkv, ?_⟩
    rw [hl]
    exact List.mem_map.2 ⟨x, hx, rfl⟩

theorem map_fst_pair (rest : List Int) (r : Int) :
    (rest.map (fun pid => (pid, r))).map Prod.fst = rest := by
  induction rest with
  | nil => rfl
  | cons a rest ih => simp only [List.map_cons, ih]

theorem sibEntries_keys (pp : List (Int × List Int)) :
    (sibEntries pp).map Prod.fst = pp.flatMap (fun kv => kv.2.tail) := by
  unfold sibEntries
  rw [List.map_flatMap]
  apply flatMap_congr_mem
  intro kv _
  cases kv.2 with
  | nil => rfl
  | cons r rest => exact map_fst_pair rest r

theorem sibEntries_nodup (items : List PortInfo) (pidGroups : List (Int × group))
    (childOf : List (Int × Int)) (order : List Int) (hnd : order.Nodup) :
    ((sibEntries (ppidPeersMap items pidGroups childOf order)).map Prod.fst).Nodup := by
  rw [sibEntries_keys, List.nodup_flatMap]
  constructor
  · intro kv hkv
    rw [ppidPeers_entry _ _ _ _ kv hkv]
    exact (hnd.filter _).sublist (List.tail_sublist _)
  · have hk : List.Pairwise (fun a b : Int × List Int => a.1 ≠ b.1)
        (ppidPeersMap items pidGroups childOf order) :=
      List.pairwise_map.1 (ppidPeers_keys_nodup items pidGroups childOf order)
    apply List.Pairwise.imp_of_mem _ hk
    intro a b ha hb hne
    show List.Disjoint a.2.tail b.2.tail
    intro x hxa hxb
    have h1 : x ∈ a.2 := List.mem_of_mem_tail hxa
    have h2 : x ∈ b.2 := List.mem_of_mem_tail hxb
    rw [ppidPeers_entry _ _ _ _ a ha] at h1
    rw [ppidPeers_entry _ _ _ _ b hb] at h2
    have e1 := of_decide_eq_true (List.mem_filter.1 h1).2
    have e2 := of_decide_eq_true (List.mem_filter.1 h2).2
    rw [e1] at e2
    exact hne (Option.some.inj e2)

/-- The entries of `siblingOf`, whatever the order in which the lists of
`ppidPeers` are visited: a PID is mapped to the first PID of the list of peers
that holds it at a later position. -/
theorem siblingOf_iff (ρ : RangeOrder) (items : List PortInfo) (x root : Int) :
    mget (siblingOfFor ρ items) x = some root ↔
      ∃ k rest, peersFor items k = root :: rest ∧ x ∈ rest := by
  unfold siblingOfFor
  rw [siblingOfMap_eq]
  have hperm : (sibEntries (ρ.lists (ppidPeersMap items (groupByPID items).pidGroups
      (childOfFor items) (groupByPID items).order))).Perm
      (sibEntries (ppidPeersMap items (groupByPID items).pidGroups
      (childOfFor items) (groupByPID items).order)) :=
    List.Perm.flatMap_right _ (ρ.lists_perm _)
  have hnd := (hperm.map Prod.fst).nodup_iff.2
    (sibEntries_nodup items (groupByPID items).pidGroups (childOfFor items)
      (groupByPID items).order (groupByPID_inv items).nodup)
  constructor
  · intro h
    rcases mem_of_mget_foldl _ x root [] h with h1 | h1
    · obtain ⟨kv, hkv, rest, hl, hx⟩ := (mem_sibEntries _ x root).1 (hperm.mem_iff.1 h1)
      refine ⟨kv.1, rest, ?_, hx⟩
      unfold peersFor
      rw [← ppidPeers_entry _ _ _ _ kv hkv]
      exact hl
    · simp [mget] at h1
  · rintro ⟨k, rest, hl, hx⟩
    apply mget_foldl_of_mem _ hnd
    apply hperm.mem_iff.2
    apply (mem_sibEntries _ x root).2
    have hg := ppidPeers_get items (groupByPID items).pidGroups (childOfFor items)
      (groupByPID items).order k
    unfold peersFor at hl
    rw [hl] at hg
    cases hm : mget (ppidPeersMap items (groupByPID items).pidGroups (childOfFor items)
        (groupByPID items).order) k with
    | none => rw [hm] at hg; cases hg
    | some l =>
      rw [hm] at hg
      exact ⟨(k, l), mget_mem _ _ _ hm, rest, hg, hx⟩

theorem peerKey_gt (items : List PortInfo) (pidGroups : List (Int × group))
    (childOf : List (Int × Int)) (pid k : Int)
    (h : peerKey items pidGroups childOf pid = some k) : k > 1 := by
  unfold peerKey at h
  split at h
  · cases h
  · cases hh : headOf items pidGroups pid with
    | none => rw [hh] at h; cases h
    | some p =>
      rw [hh] at h
      dsimp only at h
      split at h
      · cases h; assumption
      · cases h

/-! ## Lists with pairwise distinct PIDs and no parent in the list -/

theorem no_child_of_foreign (items : List PortInfo)
    (h : ∀ p ∈ items, ∀ q ∈ items, p.PPID ≠ q.PID) (k : Int) :
    mget (childOfFor items) k = none := by
  cases hc : mget (childOfFor items) k with
  | none => rfl
  | some v =>
    obtain ⟨q, h1, h2, _, h4⟩ := childOf_sound items k v hc
    obtain ⟨q', hq', e⟩ := List.mem_map.1 h4
    exact absurd (h2.trans e.symm) (h q (firstOf_some items k q h1).1 q' hq')

theorem eq_of_pid_eq (items : List PortInfo) (hnd : (items.map PortInfo.PID).Nodup)
    (p q : PortInfo) (hp : p ∈ items) (hq : q ∈ items) (e : p.PID = q.PID) : p = q := by
  have h1 := firstOf_of_nodup items hnd p hp
  have h2 := firstOf_of_nodup items hnd q hq
  rw [e, h2] at h1
  exact (Option.some.inj h1).symm

theorem peerKey_record (items : List PortInfo) (hnd : (items.map PortInfo.PID).Nodup)
    (hfor : ∀ p ∈ items, ∀ q ∈ items, p.PPID ≠ q.PID) (p : PortInfo) (hp : p ∈ items) :
    peerKey items (groupByPID items).pidGroups (childOfFor items) p.PID =
      if p.PPID > 1 then some p.PPID else none := by
  unfold peerKey
  rw [no_child_of_foreign items hfor, headOf_eq_firstOf, firstOf_of_nodup items hnd p hp]
  rfl

theorem peersFor_records (items : List PortInfo) (hnd : (items.map PortInfo.PID).Nodup)
    (hfor : ∀ p ∈ items, ∀ q ∈ items, p.PPID ≠ q.PID) (k : Int) (hk : k > 1) :
    peersFor items k = (withPPID items k).map PortInfo.PID := by
  unfold peersFor withPPID
  rw [groupByPID_order, firstPIDs_of_nodup _ hnd, List.filter_map]
  congr 1
  apply List.filter_congr
  intro p hp
  simp only [Function.comp, peerKey_record items hnd hfor p hp]
  by_cases h1 : p.PPID > 1
  · rw [if_pos h1]
    by_cases h2 : p.PPID = k
    · simp [h2]
    · simp [h2]
  · rw [if_neg h1]
    have h2 : ¬ p.PPID = k := by omega
    simp [h2]

theorem withPPID_nodup (items : List PortInfo) (hnd : (items.map PortInfo.PID).Nodup)
    (k : Int) : (withPPID items k).Nodup :=
  (List.Nodup.of_map _ hnd).filter _

/-- With pairwise distinct PIDs and no parent in the list, the PID of a record
is mapped by `siblingOf` to the PID of the first record with the same PPID,
when that PPID is > 1 and the record is a later one. -/
theorem sibling_record_iff (ρ : RangeOrder) (items : List PortInfo)
    (hnd : (items.map PortInfo.PID).Nodup)
    (hfor : ∀ p ∈ items, ∀ q ∈ items, p.PPID ≠ q.PID)
    (q : PortInfo) (hq : q ∈ items) (root : Int) :
    mget (siblingOfFor ρ items) q.PID = some root ↔
      ∃ r rest, withPPID items q.PPID = r :: rest ∧ r.PID = root ∧ q ∈ rest ∧ q.PPID > 1 := by
  rw [siblingOf_iff]
  constructor
  · rintro ⟨k, rest0, hl, hx⟩
    have hk : k > 1 := by
      have hm : root ∈ peersFor items k := by rw [hl]; exact List.mem_cons_self _ _
      exact peerKey_gt _ _ _ _ _ (of_decide_eq_true (List.mem_filter.1 hm).2)
    rw [peersFor_records items hnd hfor k hk] at hl
    obtain ⟨r, rest, hw, hr, hrest⟩ := List.map_eq_cons_iff.1 hl
    rw [← hrest] at hx
    obtain ⟨q', hq', e⟩ := List.mem_map.1 hx
    have hq'w : q' ∈ withPPID items k := by rw [hw]; exact List.mem_cons_of_mem _ hq'
    have hq'i : q' ∈ items := (List.mem_filter.1 hq'w).1
    have hqq : q' = q := eq_of_pid_eq items hnd q' q hq'i hq e
    subst hqq
    have hpp : q'.PPID = k := of_decide_eq_true (List.mem_filter.1 hq'w).2
    rw [hpp]
    exact ⟨r, rest, hw, hr, hq', hk⟩
  · rintro ⟨r, rest, hw, hr, hqr, hk⟩
    refine ⟨q.PPID, rest.map PortInfo.PID, ?_, List.mem_map_of_mem _ hqr⟩
    rw [peersFor_records items hnd hfor _ hk, hw, List.map_cons, hr]

theorem mem_withPPID_self (items : List PortInfo) (q : PortInfo) (hq : q ∈ items) :
    q ∈ withPPID items q.PPID :=
  List.mem_filter.2 ⟨hq, decide_eq_true rfl⟩

/-- With pairwise distinct PIDs and no parent in the list, the PID of a record
is a key of `siblingOf` exactly when the record does not head its group. -/
theorem sibling_isSome_iff (ρ : RangeOrder) (items : List PortInfo)
    (hnd : (items.map PortInfo.PID).Nodup)
    (hfor : ∀ p ∈ items, ∀ q ∈ items, p.PPID ≠ q.PID)
    (q : PortInfo) (hq : q ∈ items) :
    (mget (siblingOfFor ρ items) q.PID).isSome = !isGroupRoot items q := by
  cases hg : isGroupRoot items q with
  | true =>
    cases hs : mget (siblingOfFor ρ items) q.PID with
    | none => rfl
    | some root =>
      obtain ⟨r, rest, hw, _, hqr, hk⟩ :=
        (sibling_record_iff ρ items hnd hfor q hq root).1 hs
      have hndw := withPPID_nodup items hnd q.PPID
      rw [hw] at hndw
      have hne : r ≠ q := fun e => (List.nodup_cons.1 hndw).1 (by rw [e]; exact hqr)
      unfold isGroupRoot at hg
      rw [hw] at hg
      simp only [Bool.or_eq_true, decide_eq_true_eq, List.head?_cons, Option.some.injEq] at hg
      rcases hg with h | h
      · omega
      · exact absurd h hne
  | false =>
    unfold isGroupRoot at hg
    simp only [Bool.or_eq_false_iff, decide_eq_false_iff_not] at hg
    have hmem := mem_withPPID_self items q hq
    cases hw : withPPID items q.PPID with
    | nil => rw [hw] at hmem; cases hmem
    | cons r rest =>
      rw [hw] at hmem
      have hne : ¬ r = q := by
        intro e
        apply hg.2
        rw [hw, e]
        rfl
      have hqr : q ∈ rest := by
        rcases List.mem_cons.1 hmem with e | e
        · exact absurd e.symm hne
        · exact e
      have := (sibling_record_iff ρ items hnd hfor q hq r.PID).2
        ⟨r, rest, hw, rfl, hqr, by omega⟩
      rw [this]
      rfl

/-- With pairwise distinct PIDs and no parent in the list, the kids of a record
that heads its group are the other records with its PPID, when that PPID
is > 1. -/
theorem kids_record_iff (ρ : RangeOrder) (items : List PortInfo)
    (hnd : (items.map PortInfo.PID).Nodup)
    (hfor : ∀ p ∈ items, ∀ q ∈ items, p.PPID ≠ q.PID)
    (r : PortInfo) (hr : r ∈ items) (hroot : isGroupRoot items r = true)
    (q : PortInfo) (hq : q ∈ items) :
    q.PID ∈ (mget (kidsFor ρ items) r.PID).getD [] ↔
      r.PPID > 1 ∧ q.PPID = r.PPID ∧ q ≠ r := by
  rw [kidsFor_mem, no_child_of_foreign items hfor]
  constructor
  · intro h
    rcases h with h | h
    · cases h
    · obtain ⟨r', rest, hw, hr', hqr, hk⟩ :=
        (sibling_record_iff ρ items hnd hfor q hq r.PID).1 h
      have hr'w : r' ∈ withPPID items q.PPID := by rw [hw]; exact List.mem_cons_self _ _
      have hrr : r' = r := eq_of_pid_eq items hnd r' r (List.mem_filter.1 hr'w).1 hr hr'
      subst hrr
      have hpp : r'.PPID = q.PPID := of_decide_eq_true (List.mem_filter.1 hr'w).2
      have hndw := withPPID_nodup items hnd q.PPID
      rw [hw] at hndw
      refine ⟨by omega, hpp.symm, ?_⟩
      intro e
      exact (List.nodup_cons.1 hndw).1 (by rw [← e]; exact hqr)
  · rintro ⟨hk, hpp, hne⟩
    right
    unfold isGroupRoot at hroot
    simp only [Bool.or_eq_true, decide_eq_true_eq] at hroot
    rcases hroot with h | h
    · omega
    · cases hw : withPPID items r.PPID with
      | nil => rw [hw] at h; cases h
      | cons r' rest =>
        rw [hw] at h
        have hrr : r' = r := Option.some.inj h
        subst hrr
        have hmem := mem_withPPID_self items q hq
        rw [hpp, hw] at hmem
        have hqr : q ∈ rest := by
          rcases List.mem_cons.1 hmem with e | e
          · exact absurd e hne
          · exact e
        exact (sibling_record_iff ρ items hnd hfor q hq r'.PID).2
          ⟨r', rest, by rw [hpp]; exact hw, rfl, hqr, by omega⟩

/-- With pairwise distinct PIDs, the rows added for a list of kid PIDs of the
list: one row per PID, in order, each a record of the list marked as a child. -/
theorem kidRows_spec (items : List PortInfo) (hnd : (items.map PortInfo.PID).Nodup)
    (kids : List (Int × List Int)) (n : Nat) (ks : List Int) :
    (∀ k ∈ ks, k ∈ items.map PortInfo.PID) → ∀ ci,
      ((kidCalls n ci ks).flatMap (fun c =>
          appendGroup items (groupByPID items).pidGroups kids c.1 c.2.1 c.2.2)).map
          (fun r => r.1.PID) = ks ∧
        ∀ r ∈ (kidCalls n ci ks).flatMap (fun c =>
          appendGroup items (groupByPID items).pidGroups kids c.1 c.2.1 c.2.2),
          r.1 ∈ items ∧ r.2.isChild = true := by
  induction ks with
  | nil => intro _ ci; exact ⟨rfl, fun r hr => by cases hr⟩
  | cons k ks ih =>
    intro hks ci
    obtain ⟨p, hp, hpk⟩ := List.mem_map.1 (hks k (List.mem_cons_self _ _))
    obtain ⟨ih1, ih2⟩ := ih (fun k' hk' => hks k' (List.mem_cons_of_mem _ hk')) (ci + 1)
    have hcall : (kidCalls n ci (k :: ks)).flatMap (fun c =>
        appendGroup items (groupByPID items).pidGroups kids c.1 c.2.1 c.2.2) =
        (p, ({ treePrefix := if ci + 1 = n then "└─ " else "├─ ", isChild := true } : rowMeta)) ::
          (kidCalls n (ci + 1) ks).flatMap (fun c =>
            appendGroup items (groupByPID items).pidGroups kids c.1 c.2.1 c.2.2) := by
      simp only [kidCalls, List.flatMap_cons]
      rw [← hpk, appendGroup_single items hnd kids p hp]
      rfl
    rw [hcall]
    constructor
    · rw [List.map_cons, ih1, hpk]
    · intro r hr
      rcases List.mem_cons.1 hr with e | e
      · rw [e]; exact ⟨hp, rfl⟩
      · exact ih2 r e

theorem kids_in_list (ρ : RangeOrder) (items : List PortInfo) (r k : Int)
    (h : k ∈ (mget (kidsFor ρ items) r).getD []) : k ∈ items.map PortInfo.PID := by
  rcases (kidsFor_mem ρ items r k).1 h with e | e
  · obtain ⟨q, h1, _⟩ := childOf_sound items k r e
    have := firstOf_some items k q h1
    exact List.mem_map.2 ⟨q, this.1, this.2⟩
  · obtain ⟨q, h1, _⟩ := siblingOf_sound ρ items k (by rw [e]; rfl)
    have := firstOf_some items k q h1
    exact List.mem_map.2 ⟨q, this.1, this.2⟩

/-! ## Claim C15: shared-parent sibling grouping -/

/-- C15: for every list of records with pairwise distinct PIDs in which no
PPID is the PID of a record of the list, and every iteration order of the
maps, the output of `buildTree` is, for each record that heads its group (its
PPID is ≤ 1 or it is the first record with that PPID), in input order, a root
row of that record (empty prefix, `isChild` false) followed by a block of rows
up to the next root row; every row of the block is marked as a child and the
records of the block are, up to their order, the other records with the PPID of
the root when that PPID is > 1, and none otherwise. -/
theorem shared_ppid_groups (ρ : RangeOrder) (items : List PortInfo)
    (hnd : (items.map PortInfo.PID).Nodup)
    (hfor : ∀ p ∈ items, ∀ q ∈ items, p.PPID ≠ q.PID) :
    ∃ K : PortInfo → List (PortInfo × rowMeta),
      buildTree ρ items =
        (((items.filter (isGroupRoot items)).flatMap (fun r =>
            (r, ({ treePrefix := "", isChild := false } : rowMeta)) :: K r)).map Prod.fst,
          ((items.filter (isGroupRoot items)).flatMap (fun r =>
            (r, ({ treePrefix := "", isChild := false } : rowMeta)) :: K r)).map Prod.snd) ∧
      ∀ r ∈ items, isGroupRoot items r = true →
        (∀ row ∈ K r, row.2.isChild = true) ∧
          ((K r).map Prod.fst).Perm
            (items.filter (fun q => decide (r.PPID > 1 ∧ q.PPID = r.PPID ∧ q ≠ r))) := by
  refine ⟨fun r => (kidCalls ((mget (kidsFor ρ items) r.PID).getD []).length 0
      ((mget (kidsFor ρ items) r.PID).getD [])).flatMap
      (fun c => appendGroup items (groupByPID items).pidGroups (kidsFor ρ items)
        c.1 c.2.1 c.2.2), ?_, ?_⟩
  · have hrows : buildRows ρ items = (items.filter (isGroupRoot items)).flatMap (fun r =>
        (r, ({ treePrefix := "", isChild := false } : rowMeta)) ::
          (kidCalls ((mget (kidsFor ρ items) r.PID).getD []).length 0
            ((mget (kidsFor ρ items) r.PID).getD [])).flatMap
            (fun c => appendGroup items (groupByPID items).pidGroups (kidsFor ρ items)
              c.1 c.2.1 c.2.2)) := by
      rw [buildRows_of_nodup ρ items hnd, ← flatMap_ite]
      apply flatMap_congr_mem
      intro p hp
      rw [no_child_of_foreign items hfor, sibling_isSome_iff ρ items hnd hfor p hp]
      cases isGroupRoot items p <;> simp
    unfold buildTree
    rw [hrows]
  · intro r hr hroot
    obtain ⟨h1, h2⟩ := kidRows_spec items hnd (kidsFor ρ items)
      ((mget (kidsFor ρ items) r.PID).getD []).length ((mget (kidsFor ρ items) r.PID).getD [])
      (fun k hk => kids_in_list ρ items r.PID k hk) 0
    refine ⟨fun row hrow => (h2 row hrow).2, ?_⟩
    have hndK : (((kidCalls ((mget (kidsFor ρ items) r.PID).getD []).length 0
        ((mget (kidsFor ρ items) r.PID).getD [])).flatMap
        (fun c => appendGroup items (groupByPID items).pidGroups (kidsFor ρ items)
          c.1 c.2.1 c.2.2)).map Prod.fst).Nodup := by
      apply List.Nodup.of_map PortInfo.PID
      rw [List.map_map]
      have hk := kidsFor_nodup ρ items r.PID
      rw [← h1] at hk
      exact hk
    apply (List.perm_ext_iff_of_nodup hndK ((List.Nodup.of_map _ hnd).filter _)).2
    intro q
    constructor
    · intro hq
      obtain ⟨row, hrow, e⟩ := List.mem_map.1 hq
      have hqi : q ∈ items := by rw [← e]; exact (h2 row hrow).1
      have hk : q.PID ∈ (mget (kidsFor ρ items) r.PID).getD [] := by
        rw [← h1, ← e]
        exact List.mem_map.2 ⟨row, hrow, rfl⟩
      exact List.mem_filter.2 ⟨hqi, decide_eq_true
        ((kids_record_iff ρ items hnd hfor r hr hroot q hqi).1 hk)⟩
    · intro hq
      obtain ⟨hqi, hd⟩ := List.mem_filter.1 hq
      have hk := (kids_record_iff ρ items hnd hfor r hr hroot q hqi).2 (of_decide_eq_true hd)
      rw [← h1] at hk
      obtain ⟨row, hrow, e⟩ := List.mem_map.1 hk
      have : row.1 = q := eq_of_pid_eq items hnd row.1 q (h2 row hrow).1 hqi e
      exact List.mem_map.2 ⟨row, hrow, this⟩

/-- C15 (witness): the list of `TestBuildTreeSharedPPID` has pairwise distinct
PIDs and no parent in the list; its group heads are the first proxy and the
standalone process. -/
theorem shared_ppid_groups_witness :
    (sharedList.map PortInfo.PID).Nodup ∧
      (∀ p ∈ sharedList, ∀ q ∈ sharedList, p.PPID ≠ q.PID) ∧
      sharedList.filter (isGroupRoot sharedList) = [mkPort 3000 101 50, mkPort 8080 200 1] ∧
      ∃ K : PortInfo → List (PortInfo × rowMeta),
        buildTree insertionOrder sharedList =
          (((sharedList.filter (isGroupRoot sharedList)).flatMap (fun r =>
              (r, ({ treePrefix := "", isChild := false } : rowMeta)) :: K r)).map Prod.fst,
            ((sharedList.filter (isGroupRoot sharedList)).flatMap (fun r =>
              (r, ({ treePrefix := "", isChild := false } : rowMeta)) :: K r)).map Prod.snd) ∧
        ∀ r ∈ sharedList, isGroupRoot sharedList r = true →
          (∀ row ∈ K r, row.2.isChild = true) ∧
            ((K r).map Prod.fst).Perm
              (sharedList.filter
                (fun q => decide (r.PPID > 1 ∧ q.PPID = r.PPID ∧ q ≠ r))) :=
  ⟨by decide, by decide, by decide,
    shared_ppid_groups insertionOrder sharedList (by decide) (by decide)⟩

/-! ## The cursor and the offset stay in range -/

theorem clampScroll_inv (pt pt' : portTable) (h : clampScroll pt = some pt')
    (h0 : 0 ≤ pt.cursor) (h1 : pt.cursor < (pt.displayed.length : Int) ∨ pt.cursor = 0) :
    TableInv pt' := by
  have ho := clampScroll_offset_nonneg pt pt' h
  have hf := clampScroll_frame pt pt' h
  have hc : pt'.cursor = pt.cursor := by rw [hf]
  have hd : pt'.displayed = pt.displayed := by rw [hf]
  exact ⟨by rw [hc]; exact h0, ho, by rw [hc, hd]; exact h1⟩

theorem setRows_inv (lib : SortLib) (ρ : RangeOrder) (pt pt' : portTable)
    (items : List PortInfo) (h : setRows lib ρ pt items = some pt') (hinv : TableInv pt) :
    TableInv pt' := by
  obtain ⟨h0, h1⟩ := setRows_nonneg lib ρ pt pt' items h hinv.1
  refine ⟨h0, h1, ?_⟩
  have hc := (setRows_frame lib ρ pt pt' items h).2.2.2.2.2.2.1
  rw [hc]
  split <;> omega

theorem moveUp_inv (pt pt' : portTable) (h : moveUp pt = some pt') (hinv : TableInv pt) :
    TableInv pt' := by
  unfold moveUp at h
  by_cases c : pt.cursor > 0
  · rw [if_pos c] at h
    obtain ⟨h0, _, h2⟩ := hinv
    exact clampScroll_inv _ _ h (show 0 ≤ pt.cursor - 1 by omega)
      (show pt.cursor - 1 < (pt.displayed.length : Int) ∨ pt.cursor - 1 = 0 by omega)
  · rw [if_neg c] at h
    cases h
    exact hinv

theorem moveDown_inv (pt pt' : portTable) (h : moveDown pt = some pt') (hinv : TableInv pt) :
    TableInv pt' := by
  unfold moveDown at h
  by_cases c : pt.cursor < (pt.displayed.length : Int) - 1
  · rw [if_pos c] at h
    obtain ⟨h0, _, h2⟩ := hinv
    exact clampScroll_inv _ _ h (show 0 ≤ pt.cursor + 1 by omega)
      (show pt.cursor + 1 < (pt.displayed.length : Int) ∨ pt.cursor + 1 = 0 by omega)
  · rw [if_neg c] at h
    cases h
    exact hinv

theorem toggleExpand_inv (pt pt' : portTable) (h : toggleExpand pt = some pt')
    (hinv : TableInv pt) : TableInv pt' :=
  clampScroll_inv _ _ h hinv.1 hinv.2.2

/-- Every table state reachable from `newPortTable` through the methods of the
table has its cursor and its offset in range. -/
theorem tableReach_inv (lib : SortLib) (pt : portTable) (h : TableReach lib pt) :
    TableInv pt := by
  induction h with
  | init => exact ⟨by decide, by decide, Or.inr rfl⟩
  | rows ρ items _ hs ih => exact setRows_inv lib ρ _ _ items hs ih
  | up _ hs ih => exact moveUp_inv _ _ hs ih
  | down _ hs ih => exact moveDown_inv _ _ hs ih
  | expand _ hs ih => exact toggleExpand_inv _ _ hs ih
  | tree _ ih => exact ih
  | next _ ih => exact ih
  | rev _ ih => exact ih
  | height h _ ih => exact ih
  | width w _ ih => exact ih

theorem tableInv_le (pt : portTable) (hinv : TableInv pt) :
    pt.cursor ≤ (pt.displayed.length : Int) := by
  obtain ⟨h0, _, h2⟩ := hinv
  omega

theorem toggleExpand_total (pt : portTable) (hinv : TableInv pt) :
    ∃ pt', toggleExpand pt = some pt' :=
  clampScroll_total _ hinv.1 hinv.2.1 (tableInv_le pt hinv)

theorem moveUp_total (pt : portTable) (hinv : TableInv pt) : ∃ pt', moveUp pt = some pt' := by
  unfold moveUp
  by_cases c : pt.cursor > 0
  · rw [if_pos c]
    obtain ⟨h0, h1, h2⟩ := hinv
    exact clampScroll_total _ (show 0 ≤ pt.cursor - 1 by omega) h1
      (show pt.cursor - 1 ≤ (pt.displayed.length : Int) by omega)
  · rw [if_neg c]
    exact ⟨pt, rfl⟩

theorem moveDown_total (pt : portTable) (hinv : TableInv pt) :
    ∃ pt', moveDown pt = some pt' := by
  unfold moveDown
  by_cases c : pt.cursor < (pt.displayed.length : Int) - 1
  · rw [if_pos c]
    obtain ⟨h0, h1, h2⟩ := hinv
    exact clampScroll_total _ (show 0 ≤ pt.cursor + 1 by omega) h1
      (show pt.cursor + 1 ≤ (pt.displayed.length : Int) by omega)
  · rw [if_neg c]
    exact ⟨pt, rfl⟩

/-! ## Claim C28: `moveUp` and `moveDown` -/

/-- C28: whenever `moveDown` returns, the cursor is one more than before if it
was < len(displayed) − 1 and the table is unchanged otherwise; whenever
`moveUp` returns, the cursor is one less than before if it was > 0 and the
table is unchanged otherwise; neither changes the displayed rows, the sort
state or the expanded index.  On a table whose cursor and offset are in range
(as in every table state built from `newPortTable`) both return, and both
leave an empty table unchanged. -/
theorem move_cursor (pt : portTable) :
    (∀ pt', moveDown pt = some pt' →
        pt'.cursor = (if pt.cursor < (pt.displayed.length : Int) - 1 then pt.cursor + 1
          else pt.cursor) ∧
        (¬ pt.cursor < (pt.displayed.length : Int) - 1 → pt' = pt) ∧
        pt'.displayed = pt.displayed ∧ pt'.sort = pt.sort ∧ pt'.expanded = pt.expanded) ∧
      (∀ pt', moveUp pt = some pt' →
        pt'.cursor = (if pt.cursor > 0 then pt.cursor - 1 else pt.cursor) ∧
        (¬ pt.cursor > 0 → pt' = pt) ∧
        pt'.displayed = pt.displayed ∧ pt'.sort = pt.sort ∧ pt'.expanded = pt.expanded) ∧
      (TableInv pt →
        (∃ pt', moveDown pt = some pt') ∧ (∃ pt', moveUp pt = some pt') ∧
          (pt.displayed = [] → moveDown pt = some pt ∧ moveUp pt = some pt)) := by
  refine ⟨?_, ?_, ?_⟩
  · intro pt' h
    unfold moveDown at h
    by_cases c : pt.cursor < (pt.displayed.length : Int) - 1
    · rw [if_pos c] at h
      have hf := clampScroll_frame _ _ h
      rw [if_pos c, hf]
      exact ⟨rfl, fun hn => absurd c hn, rfl, rfl, rfl⟩
    · rw [if_neg c] at h
      cases h
      rw [if_neg c]
      exact ⟨rfl, fun _ => rfl, rfl, rfl, rfl⟩
  · intro pt' h
    unfold moveUp at h
    by_cases c : pt.cursor > 0
    · rw [if_pos c] at h
      have hf := clampScroll_frame _ _ h
      rw [if_pos c, hf]
      exact ⟨rfl, fun hn => absurd c hn, rfl, rfl, rfl⟩
    · rw [if_neg c] at h
      cases h
      rw [if_neg c]
      exact ⟨rfl, fun _ => rfl, rfl, rfl, rfl⟩
  · intro hinv
    refine ⟨moveDown_total pt hinv, moveUp_total pt hinv, ?_⟩
    intro hd
    obtain ⟨h0, _, h2⟩ := hinv
    rw [hd] at h2
    simp only [List.length_nil, Int.Nat.cast_ofNat_Int] at h2
    have hc : pt.cursor = 0 := by omega
    unfold moveDown moveUp
    rw [hd, hc]
    exact ⟨rfl, rfl⟩

/-- C28 (witness): the empty table `newPortTable` has its cursor and offset in
range, and `moveDown` and `moveUp` leave it unchanged. -/
theorem move_cursor_witness :
    TableInv newPortTable ∧ newPortTable.displayed = [] ∧
      moveDown newPortTable = some newPortTable ∧ moveUp newPortTable = some newPortTable :=
  ⟨⟨by decide, by decide, Or.inr rfl⟩, rfl,
    ((move_cursor newPortTable).2.2 ⟨by decide, by decide, Or.inr rfl⟩).2.2 rfl⟩

/-! ## Claim C29: `toggleExpand` -/

/-- C29: whenever `toggleExpand` returns, the expanded index is −1 if it was
equal to the cursor and the cursor otherwise, and the cursor and the displayed
rows are unchanged; every row other than the one at the expanded index takes
one line, so at most one row is expanded; and a second `toggleExpand` after one
that started with nothing expanded ends with nothing expanded.  On a table
whose cursor and offset are in range both calls return. -/
theorem toggleExpand_toggles (pt : portTable) :
    (∀ pt', toggleExpand pt = some pt' →
        pt'.expanded = (if pt.expanded = pt.cursor then -1 else pt.cursor) ∧
        pt'.cursor = pt.cursor ∧ pt'.displayed = pt.displayed ∧
        (∀ r, r ≠ pt'.expanded → rowLines pt' r = some 1) ∧
        (∀ pt'', pt.expanded = -1 → toggleExpand pt' = some pt'' → pt''.expanded = -1)) ∧
      (TableInv pt →
        ∃ pt' pt'', toggleExpand pt = some pt' ∧ toggleExpand pt' = some pt'') := by
  have key : ∀ q q' : portTable, toggleExpand q = some q' →
      q'.expanded = (if q.expanded = q.cursor then -1 else q.cursor) ∧
        q'.cursor = q.cursor ∧ q'.displayed = q.displayed := by
    intro q q' h
    unfold toggleExpand at h
    have hf := clampScroll_frame _ _ h
    rw [hf]
    exact ⟨rfl, rfl, rfl⟩
  constructor
  · intro pt' h
    obtain ⟨h1, h2, h3⟩ := key pt pt' h
    refine ⟨h1, h2, h3, ?_, ?_⟩
    · intro r hr
      unfold rowLines
      rw [if_neg hr]
    · intro pt'' hnone h'
      obtain ⟨k1, _, _⟩ := key pt' pt'' h'
      rw [k1, h2, h1, hnone]
      by_cases c : (-1 : Int) = pt.cursor
      · rw [if_pos c, if_pos c]
      · rw [if_neg c, if_pos rfl]
  · intro hinv
    obtain ⟨pt', h⟩ := toggleExpand_total pt hinv
    obtain ⟨pt'', h'⟩ := toggleExpand_total pt' (toggleExpand_inv pt pt' h hinv)
    exact ⟨pt', pt'', h, h'⟩

/-- C29 (witness): the three-row table of the tests. -/
theorem toggleExpand_toggles_witness :
    TableInv threeRowTable ∧
      ∃ pt' pt'', toggleExpand threeRowTable = some pt' ∧ toggleExpand pt' = some pt'' :=
  ⟨⟨by decide, by decide, Or.inl (by decide)⟩,
    (toggleExpand_toggles threeRowTable).2 ⟨by decide, by decide, Or.inl (by decide)⟩⟩

/-! ## Claim C30: `nextSort` -/

theorem nextSort_iterate_column (n : Nat) :
    ∀ pt : portTable, (Nat.iterate nextSort n pt).sort.column =
      Nat.iterate (fun c : Int => Int.tmod (c + 1) sortColumnCount) n pt.sort.column := by
  induction n with
  | zero => intro pt; rfl
  | succ n ih =>
    intro pt
    rw [Function.iterate_succ_apply, Function.iterate_succ_apply, ih]
    rfl

/-- C30: for a table whose sort column is one of the six columns (0 to 5),
`nextSort` sets the column to column + 1 modulo 6 and the direction to
ascending, whatever it was, and changes nothing else; the columns after one to
six consecutive calls are the six columns, each once, and the sixth call
returns to the starting column. -/
theorem nextSort_cycles (pt : portTable) (h0 : 0 ≤ pt.sort.column)
    (h1 : pt.sort.column < sortColumnCount) :
    nextSort pt = { pt with sort := { column := (pt.sort.column + 1) % 6, asc := true } } ∧
      (Nat.iterate nextSort 6 pt).sort.column = pt.sort.column ∧
      ((List.range 6).map (fun i => (Nat.iterate nextSort (i + 1) pt).sort.column)).Perm
        [0, 1, 2, 3, 4, 5] := by
  have hc : pt.sort.column = 0 ∨ pt.sort.column = 1 ∨ pt.sort.column = 2 ∨
      pt.sort.column = 3 ∨ pt.sort.column = 4 ∨ pt.sort.column = 5 := by
    unfold sortColumnCount at h1
    omega
  refine ⟨?_, ?_, ?_⟩
  · unfold nextSort sortColumnCount
    have : Int.tmod (pt.sort.column + 1) 6 = (pt.sort.column + 1) % 6 := by
      rcases hc with e | e | e | e | e | e <;> rw [e] <;> decide
    rw [this]
  · rw [nextSort_iterate_column]
    rcases hc with e | e | e | e | e | e <;> rw [e] <;> decide
  · simp only [nextSort_iterate_column]
    rcases hc with e | e | e | e | e | e <;> rw [e] <;> decide

/-- C30 (witness): the table `newPortTable`, sorted by port. -/
theorem nextSort_cycles_witness :
    0 ≤ newPortTable.sort.column ∧ newPortTable.sort.column < sortColumnCount ∧
      (nextSort newPortTable =
          { newPortTable with
            sort := { column := (newPortTable.sort.column + 1) % 6, asc := true } } ∧
        (Nat.iterate nextSort 6 newPortTable).sort.column = newPortTable.sort.column ∧
        ((List.range 6).map
          (fun i => (Nat.iterate nextSort (i + 1) newPortTable).sort.column)).Perm
          [0, 1, 2, 3, 4, 5]) :=
  ⟨by decide, by decide, nextSort_cycles newPortTable (by decide) (by decide)⟩

/-! ## The state machine: frames of `applyFilter` and of the filter input -/

theorem applyFilter_eq (L : Libs) (ρ : RangeOrder) (m m' : Model)
    (h : applyFilter L ρ m = some m') :
    ∃ t, setRows L.sort ρ m.table (filterPorts L m) = some t ∧
      m' = { m with filtered := filterPorts L m, table := t } := by
  unfold applyFilter at h
  obtain ⟨t, ht, he⟩ := Option.map_eq_some'.1 h
  exact ⟨t, ht, he.symm⟩

theorem applyFilter_total (L : Libs) (ρ : RangeOrder) (m : Model)
    (h0 : 0 ≤ m.table.cursor) (h1 : 0 ≤ m.table.offset) :
    ∃ m', applyFilter L ρ m = some m' := by
  obtain ⟨t, ht⟩ := setRows_total L.sort ρ m.table (filterPorts L m) h0 h1
  exact ⟨_, by unfold applyFilter; rw [ht]; rfl⟩

/-- What `applyFilter` leaves unchanged: everything but the filtered list and
the rows, cursor, expanded index and offset of the table. -/
theorem applyFilter_frame (L : Libs) (ρ : RangeOrder) (m m' : Model)
    (h : applyFilter L ρ m = some m') :
    m'.cfg = m.cfg ∧ m'.allPorts = m.allPorts ∧ m'.filter = m.filter ∧
      m'.confirm = m.confirm ∧ m'.scanning = m.scanning ∧ m'.showHelp = m.showHelp ∧
      m'.table.sort = m.table.sort ∧ m'.table.treeMode = m.table.treeMode ∧
      m'.filtered = filterPorts L m := by
  obtain ⟨t, ht, he⟩ := applyFilter_eq L ρ m m' h
  obtain ⟨_, _, h3, h4, _⟩ := setRows_frame L.sort ρ m.table t _ ht
  subst he
  exact ⟨rfl, rfl, rfl, rfl, rfl, rfl, h3, h4, rfl⟩

/-! ## Claim C21: timer ticks -/

/-- C21: on a timer tick `Update` returns the model with `scanning` set and no
other field changed (so the model is unchanged when `scanning` was set
already); the command holds one scan request when `scanning` was clear and none
when it was set, and in both cases one timer request for the refresh interval
and nothing else. -/
theorem tick_update (L : Libs) (ρ : RangeOrder) (m : Model) :
    ∃ m' cmd, Update L ρ m Msg.tick = some (m', cmd) ∧
      m' = { m with scanning := true } ∧
      m'.scanning = true ∧
      cmd.count Request.scan = (if m.scanning then 0 else 1) ∧
      cmd.count (Request.tick m.cfg.RefreshInterval) = 1 ∧
      cmd.length = (if m.scanning then 1 else 2) := by
  cases hs : m.scanning with
  | false =>
    refine ⟨{ m with scanning := true }, scanCmd ++ tickCmd m.cfg.RefreshInterval, ?_, rfl, rfl,
      ?_, ?_, ?_⟩
    · show (if (!m.scanning) = true then _ else _) = _
      rw [hs]
      rfl
    · simp [scanCmd, tickCmd]
    · simp [scanCmd, tickCmd]
    · simp [scanCmd, tickCmd]
  | true =>
    refine ⟨m, tickCmd m.cfg.RefreshInterval, ?_, ?_, hs, ?_, ?_, ?_⟩
    · show (if (!m.scanning) = true then _ else _) = _
      rw [hs]
      rfl
    · cases m
      simp only at hs
      subst hs
      rfl
    · simp [tickCmd]
    · simp [tickCmd]
    · simp [tickCmd]

/-! ## Claim C22: terminate results -/

/-- C22: on a terminate result, with or without an error, `Update` sets
`scanning`, issues exactly one scan request, and changes the status and nothing
else (so `allPorts`, the filtered list and the table are unchanged); the status
is the text "kill failed: <error>" rendered in the error style on failure and the
text "killed PID <pid>" rendered in the success style on success, hence that text
itself when rendering leaves the text unchanged. -/
theorem killResult_update (L : Libs) (ρ : RangeOrder) (m : Model) (pid : Int)
    (err : Option String) :
    Update L ρ m (Msg.killResult pid err) =
        some ({ m with
                status := (match err with
                  | some e => L.render "errorStyle" ("kill failed: " ++ e)
                  | none => L.render "successStyle" ("killed PID " ++ itoa pid))
                scanning := true }, [Request.scan]) ∧
      ((∀ style text, L.render style text = text) →
        ∀ m' cmd, Update L ρ m (Msg.killResult pid err) = some (m', cmd) →
          m'.status = (match err with
            | some e => "kill failed: " ++ e
            | none => "killed PID " ++ itoa pid) ∧
          m'.scanning = true ∧ cmd = [Request.scan] ∧ m'.allPorts = m.allPorts ∧
          m'.filtered = m.filtered ∧ m'.table = m.table) := by
  refine ⟨rfl, ?_⟩
  intro hr m' cmd h
  cases err with
  | none =>
    have h' : (({ m with
        status := L.render "successStyle" ("killed PID " ++ itoa pid)
        scanning := true } : Model), ([Request.scan] : Cmd)) = (m', cmd) := Option.some.inj h
    cases h'
    exact ⟨hr _ _, rfl, rfl, rfl, rfl, rfl⟩
  | some e =>
    have h' : (({ m with
        status := L.render "errorStyle" ("kill failed: " ++ e)
        scanning := true } : Model), ([Request.scan] : Cmd)) = (m', cmd) := Option.some.inj h
    cases h'
    exact ⟨hr _ _, rfl, rfl, rfl, rfl, rfl⟩

/-- C22 (witness): with the rendering that leaves the text unchanged, the
terminate result of `TestModelKillResult` (PID 1234, no error) gives the status
"killed PID 1234". -/
theorem killResult_update_witness :
    (∀ style text, plainLibs.render style text = text) ∧
      ∀ m' cmd, Update plainLibs insertionOrder (New defaultConfig)
          (Msg.killResult 1234 none) = some (m', cmd) →
        m'.status = "killed PID " ++ itoa 1234 ∧
          m'.scanning = true ∧ cmd = [Request.scan] ∧
          m'.allPorts = (New defaultConfig).allPorts ∧
          m'.filtered = (New defaultConfig).filtered ∧ m'.table = (New defaultConfig).table :=
  ⟨fun _ _ => rfl,
    (killResult_update plainLibs insertionOrder (New defaultConfig) 1234 none).2
      (fun _ _ => rfl)⟩

theorem tick_returns (L : Libs) (ρ : RangeOrder) (m : Model) :
    ∃ m' cmd, Update L ρ m Msg.tick = some (m', cmd) ∧ m'.scanning = true := by
  cases hs : m.scanning with
  | false =>
    refine ⟨{ m with scanning := true }, scanCmd ++ tickCmd m.cfg.RefreshInterval, ?_, rfl⟩
    show (if (!m.scanning) = true then _ else _) = _
    rw [hs]
    rfl
  | true =>
    refine ⟨m, tickCmd m.cfg.RefreshInterval, ?_, hs⟩
    show (if (!m.scanning) = true then _ else _) = _
    rw [hs]
    rfl

/-! ## Claim C27: what scan results, ticks and terminate results leave alone -/

/-- C27: when `Update` processes a scan result (success or failure), a timer
tick or a terminate result, the sort column and direction, the tree-mode flag
and the confirm dialog (visible, target, force, killParent) of the returned
model are those of the model before; and `Update` returns on these messages
when the cursor and the offset of the table are not negative. -/
theorem background_frame (L : Libs) (ρ : RangeOrder) (m : Model) (msg : Msg)
    (hmsg : reportsScan msg = true ∨ msg = Msg.tick ∨
      ∃ pid err, msg = Msg.killResult pid err) :
    (∀ m' cmd, Update L ρ m msg = some (m', cmd) →
        m'.table.sort = m.table.sort ∧ m'.table.treeMode = m.table.treeMode ∧
        m'.confirm = m.confirm) ∧
      (0 ≤ m.table.cursor → 0 ≤ m.table.offset → ∃ r, Update L ρ m msg = some r) := by
  cases msg with
  | windowSize w h' =>
    rcases hmsg with h | h | ⟨_, _, h⟩
    · cases h
    · cases h
    · cases h
  | portsUpdated ports =>
    constructor
    · intro m' cmd h
      have h' : (applyFilter L ρ { m with scanning := false, allPorts := ports }).map
          (fun m1 => (({ m1 with status := toString m1.filtered.length ++ " ports" } : Model),
            ([] : Cmd))) = some (m', cmd) := h
      obtain ⟨m1, hm1, he⟩ := Option.map_eq_some'.1 h'
      obtain ⟨_, _, _, h4, _, _, h7, h8, _⟩ := applyFilter_frame L ρ _ _ hm1
      cases he
      exact ⟨h7, h8, h4⟩
    · intro h0 h1
      obtain ⟨m1, hm1⟩ := applyFilter_total L ρ { m with scanning := false, allPorts := ports }
        h0 h1
      refine ⟨({ m1 with status := toString m1.filtered.length ++ " ports" }, []), ?_⟩
      show (applyFilter L ρ { m with scanning := false, allPorts := ports }).map _ = _
      rw [hm1]
      rfl
  | scanError err =>
    constructor
    · intro m' cmd h
      have h' : (({ m with scanning := false, err := err } : Model), ([] : Cmd)) = (m', cmd) :=
        Option.some.inj h
      cases h'
      exact ⟨rfl, rfl, rfl⟩
    · intro _ _
      exact ⟨_, rfl⟩
  | tick =>
    constructor
    · intro m' cmd h
      have h' : (if (!m.scanning) = true then
          some (({ m with scanning := true } : Model), scanCmd ++ tickCmd m.cfg.RefreshInterval)
          else some (m, tickCmd m.cfg.RefreshInterval)) = some (m', cmd) := h
      cases hs : m.scanning <;> rw [hs] at h' <;> cases h' <;> exact ⟨rfl, rfl, rfl⟩
    · intro _ _
      obtain ⟨m', cmd, h, _⟩ := tick_returns L ρ m
      exact ⟨_, h⟩
  | killResult pid err =>
    constructor
    · intro m' cmd h
      cases err with
      | none =>
        have h' : (({ m with
            status := L.render "successStyle" ("killed PID " ++ itoa pid)
            scanning := true } : Model), ([Request.scan] : Cmd)) = (m', cmd) :=
          Option.some.inj h
        cases h'
        exact ⟨rfl, rfl, rfl⟩
      | some e =>
        have h' : (({ m with
            status := L.render "errorStyle" ("kill failed: " ++ e)
            scanning := true } : Model), ([Request.scan] : Cmd)) = (m', cmd) :=
          Option.some.inj h
        cases h'
        exact ⟨rfl, rfl, rfl⟩
    · intro _ _
      exact ⟨_, rfl⟩
  | key k =>
    rcases hmsg with h | h | ⟨_, _, h⟩
    · cases h
    · cases h
    · cases h
  | other tag =>
    rcases hmsg with h | h | ⟨_, _, h⟩
    · cases h
    · cases h
    · cases h

/-- C27 (witness): the scan result of one worker processed by the model that
shows the kill-parent dialog: the dialog and the sort state are unchanged. -/
theorem background_frame_witness :
    (reportsScan (Msg.portsUpdated [workerPort]) = true ∨
        Msg.portsUpdated [workerPort] = Msg.tick ∨
        ∃ pid err, Msg.portsUpdated [workerPort] = Msg.killResult pid err) ∧
      ((∀ m' cmd, Update plainLibs insertionOrder parentDialogModel
            (Msg.portsUpdated [workerPort]) = some (m', cmd) →
          m'.table.sort = parentDialogModel.table.sort ∧
          m'.table.treeMode = parentDialogModel.table.treeMode ∧
          m'.confirm = parentDialogModel.confirm) ∧
        (0 ≤ parentDialogModel.table.cursor → 0 ≤ parentDialogModel.table.offset →
          ∃ r, Update plainLibs insertionOrder parentDialogModel
            (Msg.portsUpdated [workerPort]) = some r)) :=
  ⟨Or.inl rfl,
    background_frame plainLibs insertionOrder parentDialogModel (Msg.portsUpdated [workerPort])
      (Or.inl rfl)⟩

/-! ## The state machine: the keys of the confirm dialog and of the filter input -/

theorem keyMatches_yes (k : String) : keyMatches k ["y", "Y"] = true ↔ k = "y" ∨ k = "Y" := by
  simp [keyMatches]

theorem keyMatches_no (k : String) :
    keyMatches k ["n", "N", "esc"] = true ↔ k = "n" ∨ k = "N" ∨ k = "esc" := by
  simp [keyMatches]

/-- The keys while the confirm dialog is visible: `y` and `Y` hide the dialog
and issue one terminate request, `n`, `N` and `esc` hide it and issue nothing,
every other key does nothing. -/
theorem confirmKey_eq (m : Model) (k : String) :
    confirmKey m k =
      if k = "y" ∨ k = "Y" then
        some ({ m with confirm := m.confirm.hide },
          killCmd (if m.confirm.killParent then m.confirm.target.PPID
            else m.confirm.target.PID) m.confirm.force)
      else if k = "n" ∨ k = "N" ∨ k = "esc" then
        some ({ m with confirm := m.confirm.hide }, [])
      else some (m, []) := by
  unfold confirmKey
  by_cases c1 : k = "y" ∨ k = "Y"
  · rw [if_pos c1, if_pos ((keyMatches_yes k).2 c1)]
  · rw [if_neg c1, if_neg (fun h => c1 ((keyMatches_yes k).1 h))]
    by_cases c2 : k = "n" ∨ k = "N" ∨ k = "esc"
    · rw [if_pos c2, if_pos ((keyMatches_no k).2 c2)]
    · rw [if_neg c2, if_neg (fun h => c2 ((keyMatches_no k).1 h))]

theorem passToFilter_frame (L : Libs) (ρ : RangeOrder) (m m' : Model) (msg : Msg) (cmd : Cmd)
    (h : passToFilter L ρ m msg = some (m', cmd)) :
    m'.cfg = m.cfg ∧ m'.allPorts = m.allPorts ∧ m'.filter.active = m.filter.active ∧
      m'.confirm = m.confirm ∧ m'.scanning = m.scanning ∧ m'.showHelp = m.showHelp ∧
      m'.table.sort = m.table.sort ∧ m'.table.treeMode = m.table.treeMode ∧
      ∀ r ∈ cmd, ∃ tag, r = Request.input tag := by
  have h4 := (passToFilter_confirm L ρ m m' msg cmd h).2.2.2
  unfold passToFilter at h
  obtain ⟨m1, hm1, he⟩ := Option.map_eq_some'.1 h
  obtain ⟨f1, f2, f3, f4, f5, f6, f7, f8, _⟩ := applyFilter_frame L ρ _ _ hm1
  cases he
  exact ⟨f1, f2, by rw [f3], f4, f5, f6, f7, f8, h4⟩

/-- What a key does while the filter input is active: the configuration, the
scan results, the confirm dialog, the flags and the sort state are unchanged,
and the command holds requests of the text input only. -/
theorem filterKey_frame (L : Libs) (ρ : RangeOrder) (m m' : Model) (k : String) (cmd : Cmd)
    (h : filterKey L ρ m k = some (m', cmd)) :
    m'.cfg = m.cfg ∧ m'.allPorts = m.allPorts ∧
      (m'.filter.active = true → m.filter.active = true) ∧
      m'.confirm = m.confirm ∧ m'.scanning = m.scanning ∧ m'.showHelp = m.showHelp ∧
      m'.table.sort = m.table.sort ∧ m'.table.treeMode = m.table.treeMode ∧
      ∀ r ∈ cmd, ∃ tag, r = Request.input tag := by
  unfold filterKey at h
  by_cases c1 : keyMatches k keysEscape = true
  · rw [if_pos c1] at h
    obtain ⟨m1, hm1, he⟩ := Option.map_eq_some'.1 h
    obtain ⟨f1, f2, f3, f4, f5, f6, f7, f8, _⟩ := applyFilter_frame L ρ _ _ hm1
    cases he
    refine ⟨f1, f2, ?_, f4, f5, f6, f7, f8, by simp⟩
    intro ha
    rw [f3] at ha
    cases ha
  rw [if_neg c1] at h
  by_cases c2 : keyMatches k ["enter"] = true
  · rw [if_pos c2] at h
    cases h
    exact ⟨rfl, rfl, fun ha => (by cases ha), rfl, rfl, rfl, rfl, rfl, by simp⟩
  rw [if_neg c2] at h
  obtain ⟨f1, f2, f3, f4, f5, f6, f7, f8, f9⟩ := passToFilter_frame L ρ m m' _ cmd h
  exact ⟨f1, f2, fun ha => by rw [← f3]; exact ha, f4, f5, f6, f7, f8, f9⟩

theorem filterKey_total (L : Libs) (ρ : RangeOrder) (m : Model) (k : String)
    (h0 : 0 ≤ m.table.cursor) (h1 : 0 ≤ m.table.offset) :
    ∃ r, filterKey L ρ m k = some r := by
  unfold filterKey
  by_cases c1 : keyMatches k keysEscape = true
  · rw [if_pos c1]
    obtain ⟨m1, hm1⟩ := applyFilter_total L ρ { m with filter := m.filter.clear L } h0 h1
    exact ⟨(m1, []), by rw [hm1]; rfl⟩
  rw [if_neg c1]
  by_cases c2 : keyMatches k ["enter"] = true
  · rw [if_pos c2]
    exact ⟨_, rfl⟩
  rw [if_neg c2]
  unfold passToFilter
  obtain ⟨m1, hm1⟩ := applyFilter_total L ρ
    { m with filter := { m.filter with input := (L.input.update m.filter.input (Msg.key k)).1 } }
    h0 h1
  exact ⟨_, by rw [hm1]; rfl⟩

/-- A terminate request is issued by the keys `y` and `Y` of the visible
confirm dialog only. -/
theorem kill_only_on_yes (L : Libs) (ρ : RangeOrder) (m m' : Model) (msg : Msg) (cmd : Cmd)
    (pid : Int) (sig : Signal) (h : Update L ρ m msg = some (m', cmd))
    (hk : Request.kill pid sig ∈ cmd) :
    m.confirm.visible = true ∧ (msg = Msg.key "y" ∨ msg = Msg.key "Y") := by
  cases msg with
  | windowSize w h' =>
    have h' : (_, ([] : Cmd)) = (m', cmd) := Option.some.inj h
    cases h'
    cases hk
  | portsUpdated ports =>
    have h' : (applyFilter L ρ { m with scanning := false, allPorts := ports }).map
        (fun m1 => (({ m1 with status := toString m1.filtered.length ++ " ports" } : Model),
          ([] : Cmd))) = some (m', cmd) := h
    obtain ⟨m1, _, he⟩ := Option.map_eq_some'.1 h'
    cases he
    cases hk
  | scanError err =>
    have h' : (_, ([] : Cmd)) = (m', cmd) := Option.some.inj h
    cases h'
    cases hk
  | tick =>
    have h' : (if (!m.scanning) = true then
        some (({ m with scanning := true } : Model), scanCmd ++ tickCmd m.cfg.RefreshInterval)
        else some (m, tickCmd m.cfg.RefreshInterval)) = some (m', cmd) := h
    cases hs : m.scanning <;> rw [hs] at h' <;> cases h' <;>
      simp [scanCmd, tickCmd] at hk
  | killResult pid' err =>
    have h' : (_, ([Request.scan] : Cmd)) = (m', cmd) := Option.some.inj h
    cases h'
    simp at hk
  | key k =>
    have h' : handleKey L ρ m k = some (m', cmd) := h
    unfold handleKey at h'
    by_cases hv : m.confirm.visible = true
    · rw [if_pos hv, confirmKey_eq] at h'
      by_cases c1 : k = "y" ∨ k = "Y"
      · refine ⟨hv, ?_⟩
        rcases c1 with e | e
        · exact Or.inl (by rw [e])
        · exact Or.inr (by rw [e])
      · rw [if_neg c1] at h'
        by_cases c2 : k = "n" ∨ k = "N" ∨ k = "esc"
        · rw [if_pos c2] at h'
          cases h'
          cases hk
        · rw [if_neg c2] at h'
          cases h'
          cases hk
    · rw [if_neg hv] at h'
      by_cases hf : m.filter.active = true
      · rw [if_pos hf] at h'
        obtain ⟨tag, ht⟩ := (filterKey_cases L ρ m m' k cmd h').2.2 _ hk
        cases ht
      · rw [if_neg hf] at h'
        rcases mainKey_cases L ρ m m' k cmd h' with ⟨_, _, _, h3⟩ | ⟨_, h3, _⟩ | ⟨_, _, h3⟩
        · rw [h3] at hk
          simp [scanCmd] at hk
        · rw [h3] at hk
          cases hk
        · rcases h3 _ hk with e | ⟨tag, e⟩
          · cases e
          · cases e
  | other tag =>
    have h' : (if m.filter.active = true then passToFilter L ρ m (Msg.other tag)
        else some (m, [])) = some (m', cmd) := h
    by_cases hf : m.filter.active = true
    · rw [if_pos hf] at h'
      obtain ⟨tag', ht⟩ := (passToFilter_confirm L ρ m m' _ cmd h').2.2.2 _ hk
      cases ht
    · rw [if_neg hf] at h'
      cases h'
      cases hk

/-! ## Claim C23: cancelling the confirm dialog -/

/-- C23: while the confirm dialog is visible, `Update` on the key `n`, `N` or
`esc` returns the model with the dialog hidden and no other field changed, and
the empty command; and for every model and every message, a command that holds
a terminate request is returned only when the dialog is visible and the message
is the key `y` or `Y`. -/
theorem cancel_hides_dialog (L : Libs) (ρ : RangeOrder) (m : Model) (k : String)
    (hv : m.confirm.visible = true) (hk : k = "n" ∨ k = "N" ∨ k = "esc") :
    Update L ρ m (Msg.key k) =
        some ({ m with confirm := { m.confirm with visible := false } }, []) ∧
      ∀ (m₀ m' : Model) (msg : Msg) (cmd : Cmd) (pid : Int) (sig : Signal),
        Update L ρ m₀ msg = some (m', cmd) → Request.kill pid sig ∈ cmd →
          m₀.confirm.visible = true ∧ (msg = Msg.key "y" ∨ msg = Msg.key "Y") := by
  constructor
  · show handleKey L ρ m k = _
    unfold handleKey
    rw [if_pos hv, confirmKey_eq]
    have hny : ¬ (k = "y" ∨ k = "Y") := by
      rcases hk with e | e | e <;> rw [e] <;> decide
    rw [if_neg hny, if_pos hk]
    rfl
  · intro m₀ m' msg cmd pid sig h hmem
    exact kill_only_on_yes L ρ m₀ m' msg cmd pid sig h hmem

/-- C23 (witness): the key `n` on the kill-parent dialog of the worker. -/
theorem cancel_hides_dialog_witness :
    parentDialogModel.confirm.visible = true ∧
      ("n" = "n" ∨ "n" = "N" ∨ "n" = "esc") ∧
      Update plainLibs insertionOrder parentDialogModel (Msg.key "n") =
        some ({ parentDialogModel with
                confirm := { parentDialogModel.confirm with visible := false } }, []) :=
  ⟨rfl, Or.inl rfl,
    (cancel_hides_dialog plainLibs insertionOrder parentDialogModel "n" rfl (Or.inl rfl)).1⟩

/-! ## Claim C24: keys outside Normal mode -/

/-- C24: while the confirm dialog is visible or the filter input is active,
whatever `Update` returns on a key leaves the sort column and direction, the
tree-mode flag, the show-system flag, the help flag and the scanning flag
unchanged, its command holds neither a scan request nor the quit request, and
the confirm dialog is unchanged or hidden (never opened); while the dialog is
visible every key other than `y`, `Y`, `n`, `N` and `esc` returns the model
unchanged with the empty command; and `Update` returns when the cursor and the
offset of the table are not negative. -/
theorem modal_keys_frame (L : Libs) (ρ : RangeOrder) (m : Model) (k : String)
    (hmode : m.confirm.visible = true ∨ m.filter.active = true) :
    (∀ m' cmd, Update L ρ m (Msg.key k) = some (m', cmd) →
        m'.table.sort = m.table.sort ∧ m'.table.treeMode = m.table.treeMode ∧
        m'.cfg.ShowSystem = m.cfg.ShowSystem ∧ m'.showHelp = m.showHelp ∧
        m'.scanning = m.scanning ∧ Request.scan ∉ cmd ∧ Request.quit ∉ cmd ∧
        (m'.confirm = m.confirm ∨ m'.confirm = m.confirm.hide)) ∧
      (m.confirm.visible = true →
        ¬ (k = "y" ∨ k = "Y" ∨ k = "n" ∨ k = "N" ∨ k = "esc") →
        Update L ρ m (Msg.key k) = some (m, [])) ∧
      (0 ≤ m.table.cursor → 0 ≤ m.table.offset →
        ∃ r, Update L ρ m (Msg.key k) = some r) := by
  refine ⟨?_, ?_, ?_⟩
  · intro m' cmd h
    have h' : handleKey L ρ m k = some (m', cmd) := h
    unfold handleKey at h'
    by_cases hv : m.confirm.visible = true
    · rw [if_pos hv, confirmKey_eq] at h'
      by_cases c1 : k = "y" ∨ k = "Y"
      · rw [if_pos c1] at h'
        cases h'
        refine ⟨rfl, rfl, rfl, rfl, rfl, ?_, ?_, Or.inr rfl⟩
        · simp [killCmd]
        · simp [killCmd]
      · rw [if_neg c1] at h'
        by_cases c2 : k = "n" ∨ k = "N" ∨ k = "esc"
        · rw [if_pos c2] at h'
          cases h'
          exact ⟨rfl, rfl, rfl, rfl, rfl, by simp, by simp, Or.inr rfl⟩
        · rw [if_neg c2] at h'
          cases h'
          exact ⟨rfl, rfl, rfl, rfl, rfl, by simp, by simp, Or.inl rfl⟩
    · rw [if_neg hv] at h'
      have hf : m.filter.active = true := by
        rcases hmode with e | e
        · exact absurd e hv
        · exact e
      rw [if_pos hf] at h'
      obtain ⟨f1, _, _, f4, f5, f6, f7, f8, f9⟩ := filterKey_frame L ρ m m' k cmd h'
      refine ⟨f7, f8, by rw [f1], f6, f5, ?_, ?_, Or.inl f4⟩
      · intro hmem
        obtain ⟨tag, ht⟩ := f9 _ hmem
        cases ht
      · intro hmem
        obtain ⟨tag, ht⟩ := f9 _ hmem
        cases ht
  · intro hv hk
    show handleKey L ρ m k = _
    unfold handleKey
    rw [if_pos hv, confirmKey_eq]
    rw [if_neg (fun h => hk (by rcases h with e | e <;> simp [e])),
      if_neg (fun h => hk (by rcases h with e | e | e <;> simp [e]))]
  · intro h0 h1
    show ∃ r, handleKey L ρ m k = some r
    unfold handleKey
    by_cases hv : m.confirm.visible = true
    · rw [if_pos hv, confirmKey_eq]
      by_cases c1 : k = "y" ∨ k = "Y"
      · rw [if_pos c1]; exact ⟨_, rfl⟩
      · rw [if_neg c1]
        by_cases c2 : k = "n" ∨ k = "N" ∨ k = "esc"
        · rw [if_pos c2]; exact ⟨_, rfl⟩
        · rw [if_neg c2]; exact ⟨_, rfl⟩
    · rw [if_neg hv]
      have hf : m.filter.active = true := by
        rcases hmode with e | e
        · exact absurd e hv
        · exact e
      rw [if_pos hf]
      exact filterKey_total L ρ m k h0 h1

/-- C24 (witness): the sort key `s` on the kill-parent dialog of the worker
leaves the model unchanged. -/
theorem modal_keys_frame_witness :
    (parentDialogModel.confirm.visible = true ∨ parentDialogModel.filter.active = true) ∧
      ¬ ("s" = "y" ∨ "s" = "Y" ∨ "s" = "n" ∨ "s" = "N" ∨ "s" = "esc") ∧
      Update plainLibs insertionOrder parentDialogModel (Msg.key "s") =
        some (parentDialogModel, []) :=
  ⟨Or.inl rfl, by decide,
    (modal_keys_frame plainLibs insertionOrder parentDialogModel "s" (Or.inl rfl)).2.1 rfl
      (by decide)⟩

/-! ## Claim C25: leaving the filter input -/

theorem clear_value (L : Libs) (f : filterInput) :
    (f.clear L).value = "" ∧ (f.clear L).active = false := by
  unfold filterInput.clear filterInput.deactivate filterInput.value
  exact ⟨by rw [L.input.blur_value, L.input.setValue_empty], rfl⟩

theorem deactivate_value (L : Libs) (f : filterInput) :
    (f.deactivate L).value = f.value ∧ (f.deactivate L).active = false := by
  unfold filterInput.deactivate filterInput.value
  exact ⟨L.input.blur_value _, rfl⟩

theorem filterPorts_empty_query (L : Libs) (m : Model) (hlow : L.toLower "" = "")
    (hq : m.filter.value = "") :
    filterPorts L m =
      m.allPorts.filter (fun p => m.cfg.ShowSystem || !isSystemProcess p) := by
  unfold filterPorts
  apply List.filter_congr
  intro p _
  have hm : m.filter.matches L p = true := by
    unfold filterInput.matches
    unfold filterInput.value at hq
    simp only [hq, hlow, if_true]
  rw [hm]
  cases m.cfg.ShowSystem <;> cases isSystemProcess p <;> rfl

/-- C25: while the filter input is active and the confirm dialog is not
visible, on the key `esc` whatever `Update` returns has the empty query, the
filter input inactive, the empty command, `allPorts` unchanged and as filtered
list the records of `allPorts` that pass the system-process rule (all of them
when ShowSystem is set, those that are not system processes otherwise), given
that lower-casing maps the empty text to itself, and `Update` returns when the
cursor and the offset of the table are not negative; on the key `enter`
`Update` returns the model with the filter input deactivated and nothing else
changed, so the query and the filtered list are unchanged, and the empty
command. -/
theorem filter_escape_enter (L : Libs) (ρ : RangeOrder) (m : Model)
    (hv : m.confirm.visible = false) (ha : m.filter.active = true)
    (hlow : L.toLower "" = "") :
    (∀ m' cmd, Update L ρ m (Msg.key "esc") = some (m', cmd) →
        m'.filter.value = "" ∧ m'.filter.active = false ∧ cmd = [] ∧
        m'.allPorts = m.allPorts ∧
        m'.filtered =
          m.allPorts.filter (fun p => m.cfg.ShowSystem || !isSystemProcess p)) ∧
      (0 ≤ m.table.cursor → 0 ≤ m.table.offset →
        ∃ r, Update L ρ m (Msg.key "esc") = some r) ∧
      Update L ρ m (Msg.key "enter") = some ({ m with filter := m.filter.deactivate L }, []) ∧
      (m.filter.deactivate L).active = false ∧
      (m.filter.deactivate L).value = m.filter.value ∧
      ({ m with filter := m.filter.deactivate L } : Model).filtered = m.filtered := by
  have hesc : Update L ρ m (Msg.key "esc") =
      (applyFilter L ρ { m with filter := m.filter.clear L }).map (fun m' => (m', [])) := by
    show handleKey L ρ m "esc" = _
    unfold handleKey
    rw [hv, ha]
    rfl
  have hent : Update L ρ m (Msg.key "enter") =
      some ({ m with filter := m.filter.deactivate L }, []) := by
    show handleKey L ρ m "enter" = _
    unfold handleKey
    rw [hv, ha]
    rfl
  refine ⟨?_, ?_, hent, (deactivate_value L m.filter).2, (deactivate_value L m.filter).1, rfl⟩
  · intro m' cmd h
    rw [hesc] at h
    obtain ⟨m1, hm1, he⟩ := Option.map_eq_some'.1 h
    obtain ⟨_, f2, f3, _, _, _, _, _, f9⟩ := applyFilter_frame L ρ _ _ hm1
    cases he
    refine ⟨by rw [f3]; exact (clear_value L m.filter).1,
      by rw [f3]; exact (clear_value L m.filter).2, rfl, f2, ?_⟩
    rw [f9]
    exact filterPorts_empty_query L { m with filter := m.filter.clear L } hlow
      (clear_value L m.filter).1
  · intro h0 h1
    rw [hesc]
    obtain ⟨m1, hm1⟩ := applyFilter_total L ρ { m with filter := m.filter.clear L } h0 h1
    exact ⟨(m1, []), by rw [hm1]; rfl⟩

/-- C25 (witness): the model with the active filter input holding "node": the
key `enter` deactivates the input and keeps the query. -/
theorem filter_escape_enter_witness :
    filteringModel.confirm.visible = false ∧ filteringModel.filter.active = true ∧
      plainLibs.toLower "" = "" ∧
      Update plainLibs insertionOrder filteringModel (Msg.key "enter") =
        some ({ filteringModel with filter := filteringModel.filter.deactivate plainLibs }, []) ∧
      (filteringModel.filter.deactivate plainLibs).value = "node" :=
  ⟨rfl, rfl, rfl,
    (filter_escape_enter plainLibs insertionOrder filteringModel rfl rfl rfl).2.2.1, rfl⟩

/-! ## Claim C26: the input modes are mutually exclusive -/

/-- The main keys change the filter input or the confirm dialog, never both. -/
theorem mainKey_modes (L : Libs) (ρ : RangeOrder) (m m' : Model) (k : String) (cmd : Cmd)
    (h : mainKey L ρ m k = some (m', cmd)) :
    m'.filter = m.filter ∨ m'.confirm = m.confirm := by
  unfold mainKey at h
  by_cases c1 : keyMatches k keysQuit = true
  · rw [if_pos c1] at h
    cases h
    exact Or.inl rfl
  rw [if_neg c1] at h
  by_cases c2 : keyMatches k keysFilter = true
  · rw [if_pos c2] at h
    cases h
    exact Or.inr rfl
  rw [if_neg c2] at h
  by_cases c3 : keyMatches k keysKill = true
  · rw [if_pos c3] at h
    cases hs : selectedPort m with
    | none => rw [hs] at h; cases h; exact Or.inl rfl
    | some t => rw [hs] at h; cases h; exact Or.inl rfl
  rw [if_neg c3] at h
  by_cases c4 : keyMatches k keysForceK = true
  · rw [if_pos c4] at h
    cases hs : selectedPort m with
    | none => rw [hs] at h; cases h; exact Or.inl rfl
    | some t => rw [hs] at h; cases h; exact Or.inl rfl
  rw [if_neg c4] at h
  by_cases c5 : keyMatches k keysKillParent = true
  · rw [if_pos c5] at h
    cases hs : selectedPort m with
    | none => rw [hs] at h; cases h; exact Or.inl rfl
    | some t =>
      rw [hs] at h
      by_cases hp : t.PPID > 1
      · simp only [hp, if_true] at h
        cases h
        exact Or.inl rfl
      · simp only [hp, if_false] at h
        cases h
        exact Or.inl rfl
  rw [if_neg c5] at h
  by_cases c6 : keyMatches k keysEnter = true
  · rw [if_pos c6] at h
    obtain ⟨t, _, ht⟩ := Option.map_eq_some'.1 h
    cases ht
    exact Or.inl rfl
  rw [if_neg c6] at h
  by_cases c7 : keyMatches k keysEscape = true
  · rw [if_pos c7] at h
    cases h
    exact Or.inl rfl
  rw [if_neg c7] at h
  by_cases c8 : keyMatches k keysSort = true
  · rw [if_pos c8] at h
    obtain ⟨t, _, ht⟩ := Option.map_eq_some'.1 h
    cases ht
    exact Or.inl rfl
  rw [if_neg c8] at h
  by_cases c9 : keyMatches k keysSortRev = true
  · rw [if_pos c9] at h
    obtain ⟨t, _, ht⟩ := Option.map_eq_some'.1 h
    cases ht
    exact Or.inl rfl
  rw [if_neg c9] at h
  by_cases c10 : keyMatches k keysSystem = true
  · rw [if_pos c10] at h
    obtain ⟨m1, hm1, he⟩ := Option.map_eq_some'.1 h
    obtain ⟨_, _, f3, _⟩ := applyFilter_frame L ρ _ _ hm1
    cases he
    exact Or.inl f3
  rw [if_neg c10] at h
  by_cases c11 : keyMatches k keysTree = true
  · rw [if_pos c11] at h
    obtain ⟨t, _, ht⟩ := Option.map_eq_some'.1 h
    cases ht
    exact Or.inl rfl
  rw [if_neg c11] at h
  by_cases c12 : keyMatches k keysRefresh = true
  · rw [if_pos c12] at h
    cases h
    exact Or.inl rfl
  rw [if_neg c12] at h
  by_cases c13 : keyMatches k keysHelp = true
  · rw [if_pos c13] at h
    cases h
    exact Or.inl rfl
  rw [if_neg c13] at h
  by_cases c14 : keyMatches k keysUp = true
  · rw [if_pos c14] at h
    obtain ⟨t, _, ht⟩ := Option.map_eq_some'.1 h
    cases ht
    exact Or.inl rfl
  rw [if_neg c14] at h
  by_cases c15 : keyMatches k keysDown = true
  · rw [if_pos c15] at h
    obtain ⟨t, _, ht⟩ := Option.map_eq_some'.1 h
    cases ht
    exact Or.inl rfl
  rw [if_neg c15] at h
  cases h
  exact Or.inl rfl

/-- One call of `Update` keeps the confirm dialog and the filter input from
being on together. -/
theorem Update_modes (L : Libs) (ρ : RangeOrder) (m m' : Model) (msg : Msg) (cmd : Cmd)
    (h : Update L ρ m msg = some (m', cmd))
    (hinv : ¬ (m.confirm.visible = true ∧ m.filter.active = true)) :
    ¬ (m'.confirm.visible = true ∧ m'.filter.active = true) := by
  cases msg with
  | windowSize w h' =>
    have h' : (_, ([] : Cmd)) = (m', cmd) := Option.some.inj h
    cases h'
    exact hinv
  | portsUpdated ports =>
    have h' : (applyFilter L ρ { m with scanning := false, allPorts := ports }).map
        (fun m1 => (({ m1 with status := toString m1.filtered.length ++ " ports" } : Model),
          ([] : Cmd))) = some (m', cmd) := h
    obtain ⟨m1, hm1, he⟩ := Option.map_eq_some'.1 h'
    obtain ⟨_, _, f3, f4, _⟩ := applyFilter_frame L ρ _ _ hm1
    cases he
    show ¬ (m1.confirm.visible = true ∧ m1.filter.active = true)
    rw [f3, f4]
    exact hinv
  | scanError err =>
    have h' : (_, ([] : Cmd)) = (m', cmd) := Option.some.inj h
    cases h'
    exact hinv
  | tick =>
    have h' : (if (!m.scanning) = true then
        some (({ m with scanning := true } : Model), scanCmd ++ tickCmd m.cfg.RefreshInterval)
        else some (m, tickCmd m.cfg.RefreshInterval)) = some (m', cmd) := h
    cases hs : m.scanning <;> rw [hs] at h' <;> cases h' <;> exact hinv
  | killResult pid err =>
    have h' : (_, ([Request.scan] : Cmd)) = (m', cmd) := Option.some.inj h
    cases h'
    exact hinv
  | key k =>
    have h' : handleKey L ρ m k = some (m', cmd) := h
    unfold handleKey at h'
    by_cases hv : m.confirm.visible = true
    · have hna : ¬ m.filter.active = true := fun ha => hinv ⟨hv, ha⟩
      rw [if_pos hv, confirmKey_eq] at h'
      by_cases c1 : k = "y" ∨ k = "Y"
      · rw [if_pos c1] at h'
        cases h'
        exact fun hh => hna hh.2
      · rw [if_neg c1] at h'
        by_cases c2 : k = "n" ∨ k = "N" ∨ k = "esc"
        · rw [if_pos c2] at h'
          cases h'
          exact fun hh => hna hh.2
        · rw [if_neg c2] at h'
          cases h'
          exact hinv
    · rw [if_neg hv] at h'
      by_cases hf : m.filter.active = true
      · rw [if_pos hf] at h'
        obtain ⟨_, _, _, f4, _⟩ := filterKey_frame L ρ m m' k cmd h'
        intro hh
        rw [f4] at hh
        exact hv hh.1
      · rw [if_neg hf] at h'
        rcases mainKey_modes L ρ m m' k cmd h' with e | e
        · intro hh
          rw [e] at hh
          exact hf hh.2
        · intro hh
          rw [e] at hh
          exact hv hh.1
  | other tag =>
    have h' : (if m.filter.active = true then passToFilter L ρ m (Msg.other tag)
        else some (m, [])) = some (m', cmd) := h
    by_cases hf : m.filter.active = true
    · rw [if_pos hf] at h'
      obtain ⟨_, _, f3, f4, _⟩ := passToFilter_frame L ρ m m' _ cmd h'
      rw [f3, f4]
      exact hinv
    · rw [if_neg hf] at h'
      cases h'
      exact hinv

/-- C26: in every model state reachable from `New` by messages (keys, ticks,
scan results, terminate results, window sizes and others), the confirm dialog
is not visible while the filter input is active. -/
theorem modes_exclusive (L : Libs) (m : Model) (h : Reachable L m) :
    ¬ (m.confirm.visible = true ∧ m.filter.active = true) := by
  induction h with
  | init cfg => exact fun hh => (by cases hh.1)
  | step ρ msg _ hs ih => exact Update_modes L ρ _ _ msg _ hs ih

/-- C26 (witness): the model with the filter input opened by the key `/` is
reachable, and there the confirm dialog is not visible. -/
theorem modes_exclusive_witness :
    Reachable plainLibs filterOpenModel ∧
      ¬ (filterOpenModel.confirm.visible = true ∧ filterOpenModel.filter.active = true) :=
  have hr : Reachable plainLibs filterOpenModel :=
    Reachable.step insertionOrder (Msg.key "/") (Reachable.init defaultConfig)
      (by decide : Update plainLibs insertionOrder (New defaultConfig) (Msg.key "/") =
        some (filterOpenModel, []))
  ⟨hr, modes_exclusive plainLibs filterOpenModel hr⟩

/-! ## Claim C31: `setRows` with tree mode off -/

/-- C31: with tree mode off, whenever `setRows` returns, the displayed list is
the result of `sortItems` for the active sort state, a permutation of the
items of the same length, and the metadata list has that length and holds the
empty tree prefix and `isChild` false in every row; `setRows` returns when the
cursor and the offset are not negative. -/
theorem setRows_flat (lib : SortLib) (ρ : RangeOrder) (pt : portTable)
    (items : List PortInfo) (htree : pt.treeMode = false) :
    (∀ pt', setRows lib ρ pt items = some pt' →
        pt'.displayed = sortItems lib pt.sort items ∧
        pt'.displayed.Perm items ∧ pt'.displayed.length = items.length ∧
        pt'.meta.length = items.length ∧
        pt'.meta = List.replicate items.length { treePrefix := "", isChild := false } ∧
        ∀ m ∈ pt'.meta, m.treePrefix = "" ∧ m.isChild = false) ∧
      (0 ≤ pt.cursor → 0 ≤ pt.offset → ∃ pt', setRows lib ρ pt items = some pt') := by
  have hperm : (sortItems lib pt.sort items).Perm items := sortSlice_perm lib _ items
  constructor
  · intro pt' h
    obtain ⟨h1, h2, _⟩ := setRows_frame lib ρ pt pt' items h
    rw [htree] at h1 h2
    simp only [Bool.false_eq_true, if_false] at h1 h2
    have hm : pt'.meta = List.replicate items.length { treePrefix := "", isChild := false } := by
      rw [h2, hperm.length_eq]
    refine ⟨h1, by rw [h1]; exact hperm, by rw [h1]; exact hperm.length_eq, ?_, hm, ?_⟩
    · rw [hm, List.length_replicate]
    · intro m hmem
      rw [hm] at hmem
      rw [List.eq_of_mem_replicate hmem]
      exact ⟨rfl, rfl⟩
  · intro h0 h1
    exact setRows_total lib ρ pt items h0 h1

/-- C31 (witness): the table of `TestPortTableSetRows` (tree mode off) with the
ports 8000 and 3000 displays them sorted by port. -/
theorem setRows_flat_witness :
    flatTable.treeMode = false ∧
      ∀ pt', setRows insertionLib insertionOrder flatTable
          [mkPort 8000 100 1, mkPort 3000 200 1] = some pt' →
        pt'.displayed = sortItems insertionLib flatTable.sort
          [mkPort 8000 100 1, mkPort 3000 200 1] ∧
        pt'.displayed.Perm [mkPort 8000 100 1, mkPort 3000 200 1] ∧
        pt'.displayed.length = [mkPort 8000 100 1, mkPort 3000 200 1].length ∧
        pt'.meta.length = [mkPort 8000 100 1, mkPort 3000 200 1].length ∧
        pt'.meta = List.replicate [mkPort 8000 100 1, mkPort 3000 200 1].length
          { treePrefix := "", isChild := false } ∧
        ∀ m ∈ pt'.meta, m.treePrefix = "" ∧ m.isChild = false :=
  ⟨rfl,
    (setRows_flat insertionLib insertionOrder flatTable [mkPort 8000 100 1, mkPort 3000 200 1]
      rfl).1⟩

/-! ## Claim C40: the memory and uptime columns -/

theorem sortLess_default (asc : Bool) (c : Int) (h1 : c ≠ sortByPID) (h2 : c ≠ sortByProcess)
    (h3 : c ≠ sortByUser) :
    sortLess { column := c, asc := asc } = sortLess { column := sortByPort, asc := asc } := by
  funext a b
  unfold sortLess
  simp only [h1, h2, h3, if_false, if_true, ite_self]

/-- C40: when the sort column is memory or uptime, the comparison that
`sortItems` passes to `sort.Slice` compares the ports only (negated when the
direction is descending), and `sortItems` returns for every list what it
returns for the port column with the same direction. -/
theorem sortItems_memory_uptime (lib : SortLib) (asc : Bool) (items : List PortInfo) :
    sortItems lib { column := sortByMemory, asc := asc } items =
        sortItems lib { column := sortByPort, asc := asc } items ∧
      sortItems lib { column := sortByUptime, asc := asc } items =
        sortItems lib { column := sortByPort, asc := asc } items ∧
      ∀ a b : PortInfo,
        sortLess { column := sortByMemory, asc := asc } a b =
            (if asc then decide (a.Port < b.Port) else !decide (a.Port < b.Port)) ∧
          sortLess { column := sortByUptime, asc := asc } a b =
            (if asc then decide (a.Port < b.Port) else !decide (a.Port < b.Port)) := by
  have hm := sortLess_default asc sortByMemory (by decide) (by decide) (by decide)
  have hu := sortLess_default asc sortByUptime (by decide) (by decide) (by decide)
  refine ⟨?_, ?_, ?_⟩
  · unfold sortItems
    rw [hm]
  · unfold sortItems
    rw [hu]
  · intro a b
    rw [hm, hu]
    have : sortLess { column := sortByPort, asc := asc } a b =
        (if asc then decide (a.Port < b.Port) else !decide (a.Port < b.Port)) := by
      unfold sortLess
      cases asc <;> simp
    exact ⟨this, this⟩

/-! ## The records of the output of `buildTree` as a multiset -/

theorem appendGroup_records (items : List PortInfo) (kids : List (Int × List Int)) (pid : Int)
    (pre : String) (c : Bool) :
    (appendGroup items (groupByPID items).pidGroups kids pid pre c).map Prod.fst =
      items.filter (fun q => decide (q.PID = pid)) := by
  by_cases hp : pid ∈ items.map PortInfo.PID
  · obtain ⟨p, tl, h1, h2, _⟩ := appendGroup_spec items kids pid pre c hp
    rw [h1, ← h2]
    rfl
  · rw [appendGroup_absent items kids pid pre c hp]
    symm
    apply List.filter_eq_nil_iff.2
    intro q hq
    simp only [decide_eq_true_eq]
    exact fun e => hp (List.mem_map.2 ⟨q, hq, e⟩)

/-- The records of the output of `buildTree`: the groups of the PIDs for which
`appendGroup` is called, one after the other. -/
theorem buildRows_records (ρ : RangeOrder) (items : List PortInfo) :
    (buildRows ρ items).map Prod.fst =
      ((callsFor ρ items).map Prod.fst).flatMap
        (fun k => items.filter (fun q => decide (q.PID = k))) := by
  rw [buildRows_eq_calls, List.map_flatMap, flatMap_map_eq]
  apply flatMap_congr_mem
  intro c _
  exact appendGroup_records items _ c.1 c.2.1 c.2.2

theorem groups_step (k : Int) (ks : List Int) (hk : k ∉ ks) (items : List PortInfo) :
    ks.flatMap (fun k' => items.filter (fun q => decide (q.PID = k'))) =
      ks.flatMap (fun k' =>
        (items.filter (fun q => !decide (q.PID = k))).filter (fun q => decide (q.PID = k'))) := by
  apply flatMap_congr_mem
  intro k' hk'
  rw [List.filter_filter]
  apply List.filter_congr
  intro q _
  by_cases e : q.PID = k'
  · have hne : ¬ k' = k := fun e' => hk (by rw [← e']; exact hk')
    simp [e, hne]
  · simp [e]

/-- The groups of pairwise distinct PIDs of a list form a sub-multiset of the
list. -/
theorem groups_subperm (ks : List Int) (hnd : ks.Nodup) :
    ∀ items : List PortInfo,
      (ks.flatMap (fun k => items.filter (fun q => decide (q.PID = k)))).Subperm items := by
  induction ks with
  | nil => intro items; exact List.nil_subperm
  | cons k ks ih =>
    intro items
    obtain ⟨hk, hnd'⟩ := List.nodup_cons.1 hnd
    rw [List.flatMap_cons, groups_step k ks hk items]
    have h1 := ih hnd' (items.filter (fun q => !decide (q.PID = k)))
    have h2 := (List.subperm_append_left (items.filter (fun q => decide (q.PID = k)))).2 h1
    exact h2.trans (List.filter_append_perm _ items).subperm

/-- The groups of pairwise distinct PIDs that cover the PIDs of a list form a
permutation of the list. -/
theorem groups_perm (ks : List Int) (hnd : ks.Nodup) :
    ∀ items : List PortInfo, (∀ q ∈ items, q.PID ∈ ks) →
      (ks.flatMap (fun k => items.filter (fun q => decide (q.PID = k)))).Perm items := by
  induction ks with
  | nil =>
    intro items h
    cases items with
    | nil => exact List.Perm.refl _
    | cons q t => exact absurd (h q (List.mem_cons_self _ _)) (List.not_mem_nil _)
  | cons k ks ih =>
    intro items hcov
    obtain ⟨hk, hnd'⟩ := List.nodup_cons.1 hnd
    rw [List.flatMap_cons, groups_step k ks hk items]
    have h1 := ih hnd' (items.filter (fun q => !decide (q.PID = k))) (by
      intro q hq
      obtain ⟨hq1, hq2⟩ := List.mem_filter.1 hq
      rcases List.mem_cons.1 (hcov q hq1) with e | e
      · simp [e] at hq2
      · exact e)
    exact (List.Perm.append_left _ h1).trans (List.filter_append_perm _ items)

theorem buildTree_lengths (ρ : RangeOrder) (items : List PortInfo) :
    (buildTree ρ items).2.length = (buildTree ρ items).1.length := by
  unfold buildTree
  rw [List.length_map, List.length_map]

/-! ## Claim C39: no row is invented or duplicated -/

/-- C39: for every input list and every iteration order of the maps, the
records returned by `buildTree` form a sub-multiset of the input (every record
of the output is an input record, emitted at most as often as it occurs in the
input), their number is at most the number of input records, and the metadata
list has the length of the record list. -/
theorem buildTree_subperm (ρ : RangeOrder) (items : List PortInfo) :
    (buildTree ρ items).1.Subperm items ∧
      (buildTree ρ items).1.length ≤ items.length ∧
      (buildTree ρ items).2.length = (buildTree ρ items).1.length := by
  have h : (buildTree ρ items).1.Subperm items := by
    show ((buildRows ρ items).map Prod.fst).Subperm items
    rw [buildRows_records]
    exact groups_subperm _ (callsFor_nodup ρ items) items
  exact ⟨h, h.length_le, buildTree_lengths ρ items⟩

/-! ## Claim C38: hierarchies of one level -/

theorem mem_calls_of_root (ρ : RangeOrder) (items : List PortInfo) (r x : Int)
    (hr : r ∈ items.map PortInfo.PID)
    (hc : mget (childOfFor items) r = none) (hs : mget (siblingOfFor ρ items) r = none)
    (hx : x = r ∨ x ∈ (mget (kidsFor ρ items) r).getD []) :
    x ∈ (callsFor ρ items).map Prod.fst := by
  unfold callsFor
  rw [List.map_flatMap]
  refine List.mem_flatMap.2 ⟨r, ((groupByPID_inv items).mem r).2 hr, ?_⟩
  rw [rootCalls_fst, hc, hs]
  simp only [Option.isSome_none, Bool.false_eq_true, or_self, if_false, List.mem_cons]
  exact hx

theorem peersFor_mem (items : List PortInfo) (k x : Int) (h : x ∈ peersFor items k) :
    x ∈ items.map PortInfo.PID ∧ mget (childOfFor items) x = none ∧
      peerKey items (groupByPID items).pidGroups (childOfFor items) x = some k := by
  unfold peersFor at h
  obtain ⟨h1, h2⟩ := List.mem_filter.1 h
  have hk := of_decide_eq_true h2
  refine ⟨((groupByPID_inv items).mem x).1 h1, ?_, hk⟩
  cases hc : mget (childOfFor items) x with
  | none => rfl
  | some v =>
    unfold peerKey at hk
    rw [hc] at hk
    simp at hk

/-- The first PID of a list of peers is a key neither of `childOf` nor of
`siblingOf`. -/
theorem peers_head_root (ρ : RangeOrder) (items : List PortInfo) (k root : Int)
    (rest : List Int) (h : peersFor items k = root :: rest) :
    root ∈ items.map PortInfo.PID ∧ mget (childOfFor items) root = none ∧
      mget (siblingOfFor ρ items) root = none := by
  have hm : root ∈ peersFor items k := by rw [h]; exact List.mem_cons_self _ _
  obtain ⟨h1, h2, h3⟩ := peersFor_mem items k root hm
  refine ⟨h1, h2, ?_⟩
  cases hs : mget (siblingOfFor ρ items) root with
  | none => rfl
  | some r' =>
    obtain ⟨k', rest', hl', hx'⟩ := (siblingOf_iff ρ items root r').1 hs
    have hm' : root ∈ peersFor items k' := by rw [hl']; exact List.mem_cons_of_mem _ hx'
    have h3' := (peersFor_mem items k' root hm').2.2
    rw [h3] at h3'
    have hkk : k = k' := Option.some.inj h3'
    subst hkk
    rw [h] at hl'
    obtain ⟨_, e2⟩ := List.cons.inj hl'
    have hnd : (peersFor items k).Nodup := by
      unfold peersFor
      exact (groupByPID_inv items).nodup.filter _
    rw [h] at hnd
    rw [← e2] at hx'
    exact absurd hx' (List.nodup_cons.1 hnd).1

/-- When every record that is the parent of a record of the list has PPID ≤ 1,
`appendGroup` is called for every PID of the list. -/
theorem calls_cover (ρ : RangeOrder) (items : List PortInfo)
    (hflat : ∀ p ∈ items, ∀ q ∈ items, p.PID = q.PPID → p.PPID ≤ 1)
    (x : Int) (hx : x ∈ items.map PortInfo.PID) :
    x ∈ (callsFor ρ items).map Prod.fst := by
  cases hc : mget (childOfFor items) x with
  | some v =>
    obtain ⟨h, h1, h2, h3, h4⟩ := childOf_sound items x v hc
    have hh := (firstOf_some items x h h1).1
    have hvroot : ∀ hv, firstOf items v = some hv → hv.PPID ≤ 1 := by
      intro hv hf
      obtain ⟨hv1, hv2⟩ := firstOf_some items v hv hf
      exact hflat hv hv1 h hh (by rw [hv2, h2])
    have hcv : mget (childOfFor items) v = none := by
      cases hcv : mget (childOfFor items) v with
      | none => rfl
      | some w =>
        obtain ⟨hv, g1, g2, g3, _⟩ := childOf_sound items v w hcv
        have := hvroot hv g1
        omega
    have hsv : mget (siblingOfFor ρ items) v = none := by
      cases hsv : mget (siblingOfFor ρ items) v with
      | none => rfl
      | some w =>
        obtain ⟨hv, g1, g2⟩ := siblingOf_sound ρ items v (by rw [hsv]; rfl)
        have := hvroot hv g1
        omega
    exact mem_calls_of_root ρ items v x h4 hcv hsv
      (Or.inr ((kidsFor_mem ρ items v x).2 (Or.inl hc)))
  | none =>
    cases hs : mget (siblingOfFor ρ items) x with
    | none => exact mem_calls_of_root ρ items x x hx hc hs (Or.inl rfl)
    | some root =>
      obtain ⟨k, rest, hl, _⟩ := (siblingOf_iff ρ items x root).1 hs
      obtain ⟨r1, r2, r3⟩ := peers_head_root ρ items k root rest hl
      exact mem_calls_of_root ρ items root x r1 r2 r3
        (Or.inr ((kidsFor_mem ρ items root x).2 (Or.inr hs)))

/-- C38: for every input list in which every record whose PID is the PPID of a
record of the list has itself PPID ≤ 1, and every iteration order of the maps,
the records returned by `buildTree` are a permutation of the input and the
metadata list has the length of the input. -/
theorem buildTree_perm_of_flat (ρ : RangeOrder) (items : List PortInfo)
    (hflat : ∀ p ∈ items, ∀ q ∈ items, p.PID = q.PPID → p.PPID ≤ 1) :
    (buildTree ρ items).1.Perm items ∧ (buildTree ρ items).2.length = items.length := by
  have h : (buildTree ρ items).1.Perm items := by
    show ((buildRows ρ items).map Prod.fst).Perm items
    rw [buildRows_records]
    exact groups_perm _ (callsFor_nodup ρ items) items
      (fun q hq => calls_cover ρ items hflat q.PID (List.mem_map_of_mem _ hq))
  exact ⟨h, by rw [buildTree_lengths, h.length_eq]⟩

/-- C38 (witness): the master and its two workers of `TestTreeParentChild`:
the only parent is the master, whose PPID is 1. -/
theorem buildTree_perm_of_flat_witness :
    (∀ p ∈ workersList, ∀ q ∈ workersList, p.PID = q.PPID → p.PPID ≤ 1) ∧
      (buildTree reverseOrder workersList).1.Perm workersList ∧
      (buildTree reverseOrder workersList).2.length = workersList.length :=
  ⟨by decide, buildTree_perm_of_flat reverseOrder workersList (by decide)⟩

/-! ## The scroll offset after `clampScroll` -/

theorem rowLines_eq (pt : portTable) (r n : Int) (h : rowLines pt r = some n) :
    n = lineCount pt r := by
  unfold rowLines at h
  unfold lineCount
  by_cases e : r = pt.expanded
  · rw [if_pos e] at h
    rw [if_pos e]
    cases hi : index pt.displayed r with
    | none => rw [hi] at h; cases h
    | some p =>
      rw [hi] at h
      exact (Option.some.inj h).symm
  · rw [if_neg e] at h
    rw [if_neg e]
    exact (Option.some.inj h).symm

theorem expandedLineCount_pos (p : PortInfo) : 2 ≤ expandedLineCount p := by
  unfold expandedLineCount
  split <;> split <;> split <;> omega

theorem lineCount_pos (pt : portTable) (r : Int) : 1 ≤ lineCount pt r := by
  unfold lineCount
  split
  · split
    · have := expandedLineCount_pos ‹PortInfo›
      omega
    · omega
  · omega

theorem spanLines_nonneg (pt : portTable) (n : Nat) : ∀ r, 0 ≤ spanLines pt r n := by
  induction n with
  | zero => intro r; exact le_refl _
  | succ n ih =>
    intro r
    have h1 := lineCount_pos pt r
    have h2 := ih (r + 1)
    show 0 ≤ lineCount pt r + spanLines pt (r + 1) n
    omega

theorem spanLines_add (pt : portTable) (a : Nat) :
    ∀ (r : Int) (b : Nat),
      spanLines pt r (a + b) = spanLines pt r a + spanLines pt (r + a) b := by
  induction a with
  | zero =>
    intro r b
    simp [spanLines]
  | succ a ih =>
    intro r b
    have e : a + 1 + b = (a + b) + 1 := by omega
    rw [e]
    show lineCount pt r + spanLines pt (r + 1) (a + b) =
      lineCount pt r + spanLines pt (r + 1) a + spanLines pt (r + ((a + 1 : Nat) : Int)) b
    rw [ih (r + 1) b]
    have e2 : r + 1 + (a : Int) = r + ((a + 1 : Nat) : Int) := by push_cast; omega
    rw [e2]
    omega

theorem spanLines_congr (pt pt' : portTable) (hd : pt'.displayed = pt.displayed)
    (he : pt'.expanded = pt.expanded) (n : Nat) :
    ∀ r, spanLines pt' r n = spanLines pt r n := by
  induction n with
  | zero => intro r; rfl
  | succ n ih =>
    intro r
    show lineCount pt' r + spanLines pt' (r + 1) n = lineCount pt r + spanLines pt (r + 1) n
    rw [ih (r + 1)]
    unfold lineCount
    rw [hd, he]

/-- The first loop of `clampScroll` adds up the line counts of the rows from
the offset to the cursor. -/
theorem countLines_eq (pt : portTable) (hc : pt.cursor < (pt.displayed.length : Int)) :
    ∀ (fuel : Nat) (r lines t : Int), r + fuel ≤ pt.cursor + 1 →
      countLines pt fuel r lines = some t → t = lines + spanLines pt r fuel := by
  intro fuel
  induction fuel with
  | zero =>
    intro r lines t _ h
    have h' : some lines = some t := h
    simp only [spanLines, add_zero]
    exact (Option.some.inj h').symm
  | succ fuel ih =>
    intro r lines t hr h
    unfold countLines at h
    have hcond : r ≤ pt.cursor ∧ r < (pt.displayed.length : Int) := by
      push_cast at hr
      constructor <;> omega
    rw [if_pos hcond] at h
    obtain ⟨n, hn, ht⟩ := Option.bind_eq_some.1 h
    have := ih (r + 1) (lines + n) t (by push_cast at hr ⊢; omega) ht
    rw [this, rowLines_eq pt r n hn]
    show lines + lineCount pt r + spanLines pt (r + 1) fuel =
      lines + (lineCount pt r + spanLines pt (r + 1) fuel)
    omega

/-- The second loop of `clampScroll` stops at an offset from which the rows up
to the cursor fit in the height, or at the cursor. -/
theorem dropLines_spec (pt : portTable) :
    ∀ (fuel : Nat) (offset lines o : Int), offset + fuel = pt.cursor →
      lines = spanLines pt offset (fuel + 1) →
      dropLines pt fuel offset lines = some o →
      offset ≤ o ∧ o ≤ pt.cursor ∧
        (o = pt.cursor ∨ spanLines pt o (pt.cursor - o + 1).toNat ≤ pt.height) := by
  intro fuel
  induction fuel with
  | zero =>
    intro offset lines o hf _ h
    have h' : some offset = some o := h
    have e : o = offset := (Option.some.inj h').symm
    simp only [Nat.cast_zero, add_zero] at hf
    subst e
    exact ⟨le_refl _, by omega, Or.inl hf⟩
  | succ fuel ih =>
    intro offset lines o hf hl h
    push_cast at hf
    unfold dropLines at h
    by_cases c : lines > pt.height ∧ offset < pt.cursor
    · rw [if_pos c] at h
      obtain ⟨n, hn, ho⟩ := Option.bind_eq_some.1 h
      have hn' := rowLines_eq pt offset n hn
      have hl' : lines - n = spanLines pt (offset + 1) (fuel + 1) := by
        rw [hl, hn']
        show lineCount pt offset + spanLines pt (offset + 1) (fuel + 1) - lineCount pt offset = _
        omega
      obtain ⟨h1, h2, h3⟩ := ih (offset + 1) (lines - n) o (by omega) hl' ho
      exact ⟨by omega, h2, h3⟩
    · rw [if_neg c] at h
      have e : o = offset := (Option.some.inj h).symm
      subst e
      refine ⟨le_refl _, by omega, Or.inr ?_⟩
      have hlt : o < pt.cursor := by omega
      have hle : lines ≤ pt.height := by
        by_contra hgt
        exact c ⟨by omega, hlt⟩
      have hn : (pt.cursor - o + 1).toNat = fuel + 1 + 1 := by omega
      rw [hn, ← hl]
      exact hle

/-- After `clampScroll` on a table whose cursor is a row index, the cursor row
is visible. -/
theorem clampScroll_visible (pt pt' : portTable) (h0 : 0 ≤ pt.cursor)
    (h1 : pt.cursor < (pt.displayed.length : Int)) (h : clampScroll pt = some pt') :
    CursorVisible pt' := by
  have hf := clampScroll_frame pt pt' h
  have hcur : pt'.cursor = pt.cursor := by rw [hf]
  have hdis : pt'.displayed = pt.displayed := by rw [hf]
  have hexp : pt'.expanded = pt.expanded := by rw [hf]
  have hhei : pt'.height = pt.height := by rw [hf]
  unfold clampScroll at h
  obtain ⟨lines, hlines, h2⟩ := Option.bind_eq_some.1 h
  obtain ⟨o2, ho2, h3⟩ := Option.map_eq_some'.1 h2
  have hoff : pt'.offset = if o2 < 0 then 0 else o2 := by rw [← h3]
  generalize ho1 : (if pt.cursor < pt.offset then pt.cursor else pt.offset) = o1 at hlines ho2
  have hle : o1 ≤ pt.cursor := by
    rw [← ho1]
    split <;> omega
  have hfuel : (pt.cursor - o1 + 1).toNat = (pt.cursor - o1).toNat + 1 := by omega
  have hl := countLines_eq pt h1 _ o1 0 lines (by omega) hlines
  rw [zero_add, hfuel] at hl
  obtain ⟨d1, d2, d3⟩ := dropLines_spec pt (pt.cursor - o1).toNat o1 lines o2 (by omega) hl ho2
  unfold CursorVisible
  rw [hcur, hhei, hoff]
  by_cases c : o2 < 0
  · rw [if_pos c]
    refine ⟨le_refl _, h0, ?_⟩
    by_cases e0 : (0 : Int) = pt.cursor
    · exact Or.inl e0
    · right
      rw [spanLines_congr pt pt' hdis hexp]
      rcases d3 with e | e
      · omega
      · have hsplit : (pt.cursor - o2 + 1).toNat = (-o2).toNat + (pt.cursor - 0 + 1).toNat := by
          omega
        rw [hsplit, spanLines_add] at e
        have hnn := spanLines_nonneg pt (-o2).toNat o2
        have hz : o2 + ((-o2).toNat : Int) = 0 := by omega
        rw [hz] at e
        omega
  · rw [if_neg c]
    refine ⟨by omega, d2, ?_⟩
    rcases d3 with e | e
    · exact Or.inl e
    · right
      rw [spanLines_congr pt pt' hdis hexp]
      exact e

theorem clampCursor_lt (c : Int) (n : Nat) (hn : 0 < n) :
    (if c ≥ (n : Int) then max 0 ((n : Int) - 1) else c) < (n : Int) := by
  split <;> omega

/-! ## Claim C34: the cursor stays visible -/

/-- C34: for every table whose cursor is a row index, whatever `clampScroll`
returns has 0 ≤ offset ≤ cursor and either offset = cursor or the total line
count of the rows from the offset to the cursor (1 + `expandedLineCount` for
the expanded row, 1 for the others) at most the height; the same holds for what
`toggleExpand` returns and, when the cursor moves, for what `moveUp` and
`moveDown` return; it holds for what `setRows` returns on any table with a
cursor that is not negative, when rows are displayed; and `clampScroll` returns
when the offset is not negative. -/
theorem cursor_visible (pt : portTable) (h0 : 0 ≤ pt.cursor)
    (h1 : pt.cursor < (pt.displayed.length : Int)) :
    (∀ pt', clampScroll pt = some pt' → CursorVisible pt') ∧
      (∀ pt', toggleExpand pt = some pt' → CursorVisible pt') ∧
      (∀ pt', moveUp pt = some pt' → pt' = pt ∨ CursorVisible pt') ∧
      (∀ pt', moveDown pt = some pt' → pt' = pt ∨ CursorVisible pt') ∧
      (∀ (lib : SortLib) (ρ : RangeOrder) (pt₀ pt' : portTable) (items : List PortInfo),
        0 ≤ pt₀.cursor → setRows lib ρ pt₀ items = some pt' → pt'.displayed ≠ [] →
          CursorVisible pt') ∧
      (0 ≤ pt.offset → ∃ pt', clampScroll pt = some pt') := by
  refine ⟨fun pt' h => clampScroll_visible pt pt' h0 h1 h, ?_, ?_, ?_, ?_, ?_⟩
  · intro pt' h
    unfold toggleExpand at h
    exact clampScroll_visible
      { pt with expanded := if pt.expanded = pt.cursor then -1 else pt.cursor } pt' h0 h1 h
  · intro pt' h
    unfold moveUp at h
    by_cases c : pt.cursor > 0
    · rw [if_pos c] at h
      exact Or.inr (clampScroll_visible _ pt' (show 0 ≤ pt.cursor - 1 by omega)
        (show pt.cursor - 1 < (pt.displayed.length : Int) by omega) h)
    · rw [if_neg c] at h
      exact Or.inl (Option.some.inj h).symm
  · intro pt' h
    unfold moveDown at h
    by_cases c : pt.cursor < (pt.displayed.length : Int) - 1
    · rw [if_pos c] at h
      exact Or.inr (clampScroll_visible _ pt' (show 0 ≤ pt.cursor + 1 by omega)
        (show pt.cursor + 1 < (pt.displayed.length : Int) by omega) h)
    · rw [if_neg c] at h
      exact Or.inl (Option.some.inj h).symm
  · intro lib ρ pt₀ pt' items hc h hne
    obtain ⟨hd, _⟩ := setRows_frame lib ρ pt₀ pt' items h
    have hlen : 0 < pt'.displayed.length := List.length_pos.2 hne
    rw [hd] at hlen
    unfold setRows at h
    exact clampScroll_visible _ pt' (clampCursor_bounds pt₀.cursor _ hc).1
      (clampCursor_lt pt₀.cursor _ hlen) h
  · intro ho
    exact clampScroll_total pt h0 ho (by omega)

/-- C34 (witness): ten rows in a table of height 5 with the cursor on the last
row: `clampScroll` moves the offset to row 5, so that the rows 5 to 9 fill the
height. -/
theorem cursor_visible_witness :
    0 ≤ tenRowTable.cursor ∧ tenRowTable.cursor < (tenRowTable.displayed.length : Int) ∧
      clampScroll tenRowTable = some { tenRowTable with offset := 5 } ∧
      CursorVisible { tenRowTable with offset := 5 } :=
  ⟨by decide, by decide, by decide,
    (cursor_visible tenRowTable (by decide) (by decide)).1 { tenRowTable with offset := 5 }
      (by decide)⟩

/-! ## Claim C32: the detail lines of an expanded row -/

theorem expandedAdd_length (L : Libs) (V : ViewLib) (lines : List String)
    (label value : String) :
    (expandedAdd L V lines label value).length =
      lines.length + (if value = "" ∨ value = "-" then 0 else 1) := by
  unfold expandedAdd
  split
  · rfl
  · rw [List.length_append]
    rfl

theorem address_value_shown (a b : String) : ¬ (a ++ ":" ++ b = "" ∨ a ++ ":" ++ b = "-") := by
  have hd : (a ++ ":" ++ b).data = a.data ++ ':' :: b.data := by
    simp [String.data_append]
  intro h
  rcases h with h | h
  · have := congrArg String.data h
    rw [hd] at this
    simp at this
  · have := congrArg String.data h
    rw [hd] at this
    have h1 : ("-" : String).data = ['-'] := rfl
    rw [h1] at this
    cases ha : a.data with
    | nil =>
      rw [ha] at this
      simp at this
    | cons x xs =>
      rw [ha] at this
      simp at this


/-- The number of detail lines that `renderExpanded` draws: the address line,
and one line each for a command, a directory and a container that is neither
empty nor "-", and for a parent PID > 1. -/
theorem expandedLines_length (L : Libs) (V : ViewLib) (p : PortInfo) :
    (expandedLines L V p).length =
      1 + (if p.Command = "" ∨ p.Command = "-" then 0 else 1) +
        (if p.CWD = "" ∨ p.CWD = "-" then 0 else 1) +
        (if p.Container = "" ∨ p.Container = "-" then 0 else 1) +
        (if p.PPID > 1 then 1 else 0) := by
  have hc : (if p.Container ≠ "" then
      expandedAdd L V (expandedAdd L V (expandedAdd L V (expandedAdd L V [] "Address"
        (p.Address ++ ":" ++ itoa p.Port)) "Command" p.Command) "Directory" p.CWD)
        "Container" p.Container
      else expandedAdd L V (expandedAdd L V (expandedAdd L V [] "Address"
        (p.Address ++ ":" ++ itoa p.Port)) "Command" p.Command) "Directory" p.CWD).length =
      1 + (if p.Command = "" ∨ p.Command = "-" then 0 else 1) +
        (if p.CWD = "" ∨ p.CWD = "-" then 0 else 1) +
        (if p.Container = "" ∨ p.Container = "-" then 0 else 1) := by
    by_cases h : p.Container = ""
    · rw [if_neg (not_not.2 h), if_pos (Or.inl h)]
      simp only [expandedAdd_length, if_neg (address_value_shown p.Address (itoa p.Port)),
        List.length_nil]
      omega
    · rw [if_pos h]
      simp only [expandedAdd_length, if_neg (address_value_shown p.Address (itoa p.Port)),
        List.length_nil]
  unfold expandedLines
  by_cases hp : p.PPID > 1
  · simp only [if_pos hp, List.length_append, List.length_singleton]
    rw [hc]
  · simp only [if_neg hp]
    rw [hc]
    omega

/-- C32 (failing input): for a record with an empty command (port 3000,
PID 100, PPID 1), `renderExpanded` draws one detail line, the address, while
`expandedLineCount` is 2.  For every record, the number of detail lines drawn
is 1 for the address plus one each for a command, a directory and a container
that is neither empty nor "-" and for a parent PID > 1; it equals
`expandedLineCount` exactly when the command is neither empty nor "-" and
neither the directory nor the container is "-". -/
theorem renderExpanded_skips_empty_command (L : Libs) (V : ViewLib) (p : PortInfo) :
    (expandedLines plainLibs plainView (mkPort 3000 100 1)).length = 1 ∧
      expandedLineCount (mkPort 3000 100 1) = 2 ∧
      (expandedLines L V p).length =
        1 + (if p.Command = "" ∨ p.Command = "-" then 0 else 1) +
          (if p.CWD = "" ∨ p.CWD = "-" then 0 else 1) +
          (if p.Container = "" ∨ p.Container = "-" then 0 else 1) +
          (if p.PPID > 1 then 1 else 0) ∧
      (((expandedLines L V p).length : Int) = expandedLineCount p ↔
        (¬ (p.Command = "" ∨ p.Command = "-") ∧ p.CWD ≠ "-" ∧ p.Container ≠ "-")) := by
  refine ⟨?_, by decide, expandedLines_length L V p, ?_⟩
  · rw [expandedLines_length]
    decide
  · rw [expandedLines_length]
    unfold expandedLineCount
    by_cases h1 : p.Command = "" ∨ p.Command = "-" <;>
    by_cases h2 : p.CWD = "" <;> by_cases h3 : p.CWD = "-" <;>
    by_cases h4 : p.Container = "" <;> by_cases h5 : p.Container = "-" <;>
    by_cases h6 : p.PPID > 1 <;>
    simp [h1, h2, h3, h4, h5, h6]


/-! ## Claim C33: the height of the table body -/

/-- C33 (failing input): two tables of the same height 2, nothing expanded,
offset 0.  When two rows are displayed they fill the height and the body that
`view` emits after the header and the separator holds one line break; when one
row is displayed the body is padded and holds two line breaks. -/
theorem view_height_varies :
    twoRowTable.height = 2 ∧ shortTable.height = 2 ∧
      (viewBody plainLibs plainView twoRowTable).map lineBreaks = some 1 ∧
      (viewBody plainLibs plainView shortTable).map lineBreaks = some 2 := by
  decide


/-! ## Rendering stays in range -/

theorem setRows_meta (lib : SortLib) (ρ : RangeOrder) (pt pt' : portTable)
    (items : List PortInfo) (h : setRows lib ρ pt items = some pt') :
    pt'.meta.length = pt'.displayed.length := by
  obtain ⟨h1, h2, _⟩ := setRows_frame lib ρ pt pt' items h
  rw [h1, h2]
  split
  · exact buildTree_lengths ρ _
  · exact List.length_replicate _ _

theorem clampScroll_meta (pt pt' : portTable) (h : clampScroll pt = some pt')
    (hm : pt.meta.length = pt.displayed.length) : pt'.meta.length = pt'.displayed.length := by
  rw [clampScroll_frame pt pt' h]
  exact hm

/-- In every table state reachable from `newPortTable` through the methods of
the table, the metadata list has the length of the displayed list. -/
theorem tableReach_meta (lib : SortLib) (pt : portTable) (h : TableReach lib pt) :
    pt.meta.length = pt.displayed.length := by
  induction h with
  | init => rfl
  | rows ρ items _ hs _ => exact setRows_meta lib ρ _ _ items hs
  | up _ hs ih =>
    unfold moveUp at hs
    split at hs
    · exact clampScroll_meta _ _ hs ih
    · cases hs; exact ih
  | down _ hs ih =>
    unfold moveDown at hs
    split at hs
    · exact clampScroll_meta _ _ hs ih
    · cases hs; exact ih
  | expand _ hs ih =>
    unfold toggleExpand at hs
    exact clampScroll_meta _ _ hs ih
  | tree _ ih => exact ih
  | next _ ih => exact ih
  | rev _ ih => exact ih
  | height h _ ih => exact ih
  | width w _ ih => exact ih

theorem renderRow_of_lt (L : Libs) (V : ViewLib) (pt : portTable)
    (hm : pt.meta.length = pt.displayed.length) (r : Int) (h0 : 0 ≤ r)
    (h1 : r < (pt.displayed.length : Int)) : ∃ s, renderRow L V pt r = some s := by
  obtain ⟨p, hp⟩ := index_of_lt pt.displayed r h0 h1
  obtain ⟨m, hmm⟩ := index_of_lt pt.meta r h0 (by rw [hm]; exact h1)
  unfold renderRow
  rw [hp, hmm]
  exact ⟨_, rfl⟩

theorem viewRows_total (L : Libs) (V : ViewLib) (pt : portTable)
    (hm : pt.meta.length = pt.displayed.length) :
    ∀ (fuel : Nat) (r used : Int), 0 ≤ r → ∃ res, viewRows L V pt fuel r used = some res := by
  intro fuel
  induction fuel with
  | zero => intro r used _; exact ⟨_, rfl⟩
  | succ fuel ih =>
    intro r used h0
    unfold viewRows
    by_cases c : r < (pt.displayed.length : Int) ∧ used < pt.height
    · rw [if_pos c]
      obtain ⟨n, hn⟩ := rowLines_of_lt pt r h0 c.1
      rw [hn]
      simp only [Option.some_bind]
      by_cases c2 : used + n > pt.height
      · rw [if_pos c2]
        exact ⟨_, rfl⟩
      · rw [if_neg c2]
        obtain ⟨row, hrow⟩ := renderRow_of_lt L V pt hm r h0 c.1
        obtain ⟨p, hp⟩ := index_of_lt pt.displayed r h0 c.1
        obtain ⟨rest, hrest⟩ := ih (r + 1) (used + n) (by omega)
        rw [hrow, hp, hrest]
        by_cases c3 : r = pt.expanded
        · rw [if_pos c3]
          exact ⟨_, rfl⟩
        · rw [if_neg c3]
          exact ⟨_, rfl⟩
    · rw [if_neg c]
      exact ⟨_, rfl⟩

theorem viewBody_total (L : Libs) (V : ViewLib) (pt : portTable)
    (hm : pt.meta.length = pt.displayed.length) (h0 : 0 ≤ pt.offset) :
    ∃ s, viewBody L V pt = some s := by
  obtain ⟨res, hres⟩ := viewRows_total L V pt hm
    ((pt.displayed.length : Int) - pt.offset).toNat pt.offset 0 h0
  unfold viewBody
  rw [hres]
  exact ⟨_, rfl⟩

/-! ## Claim C37: rendering never indexes out of range -/

/-- C37: in every table state reachable from `newPortTable` through `setRows`,
`moveUp`, `moveDown`, `toggleExpand`, `toggleTree`, `nextSort`, `reverseSort`,
`setHeight` and `setWidth`, the metadata list has the length of the displayed
list and the cursor and the offset are not negative; the row loop of `view`
(which makes all the accesses of `view` to `displayed` and `meta`) returns
without an index-out-of-range panic, and so does `view` when the width is not
negative; `renderRow` and `rowLines` return for every row index of the
displayed list; and `clampScroll`, `moveUp`, `moveDown`, `toggleExpand` and
`setRows` return. -/
theorem rendering_in_range (lib : SortLib) (L : Libs) (V : ViewLib) (pt : portTable)
    (h : TableReach lib pt) :
    pt.meta.length = pt.displayed.length ∧ 0 ≤ pt.cursor ∧ 0 ≤ pt.offset ∧
      (∃ s, viewBody L V pt = some s) ∧
      (0 ≤ pt.width → ∃ s, view L V pt = some s) ∧
      (∀ r : Int, 0 ≤ r → r < (pt.displayed.length : Int) →
        (∃ s, renderRow L V pt r = some s) ∧ ∃ n, rowLines pt r = some n) ∧
      (∃ pt', clampScroll pt = some pt') ∧ (∃ pt', moveUp pt = some pt') ∧
      (∃ pt', moveDown pt = some pt') ∧ (∃ pt', toggleExpand pt = some pt') ∧
      ∀ (ρ : RangeOrder) (items : List PortInfo), ∃ pt', setRows lib ρ pt items = some pt' := by
  have hinv := tableReach_inv lib pt h
  have hm := tableReach_meta lib pt h
  obtain ⟨body, hbody⟩ := viewBody_total L V pt hm hinv.2.1
  refine ⟨hm, hinv.1, hinv.2.1, ⟨body, hbody⟩, ?_, ?_,
    clampScroll_total pt hinv.1 hinv.2.1 (tableInv_le pt hinv), moveUp_total pt hinv,
    moveDown_total pt hinv, toggleExpand_total pt hinv,
    fun ρ items => setRows_total lib ρ pt items hinv.1 hinv.2.1⟩
  · intro hw
    unfold view stringsRepeat
    rw [if_neg (by omega), hbody]
    exact ⟨_, rfl⟩
  · intro r h0 h1
    exact ⟨renderRow_of_lt L V pt hm r h0 h1, rowLines_of_lt pt r h0 h1⟩

/-- C37 (witness): the table reached from `newPortTable` by `setHeight(0)` and
`toggleExpand` (an empty table with the expanded index 0): `view` returns the
header and the separator only. -/
theorem rendering_in_range_witness :
    TableReach insertionLib { newPortTable with expanded := 0 } ∧
      (∃ s, viewBody plainLibs plainView { newPortTable with expanded := 0 } = some s) ∧
      ∃ pt', clampScroll { newPortTable with expanded := 0 } = some pt' :=
  have hr : TableReach insertionLib { newPortTable with expanded := 0 } :=
    TableReach.expand (TableReach.height 0 TableReach.init) (by decide)
  ⟨hr, (rendering_in_range insertionLib plainLibs plainView _ hr).2.2.2.1,
    (rendering_in_range insertionLib plainLibs plainView _ hr).2.2.2.2.2.2.1⟩


/-! ## The number of line breaks of the table body -/

theorem lineBreaks_append (a b : String) :
    lineBreaks (a ++ b) = lineBreaks a + lineBreaks b := by
  unfold lineBreaks
  rw [String.data_append, List.count_append]

theorem lineBreaks_pad (n : Nat) : lineBreaks (String.mk (List.replicate n '\n')) = n := by
  unfold lineBreaks
  exact List.count_replicate_self _ _

/-- The row loop of `view` when nothing is expanded and no rendered row holds
a line break: when the rows left fill the height, the loop uses up the height
and writes one line break less than the lines it adds; otherwise it writes
one line break for each row left. -/
theorem viewRows_lineBreaks (L : Libs) (V : ViewLib) (pt : portTable)
    (hm : pt.meta.length = pt.displayed.length) (hexp : pt.expanded < 0)
    (hrow : ∀ r s, renderRow L V pt r = some s → lineBreaks s = 0) :
    ∀ (fuel : Nat) (r used : Int), 0 ≤ r → r + fuel = (pt.displayed.length : Int) →
      used ≤ pt.height →
      ∃ text used', viewRows L V pt fuel r used = some (text, used') ∧
        (if pt.height - used ≤ (pt.displayed.length : Int) - r then
          used' = pt.height ∧ (lineBreaks text : Int) = max 0 (pt.height - used - 1)
        else
          used' = used + ((pt.displayed.length : Int) - r) ∧
            (lineBreaks text : Int) = (pt.displayed.length : Int) - r) := by
  intro fuel
  induction fuel with
  | zero =>
    intro r used h0 hf hu
    simp only [Nat.cast_zero, add_zero] at hf
    refine ⟨"", used, rfl, ?_⟩
    have hz : (lineBreaks "" : Int) = 0 := rfl
    split
    · exact ⟨by omega, by rw [hz]; omega⟩
    · exact ⟨by omega, by rw [hz]; omega⟩
  | succ fuel ih =>
    intro r used h0 hf hu
    push_cast at hf
    unfold viewRows
    have hz : (lineBreaks "" : Int) = 0 := rfl
    by_cases c : r < (pt.displayed.length : Int) ∧ used < pt.height
    · rw [if_pos c]
      have hne : ¬ r = pt.expanded := by omega
      have hrl : rowLines pt r = some 1 := by
        unfold rowLines
        rw [if_neg hne]
      obtain ⟨row, hrw⟩ := renderRow_of_lt L V pt hm r h0 c.1
      obtain ⟨text, used', hrest, hspec⟩ := ih (r + 1) (used + 1) (by omega) (by omega)
        (by omega)
      rw [hrl]
      simp only [Option.some_bind]
      rw [if_neg (by omega), hrw]
      simp only [Option.some_bind]
      rw [if_neg hne]
      simp only [Option.some_bind]
      rw [hrest]
      refine ⟨_, used', rfl, ?_⟩
      have hb : (lineBreaks (row ++ "" ++ (if used + 1 < pt.height then "\n" else "") ++ text)
          : Int) = (if used + 1 < pt.height then 1 else 0) + (lineBreaks text : Int) := by
        rw [lineBreaks_append, lineBreaks_append, lineBreaks_append, hrow r row hrw]
        by_cases c2 : used + 1 < pt.height
        · rw [if_pos c2, if_pos c2]
          have h1 : lineBreaks "\n" = 1 := rfl
          have h2 : lineBreaks "" = 0 := rfl
          rw [h1, h2]
          push_cast
          omega
        · rw [if_neg c2, if_neg c2]
          have h2 : lineBreaks "" = 0 := rfl
          rw [h2]
          push_cast
          omega
      rw [hb]
      by_cases cf : pt.height - used ≤ (pt.displayed.length : Int) - r
      · rw [if_pos cf]
        rw [if_pos (by omega)] at hspec
        obtain ⟨e1, e2⟩ := hspec
        refine ⟨e1, ?_⟩
        rw [e2]
        split <;> omega
      · rw [if_neg cf]
        rw [if_neg (by omega)] at hspec
        obtain ⟨e1, e2⟩ := hspec
        refine ⟨by omega, ?_⟩
        rw [e2, if_pos (by omega)]
        omega
    · rw [if_neg c]
      refine ⟨"", used, rfl, ?_⟩
      split
      · exact ⟨by omega, by rw [hz]; omega⟩
      · exact ⟨by omega, by rw [hz]; omega⟩

/-- The table body when nothing is expanded and no rendered row holds a line
break, for a height h ≥ 1: it holds h − 1 line breaks when at least h rows are
left from the offset on (the rows fill the height), and h line breaks when
fewer rows are left (the body is padded). -/
theorem viewBody_lineBreaks (L : Libs) (V : ViewLib) (pt : portTable)
    (hm : pt.meta.length = pt.displayed.length) (hexp : pt.expanded < 0)
    (h0 : 0 ≤ pt.offset) (h1 : pt.offset ≤ (pt.displayed.length : Int)) (hh : 1 ≤ pt.height)
    (hrow : ∀ r s, renderRow L V pt r = some s → lineBreaks s = 0) :
    ∃ body, viewBody L V pt = some body ∧
      (lineBreaks body : Int) =
        if pt.height ≤ (pt.displayed.length : Int) - pt.offset then pt.height - 1
        else pt.height := by
  obtain ⟨text, used', hrows, hspec⟩ := viewRows_lineBreaks L V pt hm hexp hrow
    ((pt.displayed.length : Int) - pt.offset).toNat pt.offset 0 h0 (by omega) (by omega)
  unfold viewBody
  rw [hrows]
  refine ⟨_, rfl, ?_⟩
  rw [lineBreaks_append, lineBreaks_pad]
  push_cast
  by_cases cf : pt.height ≤ (pt.displayed.length : Int) - pt.offset
  · rw [if_pos cf]
    rw [if_pos (by omega)] at hspec
    obtain ⟨e1, e2⟩ := hspec
    rw [e1, e2]
    omega
  · rw [if_neg cf]
    rw [if_neg (by omega)] at hspec
    obtain ⟨e1, e2⟩ := hspec
    rw [e1, e2]
    omega


/-! ## Facts about the string functions -/

theorem digit_range (c : Char) (h : isDigitChar c = true) : 48 ≤ c.toNat ∧ c.toNat ≤ 57 := by
  unfold isDigitChar at h
  exact of_decide_eq_true h

theorem digit_not_space (c : Char) (h : isDigitChar c = true) : isSpace c = false := by
  have hr := digit_range c h
  unfold isSpace
  apply decide_eq_false
  omega

theorem digit_ne (c x : Char) (h : isDigitChar c = true) (hx : x.toNat < 48 ∨ 57 < x.toNat) :
    c ≠ x := by
  have hr := digit_range c h
  intro e
  rw [e] at hr
  omega

theorem dropWhile_space_append (w b : List Char) (hw : ∀ c ∈ w, isSpace c = true) :
    (w ++ b).dropWhile isSpace = b.dropWhile isSpace := by
  induction w with
  | nil => rfl
  | cons x w ih =>
    rw [List.cons_append, List.dropWhile_cons, hw x (List.mem_cons_self _ _)]
    exact ih (fun c hc => hw c (List.mem_cons_of_mem _ hc))

theorem dropWhile_head (x : Char) (t : List Char) (hx : isSpace x = false) :
    (x :: t).dropWhile isSpace = x :: t := by
  rw [List.dropWhile_cons, hx]
  rfl

/-- The function `strings.TrimSpace` removes the white space around a text
that starts and ends with a character that is not white space. -/
theorem trimSpace_body (w₁ w₂ body : List Char) (hw₁ : ∀ c ∈ w₁, isSpace c = true)
    (hw₂ : ∀ c ∈ w₂, isSpace c = true)
    (hhead : ∃ x t, body = x :: t ∧ isSpace x = false)
    (hlast : ∃ y t, body.reverse = y :: t ∧ isSpace y = false) :
    trimSpace (w₁ ++ body ++ w₂) = body := by
  obtain ⟨x, t, hb, hx⟩ := hhead
  obtain ⟨y, t', hr, hy⟩ := hlast
  unfold trimSpace
  rw [List.append_assoc, dropWhile_space_append w₁ _ hw₁]
  have h1 : (body ++ w₂).dropWhile isSpace = body ++ w₂ := by
    rw [hb, List.cons_append]
    exact dropWhile_head x _ hx
  rw [h1, List.reverse_append,
    dropWhile_space_append w₂.reverse _ (fun c hc => hw₂ c (List.mem_reverse.1 hc)), hr,
    dropWhile_head y _ hy, ← hr, List.reverse_reverse]

theorem indexChar_append (c : Char) (a rest : List Char) (h : c ∉ a) :
    indexChar c (a ++ c :: rest) = some a.length := by
  induction a with
  | nil => simp [indexChar]
  | cons x a ih =>
    have hx : ¬ x = c := fun e => h (by rw [e]; exact List.mem_cons_self _ _)
    have ha : c ∉ a := fun hm => h (List.mem_cons_of_mem _ hm)
    rw [List.cons_append, indexChar, if_neg hx, ih ha]
    rfl

theorem indexChar_none (c : Char) (l : List Char) (h : c ∉ l) : indexChar c l = none := by
  induction l with
  | nil => rfl
  | cons x l ih =>
    have hx : ¬ x = c := fun e => h (by rw [e]; exact List.mem_cons_self _ _)
    have hl : c ∉ l := fun hm => h (List.mem_cons_of_mem _ hm)
    rw [indexChar, if_neg hx, ih hl]
    rfl

theorem splitChar_append (c : Char) (a rest : List Char) (h : c ∉ a) :
    splitChar c (a ++ c :: rest) = a :: splitChar c rest := by
  induction a with
  | nil => simp [splitChar]
  | cons x a ih =>
    have hx : ¬ x = c := fun e => h (by rw [e]; exact List.mem_cons_self _ _)
    have ha : c ∉ a := fun hm => h (List.mem_cons_of_mem _ hm)
    rw [List.cons_append, splitChar, if_neg hx, ih ha]

theorem splitChar_single (c : Char) (a : List Char) (h : c ∉ a) : splitChar c a = [a] := by
  induction a with
  | nil => rfl
  | cons x a ih =>
    have hx : ¬ x = c := fun e => h (by rw [e]; exact List.mem_cons_self _ _)
    have ha : c ∉ a := fun hm => h (List.mem_cons_of_mem _ hm)
    rw [splitChar, if_neg hx, ih ha]

theorem field_not_mem (ds : List Char) (h : IsField ds) (x : Char)
    (hx : x.toNat < 48 ∨ 57 < x.toNat) : x ∉ ds :=
  fun hm => digit_ne x x (h.2.1 x hm) hx rfl

theorem field_head (ds : List Char) (h : IsField ds) :
    ∃ x t, ds = x :: t ∧ isDigitChar x = true := by
  cases hds : ds with
  | nil => exact absurd hds h.1
  | cons x t => exact ⟨x, t, rfl, h.2.1 x (by rw [hds]; exact List.mem_cons_self _ _)⟩

theorem field_last (ds : List Char) (h : IsField ds) :
    ∃ y t, ds.reverse = y :: t ∧ isDigitChar y = true := by
  cases hr : ds.reverse with
  | nil => exact absurd (List.reverse_eq_nil_iff.1 hr) h.1
  | cons y t =>
    refine ⟨y, t, rfl, h.2.1 y ?_⟩
    apply List.mem_reverse.1
    rw [hr]
    exact List.mem_cons_self _ _

/-- On a decimal field `strconv.Atoi` returns its value and no error. -/
theorem atoi_field (ds : List Char) (h : IsField ds) :
    atoi ds = ((decimalValue ds : Int), true) := by
  obtain ⟨x, t, hds, hx⟩ := field_head ds h
  have h1 : ¬ (ds.head? = some '+' ∨ ds.head? = some '-') := by
    rw [hds]
    simp only [List.head?_cons, Option.some.injEq]
    rintro (e | e)
    · exact digit_ne x '+' hx (Or.inl (by decide)) e
    · exact digit_ne x '-' hx (Or.inl (by decide)) e
  have h2 : ¬ ds.head? = some '-' := fun e => h1 (Or.inr e)
  have h3 : ds.all isDigitChar = true := List.all_eq_true.2 h.2.1
  have h4 := h.2.2
  have hif : (if ds.head? = some '+' ∨ ds.head? = some '-' then ds.tail else ds) = ds :=
    if_neg h1
  have hneg : decide (ds.head? = some '-') = false := decide_eq_false h2
  have hbad : ¬ (ds = [] ∨ ds.all isDigitChar = false) := by
    rw [h3]
    simp [h.1]
  unfold atoi
  simp only [hif, hneg, if_neg hbad, Bool.false_eq_true, if_false]
  rw [if_neg (by omega), if_neg (by omega)]


/-! ## Claim C36: `formatElapsed` -/

theorem itoa_nat (n : Nat) : itoa (n : Int) = toString n := rfl

theorem elapsed_final (D H M S : Nat) :
    (if (D : Int) > 0 then itoa (D : Int) ++ "d " ++ itoa (H : Int) ++ "h"
      else if (H : Int) > 0 then itoa (H : Int) ++ "h " ++ itoa (M : Int) ++ "m"
      else if (M : Int) > 0 then itoa (M : Int) ++ "m " ++ itoa (S : Int) ++ "s"
      else itoa (S : Int) ++ "s") = elapsedText D H M S := by
  unfold elapsedText
  simp only [itoa_nat, gt_iff_lt, Nat.cast_pos]

theorem formatElapsed_days (etime : String) (d h m s : List Char)
    (he : trimSpace etime.data = d ++ '-' :: (h ++ ':' :: (m ++ ':' :: s)))
    (hd : IsField d) (hh : IsField h) (hm : IsField m) (hs : IsField s) :
    formatElapsed etime =
      elapsedText (decimalValue d) (decimalValue h) (decimalValue m) (decimalValue s) := by
  have hidx := indexChar_append '-' d (h ++ ':' :: (m ++ ':' :: s))
    (field_not_mem d hd '-' (Or.inl (by decide)))
  have htake : (d ++ '-' :: (h ++ ':' :: (m ++ ':' :: s))).take d.length = d :=
    List.take_left' rfl
  have hdrop : (d ++ '-' :: (h ++ ':' :: (m ++ ':' :: s))).drop (d.length + 1) =
      h ++ ':' :: (m ++ ':' :: s) := by
    have : d ++ '-' :: (h ++ ':' :: (m ++ ':' :: s)) =
        (d ++ ['-']) ++ (h ++ ':' :: (m ++ ':' :: s)) := by simp
    rw [this]
    exact List.drop_left' (by simp)
  have hsplit : splitChar ':' (h ++ ':' :: (m ++ ':' :: s)) = [h, m, s] := by
    rw [splitChar_append ':' h _ (field_not_mem h hh ':' (Or.inr (by decide))),
      splitChar_append ':' m _ (field_not_mem m hm ':' (Or.inr (by decide))),
      splitChar_single ':' s (field_not_mem s hs ':' (Or.inr (by decide)))]
  unfold formatElapsed
  simp only [he, hidx, htake, hdrop, hsplit, atoi_field d hd, atoi_field h hh, atoi_field m hm,
    atoi_field s hs]
  exact elapsed_final _ _ _ _

theorem no_dash (parts : List Char) (h : ∀ c ∈ parts, isDigitChar c = true ∨ c = ':') :
    indexChar '-' parts = none := by
  apply indexChar_none
  intro hm
  rcases h '-' hm with e | e
  · exact digit_ne '-' '-' e (Or.inl (by decide)) rfl
  · exact absurd e (by decide)

theorem formatElapsed_hours (etime : String) (h m s : List Char)
    (he : trimSpace etime.data = h ++ ':' :: (m ++ ':' :: s))
    (hh : IsField h) (hm : IsField m) (hs : IsField s) :
    formatElapsed etime = elapsedText 0 (decimalValue h) (decimalValue m) (decimalValue s) := by
  have hidx : indexChar '-' (h ++ ':' :: (m ++ ':' :: s)) = none := by
    apply no_dash
    intro c hc
    simp only [List.mem_append, List.mem_cons] at hc
    rcases hc with e | e | e | e | e
    · exact Or.inl (hh.2.1 c e)
    · exact Or.inr e
    · exact Or.inl (hm.2.1 c e)
    · exact Or.inr e
    · exact Or.inl (hs.2.1 c e)
  have hsplit : splitChar ':' (h ++ ':' :: (m ++ ':' :: s)) = [h, m, s] := by
    rw [splitChar_append ':' h _ (field_not_mem h hh ':' (Or.inr (by decide))),
      splitChar_append ':' m _ (field_not_mem m hm ':' (Or.inr (by decide))),
      splitChar_single ':' s (field_not_mem s hs ':' (Or.inr (by decide)))]
  unfold formatElapsed
  simp only [he, hidx, hsplit, atoi_field h hh, atoi_field m hm, atoi_field s hs]
  exact elapsed_final 0 _ _ _

theorem formatElapsed_minutes (etime : String) (m s : List Char)
    (he : trimSpace etime.data = m ++ ':' :: s) (hm : IsField m) (hs : IsField s) :
    formatElapsed etime = elapsedText 0 0 (decimalValue m) (decimalValue s) := by
  have hidx : indexChar '-' (m ++ ':' :: s) = none := by
    apply no_dash
    intro c hc
    simp only [List.mem_append, List.mem_cons] at hc
    rcases hc with e | e | e
    · exact Or.inl (hm.2.1 c e)
    · exact Or.inr e
    · exact Or.inl (hs.2.1 c e)
  have hsplit : splitChar ':' (m ++ ':' :: s) = [m, s] := by
    rw [splitChar_append ':' m _ (field_not_mem m hm ':' (Or.inr (by decide))),
      splitChar_single ':' s (field_not_mem s hs ':' (Or.inr (by decide)))]
  unfold formatElapsed
  simp only [he, hidx, hsplit, atoi_field m hm, atoi_field s hs]
  exact elapsed_final 0 0 _ _

theorem formatElapsed_seconds (etime : String) (s : List Char)
    (he : trimSpace etime.data = s) (hs : IsField s) :
    formatElapsed etime = elapsedText 0 0 0 (decimalValue s) := by
  have hidx : indexChar '-' s = none :=
    no_dash s (fun c hc => Or.inl (hs.2.1 c hc))
  have hsplit : splitChar ':' s = [s] :=
    splitChar_single ':' s (field_not_mem s hs ':' (Or.inr (by decide)))
  unfold formatElapsed
  simp only [he, hidx, hsplit, atoi_field s hs]
  exact elapsed_final 0 0 0 _

/-- The white space around a text that starts and ends with a decimal field
is removed by `strings.TrimSpace`. -/
theorem trimSpace_fields (w₁ w₂ a b : List Char) (hw₁ : ∀ c ∈ w₁, isSpace c = true)
    (hw₂ : ∀ c ∈ w₂, isSpace c = true) (ha : IsField a) (hb : IsField b)
    (body : List Char) (h1 : ∃ t, body = a ++ t) (h2 : ∃ t, body = t ++ b) :
    trimSpace (w₁ ++ body ++ w₂) = body := by
  obtain ⟨x, t, hax, hx⟩ := field_head a ha
  obtain ⟨y, t', hby, hy⟩ := field_last b hb
  obtain ⟨ta, hta⟩ := h1
  obtain ⟨tb, htb⟩ := h2
  apply trimSpace_body w₁ w₂ body hw₁ hw₂
  · exact ⟨x, t ++ ta, by rw [hta, hax]; rfl, digit_not_space x hx⟩
  · exact ⟨y, t' ++ tb.reverse, by rw [htb, List.reverse_append, hby]; rfl,
      digit_not_space y hy⟩

/-- C36: for decimal fields d, h, m and s (non-empty sequences of decimal
digits whose values fit in an `int`) and any white space around them,
`formatElapsed` maps the texts `d-h:m:s`, `h:m:s`, `m:s` and `s` to the text
of the duration with these numbers of days, hours, minutes and seconds (0 for
a missing field): `<D>d <H>h` when D > 0, otherwise `<H>h <M>m` when H > 0,
otherwise `<M>m <S>s` when M > 0, otherwise `<S>s`, each number printed in
decimal. -/
theorem formatElapsed_forms (w₁ w₂ d h m s : List Char)
    (hw₁ : ∀ c ∈ w₁, isSpace c = true) (hw₂ : ∀ c ∈ w₂, isSpace c = true)
    (hd : IsField d) (hh : IsField h) (hm : IsField m) (hs : IsField s) :
    formatElapsed (String.mk (w₁ ++ (d ++ '-' :: (h ++ ':' :: (m ++ ':' :: s))) ++ w₂)) =
        elapsedText (decimalValue d) (decimalValue h) (decimalValue m) (decimalValue s) ∧
      formatElapsed (String.mk (w₁ ++ (h ++ ':' :: (m ++ ':' :: s)) ++ w₂)) =
        elapsedText 0 (decimalValue h) (decimalValue m) (decimalValue s) ∧
      formatElapsed (String.mk (w₁ ++ (m ++ ':' :: s) ++ w₂)) =
        elapsedText 0 0 (decimalValue m) (decimalValue s) ∧
      formatElapsed (String.mk (w₁ ++ s ++ w₂)) = elapsedText 0 0 0 (decimalValue s) := by
  refine ⟨?_, ?_, ?_, ?_⟩
  · apply formatElapsed_days _ d h m s _ hd hh hm hs
    exact trimSpace_fields w₁ w₂ d s hw₁ hw₂ hd hs _ ⟨_, rfl⟩
      ⟨d ++ '-' :: (h ++ ':' :: (m ++ [':'])), by simp⟩
  · apply formatElapsed_hours _ h m s _ hh hm hs
    exact trimSpace_fields w₁ w₂ h s hw₁ hw₂ hh hs _ ⟨_, rfl⟩
      ⟨h ++ ':' :: (m ++ [':']), by simp⟩
  · apply formatElapsed_minutes _ m s _ hm hs
    exact trimSpace_fields w₁ w₂ m s hw₁ hw₂ hm hs _ ⟨_, rfl⟩ ⟨m ++ [':'], by simp⟩
  · apply formatElapsed_seconds _ s _ hs
    exact trimSpace_fields w₁ w₂ s s hw₁ hw₂ hs hs _ ⟨[], by simp⟩ ⟨[], rfl⟩

/-- C36 (witness): the texts of the tests: "2-03:05:30" gives "2d 3h",
"00:30:00" between a tab and a line break gives "30m 0s", "05:30" gives
"5m 30s" and "05" gives "5s". -/
theorem formatElapsed_forms_witness :
    (∀ c ∈ ['\t'], isSpace c = true) ∧ (∀ c ∈ ['\n'], isSpace c = true) ∧
      IsField ['2'] ∧ IsField ['0', '0'] ∧ IsField ['0', '5'] ∧ IsField ['3', '0'] ∧
      formatElapsed "\t2-00:05:30\n" = "2d 0h" ∧
      formatElapsed "\t00:05:30\n" = "5m 30s" ∧
      formatElapsed "\t05:30\n" = "5m 30s" ∧
      formatElapsed "\t30\n" = "30s" :=
  have hw₁ : ∀ c ∈ ['\t'], isSpace c = true := by decide
  have hw₂ : ∀ c ∈ ['\n'], isSpace c = true := by decide
  have h2 : IsField ['2'] := ⟨by decide, by decide, by decide⟩
  have h00 : IsField ['0', '0'] := ⟨by decide, by decide, by decide⟩
  have h05 : IsField ['0', '5'] := ⟨by decide, by decide, by decide⟩
  have h30 : IsField ['3', '0'] := ⟨by decide, by decide, by decide⟩
  ⟨hw₁, hw₂, h2, h00, h05, h30,
    formatElapsed_forms ['\t'] ['\n'] ['2'] ['0', '0'] ['0', '5'] ['3', '0'] hw₁ hw₂ h2 h00 h05
      h30⟩


/-- C36 (counterexample): a seconds field above the largest `int`:
`strconv.Atoi` returns the largest `int` together with an error that
`formatElapsed` discards, so the text shows 9223372036854775807 and not the
number of the field. -/
theorem formatElapsed_field_overflow :
    formatElapsed "9223372036854775808" = "9223372036854775807s" ∧
      elapsedText 0 0 0 (decimalValue "9223372036854775808".data) = "9223372036854775808s" := by
  decide


/-! ## Claim C35: `parseLsofOutput` -/

theorem mem_firstKeys (l : List (Int × Int)) (a : Int × Int) : a ∈ firstKeys l ↔ a ∈ l := by
  induction l with
  | nil => simp [firstKeys]
  | cons b l ih =>
    simp only [firstKeys, List.mem_cons, List.mem_filter, ih, decide_eq_true_eq]
    by_cases e : a = b <;> simp [e]

theorem firstKeys_nodup (l : List (Int × Int)) : (firstKeys l).Nodup := by
  induction l with
  | nil => simp [firstKeys]
  | cons b l ih =>
    simp only [firstKeys]
    exact List.nodup_cons.mpr ⟨by simp [List.mem_filter], ih.filter _⟩

theorem firstKeys_append_old (l : List (Int × Int)) (a : Int × Int) (h : a ∈ l) :
    firstKeys (l ++ [a]) = firstKeys l := by
  induction l with
  | nil => cases h
  | cons b l ih =>
    have hcons : firstKeys (b :: l ++ [a]) =
        b :: (firstKeys (l ++ [a])).filter (fun c => decide (c ≠ b)) := rfl
    rw [hcons]
    by_cases hl : a ∈ l
    · rw [ih hl]; rfl
    · have e : a = b := by
        rcases List.mem_cons.mp h with e | e
        · exact e
        · exact absurd e hl
      subst e
      clear ih
      have : firstKeys (l ++ [a]) = firstKeys l ++ [a] := by
        clear hcons h
        induction l with
        | nil => rfl
        | cons c l ih =>
          have hc : firstKeys (c :: l ++ [a]) =
              c :: (firstKeys (l ++ [a])).filter (fun d => decide (d ≠ c)) := rfl
          have hne : a ≠ c := fun e => hl (by rw [e]; exact List.mem_cons_self _ _)
          have hl' : a ∉ l := fun e => hl (List.mem_cons_of_mem _ e)
          rw [hc, ih hl', List.filter_append]
          simp [firstKeys, hne]
      rw [this, List.filter_append]
      simp [firstKeys]

theorem firstKeys_append_new (l : List (Int × Int)) (a : Int × Int) (h : a ∉ l) :
    firstKeys (l ++ [a]) = firstKeys l ++ [a] := by
  induction l with
  | nil => rfl
  | cons c l ih =>
    have hc : firstKeys (c :: l ++ [a]) =
        c :: (firstKeys (l ++ [a])).filter (fun d => decide (d ≠ c)) := rfl
    have hne : a ≠ c := fun e => h (by rw [e]; exact List.mem_cons_self _ _)
    have hl' : a ∉ l := fun e => h (List.mem_cons_of_mem _ e)
    rw [hc, ih hl', List.filter_append]
    simp [firstKeys, hne]

theorem kget_kset (m : List ((Int × Int) × Nat)) (k k' : Int × Int) (v : Nat) :
    kget (kset m k v) k' = if k = k' then some v else kget m k' := by
  induction m with
  | nil => simp [kset, kget]
  | cons e m ih =>
    obtain ⟨k₀, v₀⟩ := e
    by_cases h0 : k₀ = k
    · subst h0
      simp only [kset, if_true, kget]
      by_cases h1 : k₀ = k' <;> simp [h1]
    · simp only [kset, if_neg h0, kget, ih]
      by_cases h1 : k₀ = k'
      · have : ¬ k = k' := fun e => h0 (by rw [e, h1])
        simp [h1, this]
      · simp [h1]

/-- In a list whose keys are pairwise distinct, the assignment to the
element at an index is the assignment to the element with the key at that
index. -/
theorem set_eq_map (l : List PortInfo) (idx : Nat) (r : PortInfo) (g : PortInfo → PortInfo)
    (hn : (l.map lsofKey).Nodup) (hr : l[idx]? = some r) :
    l.set idx (g r) = l.map (fun x => if lsofKey x = lsofKey r then g x else x) := by
  induction l generalizing idx with
  | nil => simp at hr
  | cons a l ih =>
    rw [List.map_cons, List.nodup_cons] at hn
    cases idx with
    | zero =>
      simp only [List.getElem?_cons_zero, Option.some.injEq] at hr
      subst hr
      simp only [List.set_cons_zero, List.map_cons, if_true]
      congr 1
      symm
      rw [List.map_congr_left, List.map_id]
      intro x hx
      have : lsofKey x ≠ lsofKey a := fun e => hn.1 (by rw [← e]; exact List.mem_map_of_mem _ hx)
      simp [this]
    | succ i =>
      simp only [List.getElem?_cons_succ] at hr
      have hmem : r ∈ l := List.getElem?_mem hr
      have : lsofKey a ≠ lsofKey r := fun e => hn.1 (by rw [e]; exact List.mem_map_of_mem _ hmem)
      simp only [List.set_cons_succ, List.map_cons, if_neg this]
      rw [ih i hn.2 hr]


theorem lsofStep_skip (L : Libs) (st : lsofState) (line : List Char)
    (hp : parseLine L line = none) : lsofStep L st line = some st := by
  unfold lsofStep
  rw [hp]

theorem lsofStep_new (L : Libs) (st : lsofState) (line : List Char) (c : PortInfo)
    (hp : parseLine L line = some c) (hk : kget st.seen (lsofKey c) = none) :
    lsofStep L st line =
      some { seen := kset st.seen (lsofKey c) st.result.length, result := st.result ++ [c] } := by
  have hk' : kget st.seen (c.Port, c.PID) = none := hk
  unfold lsofStep
  rw [hp]
  simp only [hk']
  rfl

theorem lsofStep_seen (L : Libs) (st : lsofState) (line : List Char) (c r : PortInfo)
    (idx : Nat) (hp : parseLine L line = some c) (hk : kget st.seen (lsofKey c) = some idx)
    (hr : st.result[idx]? = some r) :
    lsofStep L st line =
      some (if isIPv4 c = true ∧ stringsContains r.Address ":" = true then
        { st with result := st.result.set idx { r with Address := c.Address } } else st) := by
  have hk' : kget st.seen (c.Port, c.PID) = some idx := hk
  unfold lsofStep
  rw [hp]
  simp only [hk', hr]
  unfold isIPv4
  by_cases h4 : (!stringsContains c.Address ":") = true
  · by_cases hc : stringsContains r.Address ":" = true
    · simp only [h4, hc, if_true, and_self]
    · simp only [h4, hc, if_true, and_false, if_false, Bool.false_eq_true]
  · simp only [h4, if_false, false_and, Bool.false_eq_true]

theorem lsofKey_setAddress (x : PortInfo) (a : String) :
    lsofKey { x with Address := a } = lsofKey x := rfl

theorem isIPv4_setAddress (x c : PortInfo) :
    isIPv4 { x with Address := c.Address } = isIPv4 c := rfl

theorem lsofStep_inv (L : Libs) (st : lsofState) (cs : List PortInfo) (line : List Char)
    (h : LsofInv st cs) :
    ∃ st', lsofStep L st line = some st' ∧
      LsofInv st' (cs ++ (parseLine L line).toList) := by
  obtain ⟨hkeys, hsome, hnone, hv4⟩ := h
  have hnd : (st.result.map lsofKey).Nodup := by rw [hkeys]; exact firstKeys_nodup _
  cases hp : parseLine L line with
  | none =>
    refine ⟨st, lsofStep_skip L st line hp, ?_⟩
    simp only [Option.toList, List.append_nil]
    exact ⟨hkeys, hsome, hnone, hv4⟩
  | some c =>
    simp only [Option.toList]
    cases hk : kget st.seen (lsofKey c) with
    | none =>
      have hnot : lsofKey c ∉ cs.map lsofKey := hnone _ hk
      have hnotr : lsofKey c ∉ st.result.map lsofKey := by
        rw [hkeys, mem_firstKeys]; exact hnot
      refine ⟨_, lsofStep_new L st line c hp hk, ?_, ?_, ?_, ?_⟩
      · simp only [List.map_append, List.map_cons, List.map_nil]
        rw [firstKeys_append_new _ _ hnot, hkeys]
      · intro k idx hget
        simp only [List.map_append, List.map_cons, List.map_nil]
        rw [kget_kset] at hget
        by_cases e : lsofKey c = k
        · rw [if_pos e] at hget
          cases hget
          rw [← e]
          have : st.result.length = (st.result.map lsofKey).length := by simp
          rw [this]
          simp
        · rw [if_neg e] at hget
          have hold := hsome k idx hget
          have hlt : idx < (st.result.map lsofKey).length := by
            by_contra hge
            rw [List.getElem?_eq_none (by omega)] at hold
            cases hold
          rw [List.getElem?_append_left hlt]
          exact hold
      · intro k hget
        rw [kget_kset] at hget
        by_cases e : lsofKey c = k
        · rw [if_pos e] at hget
          cases hget
        · rw [if_neg e] at hget
          have := hnone k hget
          simp only [List.map_append, List.map_cons, List.map_nil, List.mem_append,
            List.mem_singleton, not_or]
          exact ⟨this, fun e' => e e'.symm⟩
      · intro r hr hex
        obtain ⟨c', hc', hkc, h4⟩ := hex
        have hr0 : r ∈ st.result ++ [c] := hr
        rcases List.mem_append.mp hr0 with hr1 | hr1
        · rcases List.mem_append.mp hc' with hc1 | hc1
          · exact hv4 r hr1 ⟨c', hc1, hkc, h4⟩
          · rw [List.mem_singleton] at hc1
            rw [hc1] at hkc
            exact absurd (by rw [hkc]; exact List.mem_map_of_mem lsofKey hr1) hnotr
        · rw [List.mem_singleton] at hr1
          rw [hr1]
          rcases List.mem_append.mp hc' with hc1 | hc1
          · rw [hr1] at hkc
            exact absurd (by rw [← hkc]; exact List.mem_map_of_mem lsofKey hc1) hnot
          · rw [List.mem_singleton] at hc1
            rw [← hc1]
            exact h4
    | some idx =>
      have hrk := hsome _ _ hk
      rw [List.getElem?_map] at hrk
      obtain ⟨r, hr, hkr⟩ := Option.map_eq_some'.mp hrk
      have hrmem : r ∈ st.result := List.getElem?_mem hr
      have hin : lsofKey c ∈ cs.map lsofKey := by
        rw [← mem_firstKeys, ← hkeys, ← hkr]
        exact List.mem_map_of_mem _ hrmem
      have hkeys' : firstKeys ((cs ++ [c]).map lsofKey) = firstKeys (cs.map lsofKey) := by
        simp only [List.map_append, List.map_cons, List.map_nil]
        exact firstKeys_append_old _ _ hin
      have hnone' : ∀ k, kget st.seen k = none → k ∉ (cs ++ [c]).map lsofKey := by
        intro k hget
        have := hnone k hget
        simp only [List.map_append, List.map_cons, List.map_nil, List.mem_append,
          List.mem_singleton, not_or]
        refine ⟨this, fun e' => ?_⟩
        rw [e', hk] at hget
        cases hget
      refine ⟨_, lsofStep_seen L st line c r idx hp hk hr, ?_⟩
      by_cases hup : isIPv4 c = true ∧ stringsContains r.Address ":" = true
      · rw [if_pos hup]
        have hset := set_eq_map st.result idx r (fun x => { x with Address := c.Address }) hnd hr
        have hmap : (st.result.set idx { r with Address := c.Address }).map lsofKey =
            st.result.map lsofKey := by
          rw [hset, List.map_map]
          apply List.map_congr_left
          intro x _
          simp only [Function.comp]
          split
          · exact lsofKey_setAddress x _
          · rfl
        refine ⟨?_, ?_, hnone', ?_⟩
        · show (st.result.set idx { r with Address := c.Address }).map lsofKey = _
          rw [hmap, hkeys']
          exact hkeys
        · intro k i hget
          show ((st.result.set idx { r with Address := c.Address }).map lsofKey)[i]? = _
          rw [hmap]
          exact hsome k i hget
        · intro r' hr' hex
          have hr'' : r' ∈ st.result.set idx { r with Address := c.Address } := hr'
          rw [hset, List.mem_map] at hr''
          obtain ⟨x, hx, hxr⟩ := hr''
          by_cases ex : lsofKey x = lsofKey r
          · rw [if_pos ex] at hxr
            rw [← hxr, isIPv4_setAddress]
            exact hup.1
          · rw [if_neg ex] at hxr
            subst hxr
            obtain ⟨c', hc', hkc, h4⟩ := hex
            rcases List.mem_append.mp hc' with hc' | hc'
            · exact hv4 x hx ⟨c', hc', hkc, h4⟩
            · rw [List.mem_singleton] at hc'
              subst hc'
              exact absurd (by rw [← hkc, hkr]) ex
      · rw [if_neg hup]
        refine ⟨by rw [hkeys']; exact hkeys, hsome, hnone', ?_⟩
        intro r' hr' hex
        obtain ⟨c', hc', hkc, h4⟩ := hex
        rcases List.mem_append.mp hc' with hc' | hc'
        · exact hv4 r' hr' ⟨c', hc', hkc, h4⟩
        · rw [List.mem_singleton] at hc'
          subst hc'
          have hrr : r' = r :=
            List.inj_on_of_nodup_map hnd hr' hrmem (by rw [← hkc, hkr])
          rw [hrr]
          have hno : ¬ stringsContains r.Address ":" = true := fun e => hup ⟨h4, e⟩
          unfold isIPv4
          simpa using hno


theorem lsofLoop_inv (L : Libs) (lines : List (List Char)) :
    ∀ (st : lsofState) (cs : List PortInfo), LsofInv st cs →
      ∃ st', lsofLoop L st lines = some st' ∧
        LsofInv st' (cs ++ lines.filterMap (parseLine L)) := by
  induction lines with
  | nil =>
    intro st cs h
    refine ⟨st, rfl, ?_⟩
    simp only [List.filterMap_nil, List.append_nil]
    exact h
  | cons line rest ih =>
    intro st cs h
    obtain ⟨st1, hs, h1⟩ := lsofStep_inv L st cs line h
    obtain ⟨st2, hl, h2⟩ := ih st1 _ h1
    refine ⟨st2, ?_, ?_⟩
    · simp only [lsofLoop, hs]
      exact hl
    · have e : cs ++ (line :: rest).filterMap (parseLine L) =
          cs ++ (parseLine L line).toList ++ rest.filterMap (parseLine L) := by
        rw [List.filterMap_cons]
        cases parseLine L line <;> simp [Option.toList]
      rw [e]
      exact h2

theorem lsofInv_init : LsofInv { seen := [], result := [] } [] := by
  unfold LsofInv
  refine ⟨rfl, ?_, ?_, ?_⟩
  · intro k idx h
    cases h
  · intro k _ hk
    cases hk
  · intro r hr
    cases hr

/-- The text of the test `TestParseLsofOutput` gives four records; the pair
(3000, 1234) appears once, with the IPv4 address of its first line. -/
theorem parseLsofOutput_mock :
    (parseLsofOutput plainLibs mockLsofOutput).map
        (fun l => l.map (fun p => (p.Port, p.PID, p.Process, p.User, p.Protocol, p.Address))) =
      some [(3000, 1234, "node", "user", "tcp", "*"),
        (5432, 5678, "postgres", "user", "tcp", "127.0.0.1"),
        (8000, 9012, "python3", "root", "tcp", "*"),
        (3001, 3456, "ruby", "user", "tcp", "[::]")] := by
  rfl

/-- For every text `parseLsofOutput` returns; the pairs (port, PID) of the
returned records are pairwise distinct and are the distinct pairs of the
records read from the lines after the first, in the order of their first
appearance; and the record kept for a pair has an address without `:`
whenever a line of that pair has one. -/
theorem parseLsofOutput_keys (L : Libs) (output : String) :
    ∃ result, parseLsofOutput L output = some result ∧
      (result.map lsofKey).Nodup ∧
      result.map lsofKey = firstKeys ((lsofCandidates L output).map lsofKey) ∧
      (∀ r ∈ result,
        (∃ c ∈ lsofCandidates L output, lsofKey c = lsofKey r ∧ isIPv4 c = true) →
          isIPv4 r = true) := by
  by_cases hlen : (splitChar '\n' (trimSpace output.data)).length < 2
  · have hdrop : (splitChar '\n' (trimSpace output.data)).drop 1 = [] := by
      apply List.drop_eq_nil_of_le
      omega
    have hc : lsofCandidates L output = [] := by
      unfold lsofCandidates
      rw [hdrop]
      rfl
    refine ⟨[], ?_, ?_, ?_, ?_⟩
    · unfold parseLsofOutput
      simp only [hlen, if_true]
    · simp
    · rw [hc]; rfl
    · intro r hr
      cases hr
  · obtain ⟨st, hl, hkeys, _, _, hv4⟩ :=
      lsofLoop_inv L ((splitChar '\n' (trimSpace output.data)).drop 1) _ [] lsofInv_init
    rw [List.nil_append] at hkeys hv4
    refine ⟨st.result, ?_, ?_, hkeys, hv4⟩
    · unfold parseLsofOutput
      simp only [hlen, if_false, hl, Option.map_some']
    · rw [hkeys]
      exact firstKeys_nodup _


/-! ### The fields of a line -/

theorem fieldsFrom_word (w cur rest : List Char) (hw : ∀ c ∈ w, isSpace c = false) :
    fieldsFrom cur (w ++ rest) = fieldsFrom (cur ++ w) rest := by
  induction w generalizing cur with
  | nil => simp
  | cons x w ih =>
    have hx : isSpace x = false := hw x (List.mem_cons_self _ _)
    have hw' : ∀ c ∈ w, isSpace c = false := fun c hc => hw c (List.mem_cons_of_mem _ hc)
    rw [List.cons_append, fieldsFrom]
    simp only [hx, Bool.false_eq_true, if_false]
    rw [ih (cur ++ [x]) hw']
    simp

theorem fieldsFrom_spaces (sp rest : List Char) (hs : ∀ c ∈ sp, isSpace c = true) :
    fieldsFrom [] (sp ++ rest) = fieldsFrom [] rest := by
  induction sp with
  | nil => rfl
  | cons x sp ih =>
    have hx : isSpace x = true := hs x (List.mem_cons_self _ _)
    rw [List.cons_append, fieldsFrom]
    simp only [hx, if_true]
    exact ih (fun c hc => hs c (List.mem_cons_of_mem _ hc))

theorem fieldsFrom_gap (cur g rest : List Char) (hcur : cur ≠ []) (hg : IsGap g) :
    fieldsFrom cur (g ++ rest) = cur :: fieldsFrom [] rest := by
  obtain ⟨hne, hs⟩ := hg
  cases g with
  | nil => exact absurd rfl hne
  | cons x sp =>
    have hx : isSpace x = true := hs x (List.mem_cons_self _ _)
    rw [List.cons_append, fieldsFrom]
    simp only [hx, if_true, if_neg hcur]
    rw [fieldsFrom_spaces sp rest (fun c hc => hs c (List.mem_cons_of_mem _ hc))]

theorem fieldsFrom_trail (cur trail : List Char) (hcur : cur ≠ [])
    (ht : ∀ c ∈ trail, isSpace c = true) : fieldsFrom cur trail = [cur] := by
  cases trail with
  | nil => simp [fieldsFrom, hcur]
  | cons x sp =>
    have h := fieldsFrom_gap cur (x :: sp) [] hcur ⟨by simp, ht⟩
    rw [List.append_nil] at h
    rw [h]
    rfl

theorem fieldsFrom_join (ws : List (List Char × List Char)) :
    ∀ (cur trail : List Char), cur ≠ [] → (∀ gw ∈ ws, IsGap gw.1 ∧ IsWord gw.2) →
      (∀ c ∈ trail, isSpace c = true) →
      fieldsFrom cur (joinFields ws ++ trail) = cur :: ws.map Prod.snd := by
  induction ws with
  | nil =>
    intro cur trail hcur _ ht
    exact fieldsFrom_trail cur trail hcur ht
  | cons gw ws ih =>
    intro cur trail hcur hws ht
    obtain ⟨hg, hw⟩ := hws gw (List.mem_cons_self _ _)
    have e : joinFields (gw :: ws) ++ trail = gw.1 ++ (gw.2 ++ (joinFields ws ++ trail)) := by
      simp [joinFields]
    rw [e, fieldsFrom_gap cur gw.1 _ hcur hg, fieldsFrom_word gw.2 [] _ hw.2, List.nil_append,
      ih gw.2 trail hw.1 (fun x hx => hws x (List.mem_cons_of_mem _ hx)) ht]
    rfl

/-- The function `strings.Fields` on a line made of fields and gaps, with any
white space before the first field and after the last. -/
theorem stringsFields_line (lead first trail : List Char) (ws : List (List Char × List Char))
    (hlead : ∀ c ∈ lead, isSpace c = true) (hfirst : IsWord first)
    (hws : ∀ gw ∈ ws, IsGap gw.1 ∧ IsWord gw.2) (htrail : ∀ c ∈ trail, isSpace c = true) :
    stringsFields (lead ++ first ++ joinFields ws ++ trail) = first :: ws.map Prod.snd := by
  unfold stringsFields
  have e : lead ++ first ++ joinFields ws ++ trail =
      lead ++ (first ++ (joinFields ws ++ trail)) := by simp
  rw [e, fieldsFrom_spaces lead _ hlead, fieldsFrom_word first [] _ hfirst.2, List.nil_append,
    fieldsFrom_join ws first trail hfirst.1 hws htrail]

theorem lastIndexChar_none (c : Char) (l : List Char) (h : c ∉ l) :
    lastIndexChar c l = none := by
  induction l with
  | nil => rfl
  | cons x l ih =>
    have hx : ¬ x = c := fun e => h (by rw [e]; exact List.mem_cons_self _ _)
    have hl : c ∉ l := fun hm => h (List.mem_cons_of_mem _ hm)
    rw [lastIndexChar, ih hl]
    simp only [if_neg hx]

theorem lastIndexChar_append (c : Char) (a rest : List Char) (h : c ∉ rest) :
    lastIndexChar c (a ++ c :: rest) = some a.length := by
  induction a with
  | nil =>
    rw [List.nil_append, lastIndexChar, lastIndexChar_none c rest h]
    simp
  | cons x a ih =>
    rw [List.cons_append, lastIndexChar, ih]
    rfl


/-- The function `parseNameField` on a NAME column `addr:port`: the address
holds no `(` and, when it starts with `[`, ends with `]`; the port is a
decimal field.  The address may hold `:`. -/
theorem parseNameField_addr_port (addr port : List Char) (hparen : '(' ∉ addr)
    (hbr : addr.head? = some '[' → ∃ inner, addr = inner ++ [']']) (hport : IsField port) :
    parseNameField (addr ++ ':' :: port) = (addr, port) := by
  have h1 : indexChar '(' (addr ++ ':' :: port) = none := by
    apply indexChar_none
    intro hm
    rcases List.mem_append.mp hm with e | e
    · exact hparen e
    · rcases List.mem_cons.mp e with e | e
      · exact absurd e (by decide)
      · exact field_not_mem port hport '(' (Or.inl (by decide)) e
  have hcolon : lastIndexChar ':' (addr ++ ':' :: port) = some addr.length :=
    lastIndexChar_append ':' addr port (field_not_mem port hport ':' (Or.inr (by decide)))
  have htake : (addr ++ ':' :: port).take addr.length = addr := List.take_left' rfl
  have hdrop : (addr ++ ':' :: port).drop (addr.length + 1) = port := by
    have : addr ++ ':' :: port = (addr ++ [':']) ++ port := by simp
    rw [this]
    exact List.drop_left' (by simp)
  unfold parseNameField
  simp only [h1, hcolon, htake, hdrop]
  by_cases hb : (addr ++ ':' :: port).head? = some '['
  · rw [if_pos hb]
    have haddr : addr.head? = some '[' := by
      cases addr with
      | nil => exact absurd hb (by simp)
      | cons x t => simpa using hb
    obtain ⟨inner, hin⟩ := hbr haddr
    have hname : addr ++ ':' :: port = inner ++ ']' :: (':' :: port) := by
      rw [hin]; simp
    have hnot : ']' ∉ ':' :: port := by
      intro hm
      rcases List.mem_cons.mp hm with e | e
      · exact absurd e (by decide)
      · exact field_not_mem port hport ']' (Or.inr (by decide)) e
    have hlast : lastIndexChar ']' (addr ++ ':' :: port) = some inner.length := by
      rw [hname]
      exact lastIndexChar_append ']' inner _ hnot
    have hlen : inner.length + 2 < (addr ++ ':' :: port).length := by
      have hp : 0 < port.length := List.length_pos.mpr hport.1
      rw [hname]
      simp only [List.length_append, List.length_cons]
      omega
    have htake2 : (addr ++ ':' :: port).take (inner.length + 1) = addr := by
      rw [hin]
      exact List.take_left' (by simp)
    have hdrop2 : (addr ++ ':' :: port).drop (inner.length + 2) = port := by
      have : addr ++ ':' :: port = (inner ++ [']', ':']) ++ port := by rw [hin]; simp
      rw [this]
      exact List.drop_left' (by simp)
    simp only [hlast, hlen, if_true, htake2, hdrop2]
  · rw [if_neg hb]


theorem field_isWord (ds : List Char) (h : IsField ds) : IsWord ds :=
  ⟨h.1, fun c hc => digit_not_space c (h.2.1 c hc)⟩

/-- The loop body of `parseLsofOutput` on a well-formed line of lsof: nine
fields COMMAND, PID, USER, FD, TYPE, DEVICE, SIZE/OFF, NODE and NAME separated
by gaps, with any white space around and any further fields (such as
`(LISTEN)`) behind, where the PID is a decimal field and the NAME is
`addr:port` with a decimal port.  The line is read as the record of these
values. -/
theorem parseLine_row (L : Libs)
    (lead trail process pid user fd kind device size node addr port : List Char)
    (g₁ g₂ g₃ g₄ g₅ g₆ g₇ g₈ : List Char) (more : List (List Char × List Char))
    (hlead : ∀ c ∈ lead, isSpace c = true) (htrail : ∀ c ∈ trail, isSpace c = true)
    (hgaps : ∀ g ∈ [g₁, g₂, g₃, g₄, g₅, g₆, g₇, g₈], IsGap g)
    (hwords : ∀ w ∈ [process, user, fd, kind, device, size, node], IsWord w)
    (hmore : ∀ gw ∈ more, IsGap gw.1 ∧ IsWord gw.2)
    (hpid : IsField pid) (hport : IsField port)
    (haddr : ∀ c ∈ addr, isSpace c = false) (hparen : '(' ∉ addr)
    (hbr : addr.head? = some '[' → ∃ inner, addr = inner ++ [']']) :
    parseLine L (lead ++ process ++
        joinFields ([(g₁, pid), (g₂, user), (g₃, fd), (g₄, kind), (g₅, device), (g₆, size),
          (g₇, node), (g₈, addr ++ ':' :: port)] ++ more) ++ trail) =
      some (lsofRecord L process pid user node addr port) := by
  have hname : IsWord (addr ++ ':' :: port) := by
    refine ⟨by simp, ?_⟩
    intro c hc
    rcases List.mem_append.mp hc with e | e
    · exact haddr c e
    · rcases List.mem_cons.mp e with e | e
      · rw [e]; decide
      · exact digit_not_space c (hport.2.1 c e)
  have hws : ∀ gw ∈ [(g₁, pid), (g₂, user), (g₃, fd), (g₄, kind), (g₅, device), (g₆, size),
      (g₇, node), (g₈, addr ++ ':' :: port)] ++ more, IsGap gw.1 ∧ IsWord gw.2 := by
    intro gw hgw
    rcases List.mem_append.mp hgw with e | e
    · simp only [List.mem_cons, List.mem_singleton, List.not_mem_nil, or_false] at e
      rcases e with e | e | e | e | e | e | e | e <;> subst e
      · exact ⟨hgaps _ (by simp), field_isWord pid hpid⟩
      · exact ⟨hgaps _ (by simp), hwords _ (by simp)⟩
      · exact ⟨hgaps _ (by simp), hwords _ (by simp)⟩
      · exact ⟨hgaps _ (by simp), hwords _ (by simp)⟩
      · exact ⟨hgaps _ (by simp), hwords _ (by simp)⟩
      · exact ⟨hgaps _ (by simp), hwords _ (by simp)⟩
      · exact ⟨hgaps _ (by simp), hwords _ (by simp)⟩
      · exact ⟨hgaps _ (by simp), hname⟩
    · exact hmore gw e
  have hf := stringsFields_line lead process trail _ hlead (hwords process (by simp)) hws htrail
  unfold parseLine
  simp only [hf]
  have hlen : ¬ (process :: List.map Prod.snd ([(g₁, pid), (g₂, user), (g₃, fd), (g₄, kind),
      (g₅, device), (g₆, size), (g₇, node), (g₈, addr ++ ':' :: port)] ++ more)).length < 9 := by
    simp only [List.map_append, List.map_cons, List.map_nil, List.length_cons,
      List.length_append, List.length_nil]
    omega
  rw [if_neg hlen]
  simp only [List.map_append, List.map_cons, List.map_nil, List.cons_append, List.nil_append,
    List.getD_cons_zero, List.getD_cons_succ, atoi_field pid hpid,
    parseNameField_addr_port addr port hparen hbr hport, atoi_field port hport]
  rfl


theorem splitChar_lines (header : List Char) (rows : List (List Char))
    (hh : '\n' ∉ header) (hrows : ∀ r ∈ rows, '\n' ∉ r) :
    splitChar '\n' (header ++ joinLines rows) = header :: rows := by
  induction rows generalizing header with
  | nil =>
    simp only [joinLines, List.flatMap_nil, List.append_nil]
    exact splitChar_single '\n' header hh
  | cons r rows ih =>
    have e : header ++ joinLines (r :: rows) = header ++ '\n' :: (r ++ joinLines rows) := by
      simp [joinLines]
    rw [e, splitChar_append '\n' header _ hh,
      ih r (hrows r (List.mem_cons_self _ _)) (fun x hx => hrows x (List.mem_cons_of_mem _ hx))]

/-- The lines that `parseLsofOutput` reads from an output made of a header
line and further lines, with any white space around the text: the records of
the lines after the header. -/
theorem lsofCandidates_lines (L : Libs) (w₁ w₂ header : List Char) (rows : List (List Char))
    (hw₁ : ∀ c ∈ w₁, isSpace c = true) (hw₂ : ∀ c ∈ w₂, isSpace c = true)
    (hstart : ∃ x t, header = x :: t ∧ isSpace x = false)
    (hend : ∃ t y, header ++ joinLines rows = t ++ [y] ∧ isSpace y = false)
    (hh : '\n' ∉ header) (hrows : ∀ r ∈ rows, '\n' ∉ r) :
    splitChar '\n' (trimSpace (w₁ ++ (header ++ joinLines rows) ++ w₂)) = header :: rows ∧
      lsofCandidates L (String.mk (w₁ ++ (header ++ joinLines rows) ++ w₂)) =
        rows.filterMap (parseLine L) := by
  obtain ⟨x, t, hx, hsx⟩ := hstart
  obtain ⟨t', y, hy, hsy⟩ := hend
  have htrim : trimSpace (w₁ ++ (header ++ joinLines rows) ++ w₂) = header ++ joinLines rows := by
    apply trimSpace_body w₁ w₂ _ hw₁ hw₂
    · exact ⟨x, t ++ joinLines rows, by rw [hx]; rfl, hsx⟩
    · exact ⟨y, t'.reverse, by rw [hy]; simp, hsy⟩
  have hsplit := splitChar_lines header rows hh hrows
  refine ⟨by rw [htrim, hsplit], ?_⟩
  unfold lsofCandidates
  simp only [htrim, hsplit, List.drop_succ_cons, List.drop_zero]


/-- C35: for every lsof output text `parseLsofOutput` returns, and the pairs
(port, PID) of the returned records are pairwise distinct; they are the
distinct pairs of the parseable lines in the order of their first appearance;
and the record kept for a pair has an address without `:` whenever a parseable
line of that pair has one.  The parseable lines are the lines after the
header line that `parseLine` reads as a record: for a text made of a header
line and further lines, with any white space around, these are the further
lines, each on its own; and a line of nine fields COMMAND, PID, USER, FD,
TYPE, DEVICE, SIZE/OFF, NODE and NAME separated by white space, with a decimal
PID and the NAME `addr:port` with a decimal port, followed by any further
fields, is read as the record of its port, PID, process, user, lower-cased
protocol and address.  The text of `TestParseLsofOutput` gives its four
records, the pair (3000, 1234) once, with the IPv4 address `*`. -/
theorem parseLsofOutput_dedup (L : Libs) (output : String) :
    (∃ result, parseLsofOutput L output = some result ∧
      (result.map lsofKey).Nodup ∧
      result.map lsofKey = firstKeys ((lsofCandidates L output).map lsofKey) ∧
      (∀ r ∈ result,
        (∃ c ∈ lsofCandidates L output, lsofKey c = lsofKey r ∧ isIPv4 c = true) →
          isIPv4 r = true)) ∧
      (∀ (w₁ w₂ header : List Char) (rows : List (List Char)),
        (∀ c ∈ w₁, isSpace c = true) → (∀ c ∈ w₂, isSpace c = true) →
        (∃ x t, header = x :: t ∧ isSpace x = false) →
        (∃ t y, header ++ joinLines rows = t ++ [y] ∧ isSpace y = false) →
        '\n' ∉ header → (∀ r ∈ rows, '\n' ∉ r) →
          lsofCandidates L (String.mk (w₁ ++ (header ++ joinLines rows) ++ w₂)) =
            rows.filterMap (parseLine L)) ∧
      (∀ (lead trail process pid user fd kind device size node addr port : List Char)
          (g₁ g₂ g₃ g₄ g₅ g₆ g₇ g₈ : List Char) (more : List (List Char × List Char)),
        (∀ c ∈ lead, isSpace c = true) → (∀ c ∈ trail, isSpace c = true) →
        (∀ g ∈ [g₁, g₂, g₃, g₄, g₅, g₆, g₇, g₈], IsGap g) →
        (∀ w ∈ [process, user, fd, kind, device, size, node], IsWord w) →
        (∀ gw ∈ more, IsGap gw.1 ∧ IsWord gw.2) →
        IsField pid → IsField port →
        (∀ c ∈ addr, isSpace c = false) → '(' ∉ addr →
        (addr.head? = some '[' → ∃ inner, addr = inner ++ [']']) →
          parseLine L (lead ++ process ++
              joinFields ([(g₁, pid), (g₂, user), (g₃, fd), (g₄, kind), (g₅, device),
                (g₆, size), (g₇, node), (g₈, addr ++ ':' :: port)] ++ more) ++ trail) =
            some (lsofRecord L process pid user node addr port)) ∧
      (parseLsofOutput plainLibs mockLsofOutput).map
          (fun l => l.map (fun p => (p.Port, p.PID, p.Process, p.User, p.Protocol, p.Address))) =
        some [(3000, 1234, "node", "user", "tcp", "*"),
          (5432, 5678, "postgres", "user", "tcp", "127.0.0.1"),
          (8000, 9012, "python3", "root", "tcp", "*"),
          (3001, 3456, "ruby", "user", "tcp", "[::]")] := by
  refine ⟨parseLsofOutput_keys L output, ?_, ?_, parseLsofOutput_mock⟩
  · intro w₁ w₂ header rows hw₁ hw₂ hstart hend hh hrows
    exact (lsofCandidates_lines L w₁ w₂ header rows hw₁ hw₂ hstart hend hh hrows).2
  · intro lead trail process pid user fd kind device size node addr port
      g₁ g₂ g₃ g₄ g₅ g₆ g₇ g₈ more hlead htrail hgaps hwords hmore hpid hport haddr hparen hbr
    exact parseLine_row L lead trail process pid user fd kind device size node addr port
      g₁ g₂ g₃ g₄ g₅ g₆ g₇ g₈ more hlead htrail hgaps hwords hmore hpid hport haddr hparen hbr


set_option maxRecDepth 100000 in
/-- C35 (witness): the text of `TestParseLsofOutput` is its header line and
five further lines followed by a line break, so the records read are those of
the five lines; its second line, for the IPv6 listener of node, is made of
nine fields and the field `(LISTEN)`, and is read as the record of port 3000,
PID 1234, process node, user user, protocol tcp and address `[::1]`. -/
theorem parseLsofOutput_dedup_witness :
    String.mk ([] ++ (mockHeader ++ joinLines mockRows) ++ ['\n']) = mockLsofOutput ∧
      lsofCandidates plainLibs (String.mk ([] ++ (mockHeader ++ joinLines mockRows) ++ ['\n'])) =
        mockRows.filterMap (parseLine plainLibs) ∧
      mockRows[1]? = some ([] ++ "node".data ++
        joinFields (mockRowFields ++ [(" ".data, "(LISTEN)".data)]) ++ []) ∧
      parseLine plainLibs ([] ++ "node".data ++
          joinFields ([("      ".data, "1234".data), ("   ".data, "user".data),
            ("   ".data, "24u".data), ("  ".data, "IPv6".data), (" ".data, "0x1234567891".data),
            ("      ".data, "0t0".data), ("  ".data, "TCP".data),
            (" ".data, "[::1]".data ++ ':' :: "3000".data)] ++
            [(" ".data, "(LISTEN)".data)]) ++ []) =
        some (lsofRecord plainLibs "node".data "1234".data "user".data "TCP".data "[::1]".data
          "3000".data) ∧
      lsofRecord plainLibs "node".data "1234".data "user".data "TCP".data "[::1]".data
          "3000".data =
        { mkPort 3000 1234 0 with
          Process := "node", User := "user", Protocol := "tcp", Address := "[::1]" } :=
  ⟨rfl,
    (parseLsofOutput_dedup plainLibs mockLsofOutput).2.1 [] ['\n'] mockHeader mockRows
      (by decide) (by decide) ⟨'C', mockHeader.tail, rfl, by decide⟩
      ⟨(mockHeader ++ joinLines mockRows).dropLast, ')', rfl, by decide⟩
      (by decide) (by decide),
    by decide,
    (parseLsofOutput_dedup plainLibs mockLsofOutput).2.2.1 [] [] "node".data "1234".data
      "user".data "24u".data "IPv6".data "0x1234567891".data "0t0".data "TCP".data "[::1]".data
      "3000".data "      ".data "   ".data "   ".data "  ".data " ".data "      ".data "  ".data
      " ".data [(" ".data, "(LISTEN)".data)]
      (by decide) (by decide) (by unfold IsGap; decide) (by unfold IsWord; decide)
      (by unfold IsGap IsWord; decide) ⟨by decide, by decide, by decide⟩
      ⟨by decide, by decide, by decide⟩ (by decide) (by decide)
      (fun _ => ⟨"[::1".data, by decide⟩),
    by decide⟩

end Reap
